import Mathlib

/-!
# Binary place exporter (`src/rbxlExporter.js`), XML writer (`src/rbxlxExporter.js`) and XML reader (`src/rbxlxImporter.js`)

Shallow embedding of the binary chunk writer, of the scene extractor that
feeds it, of the writer of XML places and of their reader, followed by the
properties proved about them.

Conventions of the embedding

* A JS number that holds an integer is an `Int`; the 32-bit conversions that
  `DataView` setters, `Int32Array` stores and the bitwise operators perform are
  the explicit functions `toUint32` / `toInt32`.
* A `Uint8Array` is a `List Nat` of bytes; `BinaryWriter.buffer` keeps the whole
  backing store (its length is the capacity), `offset` the write position.
* JS numbers that hold non-integers (coordinates, colours, opacity) are values of
  an abstract type `F`; the IEEE-754 primitives the exporter applies to them are
  the fields of `NumOps F`.
* `undefined` is `none`.  A thrown exception (which the `try`/`catch` of
  `exportToRbxl` turns into "no file") is the `none` result of the encoder.
* The reader is embedded on the document the platform parser returns
  (`XmlNode`); its effects are the list of calls it makes on `studioApp` and
  its final report.
* The text the XML writer builds is embedded as the tree its template literals
  spell out (`Markup`), with `Markup.render` giving the characters;
  `Math.random` is a sequence of draws (`RandomSource`) read by index.
-/

namespace RbxlExporter

/-! ## Constants & helpers -/

/-- The magic bytes, `<roblox!`. -/
def kMagic : List Nat := [0x3C, 0x72, 0x6F, 0x62, 0x6C, 0x6F, 0x78, 0x21]

/-- The signature bytes. -/
def kSignature : List Nat := [0x89, 0xFF, 0x0D, 0x0A, 0x1A, 0x0A]

/-- The format version. -/
def kVersion : Int := 0

/-- ECMAScript `ToUint32` on an integer-valued number: the value modulo 2^32. -/
def toUint32 (v : Int) : Nat := (v % 4294967296).toNat

/-- ECMAScript `ToInt32` on an integer-valued number: the value modulo 2^32,
read as two's complement. -/
def toInt32 (v : Int) : Int :=
  if toUint32 v < 2147483648 then (toUint32 v : Int) else (toUint32 v : Int) - 4294967296

/-- The JS operator `a << k` for `k < 32`: both the operand and the result are
truncated to signed 32 bits. -/
def jsShl (a : Int) (k : Nat) : Int := toInt32 (toInt32 a * 2 ^ k)

/-- The JS operator `a >> k` for `k < 32`: sign-propagating shift of the signed
32-bit operand (floor division by 2^k). -/
def jsSar (a : Int) (k : Nat) : Int := toInt32 a / 2 ^ k

/-- The JS operator `a >>> k` for `k < 32`: shift of the unsigned 32-bit operand. -/
def jsShr (a : Int) (k : Nat) : Int := ((toUint32 a / 2 ^ k : Nat) : Int)

/-- The JS operator `a ^ b`: bitwise exclusive or of the two 32-bit patterns,
read back as a signed 32-bit value. -/
def jsXor (a b : Int) : Int := toInt32 ((toUint32 a ^^^ toUint32 b : Nat) : Int)

/-- The JS operator `a & b`: bitwise and of the two 32-bit patterns, read back
as a signed 32-bit value. -/
def jsAnd (a b : Int) : Int := toInt32 ((toUint32 a &&& toUint32 b : Nat) : Int)

/-- Zigzag transform of `rbxlExporter.js`: `(val << 1) ^ (val >> 31)`. -/
def transformInt (val : Int) : Int := jsXor (jsShl val 1) (jsSar val 31)

/-- The primitives on JS numbers that the exporter uses and that are left
abstract: `float32Bits x` is what `DataView.setFloat32(0, x, true)` followed by
`getUint32(0, true)` yields, `nan` is the number `undefined` converts to. -/
structure NumOps (F : Type) where
  /-- The number 1. -/
  one : F
  /-- The literal `1e-4`. -/
  eps : F
  /-- Not-a-number, the result of `ToNumber(undefined)`. -/
  nan : F
  /-- Subtraction of numbers. -/
  sub : F → F → F
  /-- Multiplication of numbers. -/
  mul : F → F → F
  /-- The function `Math.abs`. -/
  abs : F → F
  /-- The comparison `<`. -/
  lt : F → F → Bool
  /-- Bit pattern of the number rounded to IEEE-754 single precision. -/
  float32Bits : F → Nat

/-- Float transform of `rbxlExporter.js`: the raw bit pattern, with no zigzag.
The argument is `none` when the caller passes `undefined`. -/
def transformFloat {F : Type} (N : NumOps F) (val : Option F) : Int :=
  let u := N.float32Bits (val.getD N.nan)
  (u : Int)

/-- The function `stringToBytes`: `TextEncoder.encode`, the UTF-8 bytes of the string. -/
def stringToBytes (str : String) : List Nat :=
  str.data.flatMap (fun c => (String.utf8EncodeChar c).map UInt8.toNat)

/-! ## Typed arrays and `DataView` -/

/-- The four bytes of a 32-bit word, least significant first. -/
def bytesLE32 (u : Nat) : List Nat :=
  [u % 256, u / 256 % 256, u / 65536 % 256, u / 16777216 % 256]

/-- The four bytes of a 32-bit word, most significant first. -/
def bytesBE32 (u : Nat) : List Nat :=
  [u / 16777216 % 256, u / 65536 % 256, u / 256 % 256, u % 256]

/-- The method `Uint8Array.prototype.set(src, pos)`: overwrite `src.length`
bytes starting at `pos`.  Every caller reserves the room first, so that
`pos + src.length` is within the buffer, and passes bytes. -/
def setBytes (buf : List Nat) (pos : Nat) (src : List Nat) : List Nat :=
  buf.take pos ++ src ++ buf.drop (pos + src.length)

/-- The method `DataView.prototype.setUint32(pos, val, littleEndian)`. -/
def setUint32 (buf : List Nat) (pos : Nat) (val : Int) (littleEndian : Bool) : List Nat :=
  setBytes buf pos (if littleEndian then bytesLE32 (toUint32 val) else bytesBE32 (toUint32 val))

/-- The method `DataView.prototype.setInt32(pos, val, littleEndian)`: the two's
complement pattern of `ToInt32 val`. -/
def setInt32 (buf : List Nat) (pos : Nat) (val : Int) (littleEndian : Bool) : List Nat :=
  setBytes buf pos
    (if littleEndian then bytesLE32 (toUint32 (toInt32 val)) else bytesBE32 (toUint32 (toInt32 val)))

/-- The method `DataView.prototype.setUint16(pos, val, littleEndian)`. -/
def setUint16 (buf : List Nat) (pos : Nat) (val : Int) (littleEndian : Bool) : List Nat :=
  let u := (val % 65536).toNat
  setBytes buf pos (if littleEndian then [u % 256, u / 256 % 256] else [u / 256 % 256, u % 256])

/-- The method `DataView.prototype.setUint8(pos, val)`. -/
def setUint8 (buf : List Nat) (pos : Nat) (val : Int) : List Nat :=
  setBytes buf pos [(val % 256).toNat]

/-! ## `BinaryWriter` -/

/-- The class `BinaryWriter`: a growable byte buffer and a write position. -/
structure BinaryWriter where
  /-- Backing store; its length is the current capacity. -/
  buffer : List Nat
  /-- Number of bytes written so far. -/
  offset : Nat

/-- Default capacity of the constructor, `1024 * 1024`. -/
def defaultSize : Nat := 1024 * 1024

namespace BinaryWriter

/-- The constructor: a zero-filled buffer of `size` bytes, offset 0. -/
def new (size : Nat) : BinaryWriter :=
  { buffer := List.replicate size 0, offset := 0 }

/-- The method `ensureCapacity`. -/
def ensureCapacity (w : BinaryWriter) (bytes : Nat) : BinaryWriter :=
  if w.offset + bytes > w.buffer.length then
    let newBuf := List.replicate (w.buffer.length * 2 + bytes) 0
    { w with buffer := setBytes newBuf 0 w.buffer }
  else w

/-- The method `writeBytes`. -/
def writeBytes (w : BinaryWriter) (bytes : List Nat) : BinaryWriter :=
  let w := w.ensureCapacity bytes.length
  { buffer := setBytes w.buffer w.offset bytes, offset := w.offset + bytes.length }

/-- The method `writeUInt32LE`. -/
def writeUInt32LE (w : BinaryWriter) (val : Int) : BinaryWriter :=
  let w := w.ensureCapacity 4
  { buffer := setUint32 w.buffer w.offset val true, offset := w.offset + 4 }

/-- The method `writeUInt32BE`. -/
def writeUInt32BE (w : BinaryWriter) (val : Int) : BinaryWriter :=
  let w := w.ensureCapacity 4
  { buffer := setUint32 w.buffer w.offset val false, offset := w.offset + 4 }

/-- The method `writeInt32LE`. -/
def writeInt32LE (w : BinaryWriter) (val : Int) : BinaryWriter :=
  let w := w.ensureCapacity 4
  { buffer := setInt32 w.buffer w.offset val true, offset := w.offset + 4 }

/-- The method `writeUInt16LE`. -/
def writeUInt16LE (w : BinaryWriter) (val : Int) : BinaryWriter :=
  let w := w.ensureCapacity 2
  { buffer := setUint16 w.buffer w.offset val true, offset := w.offset + 2 }

/-- The method `writeUInt8`. -/
def writeUInt8 (w : BinaryWriter) (val : Int) : BinaryWriter :=
  let w := w.ensureCapacity 1
  { buffer := setUint8 w.buffer w.offset val, offset := w.offset + 1 }

/-- The method `writeString`: 4-byte little-endian length, then the UTF-8 bytes. -/
def writeString (w : BinaryWriter) (str : String) : BinaryWriter :=
  let bytes := stringToBytes str
  let w := w.writeUInt32LE (bytes.length : Int)
  w.writeBytes bytes

/-- The scratch buffer of `writeInterleaved`: every value stored big-endian at
index `i * 4` (first loop of the method). -/
def interleaveTemp (values : List Int) : List Nat :=
  let count := values.length
  (List.range count).foldl
    (fun tempBuf i => setUint32 tempBuf (i * 4) (values.getD i 0) false)
    (List.replicate (count * 4) 0)

/-- The statement `this.buffer[this.offset++] = byte`. -/
def putByte (w : BinaryWriter) (byte : Nat) : BinaryWriter :=
  { buffer := w.buffer.set w.offset byte, offset := w.offset + 1 }

/-- The method `writeInterleaved`: nothing for an empty array; otherwise the
values are laid out big-endian in a scratch buffer and copied out plane by
plane (second, nested loop of the method). -/
def writeInterleaved (w : BinaryWriter) (values : List Int) : BinaryWriter :=
  if values.length = 0 then w
  else
    let count := values.length
    let w := w.ensureCapacity (count * 4)
    let tempBuf := interleaveTemp values
    (List.range 4).foldl
      (fun w b => (List.range count).foldl
        (fun w i => w.putByte (tempBuf.getD (i * 4 + b) 0)) w)
      w

/-- The method `getResult`: the first `offset` bytes of the buffer. -/
def getResult (w : BinaryWriter) : List Nat :=
  w.buffer.take w.offset

end BinaryWriter

/-- The function `writeChunk`: chunk name cut or zero-padded to 4 bytes,
compressed length 0, payload length, 4 reserved bytes, payload. -/
def writeChunk (writer : BinaryWriter) (name : String) (data : List Nat) : BinaryWriter :=
  let nameBytes := stringToBytes name
  let finalName := setBytes (List.replicate 4 0) 0 (nameBytes.take 4)
  let writer := writer.writeBytes finalName
  let writer := writer.writeUInt32LE 0
  let writer := writer.writeUInt32LE (data.length : Int)
  let writer := writer.writeUInt32LE 0
  writer.writeBytes data

/-! ## Entity management and the external collaborators -/

/-- A three-component vector of numbers (`THREE.Vector3`). -/
structure Vector3 (F : Type) where
  /-- Component x. -/
  x : F
  /-- Component y. -/
  y : F
  /-- Component z. -/
  z : F

/-- A colour (`THREE.Color`). -/
structure Color (F : Type) where
  /-- Red channel. -/
  r : F
  /-- Green channel. -/
  g : F
  /-- Blue channel. -/
  b : F

/-- A 4x4 matrix (`THREE.Matrix4`): `elements i` is `elements[i]`, column-major. -/
structure Matrix4 (F : Type) where
  /-- The sixteen entries, column after column. -/
  elements : Nat → F

/-- The state of a live scene object that the exporters read. -/
structure SceneObject (F : Type) where
  /-- Field `name`. -/
  name : String
  /-- Field `matrixWorld`. -/
  matrixWorld : Matrix4 F
  /-- Field `position`. -/
  position : Vector3 F
  /-- Field `scale`. -/
  scale : Vector3 F
  /-- Field `userData.size`. -/
  size : Vector3 F
  /-- Field `material.color`. -/
  color : Color F
  /-- Field `material.opacity`. -/
  opacity : F
  /-- Field `userData.anchored`, possibly undefined. -/
  anchored : Option Bool
  /-- Field `userData.canCollide`, possibly undefined. -/
  canCollide : Option Bool
  /-- Field `userData.locked`, possibly undefined. -/
  locked : Option Bool
  /-- Field `userData.shape`, possibly undefined. -/
  shape : Option String

/-- One entry of the tree index `studioApp.treeItems`. -/
structure TreeItem where
  /-- Field `index`, the key of the node. -/
  index : String
  /-- Field `isFolder`. -/
  isFolder : Bool
  /-- Field `kind`, absent on containers. -/
  kind : Option String
  /-- Field `data`, the display name. -/
  data : String
  /-- Field `children`, possibly undefined. -/
  children : Option (List String)

/-- The collaborators `studioApp.treeItems`, `studioApp.scene.getObjectByName`
and `studioApp.scripts.get`. -/
structure StudioApp (F : Type) where
  /-- Lookup in the tree index. -/
  treeItems : String → Option TreeItem
  /-- Lookup of a live object by name. -/
  scene : String → Option (SceneObject F)
  /-- Lookup of a script source by name. -/
  scripts : String → Option String

/-- The property bag `record.props`; a property that was never assigned is `none`. -/
structure Props (F : Type) where
  /-- Property `CFrame`. -/
  CFrame : Option (Matrix4 F) := none
  /-- Property `Size`. -/
  Size : Option (Vector3 F) := none
  /-- Property `Color`. -/
  Color : Option (Color F) := none
  /-- Property `Transparency`. -/
  Transparency : Option F := none
  /-- Property `Anchored`. -/
  Anchored : Option Bool := none
  /-- Property `CanCollide`. -/
  CanCollide : Option Bool := none
  /-- Property `Locked`. -/
  Locked : Option Bool := none
  /-- Property `Shape`. -/
  Shape : Option Int := none
  /-- Property `Source`. -/
  Source : Option String := none
  /-- Property `Technology`. -/
  Technology : Option Int := none
  /-- Property `GlobalShadows`. -/
  GlobalShadows : Option Bool := none
  /-- Property `Brightness`. -/
  Brightness : Option Int := none
  /-- Property `TimeOfDay`. -/
  TimeOfDay : Option String := none

/-- The class `InstanceRecord` (its `children` array is never filled and is left out). -/
structure InstanceRecord (F : Type) where
  /-- Referent. -/
  id : Int
  /-- Class name; `none` is `undefined`. -/
  className : Option String
  /-- Display name; `none` is `undefined`. -/
  name : Option String
  /-- Property bag. -/
  props : Props F
  /-- Referent of the parent, -1 for none. -/
  parentId : Int

/-- The well-known service names (the same literal list at both places of the source). -/
def serviceNames : List String :=
  ["Workspace", "Lighting", "ReplicatedStorage", "ServerScriptService", "ServerStorage",
   "StarterGui", "StarterPack", "Teams", "SoundService", "Chat", "Players", "ReplicatedFirst"]

/-! ## Gathering the instances -/

/-- The mutable state of the gathering pass: the `instances` array and `idCounter`. -/
structure Gather (F : Type) where
  /-- The array `instances`. -/
  instances : List (InstanceRecord F)
  /-- The counter `idCounter`. -/
  idCounter : Int

/-- The expression `node.isFolder ? 'Folder' : (node.kind || node.index)`. -/
def nodeClassName (node : TreeItem) : String :=
  if node.isFolder then "Folder"
  else match node.kind with
    | some k => if k = "" then node.index else k
    | none => node.index

/-- The class name `processNode` resolves: the node id when it is a service
name, otherwise `nodeClassName`. -/
def actualClassName (nodeId : String) (node : TreeItem) : String :=
  if serviceNames.contains nodeId then nodeId else nodeClassName node

/-- The shape discriminant computed from `obj.userData.shape`. -/
def shapeValue (shape : Option String) : Int :=
  let shapeVal : Int := 1
  let shapeVal := if shape = some "Ball" then 0 else shapeVal
  let shapeVal := if shape = some "Cylinder" then 2 else shapeVal
  let shapeVal := if shape = some "Wedge" then 3 else shapeVal
  shapeVal

/-- The properties `processNode` gathers for a node of the given class. -/
def gatherProps {F : Type} (N : NumOps F) (app : StudioApp F) (className : String)
    (node : TreeItem) : Props F :=
  if className = "Part" ∨ className = "SpawnLocation" then
    match app.scene node.data with
    | some obj =>
      { CFrame := some obj.matrixWorld
        Size := some
          { x := N.mul obj.size.x obj.scale.x, y := N.mul obj.size.y obj.scale.y,
            z := N.mul obj.size.z obj.scale.z }
        Color := some obj.color
        Transparency := some (N.sub N.one obj.opacity)
        Anchored := some (obj.anchored.getD false)
        CanCollide := some (obj.canCollide.getD true)
        Locked := some (obj.locked.getD false)
        Shape := some (shapeValue obj.shape) }
    | none => {}
  else if className = "Script" then
    { Source := some ((app.scripts node.data).getD "") }
  else if className = "Lighting" then
    { Technology := some 3, GlobalShadows := some true, Brightness := some 3,
      TimeOfDay := some "14:30:00" }
  else {}

/-- The names every plain object inherits from `Object.prototype`; the value
found under each of them (a function, or the prototype itself under
`__proto__`) is truthy and has none of the fields `index`, `isFolder`, `kind`,
`data`, `children` of a node.  The tree index is a plain object, so a lookup
`treeItems[key]` finds these values under keys that are no entry of the index. -/
def objectPrototypeKeys : List String :=
  ["constructor", "__defineGetter__", "__defineSetter__", "hasOwnProperty",
   "__lookupGetter__", "__lookupSetter__", "isPrototypeOf", "propertyIsEnumerable",
   "toString", "valueOf", "__proto__", "toLocaleString"]

/-- The closure `processNode`.  The first argument bounds the nesting depth of
the recursion; `none` means that the bound was reached.  The lookup
`studioApp.treeItems[nodeId]` finds an entry of the index, or else the value
inherited under one of `objectPrototypeKeys`: that value passes the test
`if (!node) return`, all its fields read as `undefined`, so that the record
gets the next id, no class name, no name and no property, and nothing is
visited below it. -/
def processNode {F : Type} (N : NumOps F) (app : StudioApp F) :
    Nat → String → Int → Gather F → Option (Gather F)
  | 0, _, _, _ => none
  | fuel + 1, nodeId, parentRef, st =>
    match app.treeItems nodeId with
    | none =>
      if objectPrototypeKeys.contains nodeId then
        let ref := st.idCounter
        let record : InstanceRecord F :=
          { id := ref, className := none, name := none, props := {}, parentId := parentRef }
        some { instances := st.instances ++ [record], idCounter := ref + 1 }
      else some st
    | some node =>
      let className := actualClassName nodeId node
      let ref := st.idCounter
      let record : InstanceRecord F :=
        { id := ref, className := some className, name := some node.data,
          props := gatherProps N app className node, parentId := parentRef }
      let st := { instances := st.instances ++ [record], idCounter := ref + 1 }
      match node.children with
      | none => some st
      | some children =>
        children.foldlM (fun st childId => processNode N app fuel childId ref st) st

/-- Step 1 of `exportToRbxl`: the instances gathered from the children of
`root`; `none` when `root` or its children are missing (a thrown `TypeError`)
or the depth bound is reached. -/
def gatherInstances {F : Type} (N : NumOps F) (app : StudioApp F) (fuel : Nat) :
    Option (List (InstanceRecord F)) :=
  match app.treeItems "root" with
  | none => none
  | some root =>
    match root.children with
    | none => none
    | some children =>
      (children.foldlM (fun st childId => processNode N app fuel childId (-1) st)
        { instances := [], idCounter := 0 }).map (fun st => st.instances)

/-! ## Grouping by class -/

/-- The two maps of step 2, in insertion order: `classes` and `classIds`. -/
structure ClassMaps (F : Type) where
  /-- Map from class name to its instances. -/
  classes : List (Option String × List (InstanceRecord F))
  /-- Map from class name to its class id. -/
  classIds : List (Option String × Int)

/-- The method `Map.prototype.has`. -/
def mapHas {α : Type} (m : List (Option String × α)) (key : Option String) : Bool :=
  m.any (fun e => e.1 == key)

/-- The body of the grouping loop for one instance. -/
def groupStep {F : Type} (m : ClassMaps F) (inst : InstanceRecord F) : ClassMaps F :=
  let m : ClassMaps F :=
    if !mapHas m.classes inst.className then
      { classes := m.classes ++ [(inst.className, [])],
        classIds := m.classIds ++ [(inst.className, (m.classIds.length : Int))] }
    else m
  let push := fun (e : Option String × List (InstanceRecord F)) =>
    if e.1 = inst.className then (e.1, e.2 ++ [inst]) else e
  { m with classes := m.classes.map push }

/-- Step 2 of `exportToRbxl`: group the instances by class. -/
def groupByClass {F : Type} (instances : List (InstanceRecord F)) : ClassMaps F :=
  instances.foldl groupStep { classes := [], classIds := [] }

/-- The expression `classIds.get(className)` as the number a `DataView` setter
stores (`undefined` is stored as 0). -/
def classIdOf (classIds : List (Option String × Int)) (className : Option String) : Int :=
  (classIds.lookup className).getD 0

/-! ## Serializer -/

/-- The header block of `exportToRbxl`. -/
def writeHeader (writer : BinaryWriter) (classCount instanceCount : Nat) : BinaryWriter :=
  let writer := writer.writeBytes kMagic
  let writer := writer.writeBytes kSignature
  let writer := writer.writeUInt16LE kVersion
  let writer := writer.writeInt32LE (classCount : Int)
  let writer := writer.writeInt32LE (instanceCount : Int)
  writer.writeBytes (List.replicate 8 0)

/-- The pairs of the META chunk. -/
def metaData : List (String × String) := [("ExplicitAutoJoints", "true")]

/-- The payload of the META chunk. -/
def metaPayload : List Nat :=
  let chunk := BinaryWriter.new defaultSize
  let chunk := chunk.writeUInt32LE (metaData.length : Int)
  let chunk := metaData.foldl (fun chunk kv => (chunk.writeString kv.1).writeString kv.2) chunk
  chunk.getResult

/-- The payload of the SSTR chunk. -/
def sstrPayload : List Nat :=
  let chunk := BinaryWriter.new defaultSize
  let chunk := chunk.writeUInt32LE 0
  let chunk := chunk.writeUInt32LE 0
  chunk.getResult

/-- The `referents` array of an INST chunk: the loop that stores
`transformInt(inst.id - lastRef)` into an `Int32Array` and updates `lastRef`. -/
def instReferents {F : Type} (instList : List (InstanceRecord F)) : List Int :=
  (instList.foldl
    (fun (acc : List Int × Int) inst =>
      let delta := inst.id - acc.2
      (acc.1 ++ [toInt32 (transformInt delta)], inst.id))
    ([], 0)).1

/-- The payload of the INST chunk of one class group.  (`TextEncoder.encode`
gives no byte for `undefined`, and `includes` does not find it.) -/
def instPayload {F : Type} (classIds : List (Option String × Int)) (className : Option String)
    (instList : List (InstanceRecord F)) : List Nat :=
  let chunk := BinaryWriter.new defaultSize
  let chunk := chunk.writeUInt32LE (classIdOf classIds className)
  let chunk := chunk.writeString (className.getD "")
  let isService := (serviceNames.map some).contains className
  let chunk := chunk.writeUInt8 (if isService then 1 else 0)
  let chunk := chunk.writeUInt32LE (instList.length : Int)
  let chunk := chunk.writeInterleaved (instReferents instList)
  let chunk :=
    if isService then
      let markers := List.replicate instList.length 1
      chunk.writeBytes markers
    else chunk
  chunk.getResult

/-- The values handed to `writeProp`, by type tag as at its call sites; an
entry is `none` where the instance has no such property. -/
inductive PropValues (F : Type) where
  /-- Tag 0x1, String. -/
  | string (values : List (Option String))
  /-- Tag 0x2, Bool. -/
  | bool (values : List (Option Bool))
  /-- Tag 0x3, Int32. -/
  | int32 (values : List (Option Int))
  /-- Tag 0x4, Float32. -/
  | float32 (values : List (Option F))
  /-- Tag 0xC, Color3. -/
  | color3 (values : List (Option (Color F)))
  /-- Tag 0xE, Vector3. -/
  | vector3 (values : List (Option (Vector3 F)))
  /-- Tag 0x12, Enum. -/
  | enum (values : List (Option Int))
  /-- Tag 0x10, CFrame. -/
  | cframe (values : List (Option (Matrix4 F)))

/-- The argument `typeId` that goes with each kind of value array. -/
def PropValues.typeId {F : Type} : PropValues F → Int
  | .string _ => 0x1
  | .bool _ => 0x2
  | .int32 _ => 0x3
  | .float32 _ => 0x4
  | .color3 _ => 0xC
  | .vector3 _ => 0xE
  | .enum _ => 0x12
  | .cframe _ => 0x10

/-- Number of entries of a value array. -/
def PropValues.length {F : Type} : PropValues F → Nat
  | .string vs => vs.length
  | .bool vs => vs.length
  | .int32 vs => vs.length
  | .float32 vs => vs.length
  | .color3 vs => vs.length
  | .vector3 vs => vs.length
  | .enum vs => vs.length
  | .cframe vs => vs.length

/-- The method `DataView.prototype.setFloat32(pos, val, true)`. -/
def setFloat32LE {F : Type} (N : NumOps F) (buf : List Nat) (pos : Nat) (val : F) : List Nat :=
  setBytes buf pos (bytesLE32 (N.float32Bits val))

/-- The identity test of the CFrame branch. -/
def isIdentity {F : Type} (N : NumOps F) (r00 r01 r02 r10 r11 r12 r20 r21 r22 : F) : Bool :=
  N.lt (N.abs (N.sub r00 N.one)) N.eps && N.lt (N.abs r01) N.eps && N.lt (N.abs r02) N.eps &&
  N.lt (N.abs r10) N.eps && N.lt (N.abs (N.sub r11 N.one)) N.eps && N.lt (N.abs r12) N.eps &&
  N.lt (N.abs r20) N.eps && N.lt (N.abs r21) N.eps && N.lt (N.abs (N.sub r22 N.one)) N.eps

/-- The accumulators of the CFrame loop. -/
structure CFrameAcc where
  /-- The writer `idsAndRots`. -/
  idsAndRots : BinaryWriter
  /-- The array `xs`. -/
  xs : List Int
  /-- The array `ys`. -/
  ys : List Int
  /-- The array `zs`. -/
  zs : List Int

/-- The body of the CFrame loop for one matrix. -/
def cframeStep {F : Type} (N : NumOps F) (acc : CFrameAcc) (mat : Matrix4 F) : CFrameAcc :=
  let elements := mat.elements
  let r00 := elements 0
  let r10 := elements 1
  let r20 := elements 2
  let r01 := elements 4
  let r11 := elements 5
  let r21 := elements 6
  let r02 := elements 8
  let r12 := elements 9
  let r22 := elements 10
  let x := elements 12
  let y := elements 13
  let z := elements 14
  let idsAndRots :=
    if isIdentity N r00 r01 r02 r10 r11 r12 r20 r21 r22 then
      acc.idsAndRots.writeUInt8 0x02
    else
      let w := acc.idsAndRots.writeUInt8 0x00
      let rotBuf := List.replicate 36 0
      let rotBuf := setFloat32LE N rotBuf 0 r00
      let rotBuf := setFloat32LE N rotBuf 4 r01
      let rotBuf := setFloat32LE N rotBuf 8 r02
      let rotBuf := setFloat32LE N rotBuf 12 r10
      let rotBuf := setFloat32LE N rotBuf 16 r11
      let rotBuf := setFloat32LE N rotBuf 20 r12
      let rotBuf := setFloat32LE N rotBuf 24 r20
      let rotBuf := setFloat32LE N rotBuf 28 r21
      let rotBuf := setFloat32LE N rotBuf 32 r22
      w.writeBytes rotBuf
  { idsAndRots := idsAndRots,
    xs := acc.xs ++ [transformFloat N (some x)],
    ys := acc.ys ++ [transformFloat N (some y)],
    zs := acc.zs ++ [transformFloat N (some z)] }

/-- Every entry of an array, or `none` when one is `undefined` (reading a field
of it throws). -/
def allDefined {α : Type} (values : List (Option α)) : Option (List α) :=
  values.mapM id

/-- The value section `writeProp` writes after the type tag; `none` when a
field of an `undefined` entry is read (a thrown `TypeError`).  An `undefined`
entry that is only coerced does not throw: it encodes as the empty string, is
falsy, and converts to 0 under `ToInt32` and to `nan` under `ToNumber`. -/
def writePropValues {F : Type} (N : NumOps F) (chunk : BinaryWriter) :
    PropValues F → Option BinaryWriter
  | .string values => some (values.foldl (fun chunk v => chunk.writeString (v.getD "")) chunk)
  | .bool values =>
    some (values.foldl (fun chunk v => chunk.writeUInt8 (if v.getD false then 1 else 0)) chunk)
  | .int32 values =>
    let raw := values.map (fun v => transformInt (v.getD 0))
    some (chunk.writeInterleaved raw)
  | .float32 values =>
    let raw := values.map (fun v => transformFloat N v)
    some (chunk.writeInterleaved raw)
  | .color3 values =>
    (allDefined values).map fun values =>
      let rs := values.map (fun v => transformFloat N (some v.r))
      let gs := values.map (fun v => transformFloat N (some v.g))
      let bs := values.map (fun v => transformFloat N (some v.b))
      let chunk := chunk.writeInterleaved rs
      let chunk := chunk.writeInterleaved gs
      chunk.writeInterleaved bs
  | .vector3 values =>
    (allDefined values).map fun values =>
      let xs := values.map (fun v => transformFloat N (some v.x))
      let ys := values.map (fun v => transformFloat N (some v.y))
      let zs := values.map (fun v => transformFloat N (some v.z))
      let chunk := chunk.writeInterleaved xs
      let chunk := chunk.writeInterleaved ys
      chunk.writeInterleaved zs
  | .enum values =>
    let raw := values.map (fun v => transformInt (v.getD 0))
    some (chunk.writeInterleaved raw)
  | .cframe values =>
    (allDefined values).map fun values =>
      let acc := values.foldl (cframeStep N)
        { idsAndRots := BinaryWriter.new defaultSize, xs := [], ys := [], zs := [] }
      let chunk := chunk.writeBytes acc.idsAndRots.getResult
      let chunk := chunk.writeInterleaved acc.xs
      let chunk := chunk.writeInterleaved acc.ys
      chunk.writeInterleaved acc.zs

/-- The payload of the PROP chunk `writeProp` builds. -/
def propPayload {F : Type} (N : NumOps F) (classId : Int) (propName : String)
    (values : PropValues F) : Option (List Nat) :=
  let chunk := BinaryWriter.new defaultSize
  let chunk := chunk.writeUInt32LE classId
  let chunk := chunk.writeString propName
  let chunk := chunk.writeUInt8 values.typeId
  (writePropValues N chunk values).map (fun chunk => chunk.getResult)

/-- The closure `writeProp`. -/
def writeProp {F : Type} (N : NumOps F) (classIds : List (Option String × Int))
    (writer : BinaryWriter) (className : Option String) (propName : String)
    (values : PropValues F) : Option BinaryWriter :=
  (propPayload N (classIdOf classIds className) propName values).map
    (fun data => writeChunk writer "PROP" data)

/-- The body of the loop "Iterate Classes and Properties" for one class group. -/
def writeClassProps {F : Type} (N : NumOps F) (classIds : List (Option String × Int))
    (writer : BinaryWriter) (group : Option String × List (InstanceRecord F)) :
    Option BinaryWriter := do
  let className := group.1
  let instList := group.2
  let wp := writeProp N classIds
  let writer ← wp writer className "Name" (.string (instList.map (fun i => i.name)))
  let writer ←
    if className = some "Part" ∨ className = some "SpawnLocation" then do
      let writer ← wp writer className "Anchored" (.bool (instList.map (fun i => i.props.Anchored)))
      let writer ← wp writer className "CanCollide"
        (.bool (instList.map (fun i => i.props.CanCollide)))
      let writer ← wp writer className "Locked" (.bool (instList.map (fun i => i.props.Locked)))
      let writer ← wp writer className "Transparency"
        (.float32 (instList.map (fun i => i.props.Transparency)))
      let writer ← wp writer className "Size" (.vector3 (instList.map (fun i => i.props.Size)))
      let writer ← wp writer className "Color" (.color3 (instList.map (fun i => i.props.Color)))
      let writer ← wp writer className "CFrame" (.cframe (instList.map (fun i => i.props.CFrame)))
      wp writer className "Shape" (.enum (instList.map (fun i => i.props.Shape)))
    else pure writer
  if className = some "Script" then
    wp writer className "Source" (.string (instList.map (fun i => i.props.Source)))
  else pure writer

/-- The accumulators of the PRNT loop. -/
structure PrntAcc where
  /-- The variable `lastChild`. -/
  lastChild : Int
  /-- The variable `lastParent`. -/
  lastParent : Int
  /-- The array `deltaChild`. -/
  deltaChild : List Int
  /-- The array `deltaParent`. -/
  deltaParent : List Int

/-- The body of the PRNT loop for one instance (stores go into `Int32Array`s). -/
def prntStep {F : Type} (acc : PrntAcc) (inst : InstanceRecord F) : PrntAcc :=
  { deltaChild := acc.deltaChild ++ [toInt32 (transformInt (inst.id - acc.lastChild))],
    lastChild := inst.id,
    deltaParent := acc.deltaParent ++ [toInt32 (transformInt (inst.parentId - acc.lastParent))],
    lastParent := inst.parentId }

/-- The payload of the PRNT chunk. -/
def prntPayload {F : Type} (instances : List (InstanceRecord F)) : List Nat :=
  let chunk := BinaryWriter.new defaultSize
  let chunk := chunk.writeUInt8 0
  let chunk := chunk.writeUInt32LE (instances.length : Int)
  let acc := instances.foldl prntStep
    { lastChild := 0, lastParent := 0, deltaChild := [], deltaParent := [] }
  let chunk := chunk.writeInterleaved acc.deltaChild
  let chunk := chunk.writeInterleaved acc.deltaParent
  chunk.getResult

/-- The payload of the END chunk. -/
def endPayload : List Nat :=
  let chunk := BinaryWriter.new defaultSize
  let chunk := chunk.writeBytes (stringToBytes "</roblox>")
  chunk.getResult

/-- Steps 2 and following of `exportToRbxl`: the bytes handed to the download,
or `none` when an exception aborts the export. -/
def encodeInstances {F : Type} (N : NumOps F) (instances : List (InstanceRecord F)) :
    Option (List Nat) := do
  let writer := BinaryWriter.new defaultSize
  let maps := groupByClass instances
  let writer := writeHeader writer maps.classes.length instances.length
  let writer := writeChunk writer "META" metaPayload
  let writer := writeChunk writer "SSTR" sstrPayload
  let writer := maps.classes.foldl
    (fun writer group => writeChunk writer "INST" (instPayload maps.classIds group.1 group.2))
    writer
  let writer ← maps.classes.foldlM (writeClassProps N maps.classIds) writer
  let writer := writeChunk writer "PRNT" (prntPayload instances)
  let writer := writeChunk writer "END" endPayload
  pure writer.getResult

/-- The function `exportToRbxl` up to the download: gather, then encode. -/
def exportToRbxl {F : Type} (N : NumOps F) (app : StudioApp F) (fuel : Nat) :
    Option (List Nat) :=
  (gatherInstances N app fuel).bind (encodeInstances N)

/-! ## Reference decoders and layouts

The repository contains no reader for the binary format.  The definitions of
this section are the decoding steps and byte layouts as the specification words
them; the encoder above is compared against them. -/

/-- A number is a signed 32-bit integer. -/
def IsInt32 (v : Int) : Prop := -2147483648 ≤ v ∧ v < 2147483648

instance (v : Int) : Decidable (IsInt32 v) := by
  unfold IsInt32
  infer_instance

/-- Inverse zigzag as the specification gives it: `(u >>> 1) ^ -(u & 1)`. -/
def untransformInt (u : Int) : Int := jsXor (jsShr u 1) (-(jsAnd u 1))

/-- Byte `b` (0 is the most significant) of the 32-bit pattern of a value. -/
def wordByte (b : Nat) (v : Int) : Nat := toUint32 v / 256 ^ (3 - b) % 256

/-- Byte plane `b` of an array of 32-bit values: byte `b` of every value, in order. -/
def bytePlane (b : Nat) (values : List Int) : List Nat := values.map (wordByte b)

/-- The interleaved layout of an array of 32-bit values: plane 0, then plane 1,
plane 2 and plane 3. -/
def interleaved (values : List Int) : List Nat :=
  bytePlane 0 values ++ bytePlane 1 values ++ bytePlane 2 values ++ bytePlane 3 values

/-- De-interleaving: word `i` of a `4 * n`-byte array is read big-endian from
the bytes at `i`, `n + i`, `2 * n + i` and `3 * n + i`. -/
def deinterleave (bytes : List Nat) : List Nat :=
  let n := bytes.length / 4
  (List.range n).map (fun i =>
    bytes.getD i 0 * 16777216 + bytes.getD (n + i) 0 * 65536 +
      bytes.getD (2 * n + i) 0 * 256 + bytes.getD (3 * n + i) 0)

/-- Running sums of a list of deltas, starting from `last`. -/
def runningSum : Int → List Int → List Int
  | _, [] => []
  | last, d :: ds => (last + d) :: runningSum (last + d) ds

/-- Decoding of a referent array: de-interleave, inverse zigzag, running sums from 0. -/
def decodeReferents (bytes : List Nat) : List Int :=
  runningSum 0 ((deinterleave bytes).map (fun (u : Nat) => untransformInt (u : Int)))

/-- The zigzag-delta encoding of a list of ids: `transformInt` of the difference
to the previous id, the first one relative to `last`. -/
def zigzagDeltas : Int → List Int → List Int
  | _, [] => []
  | last, id :: ids => transformInt (id - last) :: zigzagDeltas id ids

/-- The 4-byte chunk name: the first 4 bytes of the name padded with zero bytes. -/
def chunkName (name : String) : List Nat :=
  (stringToBytes name ++ List.replicate 4 0).take 4

/-- The framing of a chunk: name, compressed length 0, payload length, 4
reserved zero bytes, payload. -/
def chunkBytes (name : String) (data : List Nat) : List Nat :=
  chunkName name ++ [0, 0, 0, 0] ++ bytesLE32 (data.length % 4294967296) ++ [0, 0, 0, 0] ++ data

/-- The number four little-endian bytes stand for. -/
def valueLE32 (bytes : List Nat) : Nat :=
  bytes.getD 0 0 + 256 * bytes.getD 1 0 + 65536 * bytes.getD 2 0 + 16777216 * bytes.getD 3 0

/-- A length-prefixed string: the number of UTF-8 bytes as 4 little-endian
bytes, then the bytes. -/
def lengthPrefixed (str : String) : List Nat :=
  bytesLE32 ((stringToBytes str).length % 4294967296) ++ stringToBytes str

/-- The invariant of the grouping loop after the instances `pre`: both maps
have the same keys in the same order, no key twice, the key at position `i`
has class id `i`, every group holds the instances of its class in their global
order, and the keys are the class names seen so far. -/
structure GroupInv {F : Type} (pre : List (InstanceRecord F)) (m : ClassMaps F) : Prop where
  /-- Both maps have the same keys. -/
  keys_eq : m.classIds.map Prod.fst = m.classes.map Prod.fst
  /-- No class name occurs twice. -/
  nodup : (m.classes.map Prod.fst).Nodup
  /-- The class at position `i` has class id `i`. -/
  ids : ∀ (i : Nat) (c : Option String), (m.classes.map Prod.fst)[i]? = some c →
    m.classIds.lookup c = some (i : Int)
  /-- A group holds the instances of its class, in their global order. -/
  members : ∀ e ∈ m.classes, e.2 = pre.filter (fun inst => inst.className = e.1)
  /-- The keys are the class names that occur. -/
  keys_mem : ∀ c, c ∈ m.classes.map Prod.fst ↔ c ∈ pre.map (fun inst => inst.className)

/-- The 32 header bytes: magic, signature, version 0 on 2 bytes, class count and
instance count as 4 little-endian bytes each, 8 zero bytes. -/
def headerBytes (classCount instanceCount : Nat) : List Nat :=
  kMagic ++ kSignature ++ [0, 0] ++ bytesLE32 (classCount % 4294967296)
    ++ bytesLE32 (instanceCount % 4294967296) ++ List.replicate 8 0

/-- The properties written for a class group, in order, each with its value
array: `Name` first, then the fixed set of Part/SpawnLocation, then `Source`
for Script. -/
def classProps {F : Type} (className : Option String) (instList : List (InstanceRecord F)) :
    List (String × PropValues F) :=
  [("Name", .string (instList.map (fun i => i.name)))]
  ++ (if className = some "Part" ∨ className = some "SpawnLocation" then
      [("Anchored", .bool (instList.map (fun i => i.props.Anchored))),
       ("CanCollide", .bool (instList.map (fun i => i.props.CanCollide))),
       ("Locked", .bool (instList.map (fun i => i.props.Locked))),
       ("Transparency", .float32 (instList.map (fun i => i.props.Transparency))),
       ("Size", .vector3 (instList.map (fun i => i.props.Size))),
       ("Color", .color3 (instList.map (fun i => i.props.Color))),
       ("CFrame", .cframe (instList.map (fun i => i.props.CFrame))),
       ("Shape", .enum (instList.map (fun i => i.props.Shape)))]
    else [])
  ++ (if className = some "Script" then
      [("Source", .string (instList.map (fun i => i.props.Source)))]
    else [])

/-- All (class name, property name, value array) triples of an export, class
group after class group. -/
def propList {F : Type} (classes : List (Option String × List (InstanceRecord F))) :
    List (Option String × String × PropValues F) :=
  classes.flatMap (fun g => (classProps g.1 g.2).map (fun pv => (g.1, pv.1, pv.2)))

/-- The payloads of all PROP chunks of an export, in order; `none` when one of
them cannot be built. -/
def propPayloads {F : Type} (N : NumOps F) (m : ClassMaps F) : Option (List (List Nat)) :=
  (propList m.classes).mapM (fun t => propPayload N (classIdOf m.classIds t.1) t.2.1 t.2.2)

/-- The layout of the whole file for given PROP payloads: header, META, SSTR,
one INST chunk per class group, the PROP chunks, PRNT, END. -/
def fileLayout {F : Type} (instances : List (InstanceRecord F)) (m : ClassMaps F)
    (props : List (List Nat)) : List Nat :=
  headerBytes m.classes.length instances.length
    ++ chunkBytes "META" metaPayload ++ chunkBytes "SSTR" sstrPayload
    ++ m.classes.flatMap (fun g => chunkBytes "INST" (instPayload m.classIds g.1 g.2))
    ++ props.flatMap (chunkBytes "PROP")
    ++ chunkBytes "PRNT" (prntPayload instances) ++ chunkBytes "END" endPayload

/-- Every Part and SpawnLocation instance carries `Size`, `Color` and `CFrame`
(the extractor sets them together, when the live object exists). -/
def PartsComplete {F : Type} (instances : List (InstanceRecord F)) : Prop :=
  ∀ inst ∈ instances, inst.className = some "Part" ∨ inst.className = some "SpawnLocation" →
    inst.props.Size.isSome = true ∧ inst.props.Color.isSome = true ∧
      inst.props.CFrame.isSome = true

instance {F : Type} (instances : List (InstanceRecord F)) : Decidable (PartsComplete instances) := by
  unfold PartsComplete
  infer_instance

/-- A stand-in for the number primitives on integers, used in examples. -/
def exampleNum : NumOps Int :=
  { one := 1, eps := 0, nan := 0, sub := fun a b => a - b, mul := fun a b => a * b,
    abs := fun a => |a|, lt := fun a b => decide (a < b), float32Bits := fun a => a.toNat }

/-- A tree index whose only root child is the container `Lighting`, with an
empty scene and no scripts. -/
def lightingApp : StudioApp Int :=
  { treeItems := fun key =>
      if key = "root" then
        some { index := "root", isFolder := true, kind := none, data := "Game",
               children := some ["Lighting"] }
      else if key = "Lighting" then
        some { index := "Lighting", isFolder := true, kind := none, data := "Lighting",
               children := some [] }
      else none,
    scene := fun _ => none,
    scripts := fun _ => none }

/-- An instance record without properties, used in examples. -/
def bareInstance (id : Int) (className : String) (parentId : Int) : InstanceRecord Int :=
  { id := id, className := some className, name := some className, props := {},
    parentId := parentId }

/-- The writer is consistent (the offset is within the buffer) and the bytes
written so far are `bs`. -/
def Holds (w : BinaryWriter) (bs : List Nat) : Prop :=
  w.offset ≤ w.buffer.length ∧ w.getResult = bs

/-- Lifting of `Holds` to a writer that may be missing: either both sides are
missing or the writer holds the bytes. -/
def OptHolds : Option BinaryWriter → Option (List Nat) → Prop
  | some w, some bs => Holds w bs
  | none, none => True
  | _, _ => False

/-! ## Reference layout of CFrame values -/

/-- The rotation block of a CFrame record: the nine rotation components as
little-endian single-precision floats in row-major order, where the component
of row `i` and column `j` is element `4 * j + i` of the column-major matrix. -/
def rotationBlock {F : Type} (N : NumOps F) (mat : Matrix4 F) : List Nat :=
  (List.range 3).flatMap (fun i =>
    (List.range 3).flatMap (fun j => bytesLE32 (N.float32Bits (mat.elements (4 * j + i)))))

/-- The identity test as the specification words it: every diagonal component
of the rotation is within `eps` of 1 and every other component is within `eps`
of 0, with the subtraction, absolute value and strict comparison of `N`. -/
def WithinIdentity {F : Type} (N : NumOps F) (mat : Matrix4 F) : Prop :=
  ∀ i : Nat, i < 3 → ∀ j : Nat, j < 3 →
    N.lt (N.abs (if i = j then N.sub (mat.elements (4 * j + i)) N.one
                 else mat.elements (4 * j + i))) N.eps = true

instance {F : Type} (N : NumOps F) (mat : Matrix4 F) : Decidable (WithinIdentity N mat) := by
  unfold WithinIdentity
  infer_instance

/-- The record of one transform: discriminant 2 alone for an identity
rotation, otherwise discriminant 0 and the rotation block. -/
def cframeRecord {F : Type} (N : NumOps F) (mat : Matrix4 F) : List Nat :=
  if WithinIdentity N mat then [2] else [0] ++ rotationBlock N mat

/-- Exact arithmetic on the rationals as number primitives, with `1e-4` read
as the rational 1/10000; the bit pattern function is a parameter. -/
def exactNum (bits : ℚ → Nat) : NumOps ℚ :=
  { one := 1, eps := 1 / 10000, nan := 0, sub := fun a b => a - b, mul := fun a b => a * b,
    abs := fun a => |a|, lt := fun a b => decide (a < b), float32Bits := bits }

/-- The identity matrix over the rationals. -/
def identityMatrix : Matrix4 ℚ :=
  { elements := fun k => if k = 0 ∨ k = 5 ∨ k = 10 ∨ k = 15 then 1 else 0 }

/-- The identity matrix with element 4 (row 0, column 1) moved to 1/1000. -/
def skewedMatrix : Matrix4 ℚ :=
  { elements := fun k =>
      if k = 0 ∨ k = 5 ∨ k = 10 ∨ k = 15 then 1 else if k = 4 then 1 / 1000 else 0 }

/-! ## Reference traversal of the tree index -/

/-- Pre-order visit of the nodes listed in `children`, as the specification
words it: `Visits N app children parentRef firstId records` says that visiting
the listed nodes one after the other, each followed at once by the visit of
its own children, yields `records` when the first visited node gets the id
`firstId` and every later one the next id.  A listed key under which the
lookup finds nothing is passed over; a listed key under which it finds only a
value inherited from `Object.prototype` is visited as a node without class
name, name, properties and children.  The nodes of the list get the parent
`parentRef`; the children of a node get the id of that node as their parent. -/
inductive Visits {F : Type} (N : NumOps F) (app : StudioApp F) :
    List String → Int → Int → List (InstanceRecord F) → Prop
  | nil (parentRef firstId : Int) : Visits N app [] parentRef firstId []
  | skip (child : String) (children : List String) (parentRef firstId : Int)
      (records : List (InstanceRecord F)) :
      app.treeItems child = none →
      objectPrototypeKeys.contains child = false →
      Visits N app children parentRef firstId records →
      Visits N app (child :: children) parentRef firstId records
  | inherited (child : String) (children : List String) (parentRef firstId : Int)
      (after : List (InstanceRecord F)) :
      app.treeItems child = none →
      objectPrototypeKeys.contains child = true →
      Visits N app children parentRef (firstId + 1) after →
      Visits N app (child :: children) parentRef firstId
        ({ id := firstId, className := none, name := none, props := {},
           parentId := parentRef } :: after)
  | visit (child : String) (children : List String) (parentRef firstId : Int) (node : TreeItem)
      (below after : List (InstanceRecord F)) :
      app.treeItems child = some node →
      Visits N app (node.children.getD []) firstId (firstId + 1) below →
      Visits N app children parentRef (firstId + 1 + below.length) after →
      Visits N app (child :: children) parentRef firstId
        ({ id := firstId, className := some (actualClassName child node),
           name := some node.data,
           props := gatherProps N app (actualClassName child node) node,
           parentId := parentRef } :: (below ++ after))

/-- A tree index with nesting: `Workspace` holds the node `Base`, a container
that carries the kind `Part` (the explorer marks the parent of a created child
as a container) and holds the script `Main`; `Lighting` follows.  The key
`Lost` is listed under `Workspace` but not held by the index. -/
def nestedApp : StudioApp Int :=
  { treeItems := fun key =>
      if key = "root" then
        some { index := "root", isFolder := true, kind := none, data := "Game",
               children := some ["Workspace", "Lighting"] }
      else if key = "Workspace" then
        some { index := "Workspace", isFolder := true, kind := none, data := "Workspace",
               children := some ["Base", "Lost"] }
      else if key = "Base" then
        some { index := "Base", isFolder := true, kind := some "Part", data := "Base",
               children := some ["Main"] }
      else if key = "Main" then
        some { index := "Main", isFolder := false, kind := some "Script", data := "Main",
               children := none }
      else if key = "Lighting" then
        some { index := "Lighting", isFolder := true, kind := none, data := "Lighting",
               children := some [] }
      else none,
    scene := fun _ => none,
    scripts := fun key => if key = "Main" then some "print(1)" else none }

/-! ## Reference class resolution -/

/-- The class name of a node as the specification words it: the node id when
it is one of the service names; otherwise the kind tag of the node; `Folder`
for a container without kind.  The words leave a node that is neither a
container nor tagged undetermined (`none`). -/
def specClassName (nodeId : String) (node : TreeItem) : Option String :=
  if serviceNames.contains nodeId then some nodeId
  else match node.kind with
    | some k => some k
    | none => if node.isFolder then some "Folder" else none

/-- A tree index in which `Workspace` holds the part `Ghost`, while the scene
holds no object of that name. -/
def ghostApp : StudioApp Int :=
  { treeItems := fun key =>
      if key = "root" then
        some { index := "root", isFolder := true, kind := none, data := "Game",
               children := some ["Workspace"] }
      else if key = "Workspace" then
        some { index := "Workspace", isFolder := true, kind := none, data := "Workspace",
               children := some ["Ghost"] }
      else if key = "Ghost" then
        some { index := "Ghost", isFolder := false, kind := some "Part", data := "Ghost",
               children := none }
      else none,
    scene := fun _ => none,
    scripts := fun _ => none }

/-! ## The XML reader

The reader works on the document the platform parser returns.  A document is
modelled by its document element. -/

/-- A node of a parsed document: an element with its tag, its attributes and
its child nodes in document order, or character data. -/
inductive XmlNode where
  | element (tag : String) (attrs : List (String × String)) (children : List XmlNode)
  | text (content : String)

/-- The tag of an element; character data has none. -/
def XmlNode.tag? : XmlNode → Option String
  | .element tag _ _ => some tag
  | .text _ => none

/-- The method `getAttribute`: `none` stands for `null`. -/
def XmlNode.getAttribute : XmlNode → String → Option String
  | .element _ attrs _, name => attrs.lookup name
  | .text _, _ => none

/-- The child nodes of a node. -/
def XmlNode.childNodes : XmlNode → List XmlNode
  | .element _ _ children => children
  | .text _ => []

mutual
/-- The property `textContent`: the character data below a node, in document order. -/
def XmlNode.textContent : XmlNode → String
  | .element _ _ children => textContentList children
  | .text content => content
/-- The character data of a list of sibling nodes. -/
def textContentList : List XmlNode → String
  | [] => ""
  | c :: cs => c.textContent ++ textContentList cs
end

mutual
/-- The nodes below a node, in document order. -/
def XmlNode.descendants : XmlNode → List XmlNode
  | .element _ _ children => descendantsList children
  | .text _ => []
/-- The nodes of a list of siblings and the nodes below them, in document order. -/
def descendantsList : List XmlNode → List XmlNode
  | [] => []
  | c :: cs => c :: (c.descendants ++ descendantsList cs)
end

mutual
/-- The nodes below a node, each with the tag of its parent element, in document order. -/
def XmlNode.withParents : XmlNode → List (String × XmlNode)
  | .element tag _ children => withParentsList tag children
  | .text _ => []
/-- The nodes of a list of siblings under an element of tag `parent` and the
nodes below them, each with the tag of its parent. -/
def withParentsList (parent : String) : List XmlNode → List (String × XmlNode)
  | [] => []
  | c :: cs => (parent, c) :: (c.withParents ++ withParentsList parent cs)
end

/-- The selector `:scope > tag` of `querySelectorAll`: the child elements with that tag. -/
def XmlNode.childElements (node : XmlNode) (tag : String) : List XmlNode :=
  node.childNodes.filter (fun c => c.tag? = some tag)

/-- The selector `:scope > tag` of `querySelector`: the first child element with that tag. -/
def XmlNode.childElement (node : XmlNode) (tag : String) : Option XmlNode :=
  (node.childElements tag).head?

/-- The selector `tag` of `querySelector` on an element: the first element
with that tag below the node. -/
def XmlNode.select (node : XmlNode) (tag : String) : Option XmlNode :=
  node.descendants.find? (fun c => c.tag? = some tag)

/-- The selector `tag[name="value"]` of `querySelector` on an element: the
first element below the node with that tag and that `name` attribute. -/
def XmlNode.selectNamed (node : XmlNode) (tag value : String) : Option XmlNode :=
  node.descendants.find? (fun c => c.tag? = some tag ∧ c.getAttribute "name" = some value)

/-- The number primitives of the reader: the constants `0`, `1` and `0.5`, the
global `parseFloat`, the identity quaternion `new THREE.Quaternion()`, and
position and rotation as `THREE.Matrix4.decompose` returns them for the
matrix whose sixteen entries are given row after row. -/
structure ReadOps (F Q : Type) where
  /-- The number `0`. -/
  zero : F
  /-- The number `1`. -/
  one : F
  /-- The number `0.5`. -/
  half : F
  /-- The global `parseFloat` on a string. -/
  parseFloat : String → F
  /-- The value of `new THREE.Quaternion()`. -/
  quatIdentity : Q
  /-- Position and quaternion of `matrix.decompose`, for the row-major entries. -/
  decompose : List F → Vector3 F × Q

/-- The expression `parseFloat(node.querySelector(tag)?.textContent || fallback)`
for a numeric `fallback`: a missing element or an empty text gives the fallback. -/
def parseComponent {F Q : Type} (R : ReadOps F Q) (node : XmlNode) (tag : String)
    (fallback : F) : F :=
  match (node.select tag).map XmlNode.textContent with
  | some t => if t = "" then fallback else R.parseFloat t
  | none => fallback

/-- The function `parseVector3`. -/
def parseVector3 {F Q : Type} (R : ReadOps F Q) : Option XmlNode → Vector3 F
  | none => { x := R.zero, y := R.zero, z := R.zero }
  | some node =>
    { x := parseComponent R node "X" R.zero, y := parseComponent R node "Y" R.zero,
      z := parseComponent R node "Z" R.zero }

/-- The function `parseColor3`. -/
def parseColor3 {F Q : Type} (R : ReadOps F Q) : Option XmlNode → Color F
  | none => { r := R.half, g := R.half, b := R.half }
  | some node =>
    { r := parseComponent R node "R" R.half, g := parseComponent R node "G" R.half,
      b := parseComponent R node "B" R.half }

/-- The function `parseCFrame`: position and quaternion. -/
def parseCFrame {F Q : Type} (R : ReadOps F Q) : Option XmlNode → Vector3 F × Q
  | none => ({ x := R.zero, y := R.zero, z := R.zero }, R.quatIdentity)
  | some node =>
    let x := parseComponent R node "X" R.zero
    let y := parseComponent R node "Y" R.zero
    let z := parseComponent R node "Z" R.zero
    let r00 := parseComponent R node "R00" R.one
    let r01 := parseComponent R node "R01" R.zero
    let r02 := parseComponent R node "R02" R.zero
    let r10 := parseComponent R node "R10" R.zero
    let r11 := parseComponent R node "R11" R.one
    let r12 := parseComponent R node "R12" R.zero
    let r20 := parseComponent R node "R20" R.zero
    let r21 := parseComponent R node "R21" R.zero
    let r22 := parseComponent R node "R22" R.one
    R.decompose [r00, r01, r02, x, r10, r11, r12, y, r20, r21, r22, z,
                 R.zero, R.zero, R.zero, R.one]

/-- The method `String.prototype.toLowerCase` on the letters A to Z.  (No
character outside that range is mapped to a letter of the word `true`.) -/
def toLowerCase (s : String) : String :=
  String.mk (s.data.map Char.toLower)

/-- The expression `node ? node.textContent.toLowerCase() === 'true' : fallback`. -/
def parseBool (node : Option XmlNode) (fallback : Bool) : Bool :=
  match node with
  | some n => toLowerCase n.textContent = "true"
  | none => fallback

/-- The object `options` that `processItem` hands to `studioApp.createObject`. -/
structure ObjectOptions (F Q : Type) where
  /-- Field `type`, read from the attribute `class`. -/
  type : Option String
  /-- Field `name`. -/
  name : Option String
  /-- Field `position`. -/
  position : Vector3 F
  /-- Field `quaternion`. -/
  quaternion : Q
  /-- Field `size`. -/
  size : Vector3 F
  /-- Field `color`. -/
  color : Color F
  /-- Field `anchored`. -/
  anchored : Bool
  /-- Field `canCollide`. -/
  canCollide : Bool
  /-- Field `locked`. -/
  locked : Bool
  /-- Field `suppressLog`. -/
  suppressLog : Bool

/-- A call the reader makes on `studioApp`. -/
inductive Call (F Q : Type) where
  | createObject (options : ObjectOptions F Q)
  | createScript (name : Option String) (content : String)
  | emitScriptAdded (name parentName : Option String)

mutual
/-- The function `processItem`: the calls it makes, in order.  `none` stands
for `null` and `undefined`. -/
def processItem {F Q : Type} (R : ReadOps F Q) : XmlNode → Option String → List (Call F Q)
  | .text _, _ => []
  | .element tag attrs children, parentName =>
    let item := XmlNode.element tag attrs children
    let className := item.getAttribute "class"
    match item.childElement "Properties" with
    | none => []
    | some props =>
      let name :=
        match (props.selectNamed "string" "Name").map XmlNode.textContent with
        | some t => if t = "" then className else some t
        | none => className
      let calls : List (Call F Q) :=
        if className = some "Part" ∨ className = some "SpawnLocation" then
          let cframe := parseCFrame R (props.selectNamed "CoordinateFrame" "CFrame")
          let size := parseVector3 R (props.selectNamed "Vector3" "size")
          let color := parseColor3 R (props.selectNamed "Color3" "Color")
          let anchored := parseBool (props.selectNamed "bool" "Anchored") false
          let canCollide := parseBool (props.selectNamed "bool" "CanCollide") true
          let locked := parseBool (props.selectNamed "bool" "Locked") false
          [.createObject
            { type := className, name := name, position := cframe.1, quaternion := cframe.2,
              size := size, color := color, anchored := anchored, canCollide := canCollide,
              locked := locked, suppressLog := true }]
        else if className = some "Script" then
          let source :=
            ((props.selectNamed "ProtectedString" "Source").map XmlNode.textContent).getD ""
          [.createScript name source, .emitScriptAdded name parentName]
        else []
      calls ++ processItems R children name
/-- The loop `childItems.forEach(child => processItem(child, name))` over the
child elements with the tag `Item`. -/
def processItems {F Q : Type} (R : ReadOps F Q) : List XmlNode → Option String → List (Call F Q)
  | [], _ => []
  | c :: cs, parentName =>
    (if c.tag? = some "Item" then processItem R c parentName else [])
      ++ processItems R cs parentName
end

/-- The test `if (studioApp.treeItems[serviceName])`; an undefined name is
looked up as the key `undefined`. -/
def indexHas {F : Type} (app : StudioApp F) (serviceName : Option String) : Bool :=
  let key := serviceName.getD "undefined"
  (app.treeItems key).isSome || objectPrototypeKeys.contains key

/-- What `loadRbxlxContent` reports in the end. -/
inductive LoadLog where
  | parseError
  | noItems
  | loaded (objectCount : Nat)

/-- The effects of `loadRbxlxContent`: the calls on `studioApp` and the report. -/
structure LoadResult (F Q : Type) where
  /-- The calls, in order. -/
  calls : List (Call F Q)
  /-- The report. -/
  log : LoadLog

/-- The selector `roblox > Item` on the document: the elements with tag `Item`
whose parent is an element with tag `roblox`, in document order. -/
def rootItems (doc : XmlNode) : List XmlNode :=
  (doc.withParents.filter (fun p => p.1 = "roblox" ∧ p.2.tag? = some "Item")).map Prod.snd

/-- The selector `parsererror` on the document. -/
def parserError (doc : XmlNode) : Option XmlNode :=
  (doc :: doc.descendants).find? (fun c => c.tag? = some "parsererror")

/-- The name `serviceName` that `loadRbxlxContent` reads from a top-level Item. -/
def serviceNameOf (item : XmlNode) : Option String :=
  ((item.childElement "Properties").bind (fun props => props.selectNamed "string" "Name")).map
    XmlNode.textContent

/-- The body of the loop over the top-level Items: the calls made for one Item
and the number added to `objectCount`. -/
def loadRootItem {F Q : Type} (R : ReadOps F Q) (app : StudioApp F) (item : XmlNode) :
    List (Call F Q) × Nat :=
  let serviceName := serviceNameOf item
  if indexHas app serviceName then
    (processItems R item.childNodes serviceName, (item.childElements "Item").length)
  else ([], 0)

/-- The function `loadRbxlxContent` on the parsed document. -/
def loadRbxlxContent {F Q : Type} (R : ReadOps F Q) (app : StudioApp F) (doc : XmlNode) :
    LoadResult F Q :=
  match parserError doc with
  | some _ => { calls := [], log := .parseError }
  | none =>
    let items := rootItems doc
    if items.length = 0 then { calls := [], log := .noItems }
    else
      let results := items.map (loadRootItem R app)
      { calls := results.flatMap Prod.fst, log := .loaded (results.map Prod.snd).sum }

/-- A stand-in for the number primitives of the reader on integers, used in
examples: numbers are counted in halves, `parseFloat` knows a few numerals, and
the decomposition returns the translation column and, for the rotation, the
nine rotation entries. -/
def exampleRead : ReadOps Int (List Int) :=
  { zero := 0, one := 2, half := 1,
    parseFloat := fun s =>
      if s = "0.5" then 1 else if s = "1" then 2 else if s = "2" then 4
      else if s = "3" then 6 else if s = "4" then 8 else 0,
    quatIdentity := [2, 0, 0, 0, 2, 0, 0, 0, 2],
    decompose := fun m =>
      ({ x := m.getD 3 0, y := m.getD 7 0, z := m.getD 11 0 },
       [m.getD 0 0, m.getD 1 0, m.getD 2 0, m.getD 4 0, m.getD 5 0, m.getD 6 0,
        m.getD 8 0, m.getD 9 0, m.getD 10 0]) }

/-- The document `<roblox><Item class="Model"><Properties><string
name="Name">NAME</string></Properties><Item class="Part"><Properties><string
name="Name">Block</string></Properties></Item></Item></roblox>` with a single
top-level Item of the given name, which holds one Part. -/
def singleItemDoc (name : String) : XmlNode :=
  .element "roblox" [("version", "4")]
    [.element "Item" [("class", "Model")]
      [.element "Properties" [] [.element "string" [("name", "Name")] [.text name]],
       .element "Item" [("class", "Part")]
         [.element "Properties" [] [.element "string" [("name", "Name")] [.text "Block"]]]]]

/-- The options the reader builds for a Part Item that carries nothing but the
name `Block`. -/
def blockOptions : ObjectOptions Int (List Int) :=
  { type := some "Part", name := some "Block", position := { x := 0, y := 0, z := 0 },
    quaternion := [2, 0, 0, 0, 2, 0, 0, 0, 2], size := { x := 0, y := 0, z := 0 },
    color := { r := 1, g := 1, b := 1 }, anchored := false, canCollide := true,
    locked := false, suppressLog := true }

/-! ## Sequences of write operations -/

/-- One call of a write method of `BinaryWriter`, with its argument. -/
inductive WriterOp where
  | writeBytes (bytes : List Nat)
  | writeUInt8 (val : Int)
  | writeUInt16LE (val : Int)
  | writeUInt32LE (val : Int)
  | writeUInt32BE (val : Int)
  | writeInt32LE (val : Int)
  | writeString (str : String)
  | writeInterleaved (values : List Int)

/-- The call of the method on a writer. -/
def WriterOp.apply (w : BinaryWriter) : WriterOp → BinaryWriter
  | .writeBytes bytes => w.writeBytes bytes
  | .writeUInt8 val => w.writeUInt8 val
  | .writeUInt16LE val => w.writeUInt16LE val
  | .writeUInt32LE val => w.writeUInt32LE val
  | .writeUInt32BE val => w.writeUInt32BE val
  | .writeInt32LE val => w.writeInt32LE val
  | .writeString str => w.writeString str
  | .writeInterleaved values => w.writeInterleaved values

/-- The bytes an operation is to write, as the specification words them: the
bytes handed over; the low byte; the low two bytes, least significant first;
the 32-bit pattern little-endian or big-endian; the byte count on 4
little-endian bytes followed by the UTF-8 bytes; the byte planes of the values. -/
def WriterOp.bytes : WriterOp → List Nat
  | .writeBytes bytes => bytes
  | .writeUInt8 val => [(val % 256).toNat]
  | .writeUInt16LE val => [(val % 65536).toNat % 256, (val % 65536).toNat / 256 % 256]
  | .writeUInt32LE val => bytesLE32 (toUint32 val)
  | .writeUInt32BE val => bytesBE32 (toUint32 val)
  | .writeInt32LE val => bytesLE32 (toUint32 val)
  | .writeString str =>
    bytesLE32 ((stringToBytes str).length % 4294967296) ++ stringToBytes str
  | .writeInterleaved values => interleaved values

/-! ## Reference notions for the shape of the tree index -/

/-- The keys of the nodes a pre-order visit of the listed children meets, in
the order of the visit: a listed key that the index does not hold is passed
over, a key that it holds is followed at once by the keys met below it. -/
inductive VisitKeys {F : Type} (app : StudioApp F) : List String → List String → Prop
  | nil : VisitKeys app [] []
  | skip (child : String) (children keys : List String) :
      app.treeItems child = none →
      VisitKeys app children keys →
      VisitKeys app (child :: children) keys
  | visit (child : String) (children : List String) (node : TreeItem)
      (below after : List String) :
      app.treeItems child = some node →
      VisitKeys app (node.children.getD []) below →
      VisitKeys app children after →
      VisitKeys app (child :: children) (child :: (below ++ after))

/-- A chain of `n` steps of the children relation from the key `a` down to the
key `k`: every key of the chain but the last is a node of the index that lists
the next one among its children. -/
inductive Chain {F : Type} (app : StudioApp F) : String → Nat → String → Prop
  | refl (a : String) : Chain app a 0 a
  | snoc (a : String) (n : Nat) (p : String) (node : TreeItem) (k : String) :
      Chain app a n p → app.treeItems p = some node → k ∈ node.children.getD [] →
      Chain app a (n + 1) k

/-- The key is `root` or is reached from `root` along the children relation. -/
def Reach {F : Type} (app : StudioApp F) (k : String) : Prop :=
  ∃ n : Nat, Chain app "root" n k

/-- The children relation reachable from `root` is a finite forest: there is
no cycle (the nodes can be ranked so that a node ranks below the node that
lists it), no node is listed under two parents, and no node is listed twice
under the same parent.  Only listed keys that the index holds count as nodes. -/
structure IsForest {F : Type} (app : StudioApp F) : Prop where
  /-- No cycle. -/
  acyclic : ∃ rank : String → Nat, ∀ (k : String) (node : TreeItem) (c : String),
    Reach app k → app.treeItems k = some node → c ∈ node.children.getD [] →
    (app.treeItems c).isSome = true → rank c < rank k
  /-- No node under two parents. -/
  oneParent : ∀ (k1 k2 : String) (n1 n2 : TreeItem) (c : String),
    Reach app k1 → Reach app k2 → app.treeItems k1 = some n1 → app.treeItems k2 = some n2 →
    c ∈ n1.children.getD [] → c ∈ n2.children.getD [] → (app.treeItems c).isSome = true →
    k1 = k2
  /-- No node twice under one parent. -/
  listedOnce : ∀ (k : String) (node : TreeItem), Reach app k → app.treeItems k = some node →
    ((node.children.getD []).filter (fun c => (app.treeItems c).isSome)).Nodup

/-- The instance is the record the extractor builds for the node under the key. -/
def RecordOf {F : Type} (N : NumOps F) (app : StudioApp F) (key : String)
    (inst : InstanceRecord F) : Prop :=
  ∃ node : TreeItem, app.treeItems key = some node ∧ inst.name = node.data ∧
    inst.className = actualClassName key node ∧
    inst.props = gatherProps N app (actualClassName key node) node

/-- A tree index whose `root` lists the single key `constructor`, under which
the index has no entry. -/
def inheritedApp : StudioApp Int :=
  { treeItems := fun key =>
      if key = "root" then
        some { index := "root", isFolder := true, kind := none, data := "Game",
               children := some ["constructor"] }
      else none,
    scene := fun _ => none,
    scripts := fun _ => none }

/-! ## Reference notions for the reader -/

/-- The text equals `true` ignoring letter case, as the specification words
it: four characters, each the small or the capital letter of the word. -/
def IsTrueIgnoringCase (s : String) : Prop :=
  ∃ c1 c2 c3 c4 : Char, s.data = [c1, c2, c3, c4] ∧ (c1 = 't' ∨ c1 = 'T') ∧
    (c2 = 'r' ∨ c2 = 'R') ∧ (c3 = 'u' ∨ c3 = 'U') ∧ (c4 = 'e' ∨ c4 = 'E')

/-! ## The script store -/

/-- The map `studioApp.scripts`, from script names to source text.  A key is
any value; `none` stands for the key `null`. -/
abbrev ScriptStore := Option String → Option String

/-- The text `createScript` stores when it is given no content: the template
with the name filled in twice. -/
def defaultScript (name : Option String) : String :=
  "// " ++ name.getD "null" ++ "\nconsole.log(\"Hello from " ++ name.getD "null" ++ "\");"

/-- The function `studioApp.createScript`: a name that the store holds is left
alone; otherwise the content is stored, or the default text when the content
is undefined or empty. -/
def createScript (scripts : ScriptStore) (name : Option String) (content : Option String) :
    ScriptStore :=
  if (scripts name).isSome then scripts
  else
    let text :=
      match content with
      | some c => if c = "" then defaultScript name else c
      | none => defaultScript name
    fun key => if key = name then some text else scripts key

/-- The effect of one call of the reader on the script store. -/
def applyCall {F Q : Type} (scripts : ScriptStore) : Call F Q → ScriptStore
  | .createScript name content => createScript scripts name (some content)
  | .createObject _ => scripts
  | .emitScriptAdded _ _ => scripts

/-- The script store after the calls of the reader, made in order. -/
def runCalls {F Q : Type} (scripts : ScriptStore) (calls : List (Call F Q)) : ScriptStore :=
  calls.foldl applyCall scripts

/-- The document with the single top-level Item `Lighting`, which holds one
Script Item named `Main` without `Source` element. -/
def scriptDoc : XmlNode :=
  .element "roblox" [("version", "4")]
    [.element "Item" [("class", "Lighting")]
      [.element "Properties" [] [.element "string" [("name", "Name")] [.text "Lighting"]],
       .element "Item" [("class", "Script")]
         [.element "Properties" [] [.element "string" [("name", "Name")] [.text "Main"]]]]]

/-! ## The XML writer (`src/rbxlxExporter.js`)

The writer builds its text from template literals.  The text is embedded as
the markup the templates spell out (`Markup`): elements with their attributes,
the interpolated strings as they are written, and CDATA sections.  White space
between elements is left out; `Markup.render` gives the text of a piece of
markup without it. -/

/-- The outcomes of the random source: `rand k` is the value of
`Math.random() * 16 | 0` at the `k`-th call; `Math.random()` lies in [0, 1),
so that the value is below 16. -/
abbrev RandomSource := Nat → Fin 16

/-- The text `v.toString(16)` for `v` below 16: one digit. -/
def hexDigit (v : Nat) : Char :=
  ['0', '1', '2', '3', '4', '5', '6', '7', '8', '9', 'a', 'b', 'c', 'd', 'e', 'f'].getD v '0'

/-- The call `template.replace(regex, callback)` for a regular expression that
matches single characters, all of them (`g`): every matching character is
replaced by the digit the callback returns for the next outcome of the random
source.  The result comes with the number of outcomes used up to there. -/
def replaceDraws (isMatch : Char → Bool) (digit : Char → Nat → Char) (rand : RandomSource) :
    List Char → Nat → List Char × Nat
  | [], k => ([], k)
  | c :: cs, k =>
    if isMatch c then
      let rest := replaceDraws isMatch digit rand cs (k + 1)
      (digit c (rand k).val :: rest.1, rest.2)
    else
      let rest := replaceDraws isMatch digit rand cs k
      (c :: rest.1, rest.2)

/-- The function `generateUUID`, from the `k`-th outcome of the random source on. -/
def generateUUID (rand : RandomSource) (k : Nat) : String × Nat :=
  let out := replaceDraws (fun c => c = 'x' || c = 'y')
    (fun c r => Char.toUpper (hexDigit (if c = 'x' then r else (r &&& 3 ||| 8))))
    rand "xxxxxxxxxxxx4xxxyxxxxxxxxxxxxxxx".data k
  ("RBX" ++ String.mk out.1, out.2)

/-- The function `generateUniqueId`, from the `k`-th outcome of the random source on. -/
def generateUniqueId (rand : RandomSource) (k : Nat) : String × Nat :=
  let out := replaceDraws (fun c => c = 'x') (fun _ r => hexDigit r)
    rand "xxxxxxxxxxxxxxxxxxxxxxxxxxxxxxxx".data k
  (String.mk out.1, out.2)

/-- The primitives on JS numbers that the XML writer uses and that are left
abstract: the text of a number in a template literal, and `Math.round(c * 255)`
for a colour channel `c` (an integer for every finite channel). -/
structure WriteOps (F : Type) where
  /-- The text `${x}` of a number. -/
  numToString : F → String
  /-- The value `Math.round(c * 255)`. -/
  round255 : F → Int

/-- The value `color3uint8 >>> 0` for the rounded channels `r`, `g`, `b`, where
`color3uint8 = 0xFF000000 + (r << 16) + (g << 8) + b`. -/
def color3uint8 (r g b : Int) : Nat :=
  toUint32 (0xFF000000 + jsShl r 16 + jsShl g 8 + b)

/-- The names tested by the service branch of `generateItemXml`, in the order
of the source. -/
def xmlServiceNames : List String :=
  ["Workspace", "Lighting", "Players", "ReplicatedStorage", "ServerScriptService",
   "ServerStorage", "StarterGui", "StarterPack", "Teams", "SoundService", "Chat",
   "ReplicatedFirst"]

/-- The class name `generateItemXml` resolves:
`item.isFolder ? 'Folder' : item.kind || 'Part'`, replaced by the item id when
that is a service name. -/
def xmlClassName (itemId : String) (item : TreeItem) : String :=
  let className :=
    if item.isFolder then "Folder"
    else match item.kind with
      | some k => if k = "" then "Part" else k
      | none => "Part"
  if xmlServiceNames.contains itemId then itemId else className

/-- A piece of the text the writer builds: an element, character data written
as it is (a literal of the template or an interpolated string), or a section
`<![CDATA[...]]>` around an interpolated string. -/
inductive Markup where
  | element (tag : String) (attrs : List (String × String)) (children : List Markup)
  | text (content : String)
  | cdata (content : String)

/-- The text of the attributes of a start tag. -/
def renderAttrs : List (String × String) → String
  | [] => ""
  | a :: as => " " ++ a.1 ++ "=\"" ++ a.2 ++ "\"" ++ renderAttrs as

mutual
/-- The text of a piece of markup. -/
def Markup.render : Markup → String
  | .element tag attrs children =>
    "<" ++ tag ++ renderAttrs attrs ++ ">" ++ renderList children ++ "</" ++ tag ++ ">"
  | .text content => content
  | .cdata content => "<![CDATA[" ++ content ++ "]]>"
/-- The text of a sequence of pieces of markup. -/
def renderList : List Markup → String
  | [] => ""
  | m :: ms => m.render ++ renderList ms
end

/-- The template `<tag name="NAME">TEXT</tag>` of a property. -/
def propertyXml (tag name content : String) : Markup :=
  .element tag [("name", name)] [.text content]

/-- The text `${b}` of a boolean. -/
def boolText (b : Bool) : String := if b then "true" else "false"

/-- The value of `propertiesXml` in the branch of Part and SpawnLocation. -/
def partProperties {F : Type} (N : NumOps F) (W : WriteOps F) (object : SceneObject F) :
    List Markup :=
  let elements := object.matrixWorld.elements
  let pos := object.position
  let size : Vector3 F :=
    { x := N.mul object.size.x object.scale.x, y := N.mul object.size.y object.scale.y,
      z := N.mul object.size.z object.scale.z }
  let color := object.color
  let transparency := N.sub N.one object.opacity
  let r := W.round255 color.r
  let g := W.round255 color.g
  let b := W.round255 color.b
  let shapeToken := shapeValue object.shape
  [propertyXml "string" "Name" object.name,
   propertyXml "bool" "Anchored" (boolText (object.anchored.getD false)),
   .element "CoordinateFrame" [("name", "CFrame")]
     [.element "X" [] [.text (W.numToString pos.x)],
      .element "Y" [] [.text (W.numToString pos.y)],
      .element "Z" [] [.text (W.numToString pos.z)],
      .element "R00" [] [.text (W.numToString (elements 0))],
      .element "R01" [] [.text (W.numToString (elements 4))],
      .element "R02" [] [.text (W.numToString (elements 8))],
      .element "R10" [] [.text (W.numToString (elements 1))],
      .element "R11" [] [.text (W.numToString (elements 5))],
      .element "R12" [] [.text (W.numToString (elements 9))],
      .element "R20" [] [.text (W.numToString (elements 2))],
      .element "R21" [] [.text (W.numToString (elements 6))],
      .element "R22" [] [.text (W.numToString (elements 10))]],
   .element "Vector3" [("name", "size")]
     [.element "X" [] [.text (W.numToString size.x)],
      .element "Y" [] [.text (W.numToString size.y)],
      .element "Z" [] [.text (W.numToString size.z)]],
   propertyXml "Color3uint8" "Color3uint8" (toString (color3uint8 r g b)),
   propertyXml "bool" "CanCollide" (boolText (object.canCollide.getD true)),
   propertyXml "bool" "Locked" (boolText (object.locked.getD false)),
   propertyXml "float" "Transparency" (W.numToString transparency),
   propertyXml "token" "shape" (toString shapeToken),
   propertyXml "token" "Material" "256"]

/-- The value of `propertiesXml` in the branch of Script. -/
def scriptProperties {F : Type} (app : StudioApp F) (item : TreeItem) : List Markup :=
  let scriptContent := (app.scripts item.data).getD ""
  [propertyXml "string" "Name" item.data,
   .element "ProtectedString" [("name", "Source")] [.cdata scriptContent]]

/-- The function `generateItemXml`: the markup of the returned text (nothing
for the empty text), with the number of outcomes of the random source used up
to there.  The first argument bounds the nesting depth of the recursion;
`none` means that the bound was reached.  The value the service branch gives
to `propertiesXml` is left out: each of the three branches that follow assigns
the variable anew.  For a key that is no entry of the index but one of
`objectPrototypeKeys` the lookup finds the inherited value: it passes the test
`if (!item) return ''`, its class resolves to `Part`, the two tokens are drawn,
and `getObjectByName(undefined)` finds no object (every object of the scene has
a string as its name), so that the empty text is returned after the draws. -/
def generateItemXml {F : Type} (N : NumOps F) (W : WriteOps F) (app : StudioApp F)
    (rand : RandomSource) : Nat → String → Nat → Option (List Markup × Nat)
  | 0, _, _ => none
  | fuel + 1, itemId, k =>
    match app.treeItems itemId with
    | none =>
      if objectPrototypeKeys.contains itemId then
        some ([], (generateUniqueId rand (generateUUID rand k).2).2)
      else some ([], k)
    | some item =>
      let referent := generateUUID rand k
      let className := xmlClassName itemId item
      let uniqueId := generateUniqueId rand referent.2
      let finish := fun (propertiesXml : List Markup) =>
        ((item.children.getD []).foldlM
          (fun (acc : List Markup × Nat) childId =>
            (generateItemXml N W app rand fuel childId acc.2).map
              (fun r => (acc.1 ++ r.1, r.2)))
          ([], uniqueId.2)).map
          (fun childrenXml =>
            ([Markup.element "Item" [("class", className), ("referent", referent.1)]
                (Markup.element "Properties" []
                    (propertiesXml ++ [propertyXml "UniqueId" "UniqueId" uniqueId.1])
                  :: childrenXml.1)],
             childrenXml.2))
      if className = "Part" ∨ className = "SpawnLocation" then
        match app.scene item.data with
        | none => some ([], uniqueId.2)
        | some object => finish (partProperties N W object)
      else if className = "Script" then finish (scriptProperties app item)
      else finish [propertyXml "string" "Name" item.data]

/-- The Item of one static service in `getStaticServicesXml`. -/
def staticServiceXml (rand : RandomSource) (name : String) (k : Nat) : Markup × Nat :=
  let uniqueId := generateUniqueId rand k
  let propsXml : List Markup :=
    [propertyXml "string" "Name" name, propertyXml "UniqueId" "UniqueId" uniqueId.1]
  let propsXml :=
    if name = "HttpService" then propsXml ++ [propertyXml "bool" "HttpEnabled" "false"]
    else propsXml
  let propsXml :=
    if name = "TestService" then
      propsXml ++ [propertyXml "bool" "Is30FpsThrottleEnabled" "true"]
    else propsXml
  let referent := generateUUID rand uniqueId.2
  (.element "Item" [("class", name), ("referent", referent.1)]
      [.element "Properties" [] propsXml],
   referent.2)

/-- The function `getStaticServicesXml`. -/
def getStaticServicesXml (rand : RandomSource) (k : Nat) : List Markup × Nat :=
  ["StarterPlayer", "HttpService", "TestService"].foldl
    (fun (acc : List Markup × Nat) name =>
      let item := staticServiceXml rand name acc.2
      (acc.1 ++ [item.1], item.2))
    ([], k)

/-- The function `generateRbxlxContent`: the markup of the returned text
(nothing for the empty text); `none` when the bound on the nesting depth is
reached. -/
def generateRbxlxContent {F : Type} (N : NumOps F) (W : WriteOps F) (app : StudioApp F)
    (rand : RandomSource) (fuel : Nat) : Option (List Markup) :=
  match app.treeItems "root" with
  | none => some []
  | some rootItem =>
    match rootItem.children with
    | none => some []
    | some children =>
      (children.foldlM
        (fun (acc : List Markup × Nat) serviceId =>
          (generateItemXml N W app rand fuel serviceId acc.2).map
            (fun r => (acc.1 ++ r.1, r.2)))
        ([], 0)).map
        (fun itemsXml =>
          let staticServicesXml := getStaticServicesXml rand itemsXml.2
          [Markup.element "roblox"
            [("xmlns:xmime", "http://www.w3.org/2005/05/xmlmime"),
             ("xmlns:xsi", "http://www.w3.org/2001/XMLSchema-instance"),
             ("xsi:noNamespaceSchemaLocation", "http://www.roblox.com/roblox.xsd"),
             ("version", "4")]
            ([Markup.element "External" [] [.text "null"],
              Markup.element "External" [] [.text "nil"]]
              ++ itemsXml.1 ++ staticServicesXml.1)])

/-! ## Reference reading of the writer's text -/

/-- The text holds the sequence `]]>`, which ends a CDATA section. -/
def hasCDataEnd : List Char → Bool
  | [] => false
  | c :: cs =>
    (match c, cs with
      | ']', ']' :: '>' :: _ => true
      | _, _ => false) || hasCDataEnd cs

/-- What a parser reads after the opening `<![CDATA[`: the character data of
the section, which runs up to the first `]]>`, and the text that follows the
section; `none` when the section is not closed. -/
def cdataScan : List Char → Option (List Char × List Char)
  | [] => none
  | c :: cs =>
    match c, cs with
    | ']', ']' :: '>' :: rest => some ([], rest)
    | _, _ => (cdataScan cs).map (fun r => (c :: r.1, r.2))

/-- A character that XML admits in a document and that a parser hands on as
it is: tab, line feed, and every character from U+0020 on other than U+FFFE
and U+FFFF.  (A carriage return is admitted too, but handed on as a line
feed, so that it does not count here.) -/
def xmlChar (c : Char) : Bool :=
  c.toNat = 9 || c.toNat = 10 || (0x20 ≤ c.toNat && c.toNat ≠ 0xFFFE && c.toNat ≠ 0xFFFF)

/-- An interpolated string is plain character data: its characters are handed
on as they are, and it holds none of `<`, `&` and `]]>`, so that a parser
reads it as the text it is. -/
def plainText (s : String) : Bool :=
  s.data.all xmlChar && !(s.data.contains '<' || s.data.contains '&') && !hasCDataEnd s.data

/-- An attribute value is plain: its characters are handed on as they are, it
holds none of `<`, `&` and `"`, and neither a tab nor a line feed (which a
parser replaces by a blank). -/
def plainAttr (s : String) : Bool :=
  s.data.all (fun c => xmlChar c && c.toNat ≠ 9 && c.toNat ≠ 10) &&
    !(s.data.contains '<' || s.data.contains '&' || s.data.contains '"')

/-- A plain name of an element or attribute: a letter of A-Z, a-z or `_`,
then letters, digits, `_`, `-` and `.`; no colon, and not one of the names
that start with `xml`, which XML reserves. -/
def plainName (s : String) : Bool :=
  match s.data with
  | [] => false
  | c :: cs =>
    (c.isAlpha || c = '_') &&
      cs.all (fun d => d.isAlphanum || d = '_' || d = '-' || d = '.') &&
      !((s.data.take 3).map Char.toLower == ['x', 'm', 'l'])

mutual
/-- The markup below the root element is plain: every element and attribute
has a plain name, no element has two attributes of the same name, every
interpolated string is plain, and no CDATA section holds `]]>` or a character
that is not handed on as it is.  The text of such markup is well formed, and
the nodes a parser builds from it are those of `Markup.toDoc`. -/
def Markup.plain : Markup → Bool
  | .element tag attrs children =>
    plainName tag && attrs.all (fun a => plainName a.1 && plainAttr a.2) &&
      decide (attrs.map Prod.fst).Nodup && plainList children
  | .text content => plainText content
  | .cdata content => content.data.all xmlChar && !hasCDataEnd content.data
/-- Every piece of the sequence is plain. -/
def plainList : List Markup → Bool
  | [] => true
  | m :: ms => m.plain && plainList ms
end

/-- The attributes of the root element in `generateRbxlxContent`: two
namespace declarations, the schema location under the second of them, and the
version. -/
def rootAttributes : List (String × String) :=
  [("xmlns:xmime", "http://www.w3.org/2005/05/xmlmime"),
   ("xmlns:xsi", "http://www.w3.org/2001/XMLSchema-instance"),
   ("xsi:noNamespaceSchemaLocation", "http://www.roblox.com/roblox.xsd"),
   ("version", "4")]

/-- The markup is a plain document of the writer: the root element `roblox`
with the attributes of the writer, over plain markup.  The document a parser
builds from the text of such markup is `Markup.toDoc`; a text has the document
of any plain document that renders to it. -/
def Markup.plainDocument : Markup → Bool
  | .element tag attrs children =>
    decide (tag = "roblox") && decide (attrs = rootAttributes) && plainList children
  | .text _ => false
  | .cdata _ => false

mutual
/-- The document node that a piece of plain markup denotes: an element for an
element, character data for an interpolated string and for a CDATA section.
(White space between elements, which the reader never looks at, is left out;
an empty string stands for no node.) -/
def Markup.toDoc : Markup → XmlNode
  | .element tag attrs children => .element tag attrs (toDocList children)
  | .text content => .text content
  | .cdata content => .text content
/-- The document nodes of a sequence of pieces of markup. -/
def toDocList : List Markup → List XmlNode
  | [] => []
  | m :: ms => m.toDoc :: toDocList ms
end

/-- The integer nearest to a rational, a tie going to the even integer. -/
def roundHalfEven (q : ℚ) : Int :=
  let f := ⌊q⌋
  if q - f < 1 / 2 then f
  else if 1 / 2 < q - f then f + 1
  else if f % 2 = 0 then f else f + 1

/-- The binary64 number that IEEE 754 arithmetic returns for an operation whose
exact result is `x` (round to nearest, ties to even), as a rational.  With
`e = Int.log 2 |x|` the result lies in the binade from `2 ^ e` on, where
binary64 numbers are the multiples of `2 ^ (e - 52)`; below `2 ^ (-1022)` they
are the multiples of `2 ^ (-1074)`.  Results of magnitude `2 ^ 1024` and more,
which round to an infinity, are not treated: the product of a channel between
0 and 1 with 255 is far below. -/
def toBinary64 (x : ℚ) : ℚ :=
  if x = 0 then 0
  else
    let q := max (Int.log 2 |x| - 52) (-1074)
    roundHalfEven (x / 2 ^ q) * 2 ^ q

/-- The value `Math.round(c * 255)` for a binary64 number `c`, given as a
rational: the product is rounded to binary64, and `Math.round` returns the
integer nearest to that number, a tie going up. -/
def binary64Round255 (c : ℚ) : Int := ⌊toBinary64 (c * 255) + 1 / 2⌋

/-- The number primitives of the XML writer on binary64 numbers, given as
rationals, for a given way of printing numbers. -/
def binary64Write (text : ℚ → String) : WriteOps ℚ :=
  { numToString := text, round255 := binary64Round255 }

/-- A stand-in for the number primitives of the XML writer on integers, used
in examples. -/
def exampleWrite : WriteOps Int :=
  { numToString := fun x => toString x, round255 := fun c => 255 * c }

/-- A tree index in which `Workspace` holds the part `Ghost`, which holds the
script `Main`, while the scene holds no object named `Ghost`. -/
def hauntedApp : StudioApp Int :=
  { treeItems := fun key =>
      if key = "root" then
        some { index := "root", isFolder := true, kind := none, data := "Game",
               children := some ["Workspace"] }
      else if key = "Workspace" then
        some { index := "Workspace", isFolder := true, kind := none, data := "Workspace",
               children := some ["Ghost"] }
      else if key = "Ghost" then
        some { index := "Ghost", isFolder := false, kind := some "Part", data := "Ghost",
               children := some ["Main"] }
      else if key = "Main" then
        some { index := "Main", isFolder := false, kind := some "Script", data := "Main",
               children := none }
      else none,
    scene := fun _ => none,
    scripts := fun key => if key = "Main" then some "print(1)" else none }

/-- No node of the list is a `Color3` element named `Color`, the only element
the reader takes a colour from. -/
def NoColorElement (nodes : List XmlNode) : Prop :=
  ∀ d ∈ nodes, ¬(d.tag? = some "Color3" ∧ d.getAttribute "name" = some "Color")

/-- A tree index in which `Workspace` holds the part `Block`, with its live
object: position (1,2,3), no rotation, size (4,1,2), colour (1,0,0), anchored. -/
def blockApp : StudioApp Int :=
  { treeItems := fun key =>
      if key = "root" then
        some { index := "root", isFolder := true, kind := none, data := "Game",
               children := some ["Workspace"] }
      else if key = "Workspace" then
        some { index := "Workspace", isFolder := true, kind := none, data := "Workspace",
               children := some ["Block"] }
      else if key = "Block" then
        some { index := "Block", isFolder := false, kind := some "Part", data := "Block",
               children := none }
      else none,
    scene := fun name =>
      if name = "Block" then
        some { name := "Block",
               matrixWorld :=
                 { elements := fun k =>
                     if k = 0 ∨ k = 5 ∨ k = 10 ∨ k = 15 then 1
                     else if k = 12 then 1 else if k = 13 then 2 else if k = 14 then 3 else 0 },
               position := { x := 1, y := 2, z := 3 },
               scale := { x := 1, y := 1, z := 1 },
               size := { x := 4, y := 1, z := 2 },
               color := { r := 1, g := 0, b := 0 },
               opacity := 1,
               anchored := some true,
               canCollide := none,
               locked := none,
               shape := none }
      else none,
    scripts := fun _ => none }

/-- The markup the writer builds for the block example when every outcome of
the random source is 0. -/
def blockDoc : Markup :=
  ((generateRbxlxContent exampleNum exampleWrite blockApp (fun _ => 0) 3).getD []).headD
    (.text "")

/-- The tag of an element of the markup; other pieces have none. -/
def Markup.tag? : Markup → Option String
  | .element tag _ _ => some tag
  | .text _ => none
  | .cdata _ => none

/-! ## Reference notions for the round trip through XML -/

/-- The children relation of the tree index has no cycle: the nodes can be
ranked so that a node ranks below every node that lists it.  Only listed keys
that the index holds count as nodes. -/
def Acyclic {F : Type} (app : StudioApp F) : Prop :=
  ∃ rank : String → Nat, ∀ (k : String) (node : TreeItem) (c : String),
    app.treeItems k = some node → c ∈ node.children.getD [] →
    (app.treeItems c).isSome = true → rank c < rank k

/-- The node `t` is the node `key` or lies below it in the tree index, and the
XML writer writes every node from `key` down to the parent of `t`: the index
holds the node, and the scene holds its live object when its class is Part or
SpawnLocation. -/
inductive Written {F : Type} (app : StudioApp F) : String → String → Prop
  | here (key : String) : Written app key key
  | step (key : String) (item : TreeItem) (child t : String) :
      app.treeItems key = some item →
      (xmlClassName key item = "Part" ∨ xmlClassName key item = "SpawnLocation" →
        (app.scene item.data).isSome = true) →
      child ∈ item.children.getD [] →
      Written app child t →
      Written app key t

/-- The text the writer prints for the number is not empty and the reader's
`parseFloat` gives the number back from it. -/
def ReadsBack {F Q : Type} (W : WriteOps F) (R : ReadOps F Q) (v : F) : Prop :=
  W.numToString v ≠ "" ∧ R.parseFloat (W.numToString v) = v

/-- The options of a create-object call reproduce the exported part: its
class, its name (the class for an empty name), its position, its size as the
writer exports it (the stored size times the scale), and the three flags with
the defaults of the writer. -/
def Reproduces {F Q : Type} (N : NumOps F) (className : String) (object : SceneObject F)
    (o : ObjectOptions F Q) : Prop :=
  o.type = some className ∧
  o.name = some (if object.name = "" then className else object.name) ∧
  o.position = object.position ∧
  o.size = { x := N.mul object.size.x object.scale.x,
             y := N.mul object.size.y object.scale.y,
             z := N.mul object.size.z object.scale.z } ∧
  o.anchored = object.anchored.getD false ∧
  o.canCollide = object.canCollide.getD true ∧
  o.locked = object.locked.getD false

/-- No node of the list is an element with the tag.  With the tag
`parsererror` this says that the platform parser reports no text that is not
well formed. -/
def NoElement (tag : String) (nodes : List XmlNode) : Prop :=
  ∀ d ∈ nodes, d.tag? ≠ some tag

/-- A stand-in for the number primitives on integers that count halves, used
in examples together with `exampleRead`. -/
def halvesNum : NumOps Int :=
  { one := 2, eps := 0, nan := 0, sub := fun a b => a - b, mul := fun a b => a * b / 2,
    abs := fun a => |a|, lt := fun a b => decide (a < b), float32Bits := fun a => a.toNat }

/-- A stand-in for the number primitives of the XML writer on integers that
count halves: one half prints as `0.5`, an even count as the whole number. -/
def halvesWrite : WriteOps Int :=
  { numToString := fun x => if x = 1 then "0.5" else toString (x / 2),
    round255 := fun c => (255 * c + 1) / 2 }

/-- A live object given in halves: position (1,2,3), no rotation, scale 1,
size (4,1,2), colour (1,0,0), opaque, anchored. -/
def halvesBlock : SceneObject Int :=
  { name := "Block",
    matrixWorld :=
      { elements := fun k =>
          if k = 0 ∨ k = 5 ∨ k = 10 ∨ k = 15 then 2
          else if k = 12 then 2 else if k = 13 then 4 else if k = 14 then 6 else 0 },
    position := { x := 2, y := 4, z := 6 },
    scale := { x := 2, y := 2, z := 2 },
    size := { x := 8, y := 2, z := 4 },
    color := { r := 2, g := 0, b := 0 },
    opacity := 2,
    anchored := some true,
    canCollide := none,
    locked := none,
    shape := none }

/-- The tree index of `blockApp` with `halvesBlock` as the live object of `Block`. -/
def halvesBlockApp : StudioApp Int :=
  { treeItems := blockApp.treeItems,
    scene := fun name => if name = "Block" then some halvesBlock else none,
    scripts := fun _ => none }

/-- A name that closes the element it is written in and opens others: a
`bool` element named `Anchored` with the text `false`, a `Color3` element
named `Color` with the channels 1, 0, 0, and a `string` element that the
closing tag of the writer ends. -/
def injectedName : String :=
  "</string><bool name=\"Anchored\">false</bool><Color3 name=\"Color\"><R>1</R><G>0</G>"
    ++ "<B>0</B></Color3><string name=\"x\">"

/-- The live object `halvesBlock` under the name `injectedName`. -/
def injectedBlock : SceneObject Int :=
  { halvesBlock with name := injectedName }

/-- The tree index of `blockApp` with the part `Block` renamed to
`injectedName`, and its live object `injectedBlock`. -/
def injectedApp : StudioApp Int :=
  { treeItems := fun key =>
      if key = "root" then
        some { index := "root", isFolder := true, kind := none, data := "Game",
               children := some ["Workspace"] }
      else if key = "Workspace" then
        some { index := "Workspace", isFolder := true, kind := none, data := "Workspace",
               children := some ["Block"] }
      else if key = "Block" then
        some { index := "Block", isFolder := false, kind := some "Part", data := injectedName,
               children := none }
      else none,
    scene := fun name => if name = injectedName then some injectedBlock else none,
    scripts := fun _ => none }

/-- The markup the writer builds for `injectedApp` when every outcome of the
random source is 0. -/
def injectedDoc : Markup :=
  ((generateRbxlxContent halvesNum halvesWrite injectedApp (fun _ => 0) 3).getD []).headD
    (.text "")

/-- A plain document with the same text as `injectedDoc`: where the writer has
the element `string` named `Name` around `injectedName`, it has an empty
element `string` named `Name`, the elements that the name spells out, and an
empty element `string` named `x`. -/
def injectedParse : Markup :=
  .element "roblox" rootAttributes
    ([.element "External" [] [.text "null"], .element "External" [] [.text "nil"],
      .element "Item"
        [("class", "Workspace"), ("referent", (generateUUID (fun _ => 0) 0).1)]
        [.element "Properties" []
           [propertyXml "string" "Name" "Workspace",
            propertyXml "UniqueId" "UniqueId" (generateUniqueId (fun _ => 0) 0).1],
         .element "Item" [("class", "Part"), ("referent", (generateUUID (fun _ => 0) 0).1)]
           [.element "Properties" []
              ([.element "string" [("name", "Name")] [],
                propertyXml "bool" "Anchored" "false",
                .element "Color3" [("name", "Color")]
                  [.element "R" [] [.text "1"], .element "G" [] [.text "0"],
                   .element "B" [] [.text "0"]],
                .element "string" [("name", "x")] []]
               ++ (partProperties halvesNum halvesWrite injectedBlock).tail
               ++ [propertyXml "UniqueId" "UniqueId" (generateUniqueId (fun _ => 0) 0).1])]]]
      ++ (getStaticServicesXml (fun _ => 0) 0).1)

/-! ## Properties -/

/-! ### 32-bit arithmetic -/

theorem toUint32_lt (v : Int) : toUint32 v < 4294967296 := by
  unfold toUint32; omega

theorem toUint32_natCast (n : Nat) : toUint32 (n : Int) = n % 4294967296 := by
  unfold toUint32; omega

theorem toInt32_isInt32 (v : Int) : IsInt32 (toInt32 v) := by
  unfold IsInt32 toInt32 toUint32; split <;> omega

theorem toInt32_of_isInt32 {v : Int} (h : IsInt32 v) : toInt32 v = v := by
  unfold IsInt32 at h
  unfold toInt32 toUint32; split <;> omega

theorem toUint32_toInt32 (v : Int) : toUint32 (toInt32 v) = toUint32 v := by
  unfold toInt32 toUint32; split <;> omega

theorem xor_allOnes (x : Nat) (h : x < 4294967296) : x ^^^ 4294967295 = 4294967295 - x := by
  have hx : x < 2 ^ 32 := by norm_num; exact h
  apply Nat.eq_of_testBit_eq
  intro i
  have key := Nat.testBit_two_pow_sub_succ hx i
  have e : (2:Nat) ^ 32 - (x + 1) = 4294967295 - x := by omega
  rw [e] at key
  have h2 : (4294967295 : Nat) = 2 ^ 32 - 1 := by norm_num
  rw [Nat.testBit_xor, key, h2, Nat.testBit_two_pow_sub_one]
  by_cases hi : i < 32
  · simp [hi]
  · simp [hi]
    exact Nat.testBit_lt_two_pow
      (lt_of_lt_of_le hx (Nat.pow_le_pow_right (by norm_num) (by omega)))

/-! ### Zigzag transform -/

theorem transformInt_of_nonneg {v : Int} (h0 : 0 ≤ v) (h1 : v < 2147483648) :
    transformInt v = toInt32 (2 * v) := by
  have a : toInt32 v = v := toInt32_of_isInt32 ⟨by omega, h1⟩
  unfold transformInt jsXor jsShl jsSar
  rw [a]
  have b : v / 2 ^ 31 = 0 := by norm_num; omega
  have c : toUint32 0 = 0 := by decide
  rw [b, c, Nat.xor_zero]
  unfold toInt32 toUint32
  split <;> split <;> omega

theorem transformInt_of_neg {v : Int} (h0 : -2147483648 ≤ v) (h1 : v < 0) :
    transformInt v = toInt32 (-2 * v - 1) := by
  have a : toInt32 v = v := toInt32_of_isInt32 ⟨h0, by omega⟩
  unfold transformInt jsXor jsShl jsSar
  rw [a]
  have b : v / 2 ^ 31 = -1 := by norm_num; omega
  have c : toUint32 (-1) = 4294967295 := by decide
  rw [b, c, xor_allOnes _ (toUint32_lt _)]
  unfold toInt32 toUint32
  split <;> split <;> omega

theorem untransformInt_even {u : Int} (h : toUint32 u % 2 = 0) :
    untransformInt u = ((toUint32 u / 2 : Nat) : Int) := by
  have hu := toUint32_lt u
  unfold untransformInt jsXor jsShr jsAnd
  have a : toUint32 u &&& toUint32 1 = 0 := by
    have : toUint32 1 = 1 := by decide
    rw [this, Nat.and_one_is_mod, h]
  have c : toUint32 (-toInt32 ((0 : Nat) : Int)) = 0 := by decide
  rw [a, c, Nat.xor_zero]
  unfold toInt32 toUint32
  split <;> omega

theorem untransformInt_odd {u : Int} (h : toUint32 u % 2 = 1) :
    untransformInt u = -((toUint32 u / 2 : Nat) : Int) - 1 := by
  have hu := toUint32_lt u
  unfold untransformInt jsXor jsShr jsAnd
  have a : toUint32 u &&& toUint32 1 = 1 := by
    have : toUint32 1 = 1 := by decide
    rw [this, Nat.and_one_is_mod, h]
  have c : toUint32 (-toInt32 ((1 : Nat) : Int)) = 4294967295 := by decide
  have d : toUint32 ((toUint32 u / 2 ^ 1 : Nat) : Int) = toUint32 u / 2 := by
    rw [toUint32_natCast]; omega
  rw [a, c, d, xor_allOnes _ (by omega)]
  unfold toInt32 toUint32
  split <;> omega

theorem untransformInt_transformInt {v : Int} (h : IsInt32 v) :
    untransformInt (transformInt v) = v := by
  unfold IsInt32 at h
  by_cases hv : 0 ≤ v
  · rw [transformInt_of_nonneg hv h.2]
    have e : toUint32 (toInt32 (2 * v)) = (2 * v).toNat := by
      rw [toUint32_toInt32]; unfold toUint32; omega
    rw [untransformInt_even (by rw [e]; omega), e]
    omega
  · rw [transformInt_of_neg h.1 (by omega)]
    have e : toUint32 (toInt32 (-2 * v - 1)) = (-2 * v - 1).toNat := by
      rw [toUint32_toInt32]; unfold toUint32; omega
    rw [untransformInt_odd (by rw [e]; omega), e]
    omega

theorem transformInt_untransformInt {u : Int} (h : IsInt32 u) :
    transformInt (untransformInt u) = u := by
  have hu := toUint32_lt u
  unfold IsInt32 at h
  rcases Nat.mod_two_eq_zero_or_one (toUint32 u) with hp | hp
  · rw [untransformInt_even hp, transformInt_of_nonneg (by omega) (by omega)]
    unfold toInt32
    unfold toUint32 at *
    split <;> omega
  · rw [untransformInt_odd hp, transformInt_of_neg (by omega) (by omega)]
    unfold toInt32
    unfold toUint32 at *
    split <;> omega

/-- C2: for every signed 32-bit `v`, `transformInt v` is `(v << 1) ^ (v >> 31)`;
read as an unsigned 32-bit value it is `2 * v` for `v ≥ 0` and `-2 * v - 1` for
`v < 0`, hence at most `2 * |v|`; and `T(0)=0`, `T(-1)=1`, `T(1)=2`, `T(-2)=3`,
`T(2)=4`. -/
theorem transformInt_zigzag (v : Int) (h : IsInt32 v) :
    transformInt v = jsXor (jsShl v 1) (jsSar v 31) ∧
    (0 ≤ v → (toUint32 (transformInt v) : Int) = 2 * v) ∧
    (v < 0 → (toUint32 (transformInt v) : Int) = -2 * v - 1) ∧
    (toUint32 (transformInt v) : Int) ≤ 2 * |v| ∧
    transformInt 0 = 0 ∧ transformInt (-1) = 1 ∧ transformInt 1 = 2 ∧
    transformInt (-2) = 3 ∧ transformInt 2 = 4 := by
  unfold IsInt32 at h
  have pos : 0 ≤ v → (toUint32 (transformInt v) : Int) = 2 * v := by
    intro hv
    rw [transformInt_of_nonneg hv h.2, toUint32_toInt32]
    unfold toUint32; omega
  have neg : v < 0 → (toUint32 (transformInt v) : Int) = -2 * v - 1 := by
    intro hv
    rw [transformInt_of_neg h.1 hv, toUint32_toInt32]
    unfold toUint32; omega
  refine ⟨rfl, pos, neg, ?_, by decide, by decide, by decide, by decide, by decide⟩
  by_cases hv : 0 ≤ v
  · rw [pos hv, abs_of_nonneg hv]
  · rw [neg (by omega), abs_of_neg (by omega)]; omega

/-- Instance of C2 at `v = -3`, whose unsigned zigzag value is 5. -/
theorem transformInt_zigzag_witness :
    IsInt32 (-3) ∧ (toUint32 (transformInt (-3)) : Int) = -2 * (-3) - 1 :=
  ⟨by decide, (transformInt_zigzag (-3) (by decide)).2.2.1 (by decide)⟩

/-- C3: on signed 32-bit values the inverse zigzag undoes `transformInt`, so
`transformInt` is injective; it is also onto, since `transformInt` undoes the
inverse zigzag. -/
theorem transformInt_bijective :
    (∀ v : Int, IsInt32 v → untransformInt (transformInt v) = v) ∧
    (∀ a b : Int, IsInt32 a → IsInt32 b → transformInt a = transformInt b → a = b) ∧
    (∀ u : Int, IsInt32 u → transformInt (untransformInt u) = u) := by
  refine ⟨fun v h => untransformInt_transformInt h, ?_, fun u h => transformInt_untransformInt h⟩
  intro a b ha hb hab
  rw [← untransformInt_transformInt ha, ← untransformInt_transformInt hb, hab]

/-- Instance of C3 at `v = -7`. -/
theorem transformInt_bijective_witness :
    IsInt32 (-7) ∧ untransformInt (transformInt (-7)) = -7 :=
  ⟨by decide, transformInt_bijective.1 (-7) (by decide)⟩

/-! ### The writer -/

theorem setBytes_length {buf : List Nat} {pos : Nat} {src : List Nat}
    (h : pos + src.length ≤ buf.length) : (setBytes buf pos src).length = buf.length := by
  unfold setBytes
  simp only [List.length_append, List.length_take, List.length_drop]
  omega

theorem setBytes_take {buf : List Nat} {pos : Nat} {src : List Nat}
    (h : pos + src.length ≤ buf.length) :
    (setBytes buf pos src).take (pos + src.length) = buf.take pos ++ src := by
  unfold setBytes
  have hl : (buf.take pos ++ src).length = pos + src.length := by
    simp only [List.length_append, List.length_take]; omega
  rw [← hl, List.take_left']
  rfl

theorem holds_new (size : Nat) : Holds (BinaryWriter.new size) [] := by
  unfold Holds BinaryWriter.new BinaryWriter.getResult
  simp

theorem ensureCapacity_offset (w : BinaryWriter) (n : Nat) :
    (w.ensureCapacity n).offset = w.offset := by
  unfold BinaryWriter.ensureCapacity
  split <;> rfl

theorem ensureCapacity_room {w : BinaryWriter} (h : w.offset ≤ w.buffer.length) (n : Nat) :
    w.offset + n ≤ (w.ensureCapacity n).buffer.length := by
  unfold BinaryWriter.ensureCapacity
  split
  · simp only [setBytes, List.take_zero, List.nil_append, List.length_append, List.length_drop,
      List.length_replicate, Nat.zero_add]
    omega
  · omega

theorem ensureCapacity_take {w : BinaryWriter} (h : w.offset ≤ w.buffer.length) (n : Nat) :
    (w.ensureCapacity n).buffer.take w.offset = w.buffer.take w.offset := by
  unfold BinaryWriter.ensureCapacity
  split
  · simp only [setBytes, List.take_zero, List.nil_append]
    rw [List.take_append_of_le_length h]
  · rfl

theorem holds_ensureCapacity {w : BinaryWriter} {bs : List Nat} (h : Holds w bs) (n : Nat) :
    Holds (w.ensureCapacity n) bs := by
  obtain ⟨h1, h2⟩ := h
  have hr := ensureCapacity_room h1 n
  refine ⟨by rw [ensureCapacity_offset]; omega, ?_⟩
  unfold BinaryWriter.getResult at *
  rw [ensureCapacity_offset, ensureCapacity_take h1, h2]

/-- Writing `src` at the offset after `ensureCapacity src.length` appends `src`. -/
theorem holds_put {w : BinaryWriter} {bs : List Nat} (h : Holds w bs) (src : List Nat) :
    Holds { buffer := setBytes (w.ensureCapacity src.length).buffer
              (w.ensureCapacity src.length).offset src,
            offset := (w.ensureCapacity src.length).offset + src.length } (bs ++ src) := by
  obtain ⟨h1, h2⟩ := h
  have hr := ensureCapacity_room h1 src.length
  have ht := ensureCapacity_take h1 src.length
  rw [ensureCapacity_offset]
  unfold BinaryWriter.getResult at h2
  refine ⟨?_, ?_⟩
  · show w.offset + src.length ≤ (setBytes _ _ _).length
    rw [setBytes_length hr]; exact hr
  · show (setBytes _ _ _).take (w.offset + src.length) = bs ++ src
    rw [setBytes_take hr, ht, h2]

theorem holds_writeBytes {w : BinaryWriter} {bs : List Nat} (h : Holds w bs) (src : List Nat) :
    Holds (w.writeBytes src) (bs ++ src) :=
  holds_put h src

theorem holds_writeUInt32LE {w : BinaryWriter} {bs : List Nat} (h : Holds w bs) (val : Int) :
    Holds (w.writeUInt32LE val) (bs ++ bytesLE32 (toUint32 val)) :=
  holds_put h (bytesLE32 (toUint32 val))

theorem holds_writeUInt32BE {w : BinaryWriter} {bs : List Nat} (h : Holds w bs) (val : Int) :
    Holds (w.writeUInt32BE val) (bs ++ bytesBE32 (toUint32 val)) :=
  holds_put h (bytesBE32 (toUint32 val))

theorem holds_writeInt32LE {w : BinaryWriter} {bs : List Nat} (h : Holds w bs) (val : Int) :
    Holds (w.writeInt32LE val) (bs ++ bytesLE32 (toUint32 val)) := by
  have := holds_put h (bytesLE32 (toUint32 (toInt32 val)))
  rw [toUint32_toInt32] at this
  unfold BinaryWriter.writeInt32LE setInt32
  rw [toUint32_toInt32]
  exact this

theorem holds_writeUInt16LE {w : BinaryWriter} {bs : List Nat} (h : Holds w bs) (val : Int) :
    Holds (w.writeUInt16LE val)
      (bs ++ [(val % 65536).toNat % 256, (val % 65536).toNat / 256 % 256]) :=
  holds_put h [(val % 65536).toNat % 256, (val % 65536).toNat / 256 % 256]

theorem holds_writeUInt8 {w : BinaryWriter} {bs : List Nat} (h : Holds w bs) (val : Int) :
    Holds (w.writeUInt8 val) (bs ++ [(val % 256).toNat]) :=
  holds_put h [(val % 256).toNat]

theorem holds_writeString {w : BinaryWriter} {bs : List Nat} (h : Holds w bs) (str : String) :
    Holds (w.writeString str)
      (bs ++ bytesLE32 (toUint32 ((stringToBytes str).length : Int)) ++ stringToBytes str) :=
  holds_writeBytes (holds_writeUInt32LE h _) _

/-! ### Interleaving -/

theorem bytesBE32_length (u : Nat) : (bytesBE32 u).length = 4 := rfl

theorem bytesBE32_getD (u : Nat) (v : Int) (h : toUint32 v = u) (b : Nat) (hb : b < 4) :
    (bytesBE32 u).getD b 0 = wordByte b v := by
  unfold wordByte bytesBE32
  rw [h]
  interval_cases b <;> simp

/-- The scratch buffer after the first `k` iterations of the first loop. -/
theorem interleaveTemp_loop (values : List Int) (k : Nat) (hk : k ≤ values.length) :
    (List.range k).foldl
      (fun tempBuf i => setUint32 tempBuf (i * 4) (values.getD i 0) false)
      (List.replicate (values.length * 4) 0)
    = (values.take k).flatMap (fun v => bytesBE32 (toUint32 v))
        ++ List.replicate ((values.length - k) * 4) 0 := by
  induction k with
  | zero => simp
  | succ k ih =>
    have hlt : k < values.length := by omega
    rw [List.range_succ, List.foldl_append, ih (by omega)]
    simp only [List.foldl_cons, List.foldl_nil]
    have hlen : ((values.take k).flatMap (fun v => bytesBE32 (toUint32 v))).length = k * 4 := by
      have : ∀ l : List Int, (l.flatMap (fun v => bytesBE32 (toUint32 v))).length = l.length * 4 := by
        intro l
        induction l with
        | nil => rfl
        | cons a l ih2 =>
          simp only [List.flatMap_cons, List.length_append, ih2, bytesBE32_length, List.length_cons]
          omega
      rw [this, List.length_take]; omega
    unfold setUint32 setBytes
    simp only [Bool.false_eq_true, if_false]
    rw [← hlen, List.take_left' rfl, bytesBE32_length]
    have hd : List.drop (((values.take k).flatMap (fun v => bytesBE32 (toUint32 v))).length + 4)
        ((values.take k).flatMap (fun v => bytesBE32 (toUint32 v))
          ++ List.replicate ((values.length - k) * 4) 0)
        = List.replicate ((values.length - (k + 1)) * 4) 0 := by
      rw [← List.drop_drop, List.drop_left' rfl]
      simp only [List.drop_replicate]
      congr 1
      omega
    rw [hd]
    have ht : values.take (k + 1) = values.take k ++ [values.getD k 0] := by
      rw [List.take_succ, List.getD_eq_getElem _ _ hlt, List.getElem?_eq_getElem hlt]
      rfl
    rw [ht, List.flatMap_append]
    simp

theorem interleaveTemp_eq (values : List Int) :
    BinaryWriter.interleaveTemp values = values.flatMap (fun v => bytesBE32 (toUint32 v)) := by
  unfold BinaryWriter.interleaveTemp
  simp only []
  rw [interleaveTemp_loop values values.length (le_refl _)]
  simp

theorem flatMap4_getD (values : List Int) (i b : Nat) (hi : i < values.length) (hb : b < 4) :
    (values.flatMap (fun v => bytesBE32 (toUint32 v))).getD (i * 4 + b) 0
      = wordByte b (values.getD i 0) := by
  induction values generalizing i with
  | nil => simp at hi
  | cons a l ih =>
    rw [List.flatMap_cons]
    cases i with
    | zero =>
      rw [Nat.zero_mul, Nat.zero_add, List.getD_append _ _ _ _ (by rw [bytesBE32_length]; exact hb)]
      exact bytesBE32_getD _ a rfl b hb
    | succ i =>
      have e : (i + 1) * 4 + b = (bytesBE32 (toUint32 a)).length + (i * 4 + b) := by
        rw [bytesBE32_length]; omega
      rw [e, List.getD_append_right _ _ _ _ (by omega)]
      simp only [Nat.add_sub_cancel_left, List.getD_cons_succ]
      exact ih i (by simpa using hi)

theorem range_map_getD {α β : Type} (l : List α) (d : α) (f : α → β) :
    (List.range l.length).map (fun i => f (l.getD i d)) = l.map f := by
  apply List.ext_getElem
  · simp
  · intro n h1 h2
    simp only [List.length_map, List.length_range] at h1
    simp [List.getElem?_eq_getElem h1]

theorem take_set_succ (l : List Nat) (i x : Nat) (h : i < l.length) :
    (l.set i x).take (i + 1) = l.take i ++ [x] := by
  rw [List.set_eq_take_append_cons_drop, if_pos h]
  have e : l.take i ++ x :: l.drop (i + 1) = (l.take i ++ [x]) ++ l.drop (i + 1) := by simp
  rw [e, List.take_left']
  simp only [List.length_append, List.length_take, List.length_singleton]
  omega

/-- The inner copy loop of `writeInterleaved`: `n` bytes are put one after the other. -/
theorem putByte_loop (g : Nat → Nat) (n : Nat) (w : BinaryWriter) (bs : List Nat)
    (hroom : w.offset + n ≤ w.buffer.length) (h : w.getResult = bs) :
    ((List.range n).foldl (fun w i => w.putByte (g i)) w).offset = w.offset + n ∧
    ((List.range n).foldl (fun w i => w.putByte (g i)) w).buffer.length = w.buffer.length ∧
    ((List.range n).foldl (fun w i => w.putByte (g i)) w).getResult
      = bs ++ (List.range n).map g := by
  induction n with
  | zero => simp [h]
  | succ n ih =>
    obtain ⟨h1, h2, h3⟩ := ih (by omega)
    rw [List.range_succ, List.foldl_append, List.map_append]
    simp only [List.foldl_cons, List.foldl_nil, List.map_cons, List.map_nil]
    generalize (List.range n).foldl (fun w i => w.putByte (g i)) w = w1 at h1 h2 h3
    unfold BinaryWriter.putByte BinaryWriter.getResult at *
    simp only [List.length_set]
    refine ⟨by omega, h2, ?_⟩
    rw [take_set_succ _ _ _ (by omega), h3, List.append_assoc]

theorem interleaved_length (values : List Int) : (interleaved values).length = 4 * values.length := by
  unfold interleaved bytePlane
  simp only [List.length_append, List.length_map]
  omega

theorem holds_writeInterleaved {w : BinaryWriter} {bs : List Nat} (h : Holds w bs)
    (values : List Int) : Holds (w.writeInterleaved values) (bs ++ interleaved values) := by
  unfold BinaryWriter.writeInterleaved
  split
  · rename_i h0
    have : values = [] := List.length_eq_zero.mp h0
    subst this
    simpa [interleaved, bytePlane] using h
  · have hc := holds_ensureCapacity h (values.length * 4)
    have hroom := ensureCapacity_room h.1 (values.length * 4)
    rw [← ensureCapacity_offset w (values.length * 4)] at hroom
    simp only [show List.range 4 = [0, 1, 2, 3] from rfl, List.foldl_cons, List.foldl_nil]
    generalize w.ensureCapacity (values.length * 4) = w0 at hc hroom ⊢
    have plane : ∀ b, b < 4 →
        (List.range values.length).map
          (fun i => (BinaryWriter.interleaveTemp values).getD (i * 4 + b) 0) = bytePlane b values := by
      intro b hb
      unfold bytePlane
      rw [← range_map_getD values 0 (wordByte b)]
      apply List.map_congr_left
      intro i hi
      rw [interleaveTemp_eq, flatMap4_getD values i b (List.mem_range.mp hi) hb]
    obtain ⟨a1, a2, a3⟩ := putByte_loop
      (fun i => (BinaryWriter.interleaveTemp values).getD (i * 4 + 0) 0) values.length w0 bs
      (by omega) hc.2
    generalize (List.range values.length).foldl
      (fun w i => w.putByte ((BinaryWriter.interleaveTemp values).getD (i * 4 + 0) 0)) w0 = w1
      at a1 a2 a3 ⊢
    obtain ⟨b1, b2, b3⟩ := putByte_loop
      (fun i => (BinaryWriter.interleaveTemp values).getD (i * 4 + 1) 0) values.length w1 _
      (by omega) a3
    generalize (List.range values.length).foldl
      (fun w i => w.putByte ((BinaryWriter.interleaveTemp values).getD (i * 4 + 1) 0)) w1 = w2
      at b1 b2 b3 ⊢
    obtain ⟨c1, c2, c3⟩ := putByte_loop
      (fun i => (BinaryWriter.interleaveTemp values).getD (i * 4 + 2) 0) values.length w2 _
      (by omega) b3
    generalize (List.range values.length).foldl
      (fun w i => w.putByte ((BinaryWriter.interleaveTemp values).getD (i * 4 + 2) 0)) w2 = w3
      at c1 c2 c3 ⊢
    obtain ⟨d1, d2, d3⟩ := putByte_loop
      (fun i => (BinaryWriter.interleaveTemp values).getD (i * 4 + 3) 0) values.length w3 _
      (by omega) c3
    refine ⟨by omega, ?_⟩
    rw [d3, plane 0 (by omega), plane 1 (by omega), plane 2 (by omega), plane 3 (by omega)]
    unfold interleaved
    simp only [List.append_assoc]

theorem interleaved_getD (values : List Int) (b i : Nat) (hb : b < 4) (hi : i < values.length) :
    (interleaved values).getD (b * values.length + i) 0 = wordByte b (values.getD i 0) := by
  have hp : ∀ c, (bytePlane c values).length = values.length := fun c => by
    unfold bytePlane; simp
  have hg : ∀ c, (bytePlane c values).getD i 0 = wordByte c (values.getD i 0) := fun c => by
    unfold bytePlane
    rw [List.getD_eq_getElem _ _ (by simpa using hi), List.getD_eq_getElem _ _ hi]
    simp
  unfold interleaved
  interval_cases b
  · rw [List.getD_append _ _ _ _ (by simp only [List.length_append, hp]; omega),
      List.getD_append _ _ _ _ (by simp only [List.length_append, hp]; omega),
      List.getD_append _ _ _ _ (by simp only [hp]; omega)]
    simpa using hg 0
  · rw [List.getD_append _ _ _ _ (by simp only [List.length_append, hp]; omega),
      List.getD_append _ _ _ _ (by simp only [List.length_append, hp]; omega),
      List.getD_append_right _ _ _ _ (by simp only [hp]; omega)]
    simpa [hp] using hg 1
  · rw [List.getD_append _ _ _ _ (by simp only [List.length_append, hp]; omega),
      List.getD_append_right _ _ _ _ (by simp only [List.length_append, hp]; omega)]
    simp only [List.length_append, hp]
    rw [show 2 * values.length + i - (values.length + values.length) = i by omega]
    exact hg 2
  · rw [List.getD_append_right _ _ _ _ (by simp only [List.length_append, hp]; omega)]
    simp only [List.length_append, hp]
    rw [show 3 * values.length + i - (values.length + values.length + values.length) = i by omega]
    exact hg 3

theorem wordBytes_sum (v : Int) :
    wordByte 0 v * 16777216 + wordByte 1 v * 65536 + wordByte 2 v * 256 + wordByte 3 v
      = toUint32 v := by
  have h := toUint32_lt v
  unfold wordByte
  norm_num
  omega

theorem deinterleave_interleaved (values : List Int) :
    deinterleave (interleaved values) = values.map toUint32 := by
  unfold deinterleave
  simp only [interleaved_length]
  rw [show 4 * values.length / 4 = values.length by omega,
    ← range_map_getD values 0 toUint32]
  apply List.map_congr_left
  intro i hi
  have hi := List.mem_range.mp hi
  have h0 := interleaved_getD values 0 i (by omega) hi
  have h1 := interleaved_getD values 1 i (by omega) hi
  have h2 := interleaved_getD values 2 i (by omega) hi
  have h3 := interleaved_getD values 3 i (by omega) hi
  simp only [Nat.zero_mul, Nat.zero_add, Nat.one_mul] at h0 h1
  rw [h0, h1, h2, h3, wordBytes_sum]

/-! ### Delta encoding of referents -/

theorem transformInt_isInt32 (v : Int) : IsInt32 (transformInt v) := by
  unfold transformInt jsXor
  exact toInt32_isInt32 _

theorem instReferents_loop {F : Type} (instList : List (InstanceRecord F)) (pre : List Int)
    (last : Int) :
    (instList.foldl
      (fun (acc : List Int × Int) inst =>
        (acc.1 ++ [toInt32 (transformInt (inst.id - acc.2))], inst.id))
      (pre, last)).1 = pre ++ zigzagDeltas last (instList.map (fun i => i.id)) := by
  induction instList generalizing pre last with
  | nil => simp [zigzagDeltas]
  | cons a l ih =>
    simp only [List.foldl_cons, List.map_cons, zigzagDeltas]
    rw [ih, toInt32_of_isInt32 (transformInt_isInt32 _)]
    simp

theorem instReferents_eq {F : Type} (instList : List (InstanceRecord F)) :
    instReferents instList = zigzagDeltas 0 (instList.map (fun i => i.id)) := by
  unfold instReferents
  simpa using instReferents_loop instList [] 0

theorem untransformInt_toUint32 (x : Int) :
    untransformInt ((toUint32 x : Nat) : Int) = untransformInt x := by
  have e : toUint32 ((toUint32 x : Nat) : Int) = toUint32 x := by
    unfold toUint32; omega
  unfold untransformInt jsShr jsAnd
  rw [e]

/-- Running sums of the decoded deltas give back the ids, as long as every id is
a non-negative signed 32-bit value. -/
theorem runningSum_zigzagDeltas (ids : List Int) (last : Int)
    (hlast : 0 ≤ last ∧ last < 2147483648)
    (hids : ∀ id ∈ ids, 0 ≤ id ∧ id < 2147483648) :
    runningSum last
      (((zigzagDeltas last ids).map toUint32).map (fun (u : Nat) => untransformInt (u : Int))) = ids := by
  induction ids generalizing last with
  | nil => rfl
  | cons a l ih =>
    have ha := hids a (List.mem_cons_self _ _)
    simp only [zigzagDeltas, List.map_cons, runningSum]
    rw [untransformInt_toUint32,
      untransformInt_transformInt (by unfold IsInt32; omega)]
    have e : last + (a - last) = a := by omega
    rw [e, ih a ha (fun id hid => hids id (List.mem_cons_of_mem _ hid))]

/-- C4: on a consistent writer, `writeInterleaved` appends exactly the
`4 * N` bytes of the interleaved layout, in which the byte at relative offset
`b * N + i` is byte `b` (most significant first) of value `i` modulo 2^32;
for the empty array the writer is returned unchanged. -/
theorem writeInterleaved_layout (w : BinaryWriter) (hw : w.offset ≤ w.buffer.length)
    (values : List Int) :
    (w.writeInterleaved values).getResult = w.getResult ++ interleaved values ∧
    (w.writeInterleaved values).offset = w.offset + 4 * values.length ∧
    (w.writeInterleaved values).offset ≤ (w.writeInterleaved values).buffer.length ∧
    (interleaved values).length = 4 * values.length ∧
    (∀ b i : Nat, b < 4 → i < values.length →
      (interleaved values)[b * values.length + i]?
        = some (toUint32 (values.getD i 0) / 256 ^ (3 - b) % 256)) ∧
    (values = [] → w.writeInterleaved values = w) := by
  have h := holds_writeInterleaved (show Holds w w.getResult from ⟨hw, rfl⟩) values
  have hlen := interleaved_length values
  refine ⟨h.2, ?_, h.1, hlen, ?_, ?_⟩
  · have e := congrArg List.length h.2
    unfold BinaryWriter.getResult at e
    simp only [List.length_take, List.length_append, hlen] at e
    have := h.1
    omega
  · intro b i hb hi
    have hlt : b * values.length + i < (interleaved values).length := by
      rw [hlen]
      have : b * values.length ≤ 3 * values.length := Nat.mul_le_mul_right _ (by omega)
      omega
    rw [List.getElem?_eq_getElem hlt, ← List.getD_eq_getElem _ 0 hlt,
      interleaved_getD values b i hb hi]
    rfl
  · intro hv
    subst hv
    rfl

/-- Instance of C4: the values 1 and 258 written into an empty writer. -/
theorem writeInterleaved_layout_witness :
    (BinaryWriter.new 0).offset ≤ (BinaryWriter.new 0).buffer.length ∧
    ((BinaryWriter.new 0).writeInterleaved [1, 258]).getResult
      = (BinaryWriter.new 0).getResult ++ interleaved [1, 258] ∧
    interleaved [1, 258] = [0, 0, 0, 0, 0, 1, 1, 2] :=
  ⟨by decide, (writeInterleaved_layout (BinaryWriter.new 0) (by decide) [1, 258]).1, by decide⟩

/-- C1: the referent array of an INST chunk (delta from the previous id starting
at 0, zigzag, interleave) decodes back to the ids of the instances, for every
list of instances whose ids are non-negative signed 32-bit values; and
de-interleaving what `writeInterleaved` wrote gives back the 32-bit words, for
every array including the empty one. -/
theorem referents_roundtrip (F : Type) (size : Nat) :
    (∀ instList : List (InstanceRecord F),
      (∀ inst ∈ instList, 0 ≤ inst.id ∧ inst.id < 2147483648) →
      decodeReferents
        ((BinaryWriter.new size).writeInterleaved (instReferents instList)).getResult
        = instList.map (fun i => i.id)) ∧
    (∀ values : List Int,
      deinterleave ((BinaryWriter.new size).writeInterleaved values).getResult
        = values.map toUint32) := by
  have hw : ∀ values : List Int,
      ((BinaryWriter.new size).writeInterleaved values).getResult = interleaved values := by
    intro values
    have := (holds_writeInterleaved (holds_new size) values).2
    simpa using this
  refine ⟨?_, ?_⟩
  · intro instList hids
    rw [hw, instReferents_eq]
    unfold decodeReferents
    rw [deinterleave_interleaved]
    apply runningSum_zigzagDeltas _ 0 (by omega)
    intro id hid
    obtain ⟨inst, hinst, rfl⟩ := List.mem_map.mp hid
    exact hids inst hinst
  · intro values
    rw [hw, deinterleave_interleaved]

/-- Instance of C1: three instances with the ids 0, 2 and 5. -/
theorem referents_roundtrip_witness :
    (∀ inst ∈ [bareInstance 0 "Part" (-1), bareInstance 2 "Part" 0, bareInstance 5 "Part" 0],
      0 ≤ inst.id ∧ inst.id < 2147483648) ∧
    decodeReferents
      ((BinaryWriter.new 16).writeInterleaved (instReferents
        [bareInstance 0 "Part" (-1), bareInstance 2 "Part" 0, bareInstance 5 "Part" 0])).getResult
      = [0, 2, 5] :=
  ⟨by decide, (referents_roundtrip Int 16).1 _ (by decide)⟩

/-! ### Chunk framing -/

theorem bytesLE32_length (u : Nat) : (bytesLE32 u).length = 4 := rfl

theorem valueLE32_bytesLE32 (u : Nat) (h : u < 4294967296) : valueLE32 (bytesLE32 u) = u := by
  unfold valueLE32 bytesLE32
  simp only [List.getD_cons_zero, List.getD_cons_succ]
  omega

theorem finalName_eq (nameBytes : List Nat) :
    setBytes (List.replicate 4 0) 0 (nameBytes.take 4)
      = (nameBytes ++ List.replicate 4 0).take 4 := by
  unfold setBytes
  simp only [List.take_zero, List.nil_append, Nat.zero_add, List.drop_replicate,
    List.take_append_eq_append_take, List.take_replicate]
  congr 2
  simp only [List.length_take]
  omega

theorem chunkName_length (name : String) : (chunkName name).length = 4 := by
  unfold chunkName
  simp

theorem holds_writeString' {w : BinaryWriter} {bs : List Nat} (h : Holds w bs) (str : String) :
    Holds (w.writeString str) (bs ++ lengthPrefixed str) := by
  have := holds_writeString h str
  rw [toUint32_natCast, List.append_assoc] at this
  exact this

theorem holds_writeChunk {w : BinaryWriter} {bs : List Nat} (h : Holds w bs) (name : String)
    (data : List Nat) : Holds (writeChunk w name data) (bs ++ chunkBytes name data) := by
  have h1 := holds_writeBytes h (setBytes (List.replicate 4 0) 0 ((stringToBytes name).take 4))
  have h2 := holds_writeUInt32LE h1 0
  have h3 := holds_writeUInt32LE h2 (data.length : Int)
  have h4 := holds_writeUInt32LE h3 0
  have h5 := holds_writeBytes h4 data
  have z : bytesLE32 (toUint32 0) = [0, 0, 0, 0] := by decide
  rw [toUint32_natCast, z] at h5
  have e : bs ++ chunkBytes name data
      = bs ++ setBytes (List.replicate 4 0) 0 ((stringToBytes name).take 4) ++ [0, 0, 0, 0]
          ++ bytesLE32 (data.length % 4294967296) ++ [0, 0, 0, 0] ++ data := by
    rw [finalName_eq]
    unfold chunkBytes chunkName
    simp only [List.append_assoc]
  rw [e]
  exact h5

/-- C5: on a consistent writer, `writeChunk` appends exactly `16 + len(payload)`
bytes: the first 4 bytes of the name padded with zero bytes, four zero bytes
for the compressed length, the payload length as 4 little-endian bytes, four
reserved zero bytes and the payload unchanged; `END` becomes `45 4E 44 00`, a
longer name is cut to 4 bytes. -/
theorem writeChunk_layout (w : BinaryWriter) (hw : w.offset ≤ w.buffer.length) (name : String)
    (data : List Nat) :
    (writeChunk w name data).getResult
      = w.getResult ++ ((stringToBytes name ++ [0, 0, 0, 0]).take 4 ++ bytesLE32 0
          ++ bytesLE32 (data.length % 4294967296) ++ [0, 0, 0, 0] ++ data) ∧
    (writeChunk w name data).getResult.length = w.getResult.length + (16 + data.length) ∧
    ((stringToBytes name ++ [0, 0, 0, 0]).take 4).length = 4 ∧
    (data.length < 4294967296 → valueLE32 (bytesLE32 (data.length % 4294967296)) = data.length) ∧
    (stringToBytes "END" ++ [0, 0, 0, 0]).take 4 = [0x45, 0x4E, 0x44, 0x00] ∧
    (stringToBytes "ENDING" ++ [0, 0, 0, 0]).take 4 = [0x45, 0x4E, 0x44, 0x49] := by
  have h := (holds_writeChunk (show Holds w w.getResult from ⟨hw, rfl⟩) name data).2
  have hn := chunkName_length name
  unfold chunkName at hn
  refine ⟨?_, ?_, hn, ?_, by decide, by decide⟩
  · rw [h]; rfl
  · rw [h]
    unfold chunkBytes
    simp only [List.length_append, chunkName_length, bytesLE32_length, List.length_cons,
      List.length_nil]
  · intro hlt
    rw [Nat.mod_eq_of_lt hlt, valueLE32_bytesLE32 _ hlt]

/-- Instance of C5: an `END` chunk with a three-byte payload written into an empty writer. -/
theorem writeChunk_layout_witness :
    (BinaryWriter.new 0).offset ≤ (BinaryWriter.new 0).buffer.length ∧
    (writeChunk (BinaryWriter.new 0) "END" [7, 8, 9]).getResult
      = [0x45, 0x4E, 0x44, 0, 0, 0, 0, 0, 3, 0, 0, 0, 0, 0, 0, 0, 7, 8, 9] :=
  ⟨by decide, (writeChunk_layout (BinaryWriter.new 0) (by decide) "END" [7, 8, 9]).1.trans
    (by decide)⟩

/-! ### Payloads of the INST, PRNT and PROP chunks -/

theorem serviceNames_contains (c : String) : serviceNames.contains c = true ↔ c ∈ serviceNames := by
  simp [List.contains_iff_exists_mem_beq]

theorem serviceClass_contains (c : Option String) :
    (serviceNames.map some).contains c = true ↔ c ∈ serviceNames.map some := by
  simp [List.contains_iff_exists_mem_beq]

theorem instPayload_eq {F : Type} (classIds : List (Option String × Int))
    (className : Option String) (instList : List (InstanceRecord F)) :
    instPayload classIds className instList
      = bytesLE32 (toUint32 (classIdOf classIds className))
          ++ lengthPrefixed (className.getD "")
          ++ [if className ∈ serviceNames.map some then 1 else 0]
          ++ bytesLE32 (instList.length % 4294967296)
          ++ interleaved (zigzagDeltas 0 (instList.map (fun i => i.id)))
          ++ (if className ∈ serviceNames.map some then List.replicate instList.length 1
              else []) := by
  have h1 := holds_writeUInt32LE (holds_new defaultSize) (classIdOf classIds className)
  have h2 := holds_writeString' h1 (className.getD "")
  have h3 := holds_writeUInt8 h2 (if (serviceNames.map some).contains className then 1 else 0)
  have h4 := holds_writeUInt32LE h3 (instList.length : Int)
  have h5 := holds_writeInterleaved h4 (instReferents instList)
  have b1 : ((1 : Int) % 256).toNat = 1 := by decide
  have b0 : ((0 : Int) % 256).toNat = 0 := by decide
  rw [toUint32_natCast] at h5
  unfold instPayload
  rw [← instReferents_eq]
  simp only [List.nil_append] at h5
  by_cases hs : className ∈ serviceNames.map some
  · have hc := (serviceClass_contains className).mpr hs
    have h6 := holds_writeBytes h5 (List.replicate instList.length 1)
    simp only [hc, if_true, b1] at h6 ⊢
    rw [if_pos hs, if_pos hs]
    exact h6.2
  · have hc : (serviceNames.map some).contains className = false := by
      rw [← Bool.not_eq_true, serviceClass_contains]; exact hs
    simp only [hc, Bool.false_eq_true, if_false, b0] at h5 ⊢
    rw [if_neg hs, if_neg hs, List.append_nil]
    exact h5.2

theorem prnt_loop {F : Type} (instances : List (InstanceRecord F)) (acc : PrntAcc) :
    (instances.foldl prntStep acc).deltaChild
      = acc.deltaChild ++ zigzagDeltas acc.lastChild (instances.map (fun i => i.id)) ∧
    (instances.foldl prntStep acc).deltaParent
      = acc.deltaParent ++ zigzagDeltas acc.lastParent (instances.map (fun i => i.parentId)) := by
  induction instances generalizing acc with
  | nil => simp [zigzagDeltas]
  | cons a l ih =>
    simp only [List.foldl_cons, List.map_cons, zigzagDeltas]
    obtain ⟨h1, h2⟩ := ih (prntStep acc a)
    rw [h1, h2]
    simp only [prntStep, toInt32_of_isInt32 (transformInt_isInt32 _), List.append_assoc,
      List.singleton_append, and_self]

theorem zigzagDeltas_length (last : Int) (ids : List Int) :
    (zigzagDeltas last ids).length = ids.length := by
  induction ids generalizing last with
  | nil => rfl
  | cons a l ih => simp [zigzagDeltas, ih]

theorem prntPayload_eq {F : Type} (instances : List (InstanceRecord F)) :
    prntPayload instances
      = [0] ++ bytesLE32 (instances.length % 4294967296)
          ++ interleaved (zigzagDeltas 0 (instances.map (fun i => i.id)))
          ++ interleaved (zigzagDeltas 0 (instances.map (fun i => i.parentId))) := by
  have h1 := holds_writeUInt8 (holds_new defaultSize) 0
  have h2 := holds_writeUInt32LE h1 (instances.length : Int)
  obtain ⟨e1, e2⟩ := prnt_loop instances
    { lastChild := 0, lastParent := 0, deltaChild := [], deltaParent := [] }
  have h3 := holds_writeInterleaved h2 (instances.foldl prntStep
    { lastChild := 0, lastParent := 0, deltaChild := [], deltaParent := [] }).deltaChild
  have h4 := holds_writeInterleaved h3 (instances.foldl prntStep
    { lastChild := 0, lastParent := 0, deltaChild := [], deltaParent := [] }).deltaParent
  have b0 : ((0 : Int) % 256).toNat = 0 := by decide
  rw [toUint32_natCast, b0] at h4
  simp only [List.nil_append] at e1 e2 h4
  rw [← e1, ← e2]
  exact h4.2

theorem holds_foldl_append {α : Type} (step : BinaryWriter → α → BinaryWriter)
    (out : α → List Nat)
    (hstep : ∀ (w : BinaryWriter) (bs : List Nat) (a : α), Holds w bs → Holds (step w a) (bs ++ out a))
    (values : List α) {w : BinaryWriter} {bs : List Nat} (h : Holds w bs) :
    Holds (values.foldl step w) (bs ++ values.flatMap out) := by
  induction values generalizing w bs with
  | nil => simpa using h
  | cons a l ih =>
    simp only [List.foldl_cons, List.flatMap_cons]
    rw [← List.append_assoc]
    exact ih (hstep w bs a h)

theorem flatMap_single {α β : Type} (f : α → β) (l : List α) :
    l.flatMap (fun v => [f v]) = l.map f := by
  induction l with
  | nil => rfl
  | cons a l ih => simp [List.flatMap_cons, ih]

theorem allDefined_map_some {α : Type} (values : List α) :
    allDefined (values.map some) = some values := by
  unfold allDefined
  induction values with
  | nil => rfl
  | cons a l ih =>
    simp only [List.map_cons, List.mapM_cons, ih]
    rfl

theorem propPayload_header (classId : Int) (propName : String) (tag : Int) :
    Holds ((((BinaryWriter.new defaultSize).writeUInt32LE classId).writeString propName).writeUInt8
        tag)
      (bytesLE32 (toUint32 classId) ++ lengthPrefixed propName ++ [(tag % 256).toNat]) := by
  have h1 := holds_writeUInt32LE (holds_new defaultSize) classId
  have h2 := holds_writeString' h1 propName
  have h3 := holds_writeUInt8 h2 tag
  simpa using h3

/-- The PROP payload of a String property: every value length-prefixed, in sequence. -/
theorem propPayload_string {F : Type} (N : NumOps F) (classId : Int) (propName : String)
    (values : List (Option String)) :
    propPayload N classId propName (.string values)
      = some (bytesLE32 (toUint32 classId) ++ lengthPrefixed propName ++ [0x1]
          ++ values.flatMap (fun v => lengthPrefixed (v.getD ""))) := by
  have h := holds_foldl_append (fun chunk (v : Option String) => chunk.writeString (v.getD ""))
    (fun v => lengthPrefixed (v.getD "")) (fun w bs a hw => holds_writeString' hw _) values
    (propPayload_header classId propName 0x1)
  exact congrArg some h.2

/-- C10: the PROP payload is the class id as 4 little-endian bytes, the
length-prefixed property name, the tag byte and then, by tag: String, every
value length-prefixed in sequence; Bool, one byte 1 or 0 per value; Int32 and
EnumToken, the interleaved array of `transformInt` of the values; Float32, the
interleaved array of the raw single-precision bit patterns; Color3, the three
interleaved arrays of the r, g and b bit patterns; Vector3, those of x, y and z. -/
theorem propPayload_layout (F : Type) (N : NumOps F) (classId : Int) (propName : String) :
    (∀ values : List (Option String),
      propPayload N classId propName (.string values)
        = some (bytesLE32 (toUint32 classId) ++ lengthPrefixed propName ++ [0x1]
            ++ values.flatMap (fun v => lengthPrefixed (v.getD "")))) ∧
    (∀ values : List (Option Bool),
      propPayload N classId propName (.bool values)
        = some (bytesLE32 (toUint32 classId) ++ lengthPrefixed propName ++ [0x2]
            ++ values.map (fun v => if v.getD false then 1 else 0))) ∧
    (∀ values : List (Option Int),
      propPayload N classId propName (.int32 values)
        = some (bytesLE32 (toUint32 classId) ++ lengthPrefixed propName ++ [0x3]
            ++ interleaved (values.map (fun v => transformInt (v.getD 0))))) ∧
    (∀ values : List (Option Int),
      propPayload N classId propName (.enum values)
        = some (bytesLE32 (toUint32 classId) ++ lengthPrefixed propName ++ [0x12]
            ++ interleaved (values.map (fun v => transformInt (v.getD 0))))) ∧
    (∀ values : List (Option F),
      propPayload N classId propName (.float32 values)
        = some (bytesLE32 (toUint32 classId) ++ lengthPrefixed propName ++ [0x4]
            ++ interleaved (values.map (fun v => (N.float32Bits (v.getD N.nan) : Int))))) ∧
    (∀ values : List (Color F),
      propPayload N classId propName (.color3 (values.map some))
        = some (bytesLE32 (toUint32 classId) ++ lengthPrefixed propName ++ [0xC]
            ++ interleaved (values.map (fun v => (N.float32Bits v.r : Int)))
            ++ interleaved (values.map (fun v => (N.float32Bits v.g : Int)))
            ++ interleaved (values.map (fun v => (N.float32Bits v.b : Int)))) ∧
      (interleaved (values.map (fun v => (N.float32Bits v.r : Int)))).length = 4 * values.length ∧
      (interleaved (values.map (fun v => (N.float32Bits v.g : Int)))).length = 4 * values.length ∧
      (interleaved (values.map (fun v => (N.float32Bits v.b : Int)))).length
        = 4 * values.length) ∧
    (∀ values : List (Vector3 F),
      propPayload N classId propName (.vector3 (values.map some))
        = some (bytesLE32 (toUint32 classId) ++ lengthPrefixed propName ++ [0xE]
            ++ interleaved (values.map (fun v => (N.float32Bits v.x : Int)))
            ++ interleaved (values.map (fun v => (N.float32Bits v.y : Int)))
            ++ interleaved (values.map (fun v => (N.float32Bits v.z : Int)))) ∧
      (interleaved (values.map (fun v => (N.float32Bits v.x : Int)))).length = 4 * values.length ∧
      (interleaved (values.map (fun v => (N.float32Bits v.y : Int)))).length = 4 * values.length ∧
      (interleaved (values.map (fun v => (N.float32Bits v.z : Int)))).length
        = 4 * values.length) := by
  have hd := fun tag => propPayload_header classId propName tag
  refine ⟨propPayload_string N classId propName, ?_, ?_, ?_, ?_, ?_, ?_⟩
  · intro values
    have h := holds_foldl_append
      (fun chunk (v : Option Bool) => chunk.writeUInt8 (if v.getD false then 1 else 0))
      (fun v => [if v.getD false then 1 else 0])
      (fun w bs a hw => by
        have b1 : ((1 : Int) % 256).toNat = 1 := by decide
        have b0 : ((0 : Int) % 256).toNat = 0 := by decide
        have := holds_writeUInt8 hw (if a.getD false then 1 else 0)
        show Holds (w.writeUInt8 (if a.getD false = true then 1 else 0))
          (bs ++ [if a.getD false = true then 1 else 0])
        cases hb : a.getD false
        · simp only [hb, Bool.false_eq_true, if_false, b0] at this ⊢
          exact this
        · simp only [hb, if_true, b1] at this ⊢
          exact this)
      values (hd 0x2)
    rw [flatMap_single] at h
    exact congrArg some h.2
  · intro values
    exact congrArg some (holds_writeInterleaved (hd 0x3) _).2
  · intro values
    exact congrArg some (holds_writeInterleaved (hd 0x12) _).2
  · intro values
    exact congrArg some (holds_writeInterleaved (hd 0x4) _).2
  · intro values
    refine ⟨?_, ?_, ?_, ?_⟩
    · have h := holds_writeInterleaved (holds_writeInterleaved (holds_writeInterleaved (hd 0xC)
        (values.map (fun v => transformFloat N (some v.r))))
        (values.map (fun v => transformFloat N (some v.g))))
        (values.map (fun v => transformFloat N (some v.b)))
      unfold propPayload writePropValues
      simp only [allDefined_map_some, Option.map_some']
      exact congrArg some h.2
    all_goals simp [interleaved_length]
  · intro values
    refine ⟨?_, ?_, ?_, ?_⟩
    · have h := holds_writeInterleaved (holds_writeInterleaved (holds_writeInterleaved (hd 0xE)
        (values.map (fun v => transformFloat N (some v.x))))
        (values.map (fun v => transformFloat N (some v.y))))
        (values.map (fun v => transformFloat N (some v.z)))
      unfold propPayload writePropValues
      simp only [allDefined_map_some, Option.map_some']
      exact congrArg some h.2
    all_goals simp [interleaved_length]

/-! ### Grouping by class -/

theorem mapHas_iff {α : Type} (m : List (Option String × α)) (key : Option String) :
    mapHas m key = true ↔ key ∈ m.map Prod.fst := by
  unfold mapHas
  simp only [List.any_eq_true, beq_iff_eq, List.mem_map]

theorem map_fst_push {F : Type} (inst : InstanceRecord F)
    (classes : List (Option String × List (InstanceRecord F))) :
    (classes.map (fun e => if e.1 = inst.className then (e.1, e.2 ++ [inst]) else e)).map Prod.fst
      = classes.map Prod.fst := by
  rw [List.map_map]
  apply List.map_congr_left
  intro e _
  by_cases hc : e.1 = inst.className <;> simp [hc]

theorem filter_class_append {F : Type} (pre : List (InstanceRecord F)) (inst : InstanceRecord F)
    (c : Option String) :
    (pre ++ [inst]).filter (fun i => i.className = c)
      = pre.filter (fun i => i.className = c) ++ (if inst.className = c then [inst] else []) := by
  rw [List.filter_append]
  by_cases hc : inst.className = c <;> simp [hc]

/-- The grouping step when the class of the instance is already a key. -/
theorem groupInv_step_old {F : Type} {pre : List (InstanceRecord F)} {m : ClassMaps F}
    (h : GroupInv pre m) (inst : InstanceRecord F)
    (hk : inst.className ∈ m.classes.map Prod.fst) :
    GroupInv (pre ++ [inst])
      { classes := m.classes.map
          (fun e => if e.1 = inst.className then (e.1, e.2 ++ [inst]) else e),
        classIds := m.classIds } := by
  refine ⟨?_, ?_, ?_, ?_, ?_⟩
  · show _ = List.map Prod.fst (List.map _ m.classes)
    rw [map_fst_push]; exact h.keys_eq
  · show (List.map Prod.fst (List.map _ m.classes)).Nodup
    rw [map_fst_push]; exact h.nodup
  · show ∀ (i : Nat) (c : Option String), (List.map Prod.fst (List.map _ m.classes))[i]? = some c → _
    rw [map_fst_push]; exact h.ids
  · intro e' he'
    obtain ⟨e, he, rfl⟩ := List.mem_map.mp he'
    have hm := h.members e he
    by_cases hc : e.1 = inst.className
    · rw [if_pos hc, filter_class_append, if_pos hc.symm]
      show e.2 ++ [inst] = _
      rw [hm]
    · rw [if_neg hc, filter_class_append, if_neg (fun x => hc x.symm), List.append_nil]
      exact hm
  · intro c
    show c ∈ List.map Prod.fst (List.map _ m.classes) ↔ _
    rw [map_fst_push, h.keys_mem c]
    simp only [List.map_append, List.mem_append, List.map_cons, List.map_nil,
      List.mem_singleton]
    constructor
    · exact Or.inl
    · rintro (hc | rfl)
      · exact hc
      · exact (h.keys_mem _).mp hk

/-- The grouping step when the class of the instance is new. -/
theorem groupInv_step_new {F : Type} {pre : List (InstanceRecord F)} {m : ClassMaps F}
    (h : GroupInv pre m) (inst : InstanceRecord F)
    (hk : inst.className ∉ m.classes.map Prod.fst) :
    GroupInv (pre ++ [inst])
      { classes := (m.classes ++ [(inst.className, [])]).map
          (fun (e : Option String × List (InstanceRecord F)) =>
            if e.1 = inst.className then (e.1, e.2 ++ [inst]) else e),
        classIds := m.classIds ++ [(inst.className, (m.classIds.length : Int))] } := by
  have hk2 : inst.className ∉ pre.map (fun i => i.className) := fun x => hk ((h.keys_mem _).mpr x)
  have hlen : m.classIds.length = (m.classes.map Prod.fst).length := by
    rw [← h.keys_eq, List.length_map]
  have hkeys : List.map Prod.fst (List.map
      (fun (e : Option String × List (InstanceRecord F)) =>
        if e.1 = inst.className then (e.1, e.2 ++ [inst]) else e)
      (m.classes ++ [(inst.className, [])])) = m.classes.map Prod.fst ++ [inst.className] := by
    rw [map_fst_push, List.map_append]
    rfl
  refine ⟨?_, ?_, ?_, ?_, ?_⟩
  · show List.map Prod.fst (m.classIds ++ _) = List.map Prod.fst (List.map _ _)
    rw [hkeys, List.map_append, h.keys_eq]
    rfl
  · show (List.map Prod.fst (List.map _ _)).Nodup
    rw [hkeys]
    apply List.Nodup.append h.nodup (List.nodup_singleton _)
    intro a ha hb
    rw [List.mem_singleton] at hb
    exact hk (hb ▸ ha)
  · show ∀ (i : Nat) (c : Option String), (List.map Prod.fst (List.map _ _))[i]? = some c →
      List.lookup c (m.classIds ++ _) = _
    rw [hkeys]
    intro i c hic
    rw [List.lookup_append]
    by_cases hi : i < (m.classes.map Prod.fst).length
    · rw [List.getElem?_append_left hi] at hic
      rw [h.ids i c hic]
      rfl
    · rw [List.getElem?_append_right (by omega)] at hic
      have hi0 : i - (m.classes.map Prod.fst).length = 0 := by
        by_contra hne
        rw [List.getElem?_eq_none (by simp only [List.length_singleton]; omega)] at hic
        exact Option.noConfusion hic
      rw [hi0] at hic
      simp only [List.getElem?_cons_zero, Option.some.injEq] at hic
      subst hic
      have hnone : m.classIds.lookup inst.className = none := by
        rw [List.lookup_eq_none_iff]
        intro p hp
        simp only [bne_iff_ne, ne_eq]
        intro hpe
        apply hk
        rw [← h.keys_eq, hpe]
        exact List.mem_map_of_mem _ hp
      rw [hnone]
      simp only [Option.or, List.lookup_cons_self, Option.some.injEq, Nat.cast_inj]
      omega
  · intro e' he'
    obtain ⟨e, he, rfl⟩ := List.mem_map.mp he'
    rcases List.mem_append.mp he with he | he
    · have hm := h.members e he
      have hc : e.1 ≠ inst.className := by
        intro hc
        apply hk
        rw [← hc]
        exact List.mem_map_of_mem _ he
      rw [if_neg hc, filter_class_append, if_neg (fun x => hc x.symm), List.append_nil]
      exact hm
    · simp only [List.mem_singleton] at he
      subst he
      have hnil : pre.filter (fun i => decide (i.className = inst.className)) = [] := by
        rw [List.filter_eq_nil_iff]
        intro a ha
        simp only [decide_eq_true_eq]
        intro hc
        apply hk2
        rw [← hc]
        exact List.mem_map_of_mem _ ha
      rw [if_pos rfl, filter_class_append, if_pos rfl]
      show [] ++ [inst] = _
      rw [hnil]
  · intro c
    show c ∈ List.map Prod.fst (List.map _ _) ↔ _
    rw [hkeys]
    simp only [List.map_append, List.mem_append, List.map_cons, List.map_nil,
      List.mem_singleton]
    rw [h.keys_mem c]

theorem groupInv_step {F : Type} {pre : List (InstanceRecord F)} {m : ClassMaps F}
    (h : GroupInv pre m) (inst : InstanceRecord F) :
    GroupInv (pre ++ [inst]) (groupStep m inst) := by
  unfold groupStep
  by_cases hh : mapHas m.classes inst.className = true
  · simp only [hh, Bool.not_true, Bool.false_eq_true, if_false]
    exact groupInv_step_old h inst ((mapHas_iff _ _).mp hh)
  · simp only [hh, Bool.not_false, if_true]
    exact groupInv_step_new h inst (fun x => hh ((mapHas_iff _ _).mpr x))

theorem groupInv_foldl {F : Type} (l : List (InstanceRecord F)) {pre : List (InstanceRecord F)}
    {m : ClassMaps F} (h : GroupInv pre m) : GroupInv (pre ++ l) (l.foldl groupStep m) := by
  induction l generalizing pre m with
  | nil => simpa using h
  | cons a l ih =>
    have := ih (groupInv_step h a)
    simpa using this

theorem groupInv_groupByClass {F : Type} (instances : List (InstanceRecord F)) :
    GroupInv instances (groupByClass instances) := by
  have h0 : GroupInv ([] : List (InstanceRecord F)) { classes := [], classIds := [] } :=
    ⟨rfl, List.nodup_nil, by intro i c h; simp at h, by intro e he; simp at he, by intro c; simp⟩
  simpa using groupInv_foldl instances h0

theorem classCount_eq {F : Type} (instances : List (InstanceRecord F)) :
    (groupByClass instances).classes.length
      = ((instances.map (fun i => i.className)).dedup).length := by
  have h := groupInv_groupByClass instances
  rw [← List.card_toFinset, ← List.length_map (groupByClass instances).classes Prod.fst,
    ← List.toFinset_card_of_nodup h.nodup]
  congr 1
  ext c
  simp only [List.mem_toFinset]
  exact h.keys_mem c

theorem classIdOf_group {F : Type} (instances : List (InstanceRecord F)) (i : Nat)
    (hi : i < (groupByClass instances).classes.length) :
    classIdOf (groupByClass instances).classIds ((groupByClass instances).classes[i]).1 = i := by
  have h := groupInv_groupByClass instances
  unfold classIdOf
  rw [h.ids i _ (by simp [List.getElem?_eq_getElem hi])]
  rfl

/-! ### The whole file -/

theorem holds_writeHeader (size classCount instanceCount : Nat) :
    Holds (writeHeader (BinaryWriter.new size) classCount instanceCount)
      (headerBytes classCount instanceCount) := by
  have h1 := holds_writeBytes (holds_new size) kMagic
  have h2 := holds_writeBytes h1 kSignature
  have h3 := holds_writeUInt16LE h2 kVersion
  have h4 := holds_writeInt32LE h3 (classCount : Int)
  have h5 := holds_writeInt32LE h4 (instanceCount : Int)
  have h6 := holds_writeBytes h5 (List.replicate 8 0)
  rw [toUint32_natCast, toUint32_natCast] at h6
  exact h6

theorem optHolds_props {F : Type} (N : NumOps F) (ids : List (Option String × Int))
    (L : List (Option String × String × PropValues F)) {w : BinaryWriter} {bs : List Nat}
    (h : Holds w bs) :
    OptHolds (L.foldlM (fun w t => writeProp N ids w t.1 t.2.1 t.2.2) w)
      ((L.mapM (fun t => propPayload N (classIdOf ids t.1) t.2.1 t.2.2)).map
        (fun ps => bs ++ ps.flatMap (chunkBytes "PROP"))) := by
  induction L generalizing w bs with
  | nil =>
    rw [List.foldlM_nil, List.mapM_nil]
    show Holds w (bs ++ ([] : List (List Nat)).flatMap (chunkBytes "PROP"))
    simpa using h
  | cons t L ih =>
    rw [List.foldlM_cons, List.mapM_cons]
    unfold writeProp
    cases hp : propPayload N (classIdOf ids t.1) t.2.1 t.2.2 with
    | none => simp [OptHolds]
    | some d =>
      have ih' := ih (holds_writeChunk h "PROP" d)
      simp only [Option.map_some', Option.some_bind, Option.bind_eq_bind]
      cases hm : L.mapM (fun t => propPayload N (classIdOf ids t.1) t.2.1 t.2.2) with
      | none =>
        rw [hm] at ih'
        simpa using ih'
      | some ps =>
        rw [hm] at ih'
        simpa [List.append_assoc] using ih'

theorem writeClassProps_eq {F : Type} (N : NumOps F) (ids : List (Option String × Int))
    (w : BinaryWriter) (g : Option String × List (InstanceRecord F)) :
    writeClassProps N ids w g
      = ((classProps g.1 g.2).map (fun pv => (g.1, pv.1, pv.2))).foldlM
          (fun w t => writeProp N ids w t.1 t.2.1 t.2.2) w := by
  unfold writeClassProps classProps
  by_cases hp : g.1 = "Part" ∨ g.1 = "SpawnLocation"
  · have hs : g.1 ≠ "Script" := by
      rcases hp with hp | hp <;> rw [hp] <;> decide
    simp [hp, hs, List.foldlM_cons]
  · by_cases hs : g.1 = "Script"
    · simp [hp, hs, List.foldlM_cons]
    · simp [hp, hs, List.foldlM_cons]

theorem foldlM_classProps {F : Type} (N : NumOps F) (ids : List (Option String × Int))
    (classes : List (Option String × List (InstanceRecord F))) (w : BinaryWriter) :
    classes.foldlM (writeClassProps N ids) w
      = (propList classes).foldlM (fun w t => writeProp N ids w t.1 t.2.1 t.2.2) w := by
  unfold propList
  induction classes generalizing w with
  | nil => rfl
  | cons g l ih =>
    rw [List.foldlM_cons, List.flatMap_cons, List.foldlM_append, writeClassProps_eq]
    cases ((classProps g.1 g.2).map (fun pv => (g.1, pv.1, pv.2))).foldlM
        (fun w t => writeProp N ids w t.1 t.2.1 t.2.2) w with
    | none => rfl
    | some w' => exact ih w'

/-- The encoder writes the file layout, and fails exactly when a PROP payload
cannot be built. -/
theorem encodeInstances_eq {F : Type} (N : NumOps F) (instances : List (InstanceRecord F)) :
    encodeInstances N instances
      = (propPayloads N (groupByClass instances)).map
          (fileLayout instances (groupByClass instances)) := by
  have hH := holds_writeHeader defaultSize (groupByClass instances).classes.length
    instances.length
  have hM := holds_writeChunk hH "META" metaPayload
  have hS := holds_writeChunk hM "SSTR" sstrPayload
  have hI := holds_foldl_append
    (fun writer (group : Option String × List (InstanceRecord F)) =>
      writeChunk writer "INST" (instPayload (groupByClass instances).classIds group.1 group.2))
    (fun g => chunkBytes "INST" (instPayload (groupByClass instances).classIds g.1 g.2))
    (fun w bs a hw => holds_writeChunk hw _ _) (groupByClass instances).classes hS
  unfold encodeInstances propPayloads
  simp only []
  generalize List.foldl
    (fun writer (group : Option String × List (InstanceRecord F)) =>
      writeChunk writer "INST" (instPayload (groupByClass instances).classIds group.1 group.2))
    (writeChunk (writeChunk (writeHeader (BinaryWriter.new defaultSize)
      (groupByClass instances).classes.length instances.length) "META" metaPayload)
      "SSTR" sstrPayload) (groupByClass instances).classes = w3 at hI ⊢
  have hP := optHolds_props N (groupByClass instances).classIds
    (propList (groupByClass instances).classes) hI
  rw [← foldlM_classProps] at hP
  generalize @List.foldlM Option _ _ _ (writeClassProps N (groupByClass instances).classIds) w3
    (groupByClass instances).classes = r at hP ⊢
  generalize @List.mapM Option _ _ _
    (fun (t : Option String × String × PropValues F) =>
      propPayload N (classIdOf (groupByClass instances).classIds t.1) t.2.1 t.2.2)
    (propList (groupByClass instances).classes) = q at hP ⊢
  cases r with
  | none =>
    cases q with
    | none => rfl
    | some ps => exact absurd hP (by simp [OptHolds])
  | some w =>
    cases q with
    | none => exact absurd hP (by simp [OptHolds])
    | some ps =>
      have hw : Holds w _ := hP
      have hR := holds_writeChunk hw "PRNT" (prntPayload instances)
      have hE := holds_writeChunk hR "END" endPayload
      show some _ = some _
      rw [hE.2]
      rfl

/-! ### When the encoder produces a file -/

theorem mapM_isSome {α β : Type} (f : α → Option β) (l : List α) :
    (l.mapM f).isSome = true ↔ ∀ x ∈ l, (f x).isSome = true := by
  induction l with
  | nil =>
    rw [List.mapM_nil]
    constructor
    · intro _ x hx; cases hx
    · intro _; rfl
  | cons a l ih =>
    rw [List.mapM_cons]
    cases ha : f a with
    | none => simp [ha]
    | some b =>
      cases hl : l.mapM f with
      | none =>
        rw [hl] at ih
        simp only [Option.isSome_none, Bool.false_eq_true, false_iff] at ih
        simp only [Option.bind_eq_bind, Option.some_bind, Option.none_bind, Option.isSome_none,
          Bool.false_eq_true, List.mem_cons, forall_eq_or_imp, ha, Option.isSome_some, true_and,
          false_iff]
        exact ih
      | some bs =>
        rw [hl] at ih
        simp only [Option.isSome_some, true_iff] at ih
        simp only [Option.bind_eq_bind, Option.some_bind, List.mem_cons, forall_eq_or_imp, ha,
          Option.isSome_some, true_and]
        constructor
        · intro _; exact ih
        · intro _; rfl

theorem allDefined_isSome {α : Type} (values : List (Option α)) :
    (allDefined values).isSome = true ↔ ∀ v ∈ values, v.isSome = true := by
  unfold allDefined
  exact mapM_isSome id values

/-- The value arrays whose entries `writeProp` dereferences have no `undefined` entry. -/
theorem propPayload_isSome {F : Type} (N : NumOps F) (classId : Int) (propName : String)
    (values : PropValues F) :
    (propPayload N classId propName values).isSome
      = match values with
        | .color3 vs => (allDefined vs).isSome
        | .vector3 vs => (allDefined vs).isSome
        | .cframe vs => (allDefined vs).isSome
        | _ => true := by
  cases values <;> simp [propPayload, writePropValues]

theorem mem_propList {F : Type} (classes : List (Option String × List (InstanceRecord F)))
    (t : Option String × String × PropValues F) :
    t ∈ propList classes ↔ ∃ g ∈ classes, ∃ pv ∈ classProps g.1 g.2, t = (g.1, pv.1, pv.2) := by
  unfold propList
  simp only [List.mem_flatMap, List.mem_map]
  constructor
  · rintro ⟨g, hg, pv, hpv, rfl⟩; exact ⟨g, hg, pv, hpv, rfl⟩
  · rintro ⟨g, hg, pv, hpv, rfl⟩; exact ⟨g, hg, pv, hpv, rfl⟩

/-- The encoder produces a file exactly when every Part and SpawnLocation
instance carries `Size`, `Color` and `CFrame`. -/
theorem propPayloads_isSome_iff {F : Type} (N : NumOps F) (instances : List (InstanceRecord F)) :
    (propPayloads N (groupByClass instances)).isSome = true ↔ PartsComplete instances := by
  have inv := groupInv_groupByClass instances
  unfold propPayloads
  rw [mapM_isSome]
  constructor
  · intro h inst hinst hclass
    have hkey := (inv.keys_mem inst.className).mpr (List.mem_map_of_mem _ hinst)
    obtain ⟨g, hg, hg1⟩ := List.mem_map.mp hkey
    have hmem : inst ∈ g.2 := by
      rw [inv.members g hg, List.mem_filter]
      exact ⟨hinst, by simp [hg1]⟩
    have hc : g.1 = "Part" ∨ g.1 = "SpawnLocation" := by rw [hg1]; exact hclass
    have key : ∀ pv ∈ classProps g.1 g.2,
        (propPayload N (classIdOf (groupByClass instances).classIds g.1) pv.1 pv.2).isSome
          = true :=
      fun pv hpv => h (g.1, pv.1, pv.2) ((mem_propList _ _).mpr ⟨g, hg, pv, hpv, rfl⟩)
    have hS := key ("Size", .vector3 (g.2.map (fun i => i.props.Size)))
      (by unfold classProps; simp [hc])
    have hC := key ("Color", .color3 (g.2.map (fun i => i.props.Color)))
      (by unfold classProps; simp [hc])
    have hM := key ("CFrame", .cframe (g.2.map (fun i => i.props.CFrame)))
      (by unfold classProps; simp [hc])
    rw [propPayload_isSome] at hS hC hM
    simp only [allDefined_isSome, List.mem_map, forall_exists_index, and_imp,
      forall_apply_eq_imp_iff₂] at hS hC hM
    exact ⟨hS inst hmem, hC inst hmem, hM inst hmem⟩
  · intro h t ht
    obtain ⟨g, hg, pv, hpv, rfl⟩ := (mem_propList _ _).mp ht
    have hmem : ∀ inst ∈ g.2, inst ∈ instances ∧ inst.className = g.1 := by
      intro inst hi
      rw [inv.members g hg, List.mem_filter] at hi
      exact ⟨hi.1, by simpa using hi.2⟩
    rw [propPayload_isSome]
    unfold classProps at hpv
    by_cases hc : g.1 = "Part" ∨ g.1 = "SpawnLocation"
    · have hall : ∀ inst ∈ g.2, inst.props.Size.isSome = true ∧ inst.props.Color.isSome = true ∧
          inst.props.CFrame.isSome = true := by
        intro inst hi
        obtain ⟨h1, h2⟩ := hmem inst hi
        exact h inst h1 (by rw [h2]; exact hc)
      have hs : g.1 ≠ "Script" := by
        rcases hc with hc | hc <;> rw [hc] <;> decide
      rw [if_pos hc, if_neg hs] at hpv
      simp only [List.append_nil, List.cons_append, List.nil_append,
        List.mem_cons, List.mem_singleton, List.not_mem_nil, or_false] at hpv
      rcases hpv with rfl | rfl | rfl | rfl | rfl | rfl | rfl | rfl | rfl
      all_goals first
        | rfl
        | (simp only [allDefined_isSome, List.mem_map, forall_exists_index, and_imp,
            forall_apply_eq_imp_iff₂]
           intro inst hi
           first
             | exact (hall inst hi).1
             | exact (hall inst hi).2.1
             | exact (hall inst hi).2.2)
    · by_cases hs : g.1 = "Script"
      · rw [if_neg hc, if_pos hs] at hpv
        simp only [List.append_nil, List.cons_append, List.nil_append,
          List.mem_cons, List.mem_singleton, List.not_mem_nil, or_false] at hpv
        rcases hpv with rfl | rfl <;> rfl
      · rw [if_neg hc, if_neg hs] at hpv
        simp only [List.append_nil, List.mem_singleton] at hpv
        subst hpv
        rfl

theorem encodeInstances_isSome_iff {F : Type} (N : NumOps F) (instances : List (InstanceRecord F)) :
    (encodeInstances N instances).isSome = true ↔ PartsComplete instances := by
  rw [encodeInstances_eq, Option.isSome_map']
  exact propPayloads_isSome_iff N instances

/-- The export is aborted as soon as a Part or SpawnLocation instance lacks
one of `Size`, `Color` and `CFrame`. -/
theorem encodeInstances_eq_none {F : Type} (N : NumOps F) (instances : List (InstanceRecord F))
    (h : ¬PartsComplete instances) : encodeInstances N instances = none := by
  cases hx : encodeInstances N instances with
  | none => rfl
  | some out =>
    have hs := encodeInstances_isSome_iff N instances
    rw [hx] at hs
    exact absurd (hs.mp rfl) h

theorem headerBytes_length (classCount instanceCount : Nat) :
    (headerBytes classCount instanceCount).length = 32 := rfl

theorem fileLayout_take_header {F : Type} (instances : List (InstanceRecord F)) (m : ClassMaps F)
    (props : List (List Nat)) :
    (fileLayout instances m props).take 32 = headerBytes m.classes.length instances.length := by
  unfold fileLayout
  simp only [List.append_assoc]
  exact List.take_left' (headerBytes_length _ _)

/-- C6: the binary output starts with exactly these 32 bytes: the magic
`<roblox!`, the signature `89 FF 0D 0A 1A 0A`, version 0 on 2 bytes, the
number of distinct class names and the number of instances as 4 little-endian
bytes each, and 8 zero bytes.  (There is an output exactly when every Part and
SpawnLocation instance carries `Size`, `Color` and `CFrame`.) -/
theorem header_layout (F : Type) (N : NumOps F) (instances : List (InstanceRecord F))
    (out : List Nat) (h : encodeInstances N instances = some out) :
    out.take 32
      = stringToBytes "<roblox!" ++ [0x89, 0xFF, 0x0D, 0x0A, 0x1A, 0x0A] ++ [0, 0]
          ++ bytesLE32 (((instances.map (fun (i : InstanceRecord F) => i.className)).dedup).length
                % 4294967296)
          ++ bytesLE32 (instances.length % 4294967296)
          ++ [0, 0, 0, 0, 0, 0, 0, 0] ∧
    (out.take 32).length = 32 ∧
    ((encodeInstances N instances).isSome = true ↔ PartsComplete instances) := by
  have he := encodeInstances_eq N instances
  rw [h] at he
  cases hp : propPayloads N (groupByClass instances) with
  | none =>
    rw [hp] at he
    exact Option.noConfusion he
  | some props =>
    rw [hp] at he
    have hout : out = fileLayout instances (groupByClass instances) props :=
      Option.some.inj he
    have ht : out.take 32
        = headerBytes (groupByClass instances).classes.length instances.length := by
      rw [hout, fileLayout_take_header]
    refine ⟨?_, ?_, encodeInstances_isSome_iff N instances⟩
    · rw [ht, classCount_eq]
      rfl
    · rw [ht]
      rfl

/-- C7: the file is the header followed by one META chunk, one SSTR chunk, one
INST chunk per class group in class-id order, the PROP chunks class group
after class group (for each group `Name` first; then, for Part and
SpawnLocation, Anchored, CanCollide, Locked, Transparency, Size, Color, CFrame,
Shape; and for Script, Source), one PRNT chunk and one END chunk, and nothing
else.  A file is produced exactly when every Part and SpawnLocation instance
carries `Size`, `Color` and `CFrame`. -/
theorem chunk_order (F : Type) (N : NumOps F) (instances : List (InstanceRecord F)) :
    encodeInstances N instances
      = (((groupByClass instances).classes.flatMap
            (fun g => (classProps g.1 g.2).map (fun pv => (g.1, pv.1, pv.2)))).mapM
          (fun t => propPayload N (classIdOf (groupByClass instances).classIds t.1) t.2.1
            t.2.2)).map
        (fun props =>
          headerBytes (groupByClass instances).classes.length instances.length
            ++ chunkBytes "META" metaPayload ++ chunkBytes "SSTR" sstrPayload
            ++ (groupByClass instances).classes.flatMap
                (fun g => chunkBytes "INST" (instPayload (groupByClass instances).classIds g.1 g.2))
            ++ props.flatMap (chunkBytes "PROP")
            ++ chunkBytes "PRNT" (prntPayload instances) ++ chunkBytes "END" endPayload) ∧
    (∀ i : Fin (groupByClass instances).classes.length,
      classIdOf (groupByClass instances).classIds ((groupByClass instances).classes.get i).1
        = (i.val : Int)) ∧
    (∀ (className : String) (instList : List (InstanceRecord F)),
      (classProps className instList).map Prod.fst
        = ["Name"]
          ++ (if className = "Part" ∨ className = "SpawnLocation" then
                ["Anchored", "CanCollide", "Locked", "Transparency", "Size", "Color", "CFrame",
                  "Shape"]
              else [])
          ++ (if className = "Script" then ["Source"] else [])) ∧
    ((encodeInstances N instances).isSome = true ↔ PartsComplete instances) ∧
    [chunkName "META", chunkName "SSTR", chunkName "INST", chunkName "PROP", chunkName "PRNT",
      chunkName "END"]
      = [[0x4D, 0x45, 0x54, 0x41], [0x53, 0x53, 0x54, 0x52], [0x49, 0x4E, 0x53, 0x54],
         [0x50, 0x52, 0x4F, 0x50], [0x50, 0x52, 0x4E, 0x54], [0x45, 0x4E, 0x44, 0x00]] := by
  refine ⟨encodeInstances_eq N instances, ?_, ?_, encodeInstances_isSome_iff N instances,
    by decide⟩
  · intro i
    exact classIdOf_group instances i.val i.isLt
  · intro className instList
    unfold classProps
    by_cases hp : className = "Part" ∨ className = "SpawnLocation" <;>
      by_cases hs : className = "Script" <;> simp [hp, hs]

/-! ### A tree with a single root child -/

theorem gatherInstances_single {F : Type} (N : NumOps F) (app : StudioApp F) (fuel : Nat)
    (root node : TreeItem) (child : String)
    (hroot : app.treeItems "root" = some root) (hch : root.children = some [child])
    (hnode : app.treeItems child = some node)
    (hleaf : node.children = none ∨ node.children = some []) :
    gatherInstances N app (fuel + 1)
      = some [{ id := 0, className := some (actualClassName child node),
                name := some node.data,
                props := gatherProps N app (actualClassName child node) node,
                parentId := -1 }] := by
  unfold gatherInstances
  rw [hroot]
  simp only [hch, List.foldlM_cons, List.foldlM_nil]
  unfold processNode
  rw [hnode]
  rcases hleaf with h | h <;> simp [h]

theorem groupByClass_single {F : Type} (inst : InstanceRecord F) :
    groupByClass [inst]
      = { classes := [(inst.className, [inst])], classIds := [(inst.className, 0)] } := by
  simp [groupByClass, groupStep, mapHas]

/-- The file written for a single instance of the class `Lighting`. -/
theorem encodeInstances_lighting {F : Type} (N : NumOps F) (inst : InstanceRecord F)
    (hc : inst.className = some "Lighting") (hid : inst.id = 0) :
    encodeInstances N [inst]
      = some (headerBytes 1 1 ++ chunkBytes "META" metaPayload ++ chunkBytes "SSTR" sstrPayload
          ++ chunkBytes "INST" ([0, 0, 0, 0] ++ lengthPrefixed "Lighting" ++ [1] ++ [1, 0, 0, 0]
              ++ [0, 0, 0, 0] ++ [1])
          ++ chunkBytes "PROP" ([0, 0, 0, 0] ++ lengthPrefixed "Name" ++ [1]
              ++ lengthPrefixed (inst.name.getD ""))
          ++ chunkBytes "PRNT" (prntPayload [inst]) ++ chunkBytes "END" endPayload) := by
  have hname := propPayload_string N 0 "Name" [inst.name]
  have hinst := instPayload_eq [(some "Lighting", (0 : Int))] (some "Lighting") [inst]
  rw [encodeInstances_eq, groupByClass_single]
  unfold propPayloads propList classProps fileLayout
  have hcid : classIdOf [(some "Lighting", (0 : Int))] (some "Lighting") = 0 := by decide
  have hserv : some "Lighting" ∈ serviceNames.map some := by decide
  rw [hcid, if_pos hserv, if_pos hserv] at hinst
  simp only [hc, show ¬(some "Lighting" = some "Part" ∨ some "Lighting" = some "SpawnLocation")
      by decide,
    show ¬(some "Lighting" = some "Script") by decide, if_false, List.flatMap_cons, List.flatMap_nil,
    List.append_nil, List.map_cons, List.map_nil, List.mapM_cons, List.mapM_nil, hcid, hname,
    hinst, hid, List.singleton_append, List.length_singleton]
  have z0 : bytesLE32 (toUint32 0) = [0, 0, 0, 0] := by decide
  have z1 : bytesLE32 (1 % 4294967296) = [1, 0, 0, 0] := by decide
  have zi : interleaved (zigzagDeltas 0 [0]) = [0, 0, 0, 0] := by decide
  have zr : List.replicate 1 1 = [1] := rfl
  simp only [z0, z1, zi, zr, Option.bind_eq_bind, Option.some_bind, Option.pure_def,
    Option.map_some', Option.getD_some, List.flatMap_cons, List.flatMap_nil, List.append_nil]

/-! ### The gathering pass only appends -/

/-- The record `processNode` creates for a node. -/
theorem processNode_append {F : Type} (N : NumOps F) (app : StudioApp F) (fuel : Nat) :
    ∀ (nodeId : String) (parentRef : Int) (st st' : Gather F),
      processNode N app fuel nodeId parentRef st = some st' →
      (app.treeItems nodeId = none ∧ st' = st) ∨
      (app.treeItems nodeId = none ∧
        st'.instances = st.instances ++
          [{ id := st.idCounter, className := none, name := none, props := {},
             parentId := parentRef }]) ∨
      (∃ (node : TreeItem) (more : List (InstanceRecord F)),
        app.treeItems nodeId = some node ∧
        st'.instances = st.instances ++
          ({ id := st.idCounter, className := some (actualClassName nodeId node),
             name := some node.data,
             props := gatherProps N app (actualClassName nodeId node) node,
             parentId := parentRef } :: more)) := by
  induction fuel with
  | zero =>
    intro nodeId parentRef st st' h
    simp [processNode] at h
  | succ fuel ih =>
    intro nodeId parentRef st st' h
    unfold processNode at h
    cases hn : app.treeItems nodeId with
    | none =>
      rw [hn] at h
      simp only [] at h
      split at h
      · exact Or.inr (Or.inl ⟨rfl, by rw [← Option.some.inj h]⟩)
      · exact Or.inl ⟨rfl, (Option.some.inj h).symm⟩
    | some node =>
      rw [hn] at h
      refine Or.inr (Or.inr ⟨node, ?_⟩)
      simp only [] at h
      cases hc : node.children with
      | none =>
        rw [hc] at h
        refine ⟨[], rfl, ?_⟩
        rw [← Option.some.inj h]
      | some children =>
        rw [hc] at h
        simp only [] at h
        have key : ∀ (cs : List String) (ref : Int) (s s' : Gather F),
            cs.foldlM (fun st childId => processNode N app fuel childId ref st) s = some s' →
            ∃ more, s'.instances = s.instances ++ more := by
          intro cs ref
          induction cs with
          | nil =>
            intro s s' hs
            exact ⟨[], by rw [← Option.some.inj hs]; simp⟩
          | cons c cs ihc =>
            intro s s' hs
            rw [List.foldlM_cons] at hs
            cases hp : processNode N app fuel c ref s with
            | none =>
              rw [hp] at hs
              exact Option.noConfusion hs
            | some s1 =>
              rw [hp] at hs
              obtain ⟨more2, h2⟩ := ihc s1 s' hs
              rcases ih c ref s s1 hp with ⟨_, h1⟩ | ⟨_, h1⟩ | ⟨nd, more1, _, h1⟩
              · exact ⟨more2, by rw [h2, h1]⟩
              · exact ⟨_, by rw [h2, h1, List.append_assoc]⟩
              · exact ⟨_, by rw [h2, h1, List.append_assoc]⟩
        obtain ⟨more, hm⟩ := key children _ _ st' h
        exact ⟨more, rfl, by rw [hm]; simp⟩

/-- The first gathered instance is created for a child of `root`, with parent id -1. -/
theorem gatherInstances_head {F : Type} (N : NumOps F) (app : StudioApp F) (fuel : Nat)
    (inst : InstanceRecord F) (rest : List (InstanceRecord F))
    (h : gatherInstances N app fuel = some (inst :: rest)) : inst.parentId = -1 := by
  unfold gatherInstances at h
  cases hr : app.treeItems "root" with
  | none =>
    rw [hr] at h
    exact Option.noConfusion h
  | some root =>
    rw [hr] at h
    simp only [] at h
    cases hc : root.children with
    | none =>
      rw [hc] at h
      exact Option.noConfusion h
    | some children =>
      rw [hc] at h
      simp only [] at h
      have key : ∀ (cs : List String) (s s' : Gather F),
          cs.foldlM (fun st childId => processNode N app fuel childId (-1) st) s = some s' →
          (∀ x ∈ s.instances.head?, x.parentId = -1) →
          ∀ x ∈ s'.instances.head?, x.parentId = -1 := by
        intro cs
        induction cs with
        | nil =>
          intro s s' hs hh
          rw [← Option.some.inj hs]
          exact hh
        | cons c cs ihc =>
          intro s s' hs hh
          rw [List.foldlM_cons] at hs
          cases hp : processNode N app fuel c (-1) s with
          | none =>
            rw [hp] at hs
            exact Option.noConfusion hs
          | some s1 =>
            rw [hp] at hs
            apply ihc s1 s' hs
            rcases processNode_append N app fuel c (-1) s s1 hp with
              ⟨_, h1⟩ | ⟨_, h1⟩ | ⟨nd, more, _, h1⟩
            · rw [h1]; exact hh
            · rw [h1]
              cases hsi : s.instances with
              | nil =>
                intro x hx
                simp only [List.nil_append, List.head?_cons, Option.mem_def,
                  Option.some.injEq] at hx
                rw [← hx]
              | cons y ys =>
                rw [hsi] at hh
                simpa using hh
            · rw [h1]
              cases hsi : s.instances with
              | nil =>
                intro x hx
                simp only [List.nil_append, List.head?_cons, Option.mem_def,
                  Option.some.injEq] at hx
                rw [← hx]
              | cons y ys =>
                rw [hsi] at hh
                simpa using hh
      cases hf : children.foldlM (fun st childId => processNode N app fuel childId (-1) st)
          { instances := [], idCounter := 0 } with
      | none =>
        rw [hf] at h
        exact Option.noConfusion h
      | some s' =>
        rw [hf] at h
        have hi : s'.instances = inst :: rest := Option.some.inj h
        have := key children _ s' hf (by intro x hx; simp at hx)
        rw [hi] at this
        exact this inst rfl

theorem zigzagDeltas_getElem (last : Int) (ids : List Int) (i : Nat) (hi : i < ids.length) :
    (zigzagDeltas last ids)[i]?
      = some (transformInt (ids.getD i 0 - (if i = 0 then last else ids.getD (i - 1) 0))) := by
  induction ids generalizing last i with
  | nil => simp at hi
  | cons a l ih =>
    cases i with
    | zero => simp [zigzagDeltas]
    | succ i =>
      simp only [zigzagDeltas, List.getElem?_cons_succ, List.getD_cons_succ]
      rw [ih a i (by simpa using hi)]
      cases i with
      | zero => simp
      | succ j => simp

/-- C8: the INST payload of a class group is the class id as 4 little-endian
bytes, the length-prefixed class name, the flag byte, the instance count as 4
little-endian bytes, the interleaved array of `transformInt (id_j - id_{j-1})`
with `id_{-1} = 0`, and one byte 1 per instance exactly when the flag is 1; the
flag is 1 exactly for the twelve service names.  A tree whose only root child
is `Lighting` yields an INST chunk with flag 1 and one marker byte 1. -/
theorem inst_payload_layout (F : Type) (N : NumOps F) :
    (∀ (classIds : List (Option String × Int)) (className : String)
        (instList : List (InstanceRecord F)),
      instPayload classIds className instList
        = bytesLE32 (toUint32 (classIdOf classIds className)) ++ lengthPrefixed className
            ++ [if className ∈ serviceNames then 1 else 0]
            ++ bytesLE32 (instList.length % 4294967296)
            ++ interleaved (zigzagDeltas 0 (instList.map (fun i => i.id)))
            ++ (if className ∈ serviceNames then List.replicate instList.length 1 else [])) ∧
    (∀ (ids : List Int) (j : Nat), j < ids.length →
      (zigzagDeltas 0 ids)[j]?
        = some (transformInt (ids.getD j 0 - (if j = 0 then 0 else ids.getD (j - 1) 0)))) ∧
    (∀ className : String, className ∈ serviceNames ↔
      className = "Workspace" ∨ className = "Lighting" ∨ className = "ReplicatedStorage" ∨
      className = "ServerScriptService" ∨ className = "ServerStorage" ∨
      className = "StarterGui" ∨ className = "StarterPack" ∨ className = "Teams" ∨
      className = "SoundService" ∨ className = "Chat" ∨ className = "Players" ∨
      className = "ReplicatedFirst") ∧
    (∀ (app : StudioApp F) (fuel : Nat) (root node : TreeItem),
      app.treeItems "root" = some root → root.children = some ["Lighting"] →
      app.treeItems "Lighting" = some node →
      (node.children = none ∨ node.children = some []) →
      exportToRbxl N app (fuel + 1)
        = some (headerBytes 1 1 ++ chunkBytes "META" metaPayload ++ chunkBytes "SSTR" sstrPayload
            ++ chunkBytes "INST" ([0, 0, 0, 0] ++ lengthPrefixed "Lighting" ++ [1]
                ++ [1, 0, 0, 0] ++ [0, 0, 0, 0] ++ [1])
            ++ chunkBytes "PROP" ([0, 0, 0, 0] ++ lengthPrefixed "Name" ++ [1]
                ++ lengthPrefixed node.data)
            ++ chunkBytes "PRNT" [0, 1, 0, 0, 0, 0, 0, 0, 0, 0, 0, 0, 1]
            ++ chunkBytes "END" endPayload)) := by
  have hmem : ∀ c : String, (some c ∈ serviceNames.map some) = (c ∈ serviceNames) := by
    intro c
    simp
  refine ⟨fun classIds className instList => ?_,
    fun ids j hj => zigzagDeltas_getElem 0 ids j hj, ?_, ?_⟩
  · have h := instPayload_eq classIds (some className) instList
    simp only [hmem, Option.getD_some] at h
    exact h
  · intro className
    simp [serviceNames]
  · intro app fuel root node hroot hch hnode hleaf
    unfold exportToRbxl
    rw [gatherInstances_single N app fuel root node "Lighting" hroot hch hnode hleaf]
    have hcl : actualClassName "Lighting" node = "Lighting" := by
      unfold actualClassName
      rw [if_pos (by decide)]
    simp only [Option.some_bind, Option.bind_eq_bind]
    rw [encodeInstances_lighting N _ (congrArg some hcl) rfl, prntPayload_eq]
    simp only [List.map_cons, List.map_nil, List.length_singleton]
    rw [show ([0] ++ bytesLE32 (1 % 4294967296) ++ interleaved (zigzagDeltas 0 [0])
        ++ interleaved (zigzagDeltas 0 [-1]) : List Nat)
        = [0, 1, 0, 0, 0, 0, 0, 0, 0, 0, 0, 0, 1] by decide]
    rfl

/-- Instance of C8: the tree index whose only root child is `Lighting`. -/
theorem inst_payload_layout_witness :
    exportToRbxl exampleNum lightingApp 1
      = some (headerBytes 1 1 ++ chunkBytes "META" metaPayload ++ chunkBytes "SSTR" sstrPayload
          ++ chunkBytes "INST" ([0, 0, 0, 0] ++ lengthPrefixed "Lighting" ++ [1]
              ++ [1, 0, 0, 0] ++ [0, 0, 0, 0] ++ [1])
          ++ chunkBytes "PROP" ([0, 0, 0, 0] ++ lengthPrefixed "Name" ++ [1]
              ++ lengthPrefixed "Lighting")
          ++ chunkBytes "PRNT" [0, 1, 0, 0, 0, 0, 0, 0, 0, 0, 0, 0, 1]
          ++ chunkBytes "END" endPayload) :=
  (inst_payload_layout Int exampleNum).2.2.2 lightingApp 0
    { index := "root", isFolder := true, kind := none, data := "Game",
      children := some ["Lighting"] }
    { index := "Lighting", isFolder := true, kind := none, data := "Lighting",
      children := some [] }
    rfl rfl rfl (Or.inr rfl)

/-- C9: the PRNT payload is the version byte 0, the instance count as 4
little-endian bytes, the interleaved zigzag deltas of the instance ids and
then those of the parent ids, both starting from 0 and both in the global
instance order, `5 + 8 * N` bytes in all; entry `i` of either array belongs to
instance `i`; the first instance the extractor gathers is a root instance and
has parent id -1, which contributes the parent delta `transformInt (-1) = 1`. -/
theorem prnt_payload_layout (F : Type) (instances : List (InstanceRecord F)) :
    prntPayload instances
      = [0] ++ bytesLE32 (instances.length % 4294967296)
          ++ interleaved (zigzagDeltas 0 (instances.map (fun i => i.id)))
          ++ interleaved (zigzagDeltas 0 (instances.map (fun i => i.parentId))) ∧
    (prntPayload instances).length = 5 + 8 * instances.length ∧
    (∀ (i : Nat) (inst : InstanceRecord F), instances[i]? = some inst →
      (zigzagDeltas 0 (instances.map (fun x => x.id)))[i]?
        = some (transformInt (inst.id
            - (if i = 0 then 0 else (instances.map (fun x => x.id)).getD (i - 1) 0))) ∧
      (zigzagDeltas 0 (instances.map (fun x => x.parentId)))[i]?
        = some (transformInt (inst.parentId
            - (if i = 0 then 0 else (instances.map (fun x => x.parentId)).getD (i - 1) 0)))) ∧
    (∀ (N : NumOps F) (app : StudioApp F) (fuel : Nat),
      gatherInstances N app fuel = some instances →
      ∀ inst ∈ instances.head?, inst.parentId = -1) ∧
    transformInt (-1 - 0) = 1 := by
  refine ⟨prntPayload_eq instances, ?_, ?_, ?_, by decide⟩
  rotate_left 2
  · intro N app fuel hg inst hinst
    cases hi : instances with
    | nil =>
      rw [hi] at hinst
      simp at hinst
    | cons a rest =>
      rw [hi] at hinst hg
      simp only [List.head?_cons, Option.mem_def, Option.some.injEq] at hinst
      rw [← hinst]
      exact gatherInstances_head N app fuel a rest hg
  · rw [prntPayload_eq]
    simp only [List.length_append, interleaved_length, zigzagDeltas_length, List.length_map,
      bytesLE32_length, List.length_singleton]
    omega
  · intro i inst hi
    have hlt : i < instances.length := by
      by_contra hge
      rw [List.getElem?_eq_none (by omega)] at hi
      exact Option.noConfusion hi
    have hget : instances[i] = inst := by
      rw [List.getElem?_eq_getElem hlt] at hi
      exact Option.some.inj hi
    constructor
    · rw [zigzagDeltas_getElem 0 _ i (by simpa using hlt),
        List.getD_eq_getElem _ _ (by simpa using hlt)]
      simp [hget]
    · rw [zigzagDeltas_getElem 0 _ i (by simpa using hlt),
        List.getD_eq_getElem _ _ (by simpa using hlt)]
      simp [hget]

/-- Instance of C9: a root instance followed by its child. -/
theorem prnt_payload_layout_witness :
    (zigzagDeltas 0 ([bareInstance 0 "Workspace" (-1), bareInstance 1 "Folder" 0].map
      (fun x => x.parentId)))[1]? = some (transformInt (0 - (-1))) :=
  ((prnt_payload_layout Int [bareInstance 0 "Workspace" (-1), bareInstance 1 "Folder" 0]).2.2.1
    1 (bareInstance 1 "Folder" 0) rfl).2

/-- Instance of C6: the single instance of the tree whose only root child is `Lighting`. -/
theorem header_layout_witness :
    encodeInstances exampleNum [bareInstance 0 "Lighting" (-1)]
      = some (headerBytes 1 1 ++ chunkBytes "META" metaPayload ++ chunkBytes "SSTR" sstrPayload
          ++ chunkBytes "INST" ([0, 0, 0, 0] ++ lengthPrefixed "Lighting" ++ [1] ++ [1, 0, 0, 0]
              ++ [0, 0, 0, 0] ++ [1])
          ++ chunkBytes "PROP" ([0, 0, 0, 0] ++ lengthPrefixed "Name" ++ [1]
              ++ lengthPrefixed "Lighting")
          ++ chunkBytes "PRNT" (prntPayload [bareInstance 0 "Lighting" (-1)])
          ++ chunkBytes "END" endPayload) ∧
    (headerBytes 1 1 ++ chunkBytes "META" metaPayload ++ chunkBytes "SSTR" sstrPayload
          ++ chunkBytes "INST" ([0, 0, 0, 0] ++ lengthPrefixed "Lighting" ++ [1] ++ [1, 0, 0, 0]
              ++ [0, 0, 0, 0] ++ [1])
          ++ chunkBytes "PROP" ([0, 0, 0, 0] ++ lengthPrefixed "Name" ++ [1]
              ++ lengthPrefixed "Lighting")
          ++ chunkBytes "PRNT" (prntPayload [bareInstance 0 "Lighting" (-1)])
          ++ chunkBytes "END" endPayload).take 32
      = stringToBytes "<roblox!" ++ [0x89, 0xFF, 0x0D, 0x0A, 0x1A, 0x0A] ++ [0, 0]
          ++ [1, 0, 0, 0] ++ [1, 0, 0, 0] ++ [0, 0, 0, 0, 0, 0, 0, 0] :=
  ⟨encodeInstances_lighting exampleNum (bareInstance 0 "Lighting" (-1)) rfl rfl,
    (header_layout Int exampleNum [bareInstance 0 "Lighting" (-1)] _
      (encodeInstances_lighting exampleNum (bareInstance 0 "Lighting" (-1)) rfl rfl)).1.trans
      (by decide)⟩

/-- Instance of C7: the property names written for a Part and the class id of
the only group of a one-instance list. -/
theorem chunk_order_witness :
    (classProps "Part" [bareInstance 0 "Part" (-1)]).map Prod.fst
      = ["Name", "Anchored", "CanCollide", "Locked", "Transparency", "Size", "Color", "CFrame",
          "Shape"] ∧
    ((encodeInstances exampleNum [bareInstance 0 "Part" (-1)]).isSome = true
      ↔ PartsComplete [bareInstance 0 "Part" (-1)]) :=
  ⟨((chunk_order Int exampleNum [bareInstance 0 "Part" (-1)]).2.2.1 "Part"
      [bareInstance 0 "Part" (-1)]).trans (by decide),
    (chunk_order Int exampleNum [bareInstance 0 "Part" (-1)]).2.2.2.1⟩

/-! ### CFrame values -/

theorem isIdentity_iff {F : Type} (N : NumOps F) (mat : Matrix4 F) :
    isIdentity N (mat.elements 0) (mat.elements 4) (mat.elements 8) (mat.elements 1)
      (mat.elements 5) (mat.elements 9) (mat.elements 2) (mat.elements 6) (mat.elements 10) = true
      ↔ WithinIdentity N mat := by
  unfold isIdentity WithinIdentity
  simp only [Bool.and_eq_true]
  constructor
  · rintro ⟨⟨⟨⟨⟨⟨⟨⟨h00, h01⟩, h02⟩, h10⟩, h11⟩, h12⟩, h20⟩, h21⟩, h22⟩ i hi j hj
    interval_cases i <;> interval_cases j <;> simp <;> assumption
  · intro h
    have a00 := h 0 (by omega) 0 (by omega)
    have a01 := h 0 (by omega) 1 (by omega)
    have a02 := h 0 (by omega) 2 (by omega)
    have a10 := h 1 (by omega) 0 (by omega)
    have a11 := h 1 (by omega) 1 (by omega)
    have a12 := h 1 (by omega) 2 (by omega)
    have a20 := h 2 (by omega) 0 (by omega)
    have a21 := h 2 (by omega) 1 (by omega)
    have a22 := h 2 (by omega) 2 (by omega)
    simp at a00 a01 a02 a10 a11 a12 a20 a21 a22
    exact ⟨⟨⟨⟨⟨⟨⟨⟨a00, a01⟩, a02⟩, a10⟩, a11⟩, a12⟩, a20⟩, a21⟩, a22⟩

theorem rotBuf_eq {F : Type} (N : NumOps F) (r00 r01 r02 r10 r11 r12 r20 r21 r22 : F) :
    setFloat32LE N (setFloat32LE N (setFloat32LE N (setFloat32LE N (setFloat32LE N
      (setFloat32LE N (setFloat32LE N (setFloat32LE N (setFloat32LE N (List.replicate 36 0)
        0 r00) 4 r01) 8 r02) 12 r10) 16 r11) 20 r12) 24 r20) 28 r21) 32 r22
      = bytesLE32 (N.float32Bits r00) ++ bytesLE32 (N.float32Bits r01)
          ++ bytesLE32 (N.float32Bits r02) ++ bytesLE32 (N.float32Bits r10)
          ++ bytesLE32 (N.float32Bits r11) ++ bytesLE32 (N.float32Bits r12)
          ++ bytesLE32 (N.float32Bits r20) ++ bytesLE32 (N.float32Bits r21)
          ++ bytesLE32 (N.float32Bits r22) := by
  simp [setFloat32LE, setBytes, bytesLE32, List.replicate]

theorem rotationBlock_eq {F : Type} (N : NumOps F) (mat : Matrix4 F) :
    rotationBlock N mat
      = bytesLE32 (N.float32Bits (mat.elements 0)) ++ bytesLE32 (N.float32Bits (mat.elements 4))
          ++ bytesLE32 (N.float32Bits (mat.elements 8)) ++ bytesLE32 (N.float32Bits (mat.elements 1))
          ++ bytesLE32 (N.float32Bits (mat.elements 5)) ++ bytesLE32 (N.float32Bits (mat.elements 9))
          ++ bytesLE32 (N.float32Bits (mat.elements 2)) ++ bytesLE32 (N.float32Bits (mat.elements 6))
          ++ bytesLE32 (N.float32Bits (mat.elements 10)) := by
  rfl

theorem rotationBlock_length {F : Type} (N : NumOps F) (mat : Matrix4 F) :
    (rotationBlock N mat).length = 36 := rfl

/-- One iteration of the CFrame loop appends the record of the matrix and the
three position bit patterns. -/
theorem cframeStep_spec {F : Type} (N : NumOps F) (acc : CFrameAcc) (mat : Matrix4 F)
    {bs : List Nat} (h : Holds acc.idsAndRots bs) :
    Holds (cframeStep N acc mat).idsAndRots (bs ++ cframeRecord N mat) ∧
    (cframeStep N acc mat).xs = acc.xs ++ [(N.float32Bits (mat.elements 12) : Int)] ∧
    (cframeStep N acc mat).ys = acc.ys ++ [(N.float32Bits (mat.elements 13) : Int)] ∧
    (cframeStep N acc mat).zs = acc.zs ++ [(N.float32Bits (mat.elements 14) : Int)] := by
  refine ⟨?_, rfl, rfl, rfl⟩
  unfold cframeStep cframeRecord
  simp only []
  by_cases hi : WithinIdentity N mat
  · rw [if_pos ((isIdentity_iff N mat).mpr hi), if_pos hi]
    exact holds_writeUInt8 h 2
  · have hb : ¬ (isIdentity N (mat.elements 0) (mat.elements 4) (mat.elements 8)
        (mat.elements 1) (mat.elements 5) (mat.elements 9) (mat.elements 2) (mat.elements 6)
        (mat.elements 10) = true) := fun x => hi ((isIdentity_iff N mat).mp x)
    rw [if_neg hb, if_neg hi, rotBuf_eq, rotationBlock_eq, ← List.append_assoc]
    exact holds_writeBytes (holds_writeUInt8 h 0) _

theorem cframe_loop {F : Type} (N : NumOps F) (values : List (Matrix4 F)) (acc : CFrameAcc)
    {bs : List Nat} (h : Holds acc.idsAndRots bs) :
    Holds (values.foldl (cframeStep N) acc).idsAndRots (bs ++ values.flatMap (cframeRecord N)) ∧
    (values.foldl (cframeStep N) acc).xs
      = acc.xs ++ values.map (fun m => (N.float32Bits (m.elements 12) : Int)) ∧
    (values.foldl (cframeStep N) acc).ys
      = acc.ys ++ values.map (fun m => (N.float32Bits (m.elements 13) : Int)) ∧
    (values.foldl (cframeStep N) acc).zs
      = acc.zs ++ values.map (fun m => (N.float32Bits (m.elements 14) : Int)) := by
  induction values generalizing acc bs with
  | nil => simpa using h
  | cons m l ih =>
    obtain ⟨h1, hx, hy, hz⟩ := cframeStep_spec N acc m h
    obtain ⟨g1, gx, gy, gz⟩ := ih (cframeStep N acc m) h1
    simp only [List.foldl_cons, List.flatMap_cons, List.map_cons]
    rw [gx, gy, gz, hx, hy, hz]
    refine ⟨?_, by simp, by simp, by simp⟩
    rw [← List.append_assoc]
    exact g1

/-- The PROP payload of a CFrame property. -/
theorem propPayload_cframe {F : Type} (N : NumOps F) (classId : Int) (propName : String)
    (values : List (Matrix4 F)) :
    propPayload N classId propName (.cframe (values.map some))
      = some (bytesLE32 (toUint32 classId) ++ lengthPrefixed propName ++ [0x10]
          ++ values.flatMap (cframeRecord N)
          ++ interleaved (values.map (fun m => (N.float32Bits (m.elements 12) : Int)))
          ++ interleaved (values.map (fun m => (N.float32Bits (m.elements 13) : Int)))
          ++ interleaved (values.map (fun m => (N.float32Bits (m.elements 14) : Int)))) := by
  obtain ⟨h1, hx, hy, hz⟩ := cframe_loop N values
    { idsAndRots := BinaryWriter.new defaultSize, xs := [], ys := [], zs := [] }
    (holds_new defaultSize)
  have hw := holds_writeBytes (propPayload_header classId propName 0x10)
    (values.foldl (cframeStep N)
      { idsAndRots := BinaryWriter.new defaultSize, xs := [], ys := [], zs := [] }).idsAndRots.getResult
  have h3 := holds_writeInterleaved (holds_writeInterleaved (holds_writeInterleaved hw
    (values.foldl (cframeStep N)
      { idsAndRots := BinaryWriter.new defaultSize, xs := [], ys := [], zs := [] }).xs)
    (values.foldl (cframeStep N)
      { idsAndRots := BinaryWriter.new defaultSize, xs := [], ys := [], zs := [] }).ys)
    (values.foldl (cframeStep N)
      { idsAndRots := BinaryWriter.new defaultSize, xs := [], ys := [], zs := [] }).zs
  unfold propPayload writePropValues
  simp only [allDefined_map_some, Option.map_some']
  simp only [List.nil_append] at hx hy hz h1
  refine congrArg some (h3.2.trans ?_)
  rw [h1.2, hx, hy, hz]
  rfl

theorem cframeRecords_length {F : Type} (N : NumOps F) (values : List (Matrix4 F)) :
    (values.flatMap (cframeRecord N)).length
      = values.length + 36 * (values.filter (fun m => decide (¬ WithinIdentity N m))).length := by
  induction values with
  | nil => rfl
  | cons m l ih =>
    simp only [List.flatMap_cons, List.length_append, ih, List.length_cons, List.filter_cons]
    unfold cframeRecord
    by_cases hi : WithinIdentity N m
    · simp [hi]; omega
    · simp [hi, rotationBlock_length]; omega


theorem withinIdentity_exact (bits : ℚ → Nat) (mat : Matrix4 ℚ) :
    WithinIdentity (exactNum bits) mat ↔
      ∀ i : Nat, i < 3 → ∀ j : Nat, j < 3 →
        |mat.elements (4 * j + i) - (if i = j then 1 else 0)| < 1 / 10000 := by
  unfold WithinIdentity exactNum
  simp only [decide_eq_true_eq]
  constructor
  · intro h i hi j hj
    have := h i hi j hj
    by_cases e : i = j
    · simpa [e] using this
    · simpa [e] using this
  · intro h i hi j hj
    have := h i hi j hj
    by_cases e : i = j
    · simpa [e] using this
    · simpa [e] using this

/-- C11: one pass of the CFrame loop appends the single discriminant byte 2
when every diagonal rotation component is within `1e-4` of 1 and every other
one within `1e-4` of 0, as the code's comparisons decide it, and otherwise the
discriminant byte 0 followed by the 36-byte block of the nine floats.  In exact
arithmetic the test is `|r - 1| < 1/10000` on the diagonal and `|r| < 1/10000`
elsewhere, so a rotation with a component `1/1000` away from the identity gets
discriminant 0 and the block. -/
theorem cframe_discriminant (F : Type) (N : NumOps F) (acc : CFrameAcc) (mat : Matrix4 F)
    (bs : List Nat) (h : Holds acc.idsAndRots bs) :
    (WithinIdentity N mat →
      (cframeStep N acc mat).idsAndRots.getResult = bs ++ [2]) ∧
    (¬ WithinIdentity N mat →
      (cframeStep N acc mat).idsAndRots.getResult = bs ++ ([0] ++ rotationBlock N mat) ∧
      (rotationBlock N mat).length = 36) ∧
    (WithinIdentity N mat ↔
      ∀ i : Nat, i < 3 → ∀ j : Nat, j < 3 →
        N.lt (N.abs (if i = j then N.sub (mat.elements (4 * j + i)) N.one
                     else mat.elements (4 * j + i))) N.eps = true) ∧
    (∀ (bits : ℚ → Nat) (m : Matrix4 ℚ),
      WithinIdentity (exactNum bits) m ↔
        ∀ i : Nat, i < 3 → ∀ j : Nat, j < 3 →
          |m.elements (4 * j + i) - (if i = j then 1 else 0)| < 1 / 10000) ∧
    (∀ (bits : ℚ → Nat) (m : Matrix4 ℚ) (i j : Nat), i < 3 → j < 3 →
      |m.elements (4 * j + i) - (if i = j then 1 else 0)| = 1 / 1000 →
      cframeRecord (exactNum bits) m = [0] ++ rotationBlock (exactNum bits) m) := by
  have hs := (cframeStep_spec N acc mat h).1.2
  refine ⟨?_, ?_, Iff.rfl, withinIdentity_exact, ?_⟩
  · intro hi
    rw [hs]
    unfold cframeRecord
    rw [if_pos hi]
  · intro hi
    refine ⟨?_, rfl⟩
    rw [hs]
    unfold cframeRecord
    rw [if_neg hi]
  · intro bits m i j hi hj hd
    unfold cframeRecord
    rw [if_neg]
    intro hw
    have := (withinIdentity_exact bits m).mp hw i hi j hj
    rw [hd] at this
    norm_num at this

/-- Instance of C11: the identity matrix gets the single byte 2, the matrix
with one component moved by 1/1000 gets discriminant 0 and the block. -/
theorem cframe_discriminant_witness :
    Holds (BinaryWriter.new 0) [] ∧
    (cframeStep (exactNum (fun _ => 0))
      { idsAndRots := BinaryWriter.new 0, xs := [], ys := [], zs := [] }
      identityMatrix).idsAndRots.getResult = [] ++ [2] ∧
    cframeRecord (exactNum (fun _ => 0)) skewedMatrix
      = [0] ++ rotationBlock (exactNum (fun _ => 0)) skewedMatrix :=
  ⟨holds_new 0,
    (cframe_discriminant ℚ (exactNum (fun _ => 0))
      { idsAndRots := BinaryWriter.new 0, xs := [], ys := [], zs := [] } identityMatrix []
      (holds_new 0)).1
      (by
        rw [withinIdentity_exact]
        intro i hi j hj
        interval_cases i <;> interval_cases j <;> norm_num [identityMatrix]),
    (cframe_discriminant ℚ (exactNum (fun _ => 0))
      { idsAndRots := BinaryWriter.new 0, xs := [], ys := [], zs := [] } identityMatrix []
      (holds_new 0)).2.2.2.2 (fun _ => 0) skewedMatrix 0 1 (by decide) (by decide)
      (by norm_num [skewedMatrix])⟩

/-- C12: the value section of a CFrame property is the per-instance records in
instance order (`N + 36 k` bytes when `k` transforms have a non-identity
rotation), followed by the interleaved arrays of the x, y and z positions
(`4 N` bytes each); a record is the discriminant byte and, for discriminant 0,
the nine rotation floats little-endian in row-major order, the component of
row `i` and column `j` being element `4 j + i` of the matrix; the position is
elements 12, 13 and 14. -/
theorem cframe_layout (F : Type) (N : NumOps F) (classId : Int) (propName : String)
    (values : List (Matrix4 F)) :
    propPayload N classId propName (.cframe (values.map some))
      = some (bytesLE32 (toUint32 classId) ++ lengthPrefixed propName ++ [0x10]
          ++ values.flatMap (cframeRecord N)
          ++ interleaved (values.map (fun m => (N.float32Bits (m.elements 12) : Int)))
          ++ interleaved (values.map (fun m => (N.float32Bits (m.elements 13) : Int)))
          ++ interleaved (values.map (fun m => (N.float32Bits (m.elements 14) : Int)))) ∧
    (values.flatMap (cframeRecord N)).length
      = values.length
          + 36 * (values.filter (fun m => decide (¬ WithinIdentity N m))).length ∧
    (interleaved (values.map (fun m => (N.float32Bits (m.elements 12) : Int)))
      ++ interleaved (values.map (fun m => (N.float32Bits (m.elements 13) : Int)))
      ++ interleaved (values.map (fun m => (N.float32Bits (m.elements 14) : Int)))).length
      = 12 * values.length ∧
    (∀ mat : Matrix4 F,
      cframeRecord N mat
        = (if WithinIdentity N mat then [2]
           else [0] ++ (List.range 3).flatMap (fun i => (List.range 3).flatMap (fun j =>
              bytesLE32 (N.float32Bits (mat.elements (4 * j + i))))))) ∧
    (∀ mat : Matrix4 F,
      (List.range 3).flatMap (fun i => (List.range 3).flatMap (fun j =>
          bytesLE32 (N.float32Bits (mat.elements (4 * j + i)))))
        = bytesLE32 (N.float32Bits (mat.elements 0)) ++ bytesLE32 (N.float32Bits (mat.elements 4))
          ++ bytesLE32 (N.float32Bits (mat.elements 8)) ++ bytesLE32 (N.float32Bits (mat.elements 1))
          ++ bytesLE32 (N.float32Bits (mat.elements 5)) ++ bytesLE32 (N.float32Bits (mat.elements 9))
          ++ bytesLE32 (N.float32Bits (mat.elements 2)) ++ bytesLE32 (N.float32Bits (mat.elements 6))
          ++ bytesLE32 (N.float32Bits (mat.elements 10))) := by
  refine ⟨propPayload_cframe N classId propName values, cframeRecords_length N values, ?_,
    fun mat => rfl, fun mat => rfl⟩
  simp only [List.length_append, interleaved_length, List.length_map]
  omega

/-! ### Class groups: order of first encounter and sizes -/

theorem map_push_of_not_mem {F : Type} (inst : InstanceRecord F)
    (classes : List (Option String × List (InstanceRecord F)))
    (h : inst.className ∉ classes.map Prod.fst) :
    classes.map (fun e => if e.1 = inst.className then (e.1, e.2 ++ [inst]) else e) = classes := by
  induction classes with
  | nil => rfl
  | cons e l ih =>
    simp only [List.map_cons, List.mem_cons, not_or] at h
    rw [List.map_cons, if_neg (fun x => h.1 x.symm), ih h.2]

theorem sizes_push_of_mem {F : Type} (inst : InstanceRecord F)
    (classes : List (Option String × List (InstanceRecord F)))
    (hn : (classes.map Prod.fst).Nodup) (h : inst.className ∈ classes.map Prod.fst) :
    ((classes.map (fun e => if e.1 = inst.className then (e.1, e.2 ++ [inst]) else e)).map
        (fun e => e.2.length)).sum
      = (classes.map (fun e => e.2.length)).sum + 1 := by
  induction classes with
  | nil => simp at h
  | cons e l ih =>
    simp only [List.map_cons, List.nodup_cons] at hn
    by_cases hc : e.1 = inst.className
    · have hnot : inst.className ∉ l.map Prod.fst := by rw [← hc]; exact hn.1
      rw [List.map_cons, if_pos hc, map_push_of_not_mem inst l hnot]
      simp only [List.map_cons, List.sum_cons, List.length_append, List.length_singleton]
      omega
    · have hin : inst.className ∈ l.map Prod.fst := by
        simp only [List.map_cons, List.mem_cons] at h
        rcases h with h | h
        · exact absurd h.symm hc
        · exact h
      rw [List.map_cons, if_neg hc]
      simp only [List.map_cons, List.sum_cons, ih hn.2 hin]
      omega

theorem indexOf_append_mem {α : Type} [BEq α] [LawfulBEq α] {a : α} {l₁ l₂ : List α}
    (h : a ∈ l₁) : List.indexOf a (l₁ ++ l₂) = List.indexOf a l₁ := by
  induction l₁ with
  | nil => simp at h
  | cons x xs ih =>
    rw [List.cons_append, List.indexOf_cons, List.indexOf_cons]
    by_cases hx : x == a
    · simp [hx]
    · simp only [hx, cond_false]
      rw [ih]
      rcases List.mem_cons.mp h with rfl | h
      · simp at hx
      · exact h
theorem indexOf_append_not_mem {α : Type} [BEq α] [LawfulBEq α] {a : α} {l₁ l₂ : List α}
    (h : a ∉ l₁) : List.indexOf a (l₁ ++ l₂) = l₁.length + List.indexOf a l₂ := by
  induction l₁ with
  | nil => simp
  | cons x xs ih =>
    rw [List.cons_append, List.indexOf_cons]
    have hx : (x == a) = false := by
      rw [beq_eq_false_iff_ne]
      intro e
      exact h (e ▸ List.mem_cons_self _ _)
    simp only [hx, cond_false]
    rw [ih (fun m => h (List.mem_cons_of_mem _ m)), List.length_cons]
    omega
theorem indexOf_lt_length_mem {α : Type} [BEq α] [LawfulBEq α] {a : α} {l : List α}
    (h : a ∈ l) : List.indexOf a l < l.length := by
  induction l with
  | nil => simp at h
  | cons x xs ih =>
    rw [List.indexOf_cons]
    by_cases hx : x == a
    · simp [hx]
    · simp only [hx, cond_false, List.length_cons]
      rcases List.mem_cons.mp h with rfl | h
      · simp at hx
      · have := ih h
        omega

/-- The part of the grouping invariant about order and sizes: the keys appear
in the order of the first occurrence of each class name, and the group sizes
add up to the number of instances grouped so far. -/
theorem groupOrder_foldl {F : Type} (l : List (InstanceRecord F)) :
    ∀ (pre : List (InstanceRecord F)) (m : ClassMaps F), GroupInv pre m →
      (∀ (i j : Nat) (c d : Option String), (m.classes.map Prod.fst)[i]? = some c →
        (m.classes.map Prod.fst)[j]? = some d → i < j →
        (pre.map (fun x => x.className)).indexOf c < (pre.map (fun x => x.className)).indexOf d) →
      (m.classes.map (fun e => e.2.length)).sum = pre.length →
      (∀ (i j : Nat) (c d : Option String),
        ((l.foldl groupStep m).classes.map Prod.fst)[i]? = some c →
        ((l.foldl groupStep m).classes.map Prod.fst)[j]? = some d → i < j →
        ((pre ++ l).map (fun x => x.className)).indexOf c
          < ((pre ++ l).map (fun x => x.className)).indexOf d) ∧
      ((l.foldl groupStep m).classes.map (fun e => e.2.length)).sum = (pre ++ l).length := by
  induction l with
  | nil =>
    intro pre m _ ho hs
    simp only [List.foldl_nil, List.append_nil]
    exact ⟨ho, hs⟩
  | cons a l ih =>
    intro pre m hinv ho hs
    have hstep := groupInv_step hinv a
    have key := ih (pre ++ [a]) (groupStep m a) hstep
    simp only [List.foldl_cons]
    rw [show pre ++ a :: l = (pre ++ [a]) ++ l by simp]
    apply key
    · -- order
      intro i j c d hi hj hij
      have hmemkeys : ∀ (k : Nat) (x : Option String), (m.classes.map Prod.fst)[k]? = some x →
          x ∈ pre.map (fun y => y.className) := by
        intro k x hk
        exact (hinv.keys_mem x).mp (List.getElem?_mem hk)
      unfold groupStep at hi hj
      by_cases hh : mapHas m.classes a.className = true
      · simp only [hh, Bool.not_true, Bool.false_eq_true, if_false] at hi hj
        rw [map_fst_push] at hi hj
        rw [List.map_append, indexOf_append_mem (hmemkeys i c hi),
          indexOf_append_mem (hmemkeys j d hj)]
        exact ho i j c d hi hj hij
      · have hk : a.className ∉ m.classes.map Prod.fst := fun x => hh ((mapHas_iff _ _).mpr x)
        have hk2 : a.className ∉ pre.map (fun y => y.className) :=
          fun x => hk ((hinv.keys_mem _).mpr x)
        simp only [hh, Bool.not_false, if_true] at hi hj
        rw [map_fst_push, List.map_append] at hi hj
        simp only [List.map_cons, List.map_nil] at hi hj
        have hi' : i < (m.classes.map Prod.fst).length := by
          by_contra hge
          have hj2 : ¬ j < (m.classes.map Prod.fst).length := by omega
          rw [List.getElem?_append_right (by omega)] at hj
          have : j - (m.classes.map Prod.fst).length ≠ 0 := by omega
          rw [List.getElem?_eq_none (by simp only [List.length_singleton]; omega)] at hj
          exact Option.noConfusion hj
        rw [List.getElem?_append_left hi'] at hi
        rw [List.map_append, indexOf_append_mem (hmemkeys i c hi)]
        by_cases hj' : j < (m.classes.map Prod.fst).length
        · rw [List.getElem?_append_left hj'] at hj
          rw [indexOf_append_mem (hmemkeys j d hj)]
          exact ho i j c d hi hj hij
        · rw [List.getElem?_append_right (by omega)] at hj
          have hd : d = a.className := by
            cases hjj : j - (m.classes.map Prod.fst).length with
            | zero =>
              rw [hjj] at hj
              simpa using hj.symm
            | succ n =>
              rw [hjj] at hj
              simp at hj
          rw [hd, indexOf_append_not_mem hk2]
          have := indexOf_lt_length_mem (hmemkeys i c hi)
          omega
    · -- sizes
      unfold groupStep
      by_cases hh : mapHas m.classes a.className = true
      · simp only [hh, Bool.not_true, Bool.false_eq_true, if_false]
        rw [sizes_push_of_mem a m.classes hinv.nodup ((mapHas_iff _ _).mp hh), hs]
        simp
      · have hk : a.className ∉ m.classes.map Prod.fst := fun x => hh ((mapHas_iff _ _).mpr x)
        simp only [hh, Bool.not_false, if_true]
        rw [List.map_append, map_push_of_not_mem a m.classes hk]
        simp only [List.map_cons, List.map_nil, if_true, List.map_append, List.sum_append,
          List.sum_cons, List.sum_nil, List.nil_append, List.length_singleton, hs,
          List.length_append, List.length_nil, Nat.add_zero]

theorem groupOrder_groupByClass {F : Type} (instances : List (InstanceRecord F)) :
    (∀ (i j : Nat) (c d : Option String),
      ((groupByClass instances).classes.map Prod.fst)[i]? = some c →
      ((groupByClass instances).classes.map Prod.fst)[j]? = some d → i < j →
      (instances.map (fun x => x.className)).indexOf c
        < (instances.map (fun x => x.className)).indexOf d) ∧
    ((groupByClass instances).classes.map (fun e => e.2.length)).sum = instances.length := by
  have h0 : GroupInv ([] : List (InstanceRecord F)) { classes := [], classIds := [] } :=
    ⟨rfl, List.nodup_nil, by intro i c h; simp at h, by intro e he; simp at he, by intro c; simp⟩
  have := groupOrder_foldl instances [] { classes := [], classIds := [] } h0
    (by intro i j c d hi; simp at hi) rfl
  simpa [groupByClass] using this

theorem classProps_length {F : Type} (className : Option String) (instList : List (InstanceRecord F)) :
    ∀ pv ∈ classProps className instList, pv.2.length = instList.length := by
  intro pv hpv
  unfold classProps at hpv
  simp only [List.mem_append] at hpv
  rcases hpv with (h | h) | h
  · simp only [List.mem_singleton] at h
    subst h
    simp [PropValues.length]
  · split at h
    · simp only [List.mem_cons, List.not_mem_nil, or_false] at h
      rcases h with h | h | h | h | h | h | h | h <;> subst h <;> simp [PropValues.length]
    · simp at h
  · split at h
    · simp only [List.mem_singleton] at h
      subst h
      simp [PropValues.length]
    · simp at h

theorem groupByClass_three {F : Type} (a b c : InstanceRecord F)
    (ha : a.className = some "Part") (hb : b.className = some "Script")
    (hc : c.className = some "Part") :
    groupByClass [a, b, c]
      = { classes := [(some "Part", [a, c]), (some "Script", [b])],
          classIds := [(some "Part", 0), (some "Script", 1)] } := by
  simp [groupByClass, groupStep, mapHas, ha, hb, hc]

/-- C13: class grouping. For every instance list, the group at position `i`
has class id `i`; the groups appear in the order in which their class names
first occur in the list; no class has two groups and the classes with a group
are those that occur; every group is the sublist of the instances of its class
in their global order, so that an instance lies in a group exactly when the
group is that of its class; the group sizes add up to the number of
instances; the PROP chunks written for a group are those of its property list,
each with a value array as long as the group. Three instances of classes
Part, Script, Part give the two groups Part (first and third instance, class
id 0) and Script (second instance, class id 1). -/
theorem class_grouping {F : Type} (N : NumOps F) (instances : List (InstanceRecord F)) :
    (∀ (i : Nat) (hi : i < (groupByClass instances).classes.length),
      classIdOf (groupByClass instances).classIds ((groupByClass instances).classes[i]).1 = i) ∧
    (∀ (i j : Nat) (c d : Option String),
      ((groupByClass instances).classes.map Prod.fst)[i]? = some c →
      ((groupByClass instances).classes.map Prod.fst)[j]? = some d → i < j →
      (instances.map (fun x => x.className)).indexOf c
        < (instances.map (fun x => x.className)).indexOf d) ∧
    ((groupByClass instances).classes.map Prod.fst).Nodup ∧
    (∀ c : Option String, c ∈ (groupByClass instances).classes.map Prod.fst
      ↔ c ∈ instances.map (fun x => x.className)) ∧
    (∀ e ∈ (groupByClass instances).classes,
      e.2 = instances.filter (fun inst => inst.className = e.1)) ∧
    (∀ inst ∈ instances,
      (∃ e ∈ (groupByClass instances).classes, e.1 = inst.className) ∧
      ∀ e ∈ (groupByClass instances).classes, (inst ∈ e.2 ↔ e.1 = inst.className)) ∧
    ((groupByClass instances).classes.map (fun e => e.2.length)).sum = instances.length ∧
    (∀ e ∈ (groupByClass instances).classes,
      (∀ w : BinaryWriter, writeClassProps N (groupByClass instances).classIds w e
        = ((classProps e.1 e.2).map (fun pv => (e.1, pv.1, pv.2))).foldlM
            (fun w t => writeProp N (groupByClass instances).classIds w t.1 t.2.1 t.2.2) w) ∧
      ∀ pv ∈ classProps e.1 e.2, pv.2.length = e.2.length) ∧
    (∀ a b c : InstanceRecord F, a.className = some "Part" → b.className = some "Script" →
      c.className = some "Part" →
      groupByClass [a, b, c]
        = { classes := [(some "Part", [a, c]), (some "Script", [b])],
            classIds := [(some "Part", 0), (some "Script", 1)] }) := by
  have inv := groupInv_groupByClass instances
  have ord := groupOrder_groupByClass instances
  refine ⟨fun i hi => classIdOf_group instances i hi, ord.1, inv.nodup, inv.keys_mem,
    inv.members, ?_, ord.2, ?_, groupByClass_three⟩
  · intro inst hinst
    refine ⟨?_, ?_⟩
    · have : inst.className ∈ (groupByClass instances).classes.map Prod.fst :=
        (inv.keys_mem _).mpr (List.mem_map.mpr ⟨inst, hinst, rfl⟩)
      obtain ⟨e, he, hk⟩ := List.mem_map.mp this
      exact ⟨e, he, hk⟩
    · intro e he
      rw [inv.members e he, List.mem_filter]
      constructor
      · intro h
        exact (of_decide_eq_true h.2).symm
      · intro h
        exact ⟨hinst, decide_eq_true h.symm⟩
  · intro e _
    exact ⟨fun w => writeClassProps_eq N _ w e, classProps_length e.1 e.2⟩

theorem class_grouping_witness :
    groupByClass [bareInstance 0 "Part" (-1), bareInstance 1 "Script" (-1),
        bareInstance 2 "Part" 0]
      = { classes := [(some "Part", [bareInstance 0 "Part" (-1), bareInstance 2 "Part" 0]),
                      (some "Script", [bareInstance 1 "Script" (-1)])],
          classIds := [(some "Part", 0), (some "Script", 1)] } :=
  (class_grouping exampleNum []).2.2.2.2.2.2.2.2
    (bareInstance 0 "Part" (-1)) (bareInstance 1 "Script" (-1)) (bareInstance 2 "Part" 0)
    rfl rfl rfl

/-! ### The order of the gathering pass -/

theorem foldlM_processNode_zero {F : Type} (N : NumOps F) (app : StudioApp F)
    (children : List String) (parentRef : Int) (st st' : Gather F)
    (h : children.foldlM (fun st childId => processNode N app 0 childId parentRef st) st
      = some st') : children = [] ∧ st' = st := by
  cases children with
  | nil => exact ⟨rfl, (Option.some.inj h).symm⟩
  | cons c cs =>
    rw [List.foldlM_cons] at h
    simp [processNode] at h

/-- The gathering pass over a list of children is a pre-order visit. -/
theorem foldlM_processNode_visits {F : Type} (N : NumOps F) (app : StudioApp F) (fuel : Nat) :
    ∀ (children : List String) (parentRef : Int) (st st' : Gather F),
      children.foldlM (fun st childId => processNode N app fuel childId parentRef st) st
        = some st' →
      ∃ records : List (InstanceRecord F),
        st'.instances = st.instances ++ records ∧
        st'.idCounter = st.idCounter + records.length ∧
        Visits N app children parentRef st.idCounter records := by
  induction fuel with
  | zero =>
    intro children parentRef st st' h
    obtain ⟨hc, hs⟩ := foldlM_processNode_zero N app children parentRef st st' h
    subst hc
    subst hs
    exact ⟨[], by simp, by simp, Visits.nil _ _⟩
  | succ fuel ih =>
    intro children
    induction children with
    | nil =>
      intro parentRef st st' h
      have hs : st' = st := (Option.some.inj h).symm
      subst hs
      exact ⟨[], by simp, by simp, Visits.nil _ _⟩
    | cons c cs ihc =>
      intro parentRef st st' h
      rw [List.foldlM_cons] at h
      cases hp : processNode N app (fuel + 1) c parentRef st with
      | none =>
        rw [hp] at h
        exact Option.noConfusion h
      | some st1 =>
        rw [hp] at h
        simp only [Option.some_bind, Option.bind_eq_bind] at h
        obtain ⟨after, ha1, ha2, ha3⟩ := ihc parentRef st1 st' h
        unfold processNode at hp
        cases hn : app.treeItems c with
        | none =>
          rw [hn] at hp
          simp only [] at hp
          by_cases hinh : objectPrototypeKeys.contains c = true
          · rw [if_pos hinh] at hp
            have hs := (Option.some.inj hp).symm
            subst hs
            refine ⟨_ :: after, ?_, ?_, Visits.inherited c cs parentRef st.idCounter after hn
              hinh ha3⟩
            · rw [ha1]; simp
            · rw [ha2]; simp only [List.length_cons]; push_cast; ring
          · rw [if_neg hinh] at hp
            have hs : st1 = st := (Option.some.inj hp).symm
            subst hs
            exact ⟨after, ha1, ha2, Visits.skip c cs parentRef _ after hn
              (by simpa using hinh) ha3⟩
        | some node =>
          rw [hn] at hp
          simp only [] at hp
          cases hc : node.children with
          | none =>
            rw [hc] at hp
            have hs := (Option.some.inj hp).symm
            subst hs
            refine ⟨_ :: ([] ++ after), ?_, ?_, Visits.visit c cs parentRef st.idCounter node []
              after hn ?_ ?_⟩
            · rw [ha1]; simp
            · rw [ha2]; simp only [List.nil_append, List.length_cons]; push_cast; ring
            · rw [hc]; exact Visits.nil _ _
            · simpa using ha3
          | some children =>
            rw [hc] at hp
            obtain ⟨below, hb1, hb2, hb3⟩ := ih children st.idCounter _ st1 hp
            refine ⟨_ :: (below ++ after), ?_, ?_, Visits.visit c cs parentRef st.idCounter node
              below after hn ?_ ?_⟩
            · rw [ha1, hb1]; simp
            · rw [ha2, hb2]
              simp only [List.length_cons, List.length_append]
              push_cast
              ring
            · rw [hc]; exact hb3
            · rw [hb2] at ha3
              exact ha3

/-- In a pre-order visit the record at position `k` has the id `firstId + k`,
and its parent is either the parent of the list or a record that was visited
earlier in the same visit. -/
theorem visits_ids {F : Type} (N : NumOps F) (app : StudioApp F)
    (children : List String) (parentRef firstId : Int) (records : List (InstanceRecord F))
    (h : Visits N app children parentRef firstId records) :
    ∀ (k : Nat) (inst : InstanceRecord F), records[k]? = some inst →
      inst.id = firstId + k ∧
      (inst.parentId = parentRef ∨ (firstId ≤ inst.parentId ∧ inst.parentId < inst.id)) := by
  induction h with
  | nil p i =>
    intro k inst hk
    simp at hk
  | skip c cs p i recs _ _ _ ih => exact ih
  | inherited c cs p i after _ _ _ iha =>
    intro k inst hk
    cases k with
    | zero =>
      simp only [List.getElem?_cons_zero, Option.some.injEq] at hk
      subst hk
      exact ⟨by simp, Or.inl rfl⟩
    | succ k =>
      rw [List.getElem?_cons_succ] at hk
      obtain ⟨h1, h2⟩ := iha k inst hk
      refine ⟨by rw [h1]; push_cast; ring, ?_⟩
      rcases h2 with h2 | h2
      · exact Or.inl h2
      · exact Or.inr ⟨by omega, h2.2⟩
  | visit c cs p i node below after _ _ _ ihb iha =>
    intro k inst hk
    cases k with
    | zero =>
      simp only [List.getElem?_cons_zero, Option.some.injEq] at hk
      subst hk
      exact ⟨by simp, Or.inl rfl⟩
    | succ k =>
      rw [List.getElem?_cons_succ] at hk
      by_cases hlt : k < below.length
      · rw [List.getElem?_append_left hlt] at hk
        obtain ⟨h1, h2⟩ := ihb k inst hk
        refine ⟨by rw [h1]; push_cast; ring, ?_⟩
        rcases h2 with h2 | h2
        · exact Or.inr ⟨by rw [h2], by rw [h2, h1]; omega⟩
        · exact Or.inr ⟨by omega, h2.2⟩
      · rw [List.getElem?_append_right (by omega)] at hk
        obtain ⟨h1, h2⟩ := iha (k - below.length) inst hk
        have hk' : ((k - below.length : Nat) : Int) = (k : Int) - below.length := by omega
        refine ⟨by rw [h1, hk']; push_cast; ring, ?_⟩
        rcases h2 with h2 | h2
        · exact Or.inl h2
        · exact Or.inr ⟨by omega, h2.2⟩

theorem gatherInstances_visits {F : Type} (N : NumOps F) (app : StudioApp F) (fuel : Nat)
    (instances : List (InstanceRecord F)) (h : gatherInstances N app fuel = some instances) :
    ∃ (root : TreeItem) (children : List String),
      app.treeItems "root" = some root ∧ root.children = some children ∧
      Visits N app children (-1) 0 instances := by
  unfold gatherInstances at h
  cases hr : app.treeItems "root" with
  | none =>
    rw [hr] at h
    exact Option.noConfusion h
  | some root =>
    rw [hr] at h
    simp only [] at h
    cases hc : root.children with
    | none =>
      rw [hc] at h
      exact Option.noConfusion h
    | some children =>
      rw [hc] at h
      simp only [Option.map_eq_some'] at h
      obtain ⟨st', hst, hi⟩ := h
      obtain ⟨records, h1, _, h3⟩ :=
        foldlM_processNode_visits N app fuel children (-1) _ st' hst
      refine ⟨root, children, rfl, hc, ?_⟩
      rw [← hi, h1]
      simpa using h3

/-- The instances gathered from the nested example: pre-order, the missing key
passed over, the part that became a container resolved as `Folder`. -/
theorem gatherInstances_nestedApp :
    gatherInstances exampleNum nestedApp 3
      = some [{ id := 0, className := some "Workspace", name := some "Workspace", props := {},
                parentId := -1 },
              { id := 1, className := some "Folder", name := some "Base", props := {}, parentId := 0 },
              { id := 2, className := some "Script", name := some "Main",
                props := { Source := some "print(1)" }, parentId := 1 },
              { id := 3, className := some "Lighting", name := some "Lighting",
                props := { Technology := some 3, GlobalShadows := some true,
                           Brightness := some 3, TimeOfDay := some "14:30:00" },
                parentId := -1 }] := by
  rfl

/-- Whenever a pre-order visit exists, the gathering pass performs it for every
large enough bound on the nesting depth. -/
theorem visits_foldlM_processNode {F : Type} (N : NumOps F) (app : StudioApp F)
    (children : List String) (parentRef firstId : Int) (records : List (InstanceRecord F))
    (h : Visits N app children parentRef firstId records) :
    ∃ fuel0 : Nat, ∀ fuel : Nat, fuel0 ≤ fuel → ∀ st : Gather F, st.idCounter = firstId →
      children.foldlM (fun st childId => processNode N app fuel childId parentRef st) st
        = some { instances := st.instances ++ records,
                 idCounter := firstId + records.length } := by
  induction h with
  | nil p i =>
    refine ⟨0, fun fuel _ st hst => ?_⟩
    cases st with
    | mk insts ctr =>
      simp only at hst
      subst hst
      simp
  | skip c cs p i recs hn hinh _ ih =>
    obtain ⟨fuel0, hf⟩ := ih
    refine ⟨fuel0 + 1, fun fuel hge st hst => ?_⟩
    obtain ⟨f, rfl⟩ : ∃ f, fuel = f + 1 := ⟨fuel - 1, by omega⟩
    rw [List.foldlM_cons]
    have hp : processNode N app (f + 1) c p st = some st := by
      unfold processNode
      rw [hn]
      simp only [hinh, Bool.false_eq_true, if_false]
    rw [hp]
    exact hf (f + 1) (by omega) st hst
  | inherited c cs p i after hn hinh _ iha =>
    obtain ⟨fuel0, hf⟩ := iha
    refine ⟨fuel0 + 1, fun fuel hge st hst => ?_⟩
    obtain ⟨f, rfl⟩ : ∃ f, fuel = f + 1 := ⟨fuel - 1, by omega⟩
    rw [List.foldlM_cons]
    have hp : processNode N app (f + 1) c p st
        = some { instances := st.instances ++ [({ id := i, className := none, name := none, props := {}, parentId := p } : InstanceRecord F)],
                 idCounter := i + 1 } := by
      unfold processNode
      rw [hn]
      simp only [hinh, if_true, hst]
    rw [hp]
    have key := hf (f + 1) (by omega)
      { instances := st.instances ++ [({ id := i, className := none, name := none, props := {}, parentId := p } : InstanceRecord F)],
        idCounter := i + 1 } rfl
    simp only [Option.some_bind, Option.bind_eq_bind]
    rw [key]
    congr 2
    · simp
    · simp only [List.length_cons]
      push_cast
      ring
  | visit c cs p i node below after hn _ _ ihb iha =>
    obtain ⟨fuelB, hb⟩ := ihb
    obtain ⟨fuelA, ha⟩ := iha
    refine ⟨fuelB + fuelA + 1, fun fuel hge st hst => ?_⟩
    obtain ⟨f, rfl⟩ : ∃ f, fuel = f + 1 := ⟨fuel - 1, by omega⟩
    rw [List.foldlM_cons]
    have hp : processNode N app (f + 1) c p st
          = some { instances := (st.instances ++ [({ id := i, className := some (actualClassName c node), name := some node.data, props := gatherProps N app (actualClassName c node) node, parentId := p } : InstanceRecord F)]) ++ below,
                   idCounter := i + 1 + below.length } := by
      have key := hb f (by omega)
        { instances := st.instances ++ [({ id := i, className := some (actualClassName c node), name := some node.data, props := gatherProps N app (actualClassName c node) node, parentId := p } : InstanceRecord F)],
          idCounter := i + 1 } rfl
      unfold processNode
      rw [hn]
      simp only [hst]
      cases hc : node.children with
      | none =>
        rw [hc] at key
        simp only [Option.getD_none, List.foldlM_nil] at key
        exact key
      | some children =>
        rw [hc] at key
        simp only [Option.getD_some] at key
        exact key
    rw [hp]
    have key2 := ha (f + 1) (by omega)
      { instances := (st.instances ++ [({ id := i, className := some (actualClassName c node), name := some node.data, props := gatherProps N app (actualClassName c node) node, parentId := p } : InstanceRecord F)]) ++ below,
        idCounter := i + 1 + below.length } rfl
    simp only [Option.some_bind, Option.bind_eq_bind]
    rw [key2]
    congr 2
    · simp
    · simp only [List.length_cons, List.length_append]
      push_cast
      ring

theorem visits_gatherInstances {F : Type} (N : NumOps F) (app : StudioApp F)
    (root : TreeItem) (children : List String) (records : List (InstanceRecord F))
    (hr : app.treeItems "root" = some root) (hc : root.children = some children)
    (h : Visits N app children (-1) 0 records) :
    ∃ fuel0 : Nat, ∀ fuel : Nat, fuel0 ≤ fuel → gatherInstances N app fuel = some records := by
  obtain ⟨fuel0, hf⟩ := visits_foldlM_processNode N app children (-1) 0 records h
  refine ⟨fuel0, fun fuel hge => ?_⟩
  unfold gatherInstances
  rw [hr]
  simp only [hc]
  rw [hf fuel hge { instances := [], idCounter := 0 } rfl]
  simp

theorem ids_eq_range {F : Type} (instances : List (InstanceRecord F))
    (h : ∀ (k : Nat) (inst : InstanceRecord F), instances[k]? = some inst → inst.id = k) :
    instances.map (fun i => i.id) = (List.range instances.length).map Int.ofNat := by
  apply List.ext_getElem?
  intro k
  simp only [List.getElem?_map]
  by_cases hk : k < instances.length
  · rw [List.getElem?_eq_getElem hk, List.getElem?_range hk]
    simp only [Option.map_some']
    rw [h k _ (List.getElem?_eq_getElem hk)]
    rfl
  · rw [List.getElem?_eq_none (by omega), List.getElem?_eq_none (by simp; omega)]
    rfl

/-- C14: order of the extraction. When the extractor returns the list
`instances`, that list is the pre-order visit of the children of `root`
(each node followed at once by its own children, in the order of the
`children` arrays, keys absent from the index passed over) with the ids
0, 1, 2, ... in the order of the visit: the instance at position `k` has id
`k`, so the ids are pairwise distinct; the root-level nodes have parent -1
and the nodes below a visited node have the id of that node as their parent;
every instance has parent -1 or the id of an instance that comes earlier in the
list; and along every chain of parent links the id of the ancestor is strictly
lower than the id of the descendant.  Conversely, whenever the children of
`root` have a pre-order visit, the extractor returns it for every large enough
bound on the nesting depth. -/
theorem preorder_ids {F : Type} (N : NumOps F) (app : StudioApp F) (fuel : Nat)
    (instances : List (InstanceRecord F)) (h : gatherInstances N app fuel = some instances) :
    (∃ (root : TreeItem) (children : List String),
      app.treeItems "root" = some root ∧ root.children = some children ∧
      Visits N app children (-1) 0 instances) ∧
    (∀ (k : Nat) (inst : InstanceRecord F), instances[k]? = some inst → inst.id = k) ∧
    (instances.map (fun i => i.id)).Nodup ∧
    (∀ inst ∈ instances, inst.parentId = -1 ∨
      ∃ parent : InstanceRecord F, instances[inst.parentId.toNat]? = some parent ∧
        parent.id = inst.parentId ∧ parent.id < inst.id) ∧
    (∀ a d : InstanceRecord F,
      Relation.TransGen
        (fun (x y : InstanceRecord F) => x ∈ instances ∧ y ∈ instances ∧ y.parentId = x.id) a d →
      a.id < d.id) ∧
    (∀ (root : TreeItem) (children : List String) (records : List (InstanceRecord F)),
      app.treeItems "root" = some root → root.children = some children →
      Visits N app children (-1) 0 records →
      ∃ fuel0 : Nat, ∀ fuel1 : Nat, fuel0 ≤ fuel1 →
        gatherInstances N app fuel1 = some records) := by
  obtain ⟨root, children, hr, hc, hv⟩ := gatherInstances_visits N app fuel instances h
  have hids := visits_ids N app children (-1) 0 instances hv
  have hpos : ∀ (k : Nat) (inst : InstanceRecord F), instances[k]? = some inst → inst.id = k := by
    intro k inst hk
    rw [(hids k inst hk).1]
    simp
  have hpar : ∀ inst ∈ instances, inst.parentId = -1 ∨ (0 ≤ inst.parentId ∧
      inst.parentId < inst.id) := by
    intro inst hi
    obtain ⟨k, hk⟩ := List.mem_iff_getElem?.mp hi
    exact (hids k inst hk).2
  have hnonneg : ∀ inst ∈ instances, 0 ≤ inst.id := by
    intro inst hi
    obtain ⟨k, hk⟩ := List.mem_iff_getElem?.mp hi
    rw [hpos k inst hk]
    omega
  refine ⟨⟨root, children, hr, hc, hv⟩, hpos, ?_, ?_, ?_,
    fun root1 children1 records hr1 hc1 hv1 =>
      visits_gatherInstances N app root1 children1 records hr1 hc1 hv1⟩
  · rw [ids_eq_range instances hpos]
    exact List.Nodup.map (fun a b hab => Int.ofNat.inj hab) (List.nodup_range _)
  · intro inst hi
    rcases hpar inst hi with hp | ⟨hp0, hp1⟩
    · exact Or.inl hp
    · right
      obtain ⟨k, hk⟩ := List.mem_iff_getElem?.mp hi
      have hid := hpos k inst hk
      have hklt : k < instances.length := by
        by_contra hge
        rw [List.getElem?_eq_none (by omega)] at hk
        exact Option.noConfusion hk
      have hlt : inst.parentId.toNat < instances.length := by omega
      refine ⟨instances[inst.parentId.toNat], List.getElem?_eq_getElem hlt, ?_, ?_⟩
      · rw [hpos _ _ (List.getElem?_eq_getElem hlt)]
        omega
      · rw [hpos _ _ (List.getElem?_eq_getElem hlt)]
        omega
  · intro a d hgen
    induction hgen with
    | single hstep =>
      obtain ⟨ha, hd, hp⟩ := hstep
      rcases hpar _ hd with hp1 | hp1
      · have := hnonneg a ha
        omega
      · omega
    | tail _ hstep ih =>
      obtain ⟨ha, hd, hp⟩ := hstep
      rcases hpar _ hd with hp1 | hp1
      · have := hnonneg _ ha
        omega
      · omega

theorem preorder_ids_witness :
    ([{ id := 0, className := some "Workspace", name := some "Workspace", props := {}, parentId := -1 },
      { id := 1, className := some "Folder", name := some "Base", props := {}, parentId := 0 },
      { id := 2, className := some "Script", name := some "Main",
        props := { Source := some "print(1)" }, parentId := 1 },
      { id := 3, className := some "Lighting", name := some "Lighting",
        props := { Technology := some 3, GlobalShadows := some true,
                   Brightness := some 3, TimeOfDay := some "14:30:00" },
        parentId := -1 }] : List (InstanceRecord Int)).map (fun i => i.id) = [0, 1, 2, 3] ∧
    (([{ id := 0, className := some "Workspace", name := some "Workspace", props := {}, parentId := -1 },
      { id := 1, className := some "Folder", name := some "Base", props := {}, parentId := 0 },
      { id := 2, className := some "Script", name := some "Main",
        props := { Source := some "print(1)" }, parentId := 1 },
      { id := 3, className := some "Lighting", name := some "Lighting",
        props := { Technology := some 3, GlobalShadows := some true,
                   Brightness := some 3, TimeOfDay := some "14:30:00" },
        parentId := -1 }] : List (InstanceRecord Int)).map (fun i => i.id)).Nodup :=
  ⟨rfl, (preorder_ids exampleNum nestedApp 3 _ gatherInstances_nestedApp).2.2.1⟩

/-! ### Class resolution -/

/-- Every record of a visit is the record of a node of the index, with the
class name resolved from the key and the node and the properties gathered for
that class, or the record made for a key under which the lookup finds only a
value inherited from `Object.prototype`, without class name and name. -/
theorem visits_class {F : Type} (N : NumOps F) (app : StudioApp F)
    (children : List String) (parentRef firstId : Int) (records : List (InstanceRecord F))
    (h : Visits N app children parentRef firstId records) :
    ∀ inst ∈ records,
      (∃ nodeId : String, app.treeItems nodeId = none ∧ nodeId ∈ objectPrototypeKeys ∧
        inst.className = none ∧ inst.name = none ∧ inst.props = {}) ∨
      (∃ (nodeId : String) (node : TreeItem),
        app.treeItems nodeId = some node ∧ inst.name = some node.data ∧
        inst.className = some (actualClassName nodeId node) ∧
        inst.props = gatherProps N app (actualClassName nodeId node) node) := by
  induction h with
  | nil p i =>
    intro inst hi
    simp at hi
  | skip c cs p i recs _ _ _ ih => exact ih
  | inherited c cs p i after hn hinh _ iha =>
    intro inst hi
    rcases List.mem_cons.mp hi with hi | hi
    · subst hi
      exact Or.inl ⟨c, hn, List.elem_iff.mp hinh, rfl, rfl, rfl⟩
    · exact iha inst hi
  | visit c cs p i node below after hn _ _ ihb iha =>
    intro inst hi
    simp only [List.mem_cons, List.mem_append] at hi
    rcases hi with hi | hi | hi
    · subst hi
      exact Or.inr ⟨c, node, hn, rfl, rfl, rfl⟩
    · exact ihb inst hi
    · exact iha inst hi

theorem actualClassName_rule (nodeId : String) (node : TreeItem) :
    (nodeId ∈ serviceNames → actualClassName nodeId node = nodeId) ∧
    (nodeId ∉ serviceNames → node.isFolder = true → actualClassName nodeId node = "Folder") ∧
    (nodeId ∉ serviceNames → node.isFolder = false →
      ∀ k : String, node.kind = some k → k ≠ "" → actualClassName nodeId node = k) ∧
    (nodeId ∉ serviceNames → node.isFolder = false → (node.kind = none ∨ node.kind = some "") →
      actualClassName nodeId node = node.index) := by
  unfold actualClassName nodeClassName
  refine ⟨?_, ?_, ?_, ?_⟩
  · intro h
    rw [if_pos (List.elem_iff.mpr h)]
  · intro h hf
    rw [if_neg (fun x => h (List.elem_iff.mp x)), if_pos hf]
  · intro h hf k hk hne
    rw [if_neg (fun x => h (List.elem_iff.mp x)), if_neg (by simp [hf]), hk]
    simp [hne]
  · intro h hf hk
    rw [if_neg (fun x => h (List.elem_iff.mp x)), if_neg (by simp [hf])]
    rcases hk with hk | hk <;> simp [hk]

/-- C15, as the claim words it, fails: in the nested example the node `Base`
is a container tagged with the kind `Part` and its key is no service name; the
words of the claim give the class `Part`, the extractor gives `Folder`. -/
theorem className_kind_counterexample :
    nestedApp.treeItems "Base"
      = some { index := "Base", isFolder := true, kind := some "Part", data := "Base",
               children := some ["Main"] } ∧
    specClassName "Base" { index := "Base", isFolder := true, kind := some "Part", data := "Base",
                           children := some ["Main"] } = some "Part" ∧
    actualClassName "Base" { index := "Base", isFolder := true, kind := some "Part",
                             data := "Base", children := some ["Main"] } = "Folder" ∧
    (gatherInstances exampleNum nestedApp 3).map
        (fun l => l.map (fun (i : InstanceRecord Int) => (i.name, i.className)))
      = some [(some "Workspace", some "Workspace"), (some "Base", some "Folder"),
              (some "Main", some "Script"), (some "Lighting", some "Lighting")] := by
  refine ⟨rfl, rfl, rfl, ?_⟩
  rw [gatherInstances_nestedApp]
  rfl

/-- C15, amended: every instance the extractor returns for a node of the
index is the record of that node, and its class name is the key of the node
when the key is one of the twelve service names; otherwise `Folder` when the
node is a container, whatever its kind; otherwise the kind tag of the node
when that is a non-empty string; otherwise the index of the node.  The only
other instances are those made for a listed key that is no entry of the index
but the name of a property every object inherits: the value found there has
neither kind nor index, and the instance has neither class name nor name. -/
theorem className_resolution {F : Type} (N : NumOps F) (app : StudioApp F) (fuel : Nat)
    (instances : List (InstanceRecord F)) (h : gatherInstances N app fuel = some instances) :
    ∀ inst ∈ instances,
      (∃ nodeId : String, app.treeItems nodeId = none ∧ nodeId ∈ objectPrototypeKeys ∧
        inst.className = none ∧ inst.name = none) ∨
      (∃ (nodeId : String) (node : TreeItem),
        app.treeItems nodeId = some node ∧ inst.name = some node.data ∧
        (nodeId ∈ serviceNames → inst.className = some nodeId) ∧
        (nodeId ∉ serviceNames → node.isFolder = true → inst.className = some "Folder") ∧
        (nodeId ∉ serviceNames → node.isFolder = false →
          ∀ k : String, node.kind = some k → k ≠ "" → inst.className = some k) ∧
        (nodeId ∉ serviceNames → node.isFolder = false →
          (node.kind = none ∨ node.kind = some "") → inst.className = some node.index)) := by
  obtain ⟨root, children, _, _, hv⟩ := gatherInstances_visits N app fuel instances h
  intro inst hi
  rcases visits_class N app children (-1) 0 instances hv inst hi with
    ⟨nodeId, hn, hk, hc, hname, _⟩ | ⟨nodeId, node, hn, hname, hcls, _⟩
  · exact Or.inl ⟨nodeId, hn, hk, hc, hname⟩
  · refine Or.inr ⟨nodeId, node, hn, hname, ?_⟩
    rw [hcls]
    obtain ⟨h1, h2, h3, h4⟩ := actualClassName_rule nodeId node
    exact ⟨fun a => congrArg some (h1 a), fun a b => congrArg some (h2 a b),
      fun a b k c d => congrArg some (h3 a b k c d), fun a b c => congrArg some (h4 a b c)⟩

theorem className_resolution_witness :
    (∃ nodeId : String, nestedApp.treeItems nodeId = none ∧ nodeId ∈ objectPrototypeKeys ∧
      some "Folder" = (none : Option String) ∧ some "Base" = (none : Option String)) ∨
    (∃ (nodeId : String) (node : TreeItem),
      nestedApp.treeItems nodeId = some node ∧ some "Base" = some node.data ∧
      (nodeId ∈ serviceNames → some "Folder" = some nodeId) ∧
      (nodeId ∉ serviceNames → node.isFolder = true → some "Folder" = some "Folder") ∧
      (nodeId ∉ serviceNames → node.isFolder = false →
        ∀ k : String, node.kind = some k → k ≠ "" → some "Folder" = some k) ∧
      (nodeId ∉ serviceNames → node.isFolder = false →
        (node.kind = none ∨ node.kind = some "") → some "Folder" = some node.index)) :=
  className_resolution exampleNum nestedApp 3 _ gatherInstances_nestedApp
    { id := 1, className := some "Folder", name := some "Base", props := {}, parentId := 0 }
    (List.mem_cons_of_mem _ (List.mem_cons_self _ _))

/-! ### A part without live object -/

theorem gatherInstances_ghostApp :
    gatherInstances exampleNum ghostApp 2
      = some [{ id := 0, className := some "Workspace", name := some "Workspace", props := {},
                parentId := -1 },
              { id := 1, className := some "Part", name := some "Ghost", props := {}, parentId := 0 }] := by
  rfl

/-- C16 fails on the code: when the extractor returns an instance of class
Part or SpawnLocation whose name has no live object in the scene, the instance
is there but none of its properties is set (nothing is defaulted), and the
export is aborted by the exception raised while the PROP chunk of `Size` is
built: no file is produced. -/
theorem missing_object_aborts {F : Type} (N : NumOps F) (app : StudioApp F) (fuel : Nat)
    (instances : List (InstanceRecord F)) (h : gatherInstances N app fuel = some instances)
    (inst : InstanceRecord F) (hi : inst ∈ instances)
    (hc : inst.className = some "Part" ∨ inst.className = some "SpawnLocation")
    (hobj : ∀ name : String, inst.name = some name → app.scene name = none) :
    inst.props = {} ∧
    propPayload N (classIdOf (groupByClass instances).classIds inst.className) "Size"
      (.vector3 ((instances.filter (fun i => i.className = inst.className)).map
        (fun i => i.props.Size))) = none ∧
    encodeInstances N instances = none ∧
    exportToRbxl N app fuel = none := by
  obtain ⟨root, children, _, _, hv⟩ := gatherInstances_visits N app fuel instances h
  have hempty : inst.props = {} := by
    rcases visits_class N app children (-1) 0 instances hv inst hi with
      ⟨_, _, _, _, _, hprops⟩ | ⟨nodeId, node, _, hname, hcls, hprops⟩
    · exact hprops
    · rw [hprops]
      have hc2 : actualClassName nodeId node = "Part" ∨
          actualClassName nodeId node = "SpawnLocation" := by
        rw [hcls] at hc
        rcases hc with hc | hc
        · exact Or.inl (Option.some.inj hc)
        · exact Or.inr (Option.some.inj hc)
      unfold gatherProps
      rw [if_pos hc2, hobj node.data hname]
  have hnot : ¬PartsComplete instances := by
    intro hpc
    have := (hpc inst hi hc).1
    rw [hempty] at this
    exact Bool.noConfusion this
  have henc := encodeInstances_eq_none N instances hnot
  refine ⟨hempty, ?_, henc, ?_⟩
  · cases hp : propPayload N (classIdOf (groupByClass instances).classIds inst.className) "Size"
        (.vector3 ((instances.filter (fun i => i.className = inst.className)).map
          (fun i => i.props.Size))) with
    | none => rfl
    | some bs =>
      have hs := propPayload_isSome N (classIdOf (groupByClass instances).classIds inst.className)
        "Size" (.vector3 ((instances.filter (fun i => i.className = inst.className)).map
          (fun i => i.props.Size)))
      rw [hp] at hs
      simp only [Option.isSome_some] at hs
      have hall := (allDefined_isSome _).mp hs.symm inst.props.Size
        (List.mem_map.mpr ⟨inst, List.mem_filter.mpr ⟨hi, by simp⟩, rfl⟩)
      rw [hempty] at hall
      exact Bool.noConfusion hall
  · unfold exportToRbxl
    rw [h]
    exact henc

theorem missing_object_aborts_witness :
    gatherInstances exampleNum ghostApp 2
      = some [{ id := 0, className := some "Workspace", name := some "Workspace", props := {},
                parentId := -1 },
              { id := 1, className := some "Part", name := some "Ghost", props := {}, parentId := 0 }] ∧
    exportToRbxl exampleNum ghostApp 2 = none :=
  ⟨gatherInstances_ghostApp,
   (missing_object_aborts exampleNum ghostApp 2 _ gatherInstances_ghostApp
      { id := 1, className := some "Part", name := some "Ghost", props := {}, parentId := 0 }
      (List.mem_cons_of_mem _ (List.mem_cons_self _ _)) (Or.inl rfl) (fun _ _ => rfl)).2.2.2⟩

/-! ### The defaults of Lighting -/

theorem writeClassProps_lighting {F : Type} (N : NumOps F) (ids : List (Option String × Int))
    (w : BinaryWriter) (instList : List (InstanceRecord F)) :
    writeClassProps N ids w (some "Lighting", instList)
      = writeProp N ids w (some "Lighting") "Name" (.string (instList.map (fun i => i.name))) := by
  rw [writeClassProps_eq]
  have h : classProps (some "Lighting") instList
      = [("Name", .string (instList.map (fun i => i.name)))] := by
    unfold classProps
    rw [if_neg (by decide), if_neg (by decide)]
    rfl
  simp only [h, List.map_cons, List.map_nil, List.foldlM_cons, List.foldlM_nil]
  cases writeProp N ids w (some "Lighting") "Name" (.string (instList.map (fun i => i.name))) <;> rfl

/-- C17 fails on the code for the defaults of Lighting: the extractor sets
`Technology`, `GlobalShadows`, `Brightness` and `TimeOfDay` on the instance of
class Lighting, but the only PROP chunk written for a group of that class is
the one of `Name`; the file exported from the index whose only root child is
`Lighting` holds that single PROP chunk. -/
theorem lighting_defaults_unwritten :
    gatherInstances exampleNum lightingApp 1
      = some [{ id := 0, className := some "Lighting", name := some "Lighting",
                props := { Technology := some 3, GlobalShadows := some true,
                           Brightness := some 3, TimeOfDay := some "14:30:00" },
                parentId := -1 }] ∧
    (∀ (F : Type) (N : NumOps F) (ids : List (Option String × Int)) (w : BinaryWriter)
        (instList : List (InstanceRecord F)),
      writeClassProps N ids w (some "Lighting", instList)
        = writeProp N ids w (some "Lighting") "Name" (.string (instList.map (fun i => i.name)))) ∧
    exportToRbxl exampleNum lightingApp 1
      = some (headerBytes 1 1 ++ chunkBytes "META" metaPayload ++ chunkBytes "SSTR" sstrPayload
          ++ chunkBytes "INST" ([0, 0, 0, 0] ++ lengthPrefixed "Lighting" ++ [1]
              ++ [1, 0, 0, 0] ++ [0, 0, 0, 0] ++ [1])
          ++ chunkBytes "PROP" ([0, 0, 0, 0] ++ lengthPrefixed "Name" ++ [1]
              ++ lengthPrefixed "Lighting")
          ++ chunkBytes "PRNT" [0, 1, 0, 0, 0, 0, 0, 0, 0, 0, 0, 0, 1]
          ++ chunkBytes "END" endPayload) := by
  refine ⟨rfl, fun F N ids w instList => writeClassProps_lighting N ids w instList, ?_⟩
  have hg : gatherInstances exampleNum lightingApp 1
      = some [{ id := 0, className := some "Lighting", name := some "Lighting",
                props := { Technology := some 3, GlobalShadows := some true,
                           Brightness := some 3, TimeOfDay := some "14:30:00" },
                parentId := -1 }] := rfl
  unfold exportToRbxl
  rw [hg]
  simp only [Option.some_bind, Option.bind_eq_bind]
  rw [encodeInstances_lighting exampleNum _ rfl rfl, prntPayload_eq]
  simp only [List.map_cons, List.map_nil, List.length_singleton]
  rw [show ([0] ++ bytesLE32 (1 % 4294967296) ++ interleaved (zigzagDeltas 0 [0])
      ++ interleaved (zigzagDeltas 0 [-1]) : List Nat)
      = [0, 1, 0, 0, 0, 0, 0, 0, 0, 0, 0, 0, 1] by decide]
  simp only [Option.getD_some]

/-! ### The reader and the names of top-level Items -/

/-- The reader descends into a top-level Item exactly when the lookup of its
name in the tree index finds something, whatever that is. -/
theorem loadRootItem_eq {F Q : Type} (R : ReadOps F Q) (app : StudioApp F) (item : XmlNode) :
    loadRootItem R app item
      = if indexHas app (serviceNameOf item) then
          (processItems R item.childNodes (serviceNameOf item),
            (item.childElements "Item").length)
        else ([], 0) := rfl

/-- C19 fails on the code: the test on the name of a top-level Item accepts
every key the lookup in the tree index finds, not only the known containers.
In the index of the ghost example the key `Ghost` is a part, neither a
container nor a child of `root`; a document whose only top-level Item is named
`Ghost` and holds one Part makes the reader call create-object once and report
one loaded object.  The same happens for the name `constructor`, which no node
of the index carries. -/
theorem unknown_name_imports :
    (ghostApp.treeItems "Ghost").map (fun node => (node.isFolder, node.kind))
      = some (false, some "Part") ∧
    (ghostApp.treeItems "root").map (fun node => node.children) = some (some ["Workspace"]) ∧
    serviceNameOf (XmlNode.element "Item" [("class", "Model")]
      [.element "Properties" [] [.element "string" [("name", "Name")] [.text "Ghost"]],
       .element "Item" [("class", "Part")]
         [.element "Properties" [] [.element "string" [("name", "Name")] [.text "Block"]]]])
      = some "Ghost" ∧
    loadRbxlxContent exampleRead ghostApp (singleItemDoc "Ghost")
      = { calls := [.createObject blockOptions], log := .loaded 1 } ∧
    ghostApp.treeItems "constructor" = none ∧
    loadRbxlxContent exampleRead ghostApp (singleItemDoc "constructor")
      = { calls := [.createObject blockOptions], log := .loaded 1 } ∧
    loadRbxlxContent exampleRead ghostApp (singleItemDoc "Nowhere")
      = { calls := [], log := .loaded 0 } :=
  ⟨rfl, rfl, rfl, rfl, rfl, rfl, rfl⟩

/-- C20 fails on the code: the reader descends into a top-level Item whenever
the lookup of its name in the tree index finds something.  In the index whose
root has the only child `Lighting`, the key `root` is not a root-level
container, yet a document whose only top-level Item is named `root` and holds
one Part makes the reader descend: create-object is called for the Part and
one loaded object is reported.  For the root-level container `Lighting` the
reader descends as well, and for a name the lookup does not find it does not. -/
theorem root_name_descends :
    (lightingApp.treeItems "root").map (fun node => node.children) = some (some ["Lighting"]) ∧
    indexHas lightingApp (some "root") = true ∧
    loadRbxlxContent exampleRead lightingApp (singleItemDoc "root")
      = { calls := [.createObject blockOptions], log := .loaded 1 } ∧
    loadRbxlxContent exampleRead lightingApp (singleItemDoc "Lighting")
      = { calls := [.createObject blockOptions], log := .loaded 1 } ∧
    loadRbxlxContent exampleRead lightingApp (singleItemDoc "Workspace")
      = { calls := [], log := .loaded 0 } ∧
    (∀ (F Q : Type) (R : ReadOps F Q) (app : StudioApp F) (item : XmlNode),
      loadRootItem R app item
        = if indexHas app (serviceNameOf item) then
            (processItems R item.childNodes (serviceNameOf item),
              (item.childElements "Item").length)
          else ([], 0)) :=
  ⟨rfl, rfl, rfl, rfl, rfl, fun _ _ R app item => loadRootItem_eq R app item⟩

/-! ### Sequences of write operations -/

theorem holds_apply {w : BinaryWriter} {bs : List Nat} (h : Holds w bs) (op : WriterOp) :
    Holds (WriterOp.apply w op) (bs ++ op.bytes) := by
  cases op with
  | writeBytes bytes => exact holds_writeBytes h bytes
  | writeUInt8 val => exact holds_writeUInt8 h val
  | writeUInt16LE val => exact holds_writeUInt16LE h val
  | writeUInt32LE val => exact holds_writeUInt32LE h val
  | writeUInt32BE val => exact holds_writeUInt32BE h val
  | writeInt32LE val => exact holds_writeInt32LE h val
  | writeString str => exact holds_writeString' h str
  | writeInterleaved values => exact holds_writeInterleaved h values

theorem holds_ops (size : Nat) (ops : List WriterOp) :
    Holds (ops.foldl WriterOp.apply (BinaryWriter.new size)) (ops.flatMap WriterOp.bytes) := by
  have := holds_foldl_append WriterOp.apply WriterOp.bytes
    (fun w bs a hw => holds_apply hw a) ops (holds_new size)
  simpa using this

/-- C28: for every initial capacity and every sequence of write operations,
after each operation the offset is within the buffer and `getResult` is the
concatenation, in order, of the bytes of the operations made so far; an
operation appends its bytes to the result and changes none of the bytes
written before, also when the buffer grows; `writeString` writes the UTF-8
bytes of the string after a 4-byte little-endian prefix that holds their
number. -/
theorem writer_ops (size : Nat) (ops : List WriterOp) :
    (∀ n : Nat,
      ((ops.take n).foldl WriterOp.apply (BinaryWriter.new size)).offset
        ≤ ((ops.take n).foldl WriterOp.apply (BinaryWriter.new size)).buffer.length ∧
      ((ops.take n).foldl WriterOp.apply (BinaryWriter.new size)).getResult
        = (ops.take n).flatMap WriterOp.bytes) ∧
    (ops.foldl WriterOp.apply (BinaryWriter.new size)).getResult = ops.flatMap WriterOp.bytes ∧
    (∀ (w : BinaryWriter) (op : WriterOp), w.offset ≤ w.buffer.length →
      (WriterOp.apply w op).offset ≤ (WriterOp.apply w op).buffer.length ∧
      (WriterOp.apply w op).getResult = w.getResult ++ op.bytes ∧
      (WriterOp.apply w op).offset = w.offset + op.bytes.length ∧
      (WriterOp.apply w op).getResult.take w.offset = w.getResult) ∧
    (∀ str : String,
      (WriterOp.writeString str).bytes.drop 4 = stringToBytes str ∧
      ((WriterOp.writeString str).bytes.take 4).length = 4 ∧
      ((stringToBytes str).length < 4294967296 →
        valueLE32 ((WriterOp.writeString str).bytes.take 4) = (stringToBytes str).length)) := by
  refine ⟨fun n => holds_ops size (ops.take n), (holds_ops size ops).2, ?_, ?_⟩
  · intro w op hw
    have h := holds_apply (show Holds w w.getResult from ⟨hw, rfl⟩) op
    have hlen : w.getResult.length = w.offset := by
      unfold BinaryWriter.getResult
      rw [List.length_take]
      omega
    have hoff : (WriterOp.apply w op).offset = w.offset + op.bytes.length := by
      have h2 := congrArg List.length h.2
      unfold BinaryWriter.getResult at h2
      rw [List.length_take, List.length_append, List.length_take] at h2
      have := h.1
      omega
    refine ⟨h.1, h.2, hoff, ?_⟩
    rw [h.2, ← hlen, List.take_left']
    rfl
  · intro str
    have h4 : (bytesLE32 ((stringToBytes str).length % 4294967296)).length = 4 := rfl
    refine ⟨?_, ?_, ?_⟩
    · show (bytesLE32 _ ++ stringToBytes str).drop 4 = _
      rw [← h4, List.drop_left']
      rfl
    · show ((bytesLE32 _ ++ stringToBytes str).take 4).length = 4
      rw [← h4, List.take_left']
      rfl
    · intro hlt
      show valueLE32 ((bytesLE32 _ ++ stringToBytes str).take 4) = _
      rw [← h4, List.take_left' rfl, valueLE32_bytesLE32 _ (Nat.mod_lt _ (by decide)),
        Nat.mod_eq_of_lt hlt]

theorem writer_ops_witness :
    ([WriterOp.writeString "ab", .writeUInt8 258, .writeInterleaved [1, 2]].foldl WriterOp.apply
        (BinaryWriter.new 0)).getResult
      = [2, 0, 0, 0, 97, 98, 2, 0, 0, 0, 0, 0, 0, 1, 2] ∧
    valueLE32 ((WriterOp.writeString "ab").bytes.take 4) = 2 :=
  ⟨(writer_ops 0 [WriterOp.writeString "ab", .writeUInt8 258, .writeInterleaved [1, 2]]).2.1.trans
      (by decide),
   ((writer_ops 0 []).2.2.2 "ab").2.2 (by decide)⟩

/-! ### Extraction from a forest -/

theorem chain_trans {F : Type} (app : StudioApp F) (a b k : String) (m n : Nat)
    (h1 : Chain app a m b) (h2 : Chain app b n k) : Chain app a (m + n) k := by
  induction h2 with
  | refl => exact h1
  | snoc n p node k _ hp hk ih => exact Chain.snoc a (m + n) p node k ih hp hk

theorem chain_cons {F : Type} (app : StudioApp F) (a c k : String) (node : TreeItem) (n : Nat)
    (ha : app.treeItems a = some node) (hc : c ∈ node.children.getD [])
    (h : Chain app c n k) : Chain app a (n + 1) k := by
  have h1 : Chain app a 1 c := Chain.snoc a 0 a node c (Chain.refl a) ha hc
  have := chain_trans app a c k 1 n h1 h
  rwa [Nat.add_comm] at this

theorem chain_zero {F : Type} (app : StudioApp F) (a k : String) (h : Chain app a 0 k) :
    k = a := by
  cases h
  rfl

theorem chain_head {F : Type} (app : StudioApp F) (a k : String) (n : Nat)
    (h : Chain app a (n + 1) k) :
    ∃ (node : TreeItem) (c : String), app.treeItems a = some node ∧
      c ∈ node.children.getD [] ∧ Chain app c n k := by
  induction n generalizing k with
  | zero =>
    cases h with
    | snoc _ p node _ hch hp hk =>
      have := chain_zero app a p hch
      subst this
      exact ⟨node, k, hp, hk, Chain.refl k⟩
  | succ n ih =>
    cases h with
    | snoc _ p node _ hch hp hk =>
      obtain ⟨node0, c, h0, hc, hcp⟩ := ih p hch
      exact ⟨node0, c, h0, hc, Chain.snoc c n p node k hcp hp hk⟩

theorem reach_chain {F : Type} (app : StudioApp F) (a k : String) (n : Nat)
    (ha : Reach app a) (h : Chain app a n k) : Reach app k := by
  obtain ⟨m, hm⟩ := ha
  exact ⟨m + n, chain_trans app "root" a k m n hm h⟩

/-- Along a chain that ends in a node of the index the rank drops at every step. -/
theorem chain_rank {F : Type} (app : StudioApp F) (rank : String → Nat)
    (hrank : ∀ (k : String) (node : TreeItem) (c : String),
      Reach app k → app.treeItems k = some node → c ∈ node.children.getD [] →
      (app.treeItems c).isSome = true → rank c < rank k)
    (a k : String) (n : Nat) (ha : Reach app a) (h : Chain app a n k)
    (hk : (app.treeItems k).isSome = true) : rank k + n ≤ rank a := by
  induction h with
  | refl => omega
  | snoc n p node k hch hp hkc ih =>
    have hpr := reach_chain app a p n ha hch
    have := hrank p node k hpr hp hkc hk
    have := ih (by rw [hp]; rfl)
    omega

/-- Two chains that end in the same node of a forest lie on one path. -/
theorem chain_unique {F : Type} (app : StudioApp F) (hf : IsForest app) (a : String) (n : Nat) :
    ∀ (b k : String) (m : Nat), Reach app a → Reach app b → Chain app a n k → Chain app b m k →
      (app.treeItems k).isSome = true → n ≤ m → Chain app b (m - n) a := by
  induction n with
  | zero =>
    intro b k m _ _ h1 h2 _ _
    have := chain_zero app a k h1
    subst this
    simpa using h2
  | succ n ih =>
    intro b k m ha hb h1 h2 hk hle
    obtain ⟨m', rfl⟩ : ∃ m', m = m' + 1 := ⟨m - 1, by omega⟩
    cases h1 with
    | snoc _ p node _ hch hp hkc =>
      cases h2 with
      | snoc _ p' node' _ hch' hp' hkc' =>
        have hpr := reach_chain app a p n ha hch
        have hpr' := reach_chain app b p' m' hb hch'
        have := hf.oneParent p p' node node' k hpr hpr' hp hp' hkc hkc' hk
        subst this
        have := ih b p m' ha hb hch hch' (by rw [hp]; rfl) (by omega)
        rwa [Nat.add_sub_add_right]

/-- In a forest no chain leads from a node back to itself. -/
theorem chain_no_cycle {F : Type} (app : StudioApp F) (hf : IsForest app) (a : String) (n : Nat)
    (ha : Reach app a) (hp : (app.treeItems a).isSome = true) (h : Chain app a (n + 1) a) :
    False := by
  obtain ⟨rank, hrank⟩ := hf.acyclic
  have := chain_rank app rank hrank a a (n + 1) ha h hp
  omega

/-- In a forest no chain leads from a child of a node to another child of it. -/
theorem chain_siblings {F : Type} (app : StudioApp F) (hf : IsForest app) (P : String)
    (nodeP : TreeItem) (hP : Reach app P) (hnode : app.treeItems P = some nodeP)
    (c c' : String) (hc : c ∈ nodeP.children.getD []) (hc' : c' ∈ nodeP.children.getD [])
    (hpres : (app.treeItems c').isSome = true) (d : Nat) (h : Chain app c (d + 1) c') :
    False := by
  have h1 : Chain app P 1 c' := Chain.snoc P 0 P nodeP c' (Chain.refl P) hnode hc'
  have h2 : Chain app P (d + 1 + 1) c' := chain_cons app P c c' nodeP (d + 1) hnode hc h
  have h3 := chain_unique app hf P 1 P c' (d + 1 + 1) hP hP h1 h2 hpres (by omega)
  have h4 : d + 1 + 1 - 1 = d + 1 := by omega
  rw [h4] at h3
  exact chain_no_cycle app hf P d hP (by rw [hnode]; rfl) h3

/-- Every key of a visit is a node of the index and is reached by a chain
from a listed key that is itself a node. -/
theorem visitKeys_sound {F : Type} (app : StudioApp F) (cs keys : List String)
    (h : VisitKeys app cs keys) :
    ∀ k ∈ keys, (app.treeItems k).isSome = true ∧
      ∃ c ∈ cs, (app.treeItems c).isSome = true ∧ ∃ n : Nat, Chain app c n k := by
  induction h with
  | nil =>
    intro k hk
    simp at hk
  | skip c cs keys _ _ ih =>
    intro k hk
    obtain ⟨h1, c', hc', h2⟩ := ih k hk
    exact ⟨h1, c', List.mem_cons_of_mem _ hc', h2⟩
  | visit c cs node below after hn _ _ ihb iha =>
    intro k hk
    have hcp : (app.treeItems c).isSome = true := by rw [hn]; rfl
    simp only [List.mem_cons, List.mem_append] at hk
    rcases hk with hk | hk | hk
    · subst hk
      exact ⟨hcp, k, List.mem_cons_self _ _, hcp, 0, Chain.refl k⟩
    · obtain ⟨h1, c', hc', _, n, hch⟩ := ihb k hk
      exact ⟨h1, c, List.mem_cons_self _ _, hcp, n + 1, chain_cons app c c' k node n hn hc' hch⟩
    · obtain ⟨h1, c', hc', h2⟩ := iha k hk
      exact ⟨h1, c', List.mem_cons_of_mem _ hc', h2⟩

/-- Every node of the index that a chain reaches from a listed key is a key of the visit. -/
theorem visitKeys_complete {F : Type} (app : StudioApp F) (cs keys : List String)
    (h : VisitKeys app cs keys) :
    ∀ c ∈ cs, ∀ (n : Nat) (k : String), Chain app c n k → (app.treeItems k).isSome = true →
      k ∈ keys := by
  induction h with
  | nil =>
    intro c hc
    simp at hc
  | skip c cs keys hn _ ih =>
    intro c0 hc0 n k hch hk
    simp only [List.mem_cons] at hc0
    rcases hc0 with hc0 | hc0
    · subst hc0
      cases n with
      | zero =>
        have := chain_zero app c0 k hch
        subst this
        rw [hn] at hk
        exact Bool.noConfusion hk
      | succ n =>
        obtain ⟨node, _, h0, _, _⟩ := chain_head app c0 k n hch
        rw [hn] at h0
        exact Option.noConfusion h0
    · exact ih c0 hc0 n k hch hk
  | visit c cs node below after hn _ _ ihb iha =>
    intro c0 hc0 n k hch hk
    simp only [List.mem_cons] at hc0
    rcases hc0 with hc0 | hc0
    · subst hc0
      cases n with
      | zero =>
        have := chain_zero app c0 k hch
        subst this
        exact List.mem_cons_self _ _
      | succ n =>
        obtain ⟨node0, c', h0, hc', hch'⟩ := chain_head app c0 k n hch
        rw [hn] at h0
        have := Option.some.inj h0
        subst this
        exact List.mem_cons_of_mem _ (List.mem_append_left _ (ihb c' hc' n k hch' hk))
    · exact List.mem_cons_of_mem _ (List.mem_append_right _ (iha c0 hc0 n k hch hk))

/-- In a forest a visit meets no key twice. -/
theorem visitKeys_nodup {F : Type} (app : StudioApp F) (hf : IsForest app)
    (cs keys : List String) (h : VisitKeys app cs keys) :
    ∀ (P : String) (nodeP : TreeItem), Reach app P → app.treeItems P = some nodeP →
      (∀ x ∈ cs, x ∈ nodeP.children.getD []) →
      (cs.filter (fun c => (app.treeItems c).isSome)).Nodup → keys.Nodup := by
  induction h with
  | nil =>
    intro _ _ _ _ _ _
    exact List.nodup_nil
  | skip c cs keys _ _ ih =>
    intro P nodeP hP hnode hsub hnd
    refine ih P nodeP hP hnode (fun x hx => hsub x (List.mem_cons_of_mem _ hx)) ?_
    rw [List.filter_cons] at hnd
    split at hnd
    · exact (List.nodup_cons.mp hnd).2
    · exact hnd
  | visit c cs node below after hn hvb hva ihb iha =>
    intro P nodeP hP hnode hsub hnd
    have hcp : (app.treeItems c).isSome = true := by rw [hn]; rfl
    have hcP : c ∈ nodeP.children.getD [] := hsub c (List.mem_cons_self _ _)
    have hcr : Reach app c :=
      reach_chain app P c 1 hP (Chain.snoc P 0 P nodeP c (Chain.refl P) hnode hcP)
    rw [List.filter_cons, if_pos hcp, List.nodup_cons] at hnd
    have hbelow : below.Nodup :=
      ihb c node hcr hn (fun x hx => hx) (hf.listedOnce c node hcr hn)
    have hafter : after.Nodup :=
      iha P nodeP hP hnode (fun x hx => hsub x (List.mem_cons_of_mem _ hx)) hnd.2
    have hsib : ∀ c' ∈ cs, (app.treeItems c').isSome = true → c' ≠ c := by
      intro c' hc' hpres heq
      subst heq
      exact hnd.1 (List.mem_filter.mpr ⟨hc', hpres⟩)
    rw [List.nodup_cons, List.nodup_append]
    refine ⟨?_, hbelow, hafter, ?_⟩
    · intro hmem
      rcases List.mem_append.mp hmem with hm | hm
      · obtain ⟨_, c', hc', _, n, hch⟩ := visitKeys_sound app _ below hvb c hm
        exact chain_no_cycle app hf c n hcr hcp (chain_cons app c c' c node n hn hc' hch)
      · obtain ⟨_, c', hc', hpres', n, hch⟩ := visitKeys_sound app cs after hva c hm
        cases n with
        | zero =>
          have := chain_zero app c' c hch
          exact hsib c' hc' hpres' this.symm
        | succ n =>
          exact chain_siblings app hf P nodeP hP hnode c' c
            (hsub c' (List.mem_cons_of_mem _ hc')) hcP hcp n hch
    · intro k hkb hka
      obtain ⟨hk, c1, hc1, _, i, hch1⟩ := visitKeys_sound app _ below hvb k hkb
      obtain ⟨_, c', hc', hpres', j, hch2⟩ := visitKeys_sound app cs after hva k hka
      have hch1' : Chain app c (i + 1) k := chain_cons app c c1 k node i hn hc1 hch1
      have hc'P : c' ∈ nodeP.children.getD [] := hsub c' (List.mem_cons_of_mem _ hc')
      have hc'r : Reach app c' :=
        reach_chain app P c' 1 hP (Chain.snoc P 0 P nodeP c' (Chain.refl P) hnode hc'P)
      by_cases hle : i + 1 ≤ j
      · have hu := chain_unique app hf c (i + 1) c' k j hcr hc'r hch1' hch2 hk hle
        cases hd : j - (i + 1) with
        | zero =>
          rw [hd] at hu
          exact hsib c' hc' hpres' (chain_zero app c' c hu).symm
        | succ d =>
          rw [hd] at hu
          exact chain_siblings app hf P nodeP hP hnode c' c hc'P hcP hcp d hu
      · have hu := chain_unique app hf c' j c k (i + 1) hc'r hcr hch2 hch1' hk (by omega)
        cases hd : i + 1 - j with
        | zero => omega
        | succ d =>
          rw [hd] at hu
          exact chain_siblings app hf P nodeP hP hnode c c' hcP hc'P hpres' d hu

theorem visitKeys_list {F : Type} (app : StudioApp F) (cs : List String)
    (h : ∀ c ∈ cs, ∀ node : TreeItem, app.treeItems c = some node →
      ∃ keys : List String, VisitKeys app (node.children.getD []) keys) :
    ∃ keys : List String, VisitKeys app cs keys := by
  induction cs with
  | nil => exact ⟨[], VisitKeys.nil⟩
  | cons c cs ih =>
    obtain ⟨after, ha⟩ := ih (fun x hx => h x (List.mem_cons_of_mem _ hx))
    cases hn : app.treeItems c with
    | none => exact ⟨after, VisitKeys.skip c cs after hn ha⟩
    | some node =>
      obtain ⟨below, hb⟩ := h c (List.mem_cons_self _ _) node hn
      exact ⟨c :: (below ++ after), VisitKeys.visit c cs node below after hn hb ha⟩

/-- Without cycle, the visit of the children of every reachable node exists. -/
theorem visitKeys_exists {F : Type} (app : StudioApp F) (rank : String → Nat)
    (hrank : ∀ (k : String) (node : TreeItem) (c : String),
      Reach app k → app.treeItems k = some node → c ∈ node.children.getD [] →
      (app.treeItems c).isSome = true → rank c < rank k) (n : Nat) :
    ∀ (k : String) (node : TreeItem), rank k < n → Reach app k → app.treeItems k = some node →
      ∃ keys : List String, VisitKeys app (node.children.getD []) keys := by
  induction n with
  | zero =>
    intro k node h
    omega
  | succ n ih =>
    intro k node hlt hk hn
    apply visitKeys_list
    intro c hc nodeC hnc
    have hr := hrank k node c hk hn hc (by rw [hnc]; rfl)
    exact ih c nodeC (by omega)
      (reach_chain app k c 1 hk (Chain.snoc k 0 k node c (Chain.refl k) hn hc)) hnc

/-- The records of a visit are the records of its keys, one for one, when no
listed key that the index does not hold is the name of an inherited property. -/
theorem visitKeys_visits {F : Type} (N : NumOps F) (app : StudioApp F) (cs keys : List String)
    (h : VisitKeys app cs keys)
    (hown : ∀ (k : String) (node : TreeItem) (c : String), app.treeItems k = some node →
      c ∈ node.children.getD [] → app.treeItems c = none →
      objectPrototypeKeys.contains c = false) :
    (∀ c ∈ cs, app.treeItems c = none → objectPrototypeKeys.contains c = false) →
    ∀ (parentRef firstId : Int), ∃ records : List (InstanceRecord F),
      Visits N app cs parentRef firstId records ∧ List.Forall₂ (RecordOf N app) keys records := by
  induction h with
  | nil =>
    intro _ p i
    exact ⟨[], Visits.nil p i, List.Forall₂.nil⟩
  | skip c cs keys hn _ ih =>
    intro hcs p i
    obtain ⟨recs, h1, h2⟩ := ih (fun x hx => hcs x (List.mem_cons_of_mem _ hx)) p i
    exact ⟨recs, Visits.skip c cs p i recs hn (hcs c (List.mem_cons_self _ _) hn) h1, h2⟩
  | visit c cs node below after hn _ _ ihb iha =>
    intro hcs p i
    obtain ⟨rb, hb1, hb2⟩ := ihb (fun x hx => hown c node x hn hx) i (i + 1)
    obtain ⟨ra, ha1, ha2⟩ :=
      iha (fun x hx => hcs x (List.mem_cons_of_mem _ hx)) p (i + 1 + rb.length)
    refine ⟨_, Visits.visit c cs p i node rb ra hn hb1 ha1, ?_⟩
    refine List.Forall₂.cons ⟨node, hn, rfl, rfl, rfl⟩ ?_
    exact List.rel_append hb2 ha2

/-- Extraction from a finite forest none of whose listed keys is found by
inheritance only.  When `root` is a node with a `children` array, the children
relation reachable from `root` is a forest (no cycle, no node listed under two
parents or twice under one), and no listed key that the index does not hold is
the name of a property inherited from `Object.prototype`, the extractor
terminates: for every large enough bound on the nesting depth it returns the
same list of instances.  That list holds exactly one instance for every node
of the index that is reached from `root`: the visited keys are pairwise
distinct, they are the reachable keys that the index holds, and the instances
are their records, one for one, in the order of the visit.  Listed keys that
the index does not hold are passed over and take no id: the ids are
0, 1, ..., n-1 for n visited nodes. -/
theorem forest_extraction {F : Type} (N : NumOps F) (app : StudioApp F) (root : TreeItem)
    (children : List String) (hroot : app.treeItems "root" = some root)
    (hch : root.children = some children) (hf : IsForest app)
    (hown : ∀ (k : String) (node : TreeItem) (c : String), app.treeItems k = some node →
      c ∈ node.children.getD [] → app.treeItems c = none →
      objectPrototypeKeys.contains c = false) :
    ∃ (keys : List String) (instances : List (InstanceRecord F)) (fuel0 : Nat),
      (∀ fuel : Nat, fuel0 ≤ fuel → gatherInstances N app fuel = some instances) ∧
      VisitKeys app children keys ∧
      keys.Nodup ∧
      (∀ k : String, k ∈ keys ↔
        (k ≠ "root" ∧ Reach app k ∧ (app.treeItems k).isSome = true)) ∧
      List.Forall₂ (RecordOf N app) keys instances ∧
      instances.length = keys.length ∧
      instances.map (fun i => i.id) = (List.range keys.length).map Int.ofNat := by
  obtain ⟨rank, hrank⟩ := hf.acyclic
  have hrr : Reach app "root" := ⟨0, Chain.refl "root"⟩
  have hcs : root.children.getD [] = children := by rw [hch]; rfl
  obtain ⟨keys, hkeys⟩ :=
    visitKeys_exists app rank hrank (rank "root" + 1) "root" root (by omega) hrr hroot
  rw [hcs] at hkeys
  obtain ⟨instances, hv, hrec⟩ := visitKeys_visits N app children keys hkeys hown
    (fun c hc => hown "root" root c hroot (by rw [hcs]; exact hc)) (-1) 0
  obtain ⟨fuel0, hfuel⟩ := visits_gatherInstances N app root children instances hroot hch hv
  have hlen : instances.length = keys.length := (List.Forall₂.length_eq hrec).symm
  refine ⟨keys, instances, fuel0, hfuel, hkeys, ?_, ?_, hrec, hlen, ?_⟩
  · refine visitKeys_nodup app hf children keys hkeys "root" root hrr hroot ?_ ?_
    · intro x hx
      rw [hcs]
      exact hx
    · have := hf.listedOnce "root" root hrr hroot
      rwa [hcs] at this
  · intro k
    constructor
    · intro hk
      obtain ⟨hp, c, hc, _, n, hchain⟩ := visitKeys_sound app children keys hkeys k hk
      have hc' : c ∈ root.children.getD [] := by rw [hcs]; exact hc
      have hdown : Chain app "root" (n + 1) k := chain_cons app "root" c k root n hroot hc' hchain
      refine ⟨?_, ⟨n + 1, hdown⟩, hp⟩
      intro heq
      subst heq
      exact chain_no_cycle app hf "root" n hrr hp hdown
    · rintro ⟨hne, ⟨n, hchain⟩, hp⟩
      cases n with
      | zero => exact absurd (chain_zero app "root" k hchain) hne
      | succ n =>
        obtain ⟨node, c, h0, hc, hch2⟩ := chain_head app "root" k n hchain
        rw [hroot] at h0
        have := Option.some.inj h0
        subst this
        rw [hcs] at hc
        exact visitKeys_complete app children keys hkeys c hc n k hch2 hp
  · rw [← hlen]
    apply ids_eq_range
    intro j inst hj
    rw [(visits_ids N app children (-1) 0 instances hv j inst hj).1]
    simp

theorem nestedApp_children (p : String) (node : TreeItem) (k : String)
    (hp : nestedApp.treeItems p = some node) (hk : k ∈ node.children.getD []) :
    (p = "root" ∧ (k = "Workspace" ∨ k = "Lighting")) ∨
    (p = "Workspace" ∧ (k = "Base" ∨ k = "Lost")) ∨
    (p = "Base" ∧ k = "Main") := by
  unfold nestedApp at hp
  simp only at hp
  split at hp
  · rename_i h
    have := Option.some.inj hp
    subst this
    simp only [Option.getD_some, List.mem_cons, List.mem_singleton, List.not_mem_nil,
      or_false] at hk
    exact Or.inl ⟨h, hk⟩
  · split at hp
    · rename_i h
      have := Option.some.inj hp
      subst this
      simp only [Option.getD_some, List.mem_cons, List.mem_singleton, List.not_mem_nil,
        or_false] at hk
      exact Or.inr (Or.inl ⟨h, hk⟩)
    · split at hp
      · rename_i h
        have := Option.some.inj hp
        subst this
        simp only [Option.getD_some, List.mem_cons, List.mem_singleton, List.not_mem_nil,
          or_false] at hk
        exact Or.inr (Or.inr ⟨h, hk⟩)
      · split at hp
        · have := Option.some.inj hp
          subst this
          simp at hk
        · split at hp
          · have := Option.some.inj hp
            subst this
            simp at hk
          · exact Option.noConfusion hp

theorem nestedApp_present (k : String) (h : (nestedApp.treeItems k).isSome = true) :
    k = "root" ∨ k = "Workspace" ∨ k = "Base" ∨ k = "Main" ∨ k = "Lighting" := by
  unfold nestedApp at h
  simp only at h
  by_cases h1 : k = "root"
  · exact Or.inl h1
  · by_cases h2 : k = "Workspace"
    · exact Or.inr (Or.inl h2)
    · by_cases h3 : k = "Base"
      · exact Or.inr (Or.inr (Or.inl h3))
      · by_cases h4 : k = "Main"
        · exact Or.inr (Or.inr (Or.inr (Or.inl h4)))
        · by_cases h5 : k = "Lighting"
          · exact Or.inr (Or.inr (Or.inr (Or.inr h5)))
          · simp [h1, h2, h3, h4, h5] at h

/-- The nested example is a forest. -/
theorem nestedApp_isForest : IsForest nestedApp := by
  refine ⟨⟨fun k => if k = "root" then 3 else if k = "Workspace" then 2
      else if k = "Base" then 1 else 0, ?_⟩, ?_, ?_⟩
  · intro k node c _ hn hc hp
    rcases nestedApp_children k node c hn hc with ⟨rfl, rfl | rfl⟩ | ⟨rfl, rfl | rfl⟩ | ⟨rfl, rfl⟩
    · decide
    · decide
    · decide
    · exact absurd hp (by decide)
    · decide
  · intro k1 k2 n1 n2 c _ _ h1 h2 hc1 hc2 _
    rcases nestedApp_children k1 n1 c h1 hc1 with ⟨rfl, hc | hc⟩ | ⟨rfl, hc | hc⟩ | ⟨rfl, hc⟩ <;>
      rcases nestedApp_children k2 n2 c h2 hc2 with
        ⟨rfl, hd | hd⟩ | ⟨rfl, hd | hd⟩ | ⟨rfl, hd⟩ <;>
      first
        | rfl
        | (rw [hc] at hd; exact absurd hd (by decide))
  · intro k node _ hn
    rcases nestedApp_present k (by rw [hn]; rfl) with rfl | rfl | rfl | rfl | rfl <;>
      (cases Option.some.inj hn; decide)

theorem forest_extraction_witness :
    ∃ (keys : List String) (instances : List (InstanceRecord Int)) (fuel0 : Nat),
      (∀ fuel : Nat, fuel0 ≤ fuel → gatherInstances exampleNum nestedApp fuel = some instances) ∧
      VisitKeys nestedApp ["Workspace", "Lighting"] keys ∧
      keys.Nodup ∧
      (∀ k : String, k ∈ keys ↔
        (k ≠ "root" ∧ Reach nestedApp k ∧ (nestedApp.treeItems k).isSome = true)) ∧
      List.Forall₂ (RecordOf exampleNum nestedApp) keys instances ∧
      instances.length = keys.length ∧
      instances.map (fun i => i.id) = (List.range keys.length).map Int.ofNat :=
  forest_extraction exampleNum nestedApp
    { index := "root", isFolder := true, kind := none, data := "Game",
      children := some ["Workspace", "Lighting"] }
    ["Workspace", "Lighting"] rfl rfl nestedApp_isForest
    (by
      intro k node c hn hc _
      rcases nestedApp_children k node c hn hc with
        ⟨_, rfl | rfl⟩ | ⟨_, rfl | rfl⟩ | ⟨_, rfl⟩ <;> decide)

/-! ### A listed key that is found by inheritance only -/

/-- For a key that is no entry of the index but the name of a property every
object inherits, `processNode` makes an instance and takes an id. -/
theorem processNode_inherited {F : Type} (N : NumOps F) (app : StudioApp F) (fuel : Nat)
    (nodeId : String) (parentRef : Int) (st : Gather F)
    (habsent : app.treeItems nodeId = none) (hkey : nodeId ∈ objectPrototypeKeys) :
    processNode N app (fuel + 1) nodeId parentRef st
      = some { instances := st.instances ++
                 [{ id := st.idCounter, className := none, name := none, props := {},
                    parentId := parentRef }],
               idCounter := st.idCounter + 1 } := by
  rw [processNode, habsent]
  simp only [List.elem_iff.mpr hkey, if_true]

theorem inheritedApp_absent (k : String) (h : (inheritedApp.treeItems k).isSome = true) :
    k = "root" := by
  unfold inheritedApp at h
  simp only at h
  split at h
  · assumption
  · exact Bool.noConfusion h

theorem inheritedApp_children (k : String) (node : TreeItem) (c : String)
    (hn : inheritedApp.treeItems k = some node) (hc : c ∈ node.children.getD []) :
    c = "constructor" := by
  unfold inheritedApp at hn
  simp only at hn
  split at hn
  · have := Option.some.inj hn
    subst this
    simpa using hc
  · exact Option.noConfusion hn

/-- C30 fails on the code.  The index whose `root` lists the single key
`constructor` is a finite forest and has no entry under that key; the lookup
finds the function every object inherits under that name, the test
`if (!node) return` lets it pass, and the extractor returns, for every bound
on the nesting depth from 1 on, one instance with the id 0 and without class
name and name: the absent child id is not skipped and it takes an id. -/
theorem inherited_key_extracted :
    IsForest inheritedApp ∧
    inheritedApp.treeItems "constructor" = none ∧
    (∀ k : String, Reach inheritedApp k → (inheritedApp.treeItems k).isSome = true →
      k = "root") ∧
    (∀ fuel : Nat, 1 ≤ fuel →
      gatherInstances exampleNum inheritedApp fuel
        = some [{ id := 0, className := none, name := none, props := {}, parentId := -1 }]) ∧
    VisitKeys inheritedApp ["constructor"] [] := by
  refine ⟨⟨⟨fun _ => 0, ?_⟩, ?_, ?_⟩, rfl, fun k _ h => inheritedApp_absent k h, ?_,
    VisitKeys.skip "constructor" [] [] rfl VisitKeys.nil⟩
  · intro k node c _ hn hc hp
    have := inheritedApp_children k node c hn hc
    subst this
    exact absurd hp (by decide)
  · intro k1 k2 n1 n2 c _ _ h1 h2 _ _ _
    rw [inheritedApp_absent k1 (by rw [h1]; rfl), inheritedApp_absent k2 (by rw [h2]; rfl)]
  · intro k node _ hn
    have hk := inheritedApp_absent k (by rw [hn]; rfl)
    subst hk
    cases Option.some.inj hn
    decide
  · intro fuel hfuel
    obtain ⟨f, rfl⟩ : ∃ f, fuel = f + 1 := ⟨fuel - 1, by omega⟩
    unfold gatherInstances
    have hroot : inheritedApp.treeItems "root"
        = some { index := "root", isFolder := true, kind := none, data := "Game",
                 children := some ["constructor"] } := rfl
    rw [hroot]
    simp only [List.foldlM_cons, List.foldlM_nil]
    rw [processNode_inherited exampleNum inheritedApp f "constructor" (-1) _ rfl (by decide)]
    rfl

/-! ### The defaults of the reader -/

theorem toLower_cases (c : Char) :
    Char.toLower c = c ∨
      (65 ≤ c.toNat ∧ c.toNat ≤ 90 ∧ Char.toLower c = Char.ofNat (c.toNat + 32)) := by
  unfold Char.toLower
  by_cases h : c.toNat ≥ 65 ∧ c.toNat ≤ 90
  · right
    exact ⟨h.1, h.2, by simp only [h, and_self, if_true]⟩
  · left
    simp only [h, if_false]

theorem toLower_eq_t (c : Char) : Char.toLower c = 't' ↔ c = 't' ∨ c = 'T' := by
  constructor
  · intro h
    rcases toLower_cases c with h1 | ⟨h1, h2, h3⟩
    · exact Or.inl (h1.symm.trans h)
    · right
      rw [h3] at h
      rw [(Char.ofNat_toNat c).symm]
      generalize c.toNat = n at h h1 h2
      interval_cases n <;> first | rfl | exact absurd h (by decide)
  · rintro (rfl | rfl) <;> decide

theorem toLower_eq_r (c : Char) : Char.toLower c = 'r' ↔ c = 'r' ∨ c = 'R' := by
  constructor
  · intro h
    rcases toLower_cases c with h1 | ⟨h1, h2, h3⟩
    · exact Or.inl (h1.symm.trans h)
    · right
      rw [h3] at h
      rw [(Char.ofNat_toNat c).symm]
      generalize c.toNat = n at h h1 h2
      interval_cases n <;> first | rfl | exact absurd h (by decide)
  · rintro (rfl | rfl) <;> decide

theorem toLower_eq_u (c : Char) : Char.toLower c = 'u' ↔ c = 'u' ∨ c = 'U' := by
  constructor
  · intro h
    rcases toLower_cases c with h1 | ⟨h1, h2, h3⟩
    · exact Or.inl (h1.symm.trans h)
    · right
      rw [h3] at h
      rw [(Char.ofNat_toNat c).symm]
      generalize c.toNat = n at h h1 h2
      interval_cases n <;> first | rfl | exact absurd h (by decide)
  · rintro (rfl | rfl) <;> decide

theorem toLower_eq_e (c : Char) : Char.toLower c = 'e' ↔ c = 'e' ∨ c = 'E' := by
  constructor
  · intro h
    rcases toLower_cases c with h1 | ⟨h1, h2, h3⟩
    · exact Or.inl (h1.symm.trans h)
    · right
      rw [h3] at h
      rw [(Char.ofNat_toNat c).symm]
      generalize c.toNat = n at h h1 h2
      interval_cases n <;> first | rfl | exact absurd h (by decide)
  · rintro (rfl | rfl) <;> decide

theorem toLowerCase_eq_true (s : String) :
    toLowerCase s = "true" ↔ IsTrueIgnoringCase s := by
  unfold toLowerCase IsTrueIgnoringCase
  constructor
  · intro h
    have hd : s.data.map Char.toLower = ['t', 'r', 'u', 'e'] := congrArg String.data h
    match hs : s.data, hd with
    | [c1, c2, c3, c4], hd =>
      simp only [List.map_cons, List.map_nil, List.cons.injEq, and_true] at hd
      exact ⟨c1, c2, c3, c4, rfl, (toLower_eq_t c1).mp hd.1, (toLower_eq_r c2).mp hd.2.1,
        (toLower_eq_u c3).mp hd.2.2.1, (toLower_eq_e c4).mp hd.2.2.2⟩
    | [], hd => simp at hd
    | [_], hd => simp at hd
    | [_, _], hd => simp at hd
    | [_, _, _], hd => simp at hd
    | _ :: _ :: _ :: _ :: _ :: _, hd => simp at hd
  · rintro ⟨c1, c2, c3, c4, hs, h1, h2, h3, h4⟩
    rw [hs]
    simp only [List.map_cons, List.map_nil, (toLower_eq_t c1).mpr h1, (toLower_eq_r c2).mpr h2,
      (toLower_eq_u c3).mpr h3, (toLower_eq_e c4).mpr h4]

theorem parseBool_some (node : XmlNode) (fallback : Bool) :
    parseBool (some node) fallback = true ↔ IsTrueIgnoringCase node.textContent := by
  unfold parseBool
  simp only [decide_eq_true_eq]
  exact toLowerCase_eq_true _

/-- The calls `processItem` makes for a Part or SpawnLocation Item that has a
`Properties` child: one call of create-object, then the calls for the child Items. -/
theorem processItem_part {F Q : Type} (R : ReadOps F Q) (tag : String)
    (attrs : List (String × String)) (children : List XmlNode) (parentName : Option String)
    (props : XmlNode)
    (hprops : (XmlNode.element tag attrs children).childElement "Properties" = some props)
    (hclass : (XmlNode.element tag attrs children).getAttribute "class" = some "Part" ∨
      (XmlNode.element tag attrs children).getAttribute "class" = some "SpawnLocation") :
    ∃ name : Option String,
      processItem R (XmlNode.element tag attrs children) parentName
        = Call.createObject
            { type := (XmlNode.element tag attrs children).getAttribute "class",
              name := name,
              position := (parseCFrame R (props.selectNamed "CoordinateFrame" "CFrame")).1,
              quaternion := (parseCFrame R (props.selectNamed "CoordinateFrame" "CFrame")).2,
              size := parseVector3 R (props.selectNamed "Vector3" "size"),
              color := parseColor3 R (props.selectNamed "Color3" "Color"),
              anchored := parseBool (props.selectNamed "bool" "Anchored") false,
              canCollide := parseBool (props.selectNamed "bool" "CanCollide") true,
              locked := parseBool (props.selectNamed "bool" "Locked") false,
              suppressLog := true }
          :: processItems R children name := by
  unfold processItem
  simp only [hprops, hclass, if_true]
  exact ⟨_, rfl⟩

/-- C21: for every Part or SpawnLocation Item with a `Properties` element, the
options passed to create-object have the size (0,0,0) when no `Vector3`
element named `size` is there, the colour (0.5,0.5,0.5) when no `Color3`
element named `Color` is there, and anchored false, canCollide true, locked
false when the `bool` element of that name is missing; when the `bool` element
is there, the flag is true exactly when its text equals `true` ignoring letter
case. -/
theorem reader_defaults {F Q : Type} (R : ReadOps F Q) (tag : String)
    (attrs : List (String × String)) (children : List XmlNode) (parentName : Option String)
    (props : XmlNode)
    (hprops : (XmlNode.element tag attrs children).childElement "Properties" = some props)
    (hclass : (XmlNode.element tag attrs children).getAttribute "class" = some "Part" ∨
      (XmlNode.element tag attrs children).getAttribute "class" = some "SpawnLocation") :
    ∃ (options : ObjectOptions F Q) (rest : List (Call F Q)),
      processItem R (XmlNode.element tag attrs children) parentName
        = Call.createObject options :: rest ∧
      options.type = (XmlNode.element tag attrs children).getAttribute "class" ∧
      (props.selectNamed "Vector3" "size" = none →
        options.size = { x := R.zero, y := R.zero, z := R.zero }) ∧
      (props.selectNamed "Color3" "Color" = none →
        options.color = { r := R.half, g := R.half, b := R.half }) ∧
      (props.selectNamed "bool" "Anchored" = none → options.anchored = false) ∧
      (props.selectNamed "bool" "CanCollide" = none → options.canCollide = true) ∧
      (props.selectNamed "bool" "Locked" = none → options.locked = false) ∧
      (∀ node : XmlNode, props.selectNamed "bool" "Anchored" = some node →
        (options.anchored = true ↔ IsTrueIgnoringCase node.textContent)) ∧
      (∀ node : XmlNode, props.selectNamed "bool" "CanCollide" = some node →
        (options.canCollide = true ↔ IsTrueIgnoringCase node.textContent)) ∧
      (∀ node : XmlNode, props.selectNamed "bool" "Locked" = some node →
        (options.locked = true ↔ IsTrueIgnoringCase node.textContent)) := by
  obtain ⟨name, h⟩ := processItem_part R tag attrs children parentName props hprops hclass
  refine ⟨_, _, h, rfl, ?_, ?_, ?_, ?_, ?_, ?_, ?_, ?_⟩
  · intro hn
    simp only [hn, parseVector3]
  · intro hn
    simp only [hn, parseColor3]
  · intro hn
    simp only [hn, parseBool]
  · intro hn
    simp only [hn, parseBool]
  · intro hn
    simp only [hn, parseBool]
  · intro node hn
    simp only [hn]
    exact parseBool_some node false
  · intro node hn
    simp only [hn]
    exact parseBool_some node true
  · intro node hn
    simp only [hn]
    exact parseBool_some node false

theorem reader_defaults_witness :
    ∃ (options : ObjectOptions Int (List Int)) (rest : List (Call Int (List Int))),
      processItem exampleRead
          (XmlNode.element "Item" [("class", "Part")]
            [.element "Properties" []
              [.element "string" [("name", "Name")] [.text "Block"],
               .element "bool" [("name", "Anchored")] [.text "TRUE"]]])
          (some "Workspace")
        = Call.createObject options :: rest ∧
      options.size = { x := 0, y := 0, z := 0 } ∧
      options.color = { r := 1, g := 1, b := 1 } ∧
      options.canCollide = true ∧ options.locked = false ∧
      (options.anchored = true ↔ IsTrueIgnoringCase "TRUE") := by
  obtain ⟨options, rest, h1, _, h3, h4, _, h6, h7, h8, _, _⟩ :=
    reader_defaults exampleRead "Item" [("class", "Part")]
      [.element "Properties" []
        [.element "string" [("name", "Name")] [.text "Block"],
         .element "bool" [("name", "Anchored")] [.text "TRUE"]]]
      (some "Workspace")
      (.element "Properties" []
        [.element "string" [("name", "Name")] [.text "Block"],
         .element "bool" [("name", "Anchored")] [.text "TRUE"]])
      rfl (Or.inl rfl)
  exact ⟨options, rest, h1, h3 rfl, h4 rfl, h6 rfl, h7 rfl,
    h8 (.element "bool" [("name", "Anchored")] [.text "TRUE"]) rfl⟩

/-! ### Scripts -/

/-- The calls `processItem` makes for a Script Item that has a `Properties`
child: create-script with the name and the source text, the event, then the
calls for the child Items. -/
theorem processItem_script {F Q : Type} (R : ReadOps F Q) (tag : String)
    (attrs : List (String × String)) (children : List XmlNode) (parentName : Option String)
    (props : XmlNode)
    (hprops : (XmlNode.element tag attrs children).childElement "Properties" = some props)
    (hclass : (XmlNode.element tag attrs children).getAttribute "class" = some "Script") :
    ∃ name : String,
      (name = (props.selectNamed "string" "Name").elim "Script"
        (fun node => if node.textContent = "" then "Script" else node.textContent)) ∧
      processItem R (XmlNode.element tag attrs children) parentName
        = Call.createScript (some name)
            (((props.selectNamed "ProtectedString" "Source").map XmlNode.textContent).getD "")
          :: Call.emitScriptAdded (some name) parentName
          :: processItems R children (some name) := by
  unfold processItem
  simp only [hprops, hclass]
  cases hn : props.selectNamed "string" "Name" with
  | none =>
    refine ⟨"Script", rfl, ?_⟩
    simp
  | some node =>
    by_cases ht : node.textContent = ""
    · refine ⟨"Script", by simp [ht], ?_⟩
      simp [ht]
    · refine ⟨node.textContent, by simp [ht], ?_⟩
      simp [ht]

theorem createScript_keep (scripts : ScriptStore) (name : Option String)
    (content : Option String) (key : Option String) (h : (scripts key).isSome = true) :
    createScript scripts name content key = scripts key := by
  unfold createScript
  by_cases hn : (scripts name).isSome = true
  · rw [if_pos hn]
  · rw [if_neg hn]
    have hne : key ≠ name := by
      intro heq
      rw [heq] at h
      exact hn h
    simp only [hne, if_false]

/-- A name that the store holds keeps its text, whatever the reader calls. -/
theorem runCalls_keep {F Q : Type} (calls : List (Call F Q)) :
    ∀ (scripts : ScriptStore) (key : Option String), (scripts key).isSome = true →
      runCalls scripts calls key = scripts key := by
  induction calls with
  | nil =>
    intro scripts key _
    rfl
  | cons call calls ih =>
    intro scripts key h
    have hstep : applyCall scripts call key = scripts key := by
      cases call with
      | createObject _ => rfl
      | createScript name content => exact createScript_keep scripts name (some content) key h
      | emitScriptAdded _ _ => rfl
    unfold runCalls
    rw [List.foldl_cons]
    have := ih (applyCall scripts call) key (by rw [hstep]; exact h)
    unfold runCalls at this
    rw [this, hstep]

/-- The store after a call of create-script for the name n, whatever follows. -/
theorem runCalls_createScript {F Q : Type} (scripts : ScriptStore) (n source : String)
    (rest : List (Call F Q)) :
    (∀ prev : String, scripts (some n) = some prev →
      runCalls scripts (Call.createScript (some n) source :: rest) (some n) = some prev) ∧
    (scripts (some n) = none → source ≠ "" →
      runCalls scripts (Call.createScript (some n) source :: rest) (some n) = some source) ∧
    (scripts (some n) = none → source = "" →
      runCalls scripts (Call.createScript (some n) source :: rest) (some n)
        = some (defaultScript (some n))) := by
  have hstep : ∀ text : String,
      applyCall scripts (Call.createScript (some n) source : Call F Q) (some n)
        = some text →
      runCalls scripts (Call.createScript (some n) source :: rest) (some n) = some text := by
    intro text ht
    show runCalls (applyCall scripts (Call.createScript (some n) source)) rest (some n) = _
    rw [runCalls_keep rest _ (some n) (by rw [ht]; rfl), ht]
  refine ⟨?_, ?_, ?_⟩
  · intro prev hp
    rw [runCalls_keep _ scripts (some n) (by rw [hp]; rfl), hp]
  · intro hnone hne
    apply hstep
    show createScript scripts (some n) (some source) (some n) = _
    unfold createScript
    simp [hnone, hne]
  · intro hnone he
    apply hstep
    show createScript scripts (some n) (some source) (some n) = _
    unfold createScript
    simp [hnone, he]

/-- C22, as the claim words it, fails: a Script Item named `Main` without
`Source` element makes the reader pass the empty source to create-script, and
after the import the script store, empty before, maps `Main` to the default
text, not to the empty string. -/
theorem script_store_counterexample :
    (loadRbxlxContent exampleRead lightingApp scriptDoc).calls
      = [.createScript (some "Main") "", .emitScriptAdded (some "Main") (some "Lighting")] ∧
    runCalls (fun _ => none) (loadRbxlxContent exampleRead lightingApp scriptDoc).calls
        (some "Main")
      = some "// Main\nconsole.log(\"Hello from Main\");" ∧
    runCalls (fun _ => none) (loadRbxlxContent exampleRead lightingApp scriptDoc).calls
        (some "Main") ≠ some "" := by
  refine ⟨rfl, by decide, by decide⟩

/-- C22, amended: for every Script Item with name n, the reader passes to
create-script the text of the `ProtectedString` element named `Source`, or
the empty string when that element is missing or empty.  After the import the
script store maps n to its previous text when it held n before the Item was
read; otherwise to the source text when that is not empty, and to the default
text built from n when it is empty. -/
theorem script_store {F Q : Type} (R : ReadOps F Q) (tag : String)
    (attrs : List (String × String)) (children : List XmlNode) (parentName : Option String)
    (props : XmlNode)
    (hprops : (XmlNode.element tag attrs children).childElement "Properties" = some props)
    (hclass : (XmlNode.element tag attrs children).getAttribute "class" = some "Script") :
    ∃ (n source : String) (rest : List (Call F Q)),
      processItem R (XmlNode.element tag attrs children) parentName
        = Call.createScript (some n) source :: rest ∧
      (n = (props.selectNamed "string" "Name").elim "Script"
        (fun node => if node.textContent = "" then "Script" else node.textContent)) ∧
      (props.selectNamed "ProtectedString" "Source" = none → source = "") ∧
      (∀ node : XmlNode, props.selectNamed "ProtectedString" "Source" = some node →
        source = node.textContent) ∧
      (∀ (scripts : ScriptStore) (later : List (Call F Q)),
        (∀ prev : String, scripts (some n) = some prev →
          runCalls scripts
            (processItem R (XmlNode.element tag attrs children) parentName ++ later) (some n)
            = some prev) ∧
        (scripts (some n) = none → source ≠ "" →
          runCalls scripts
            (processItem R (XmlNode.element tag attrs children) parentName ++ later) (some n)
            = some source) ∧
        (scripts (some n) = none → source = "" →
          runCalls scripts
            (processItem R (XmlNode.element tag attrs children) parentName ++ later) (some n)
            = some (defaultScript (some n)))) := by
  obtain ⟨n, hn, h⟩ := processItem_script R tag attrs children parentName props hprops hclass
  refine ⟨n, _, _, h, hn, ?_, ?_, ?_⟩
  · intro hs
    rw [hs]
    rfl
  · intro node hs
    rw [hs]
    rfl
  · intro scripts later
    rw [h]
    exact runCalls_createScript scripts n _ _

theorem script_store_witness :
    ∃ (n source : String) (rest : List (Call Int (List Int))),
      processItem exampleRead
          (XmlNode.element "Item" [("class", "Script")]
            [.element "Properties" []
              [.element "string" [("name", "Name")] [.text "Main"],
               .element "ProtectedString" [("name", "Source")] [.text "print(1)"]]])
          (some "Workspace")
        = Call.createScript (some n) source :: rest ∧
      n = "Main" ∧ source = "print(1)" ∧
      runCalls (fun _ => none)
          (processItem exampleRead
            (XmlNode.element "Item" [("class", "Script")]
              [.element "Properties" []
                [.element "string" [("name", "Name")] [.text "Main"],
                 .element "ProtectedString" [("name", "Source")] [.text "print(1)"]]])
            (some "Workspace") ++ []) (some n)
        = some source := by
  obtain ⟨n, source, rest, h1, h2, _, h4, h5⟩ :=
    script_store exampleRead "Item" [("class", "Script")]
      [.element "Properties" []
        [.element "string" [("name", "Name")] [.text "Main"],
         .element "ProtectedString" [("name", "Source")] [.text "print(1)"]]]
      (some "Workspace")
      (.element "Properties" []
        [.element "string" [("name", "Name")] [.text "Main"],
         .element "ProtectedString" [("name", "Source")] [.text "print(1)"]])
      rfl rfl
  have hn : n = "Main" := h2.trans (by decide)
  have hs : source = "print(1)" :=
    (h4 (.element "ProtectedString" [("name", "Source")] [.text "print(1)"]) rfl).trans
      (by decide)
  exact ⟨n, source, rest, h1, hn, hs,
    (h5 (fun _ => none) []).2.1 rfl (by rw [hs]; decide)⟩

/-! ### Referent tokens -/

theorem upperDigit_mem (v : Fin 16) :
    Char.toUpper (hexDigit v.val) ∈ "0123456789ABCDEF".data := by
  revert v
  decide

theorem variantDigit_mem (v : Fin 16) :
    Char.toUpper (hexDigit (v.val &&& 3 ||| 8)) ∈ ['8', '9', 'A', 'B'] := by
  revert v
  decide

theorem generateUUID_eq (rand : RandomSource) (k : Nat) :
    generateUUID rand k
      = (String.mk (['R', 'B', 'X'] ++
          ((List.range 12).map (fun i => Char.toUpper (hexDigit (rand (k + i)).val))
            ++ ['4']
            ++ (List.range 3).map (fun i => Char.toUpper (hexDigit (rand (k + 12 + i)).val))
            ++ [Char.toUpper (hexDigit ((rand (k + 15)).val &&& 3 ||| 8))]
            ++ (List.range 15).map
                (fun i => Char.toUpper (hexDigit (rand (k + 16 + i)).val)))),
         k + 31) := by
  simp [generateUUID, replaceDraws, List.range, List.range.loop, Nat.add_assoc]
  rfl

/-- C25, as the claim words it, fails: for the random source that always
yields 0 the referent token has 35 characters, not 36. -/
theorem uuid_length_counterexample :
    (generateUUID (fun _ => 0) 0).1 = "RBX00000000000040008000000000000000" ∧
    (generateUUID (fun _ => 0) 0).1.length = 35 ∧
    (generateUUID (fun _ => 0) 0).1.length ≠ 36 := by
  decide

/-- C25, amended: for every outcome of the random source the referent token is
exactly 35 characters long: `RBX`, then 32 hexadecimal digits in capitals, of
which the 13th is `4` and the 17th one of `8`, `9`, `A`, `B`; 31 outcomes of
the random source are used. -/
theorem uuid_length (rand : RandomSource) (k : Nat) :
    (generateUUID rand k).1.length = 35 ∧
    (generateUUID rand k).1.data.take 3 = ['R', 'B', 'X'] ∧
    (∀ c ∈ (generateUUID rand k).1.data.drop 3, c ∈ "0123456789ABCDEF".data) ∧
    (generateUUID rand k).1.data[15]? = some '4' ∧
    (∃ c ∈ ['8', '9', 'A', 'B'], (generateUUID rand k).1.data[19]? = some c) ∧
    (generateUUID rand k).2 = k + 31 := by
  rw [generateUUID_eq]
  refine ⟨?_, rfl, ?_, ?_, ?_, rfl⟩
  · simp [String.length]
  · intro c hc
    have hd : ∀ d ∈ ['8', '9', 'A', 'B'], d ∈ "0123456789ABCDEF".data := by decide
    simp only [String.data, List.cons_append, List.nil_append, List.drop_succ_cons,
      List.drop_zero] at hc
    rcases List.mem_append.mp hc with h | h
    · rcases List.mem_append.mp h with h | h
      · rcases List.mem_append.mp h with h | h
        · rcases List.mem_append.mp h with h | h
          · obtain ⟨i, _, rfl⟩ := List.mem_map.mp h
            exact upperDigit_mem _
          · rw [List.mem_singleton.mp h]
            decide
        · obtain ⟨i, _, rfl⟩ := List.mem_map.mp h
          exact upperDigit_mem _
      · rw [List.mem_singleton.mp h]
        exact hd _ (variantDigit_mem (rand (k + 15)))
    · obtain ⟨i, _, rfl⟩ := List.mem_map.mp h
      exact upperDigit_mem _
  · simp [List.range, List.range.loop]
  · refine ⟨_, variantDigit_mem (rand (k + 15)), ?_⟩
    simp [List.range, List.range.loop]

/-! ### The packed colour -/

theorem jsShl_small (a : Int) (k : Nat) (h0 : 0 ≤ a) (h1 : a * 2 ^ k < 2147483648) :
    jsShl a k = a * 2 ^ k := by
  have hp : (1 : Int) ≤ 2 ^ k := one_le_pow₀ (by norm_num)
  have ha : a < 2147483648 := by nlinarith
  have hm : 0 ≤ a * 2 ^ k := mul_nonneg h0 (by positivity)
  have e1 : toInt32 a = a := by
    unfold toInt32 toUint32
    split <;> omega
  have e2 : toInt32 (a * 2 ^ k) = a * 2 ^ k := by
    generalize a * 2 ^ k = m at h1 hm
    unfold toInt32 toUint32
    split <;> omega
  unfold jsShl
  rw [e1, e2]

theorem color3uint8_eq (R G B : Int) (hR0 : 0 ≤ R) (hR : R ≤ 255) (hG0 : 0 ≤ G) (hG : G ≤ 255)
    (hB0 : 0 ≤ B) (hB : B ≤ 255) :
    (color3uint8 R G B : Int) = 4278190080 + 65536 * R + 256 * G + B := by
  unfold color3uint8
  rw [jsShl_small R 16 hR0 (by norm_num; omega), jsShl_small G 8 hG0 (by norm_num; omega)]
  unfold toUint32
  norm_num
  omega

/-! ### Rounding to binary64 -/

theorem roundHalfEven_cases (q : ℚ) : roundHalfEven q = ⌊q⌋ ∨ (roundHalfEven q = ⌊q⌋ + 1 ∧ 1 / 2 ≤ q - ⌊q⌋) := by
  unfold roundHalfEven
  simp only []
  split
  · exact Or.inl rfl
  · rename_i h
    have h := not_lt.mp h
    split
    · exact Or.inr ⟨rfl, h⟩
    · split
      · exact Or.inl rfl
      · exact Or.inr ⟨rfl, h⟩

theorem roundHalfEven_nonneg (q : ℚ) (h : 0 ≤ q) : 0 ≤ roundHalfEven q := by
  have hf : 0 ≤ ⌊q⌋ := Int.floor_nonneg.mpr h
  rcases roundHalfEven_cases q with h1 | ⟨h1, _⟩ <;> omega

theorem roundHalfEven_le (q : ℚ) (m : Int) (h : q ≤ m) : roundHalfEven q ≤ m := by
  have hf : ⌊q⌋ ≤ m := by
    have hle : (⌊q⌋ : ℚ) ≤ m := (Int.floor_le q).trans h
    exact_mod_cast hle
  rcases roundHalfEven_cases q with h1 | ⟨h1, h2⟩
  · omega
  · have hlt : (⌊q⌋ : ℚ) < m := by linarith
    have : ⌊q⌋ < m := by exact_mod_cast hlt
    omega

theorem toBinary64_nonneg (x : ℚ) (h : 0 ≤ x) : 0 ≤ toBinary64 x := by
  unfold toBinary64
  split
  · exact le_refl _
  · simp only []
    apply mul_nonneg
    · exact_mod_cast roundHalfEven_nonneg _ (div_nonneg h (by positivity))
    · positivity

theorem toBinary64_le (x : ℚ) (h0 : 0 ≤ x) (h : x ≤ 255) : toBinary64 x ≤ 255 := by
  unfold toBinary64
  split
  · norm_num
  · rename_i hx
    have hpos : 0 < x := lt_of_le_of_ne h0 (Ne.symm hx)
    simp only []
    have hlog : Int.log 2 |x| < 8 := by
      rw [abs_of_pos hpos]
      apply (Int.lt_zpow_iff_log_lt (by norm_num) hpos).mp
      norm_num
      linarith
    generalize Int.log 2 |x| = e at hlog
    have hq : max (e - 52) (-1074) ≤ 0 := by omega
    generalize max (e - 52) (-1074) = q at hq
    obtain ⟨n, rfl⟩ : ∃ n : Nat, q = -n := ⟨(-q).toNat, by omega⟩
    have hp : (0 : ℚ) < 2 ^ (-(n : Int)) := by positivity
    have hdiv : x / 2 ^ (-(n : Int)) ≤ ((255 * 2 ^ n : Int) : ℚ) := by
      rw [div_le_iff₀ hp]
      push_cast
      rw [mul_assoc, zpow_neg, zpow_natCast, mul_inv_cancel₀ (by positivity), mul_one]
      exact h
    have hr := roundHalfEven_le _ _ hdiv
    have hr' : (roundHalfEven (x / 2 ^ (-(n : Int))) : ℚ) ≤ 255 * 2 ^ n := by exact_mod_cast hr
    calc (roundHalfEven (x / 2 ^ (-(n : Int))) : ℚ) * 2 ^ (-(n : Int))
        ≤ 255 * 2 ^ n * 2 ^ (-(n : Int)) := mul_le_mul_of_nonneg_right hr' hp.le
      _ = 255 := by
        rw [mul_assoc, zpow_neg, zpow_natCast, mul_inv_cancel₀ (by positivity), mul_one]

theorem binary64Round255_range (c : ℚ) (h0 : 0 ≤ c) (h1 : c ≤ 1) :
    0 ≤ binary64Round255 c ∧ binary64Round255 c ≤ 255 := by
  have ha := toBinary64_nonneg (c * 255) (by positivity)
  have hb := toBinary64_le (c * 255) (by positivity) (by linarith)
  unfold binary64Round255
  constructor
  · apply Int.floor_nonneg.mpr
    linarith
  · have : ⌊toBinary64 (c * 255) + 1 / 2⌋ < 256 := by
      apply Int.floor_lt.mpr
      push_cast
      linarith
    omega

theorem toBinary64_eq (x : ℚ) (e : Int) (hx : 0 < x) (h1 : (2 : ℚ) ^ e ≤ x)
    (h2 : x < (2 : ℚ) ^ (e + 1)) :
    toBinary64 x = roundHalfEven (x / 2 ^ max (e - 52) (-1074)) * 2 ^ max (e - 52) (-1074) := by
  have hlog : Int.log 2 |x| = e := by
    rw [abs_of_pos hx]
    have ha := (Int.zpow_le_iff_le_log (by norm_num : 1 < 2) hx).mp (by exact_mod_cast h1)
    have hb := (Int.lt_zpow_iff_log_lt (by norm_num : 1 < 2) hx).mp (by exact_mod_cast h2)
    omega
  unfold toBinary64
  rw [if_neg (ne_of_gt hx), hlog]

theorem roundHalfEven_eq (q : ℚ) (m : Int) (h1 : (m : ℚ) - 1 / 2 < q) (h2 : q < m + 1 / 2) :
    roundHalfEven q = m := by
  have hf1 := Int.floor_le q
  have hf2 := Int.lt_floor_add_one q
  unfold roundHalfEven
  simp only []
  split
  · rename_i h
    have ha : ((⌊q⌋ : Int) : ℚ) < ((m + 1 : Int) : ℚ) := by
      push_cast
      linarith
    have hb : ((m : Int) : ℚ) < ((⌊q⌋ + 1 : Int) : ℚ) := by
      push_cast
      linarith
    have ha := Int.cast_lt.mp ha
    have hb := Int.cast_lt.mp hb
    omega
  · rename_i h
    have h := not_lt.mp h
    have ha : ((⌊q⌋ : Int) : ℚ) < ((m : Int) : ℚ) := by linarith
    have ha := Int.cast_lt.mp ha
    split
    · have hb : ((m : Int) : ℚ) < ((⌊q⌋ + 2 : Int) : ℚ) := by
        push_cast
        linarith
      have hb := Int.cast_lt.mp hb
      omega
    · rename_i h3
      have h3 := not_lt.mp h3
      have hb : ((m : Int) : ℚ) < ((⌊q⌋ + 1 : Int) : ℚ) := by
        push_cast
        linarith
      have hb := Int.cast_lt.mp hb
      omega

/-- The binary64 number nearest to 0.7, scaled by 255 and rounded as the writer
does, gives 179: the product is rounded to 178.5 before `Math.round`. -/
theorem round_seven_tenths :
    toBinary64 (7 / 10) = 3152519739159347 / 2 ^ 52 ∧
    binary64Round255 (3152519739159347 / 2 ^ 52) = 179 ∧
    ⌊(3152519739159347 / 2 ^ 52 : ℚ) * 255 + 1 / 2⌋ = 178 := by
  refine ⟨?_, ?_, ?_⟩
  · rw [toBinary64_eq (7 / 10) (-1) (by norm_num) (by norm_num) (by norm_num)]
    rw [roundHalfEven_eq _ 6305039478318694 (by norm_num) (by norm_num)]
    norm_num
  · unfold binary64Round255
    rw [toBinary64_eq _ 7 (by norm_num) (by norm_num) (by norm_num)]
    rw [roundHalfEven_eq _ 6280410417856512 (by norm_num) (by norm_num)]
    rw [Int.floor_eq_iff]
    norm_num
  · rw [Int.floor_eq_iff]
    norm_num

/-- The binary64 number nearest to 0.3, scaled by 255 and rounded as the writer
does, gives 77: the product is rounded to 76.5 before `Math.round`. -/
theorem round_three_tenths :
    toBinary64 (3 / 10) = 5404319552844595 / 2 ^ 54 ∧
    binary64Round255 (5404319552844595 / 2 ^ 54) = 77 ∧
    ⌊(5404319552844595 / 2 ^ 54 : ℚ) * 255 + 1 / 2⌋ = 76 := by
  refine ⟨?_, ?_, ?_⟩
  · rw [toBinary64_eq (3 / 10) (-2) (by norm_num) (by norm_num) (by norm_num)]
    rw [roundHalfEven_eq _ 5404319552844595 (by norm_num) (by norm_num)]
    norm_num
  · unfold binary64Round255
    rw [toBinary64_eq _ 6 (by norm_num) (by norm_num) (by norm_num)]
    rw [roundHalfEven_eq _ 5383208929591296 (by norm_num) (by norm_num)]
    rw [Int.floor_eq_iff]
    norm_num
  · rw [Int.floor_eq_iff]
    norm_num

/-- C23: for rounded channels R, G, B between 0 and 255 the value written in
the `Color3uint8` element is the unsigned 32-bit integer
`0xFF000000 + 65536 R + 256 G + B`: its high byte is 0xFF and its three low
bytes are R, G, B.  On binary64 numbers a channel between 0 and 1, scaled by
255 (the product rounded to binary64) and rounded by `Math.round`, lies
between 0 and 255, so that the value written for a colour with channels
between 0 and 1 has this form, with that high byte and those low bytes.  The
element the writer emits for a Part holds the decimal text of that value for
the rounded channels of the colour of the object. -/
theorem color_packing :
    (∀ R G B : Int, 0 ≤ R → R ≤ 255 → 0 ≤ G → G ≤ 255 → 0 ≤ B → B ≤ 255 →
      (color3uint8 R G B : Int) = 0xFF000000 + 65536 * R + 256 * G + B ∧
      color3uint8 R G B < 4294967296 ∧
      color3uint8 R G B / 16777216 = 0xFF ∧
      ((color3uint8 R G B / 65536 % 256 : Nat) : Int) = R ∧
      ((color3uint8 R G B / 256 % 256 : Nat) : Int) = G ∧
      ((color3uint8 R G B % 256 : Nat) : Int) = B) ∧
    (∀ c : ℚ, 0 ≤ c → c ≤ 1 → 0 ≤ binary64Round255 c ∧ binary64Round255 c ≤ 255) ∧
    (∀ (text : ℚ → String) (r g b : ℚ), 0 ≤ r → r ≤ 1 → 0 ≤ g → g ≤ 1 → 0 ≤ b → b ≤ 1 →
      (color3uint8 ((binary64Write text).round255 r) ((binary64Write text).round255 g)
          ((binary64Write text).round255 b) : Int)
        = 0xFF000000 + 65536 * binary64Round255 r + 256 * binary64Round255 g
          + binary64Round255 b ∧
      color3uint8 ((binary64Write text).round255 r) ((binary64Write text).round255 g)
          ((binary64Write text).round255 b) / 16777216 = 0xFF ∧
      ((color3uint8 ((binary64Write text).round255 r) ((binary64Write text).round255 g)
          ((binary64Write text).round255 b) / 65536 % 256 : Nat) : Int) = binary64Round255 r ∧
      ((color3uint8 ((binary64Write text).round255 r) ((binary64Write text).round255 g)
          ((binary64Write text).round255 b) / 256 % 256 : Nat) : Int) = binary64Round255 g ∧
      ((color3uint8 ((binary64Write text).round255 r) ((binary64Write text).round255 g)
          ((binary64Write text).round255 b) % 256 : Nat) : Int) = binary64Round255 b) ∧
    (∀ (F : Type) (N : NumOps F) (W : WriteOps F) (object : SceneObject F),
      propertyXml "Color3uint8" "Color3uint8"
          (toString (color3uint8 (W.round255 object.color.r) (W.round255 object.color.g)
            (W.round255 object.color.b)))
        ∈ partProperties N W object) := by
  have hbytes : ∀ R G B : Int, 0 ≤ R → R ≤ 255 → 0 ≤ G → G ≤ 255 → 0 ≤ B → B ≤ 255 →
      (color3uint8 R G B : Int) = 0xFF000000 + 65536 * R + 256 * G + B ∧
      color3uint8 R G B < 4294967296 ∧
      color3uint8 R G B / 16777216 = 0xFF ∧
      ((color3uint8 R G B / 65536 % 256 : Nat) : Int) = R ∧
      ((color3uint8 R G B / 256 % 256 : Nat) : Int) = G ∧
      ((color3uint8 R G B % 256 : Nat) : Int) = B := by
    intro R G B hR0 hR hG0 hG hB0 hB
    have h := color3uint8_eq R G B hR0 hR hG0 hG hB0 hB
    refine ⟨h, ?_, ?_, ?_, ?_, ?_⟩ <;> omega
  refine ⟨hbytes, binary64Round255_range, ?_, ?_⟩
  · intro text r g b hr0 hr1 hg0 hg1 hb0 hb1
    have h := hbytes (binary64Round255 r) (binary64Round255 g) (binary64Round255 b)
      (binary64Round255_range r hr0 hr1).1 (binary64Round255_range r hr0 hr1).2
      (binary64Round255_range g hg0 hg1).1 (binary64Round255_range g hg0 hg1).2
      (binary64Round255_range b hb0 hb1).1 (binary64Round255_range b hb0 hb1).2
    exact ⟨h.1, h.2.2.1, h.2.2.2.1, h.2.2.2.2.1, h.2.2.2.2.2⟩
  · intro F N W object
    unfold partProperties
    simp

theorem color_packing_witness :
    (color3uint8 255 128 0 : Int) = 0xFF000000 + 65536 * 255 + 256 * 128 + 0 ∧
    color3uint8 255 128 0 = 4294934528 ∧
    (0 ≤ binary64Round255 (3152519739159347 / 2 ^ 52) ∧
      binary64Round255 (3152519739159347 / 2 ^ 52) ≤ 255) ∧
    binary64Round255 (3152519739159347 / 2 ^ 52) = 179 ∧
    binary64Round255 (5404319552844595 / 2 ^ 54) = 77 :=
  ⟨(color_packing.1 255 128 0 (by decide) (by decide) (by decide) (by decide) (by decide)
      (by decide)).1,
   by decide,
   color_packing.2.1 (3152519739159347 / 2 ^ 52) (by norm_num) (by norm_num),
   round_seven_tenths.2.1,
   round_three_tenths.2.1⟩

/-! ### Class resolution of the two writers -/

theorem xmlServiceNames_mem (itemId : String) :
    xmlServiceNames.contains itemId = serviceNames.contains itemId := by
  have h : itemId ∈ xmlServiceNames ↔ itemId ∈ serviceNames := by
    simp only [xmlServiceNames, serviceNames, List.mem_cons, List.mem_singleton,
      List.not_mem_nil, or_false]
    tauto
  rw [Bool.eq_iff_iff]
  constructor
  · intro hx
    exact List.elem_iff.mpr (h.mp (List.elem_iff.mp hx))
  · intro hx
    exact List.elem_iff.mpr (h.mpr (List.elem_iff.mp hx))

/-- C26, as the claim words it, fails: for a node that is neither a container
nor tagged with a kind and whose key is no service name, the XML writer
resolves the class `Part` and the binary extractor the index of the node. -/
theorem class_names_differ_counterexample :
    xmlClassName "Orphan" { index := "Orphan", isFolder := false, kind := none,
                            data := "Orphan", children := none } = "Part" ∧
    actualClassName "Orphan" { index := "Orphan", isFolder := false, kind := none,
                               data := "Orphan", children := none } = "Orphan" ∧
    xmlClassName "Orphan" { index := "Orphan", isFolder := false, kind := none,
                            data := "Orphan", children := none }
      ≠ actualClassName "Orphan" { index := "Orphan", isFolder := false, kind := none,
                                   data := "Orphan", children := none } := by
  decide

/-- C26, amended: the XML writer and the binary extractor resolve the same
class name for every node whose key is a service name, for every container,
and for every node tagged with a non-empty kind; for a node of none of these
sorts the XML writer resolves `Part` and the binary extractor the index of the
node. -/
theorem class_names_agree (itemId : String) (item : TreeItem) :
    ((itemId ∈ serviceNames ∨ item.isFolder = true ∨
        ∃ k : String, item.kind = some k ∧ k ≠ "") →
      xmlClassName itemId item = actualClassName itemId item) ∧
    (itemId ∉ serviceNames → item.isFolder = false →
      (item.kind = none ∨ item.kind = some "") →
      xmlClassName itemId item = "Part" ∧ actualClassName itemId item = item.index) := by
  unfold xmlClassName actualClassName nodeClassName
  rw [xmlServiceNames_mem]
  constructor
  · rintro (h | h | ⟨k, hk, hne⟩)
    · simp [h]
    · simp [h]
    · by_cases hs : itemId ∈ serviceNames
      · simp [hs]
      · simp [hs, hk, hne]
  · intro hs hf hk
    rcases hk with hk | hk <;> simp [hs, hf, hk]

theorem class_names_agree_witness :
    xmlClassName "Base" { index := "Base", isFolder := true, kind := some "Part",
                          data := "Base", children := some ["Main"] }
      = actualClassName "Base" { index := "Base", isFolder := true, kind := some "Part",
                                 data := "Base", children := some ["Main"] } :=
  (class_names_agree "Base"
    { index := "Base", isFolder := true, kind := some "Part", data := "Base",
      children := some ["Main"] }).1 (Or.inr (Or.inl rfl))

/-! ### The XML writer and missing live objects -/

theorem generateUUID_draws (rand : RandomSource) (k : Nat) :
    (generateUUID rand k).2 = k + 31 := by
  rw [generateUUID_eq]

theorem generateUniqueId_draws (rand : RandomSource) (k : Nat) :
    (generateUniqueId rand k).2 = k + 32 := by
  simp [generateUniqueId, replaceDraws]

/-- C27, as the claim words it, fails: in the haunted example the part `Ghost`
has no live object and holds the script `Main`; the writer returns the empty
text for `Ghost`, and the Item of `Workspace` holds its `Properties` only: no
Item for `Ghost` and none for `Main`. -/
theorem missing_object_xml_counterexample :
    generateItemXml exampleNum exampleWrite hauntedApp (fun _ => 0) 2 "Ghost" 0 = some ([], 63) ∧
    generateItemXml exampleNum exampleWrite hauntedApp (fun _ => 0) 3 "Workspace" 0
      = some ([Markup.element "Item"
                [("class", "Workspace"), ("referent", "RBX00000000000040008000000000000000")]
                [Markup.element "Properties" []
                  [propertyXml "string" "Name" "Workspace",
                   propertyXml "UniqueId" "UniqueId" "00000000000000000000000000000000"]]],
              126) ∧
    generateItemXml exampleNum exampleWrite hauntedApp (fun _ => 0) 1 "Main" 0
      = some ([Markup.element "Item"
                [("class", "Script"), ("referent", "RBX00000000000040008000000000000000")]
                [Markup.element "Properties" []
                  [propertyXml "string" "Name" "Main",
                   Markup.element "ProtectedString" [("name", "Source")] [.cdata "print(1)"],
                   propertyXml "UniqueId" "UniqueId" "00000000000000000000000000000000"]]],
              63) := by
  refine ⟨rfl, rfl, rfl⟩

/-- C27, amended: a missing live object is not fatal for the XML writer, and
nothing is written for the node: for every Part or SpawnLocation node whose
live object is absent `generateItemXml` returns the empty text, so that
neither the node nor any node below it gets an Item; only the referent and the
unique id have been drawn, and the writer goes on with what follows. -/
theorem missing_object_xml {F : Type} (N : NumOps F) (W : WriteOps F) (app : StudioApp F)
    (rand : RandomSource) (fuel : Nat) (itemId : String) (k : Nat) (item : TreeItem)
    (hitem : app.treeItems itemId = some item)
    (hclass : xmlClassName itemId item = "Part" ∨ xmlClassName itemId item = "SpawnLocation")
    (hobj : app.scene item.data = none) :
    generateItemXml N W app rand (fuel + 1) itemId k = some ([], k + 63) := by
  unfold generateItemXml
  simp only [hitem, hclass, if_true, hobj, generateUUID_draws, generateUniqueId_draws]

theorem missing_object_xml_witness :
    generateItemXml exampleNum exampleWrite hauntedApp (fun _ => 7) 1 "Ghost" 5
      = some ([], 5 + 63) :=
  missing_object_xml exampleNum exampleWrite hauntedApp (fun _ => 7) 0 "Ghost" 5
    { index := "Ghost", isFolder := false, kind := some "Part", data := "Ghost",
      children := some ["Main"] }
    rfl (Or.inl rfl) rfl

/-! ### The CDATA section of a script -/

theorem hasCDataEnd_cons (c : Char) (cs : List Char) (h : hasCDataEnd (c :: cs) = false) :
    hasCDataEnd cs = false ∧
      ∀ tail : List Char, c = ']' → cs = ']' :: '>' :: tail → False := by
  unfold hasCDataEnd at h
  simp only [Bool.or_eq_false_iff] at h
  refine ⟨h.2, ?_⟩
  intro tail hc hcs
  subst hc
  subst hcs
  simp at h

theorem cdataScan_cons (c : Char) (cs : List Char)
    (h : ∀ tail : List Char, c = ']' → cs = ']' :: '>' :: tail → False) :
    cdataScan (c :: cs) = (cdataScan cs).map (fun r => (c :: r.1, r.2)) := by
  rw [cdataScan]
  exact h

/-- A section around a text without `]]>` is read back as that text. -/
theorem cdataScan_plain (s rest : List Char) (h : hasCDataEnd s = false) :
    cdataScan (s ++ ']' :: ']' :: '>' :: rest) = some (s, rest) := by
  induction s with
  | nil => rfl
  | cons c s ih =>
    obtain ⟨h1, h2⟩ := hasCDataEnd_cons c s h
    rw [List.cons_append, cdataScan_cons, ih h1]
    · rfl
    · intro tail hc hcs
      match s, h2, hcs with
      | [], _, hcs =>
        simp only [List.nil_append, List.cons.injEq] at hcs
        exact absurd hcs.2.1 (by decide)
      | [x], _, hcs =>
        simp only [List.cons_append, List.nil_append, List.cons.injEq] at hcs
        exact absurd hcs.2.1 (by decide)
      | x :: y :: t, h2, hcs =>
        simp only [List.cons_append, List.cons.injEq] at hcs
        obtain ⟨rfl, rfl, _⟩ := hcs
        exact h2 t hc rfl

theorem hasCDataEnd_length (s : List Char) (h : hasCDataEnd s = true) : 3 ≤ s.length := by
  induction s with
  | nil => simp [hasCDataEnd] at h
  | cons c s ih =>
    unfold hasCDataEnd at h
    simp only [Bool.or_eq_true] at h
    rcases h with h | h
    · split at h
      · simp
      · exact Bool.noConfusion h
    · have := ih h
      simp only [List.length_cons]
      omega

/-- A section around a text that holds `]]>` ends inside the text. -/
theorem cdataScan_early (s t : List Char) (h : hasCDataEnd s = true) :
    ∃ content rest : List Char, cdataScan (s ++ t) = some (content, rest) ∧
      content.length + 3 ≤ s.length := by
  induction s with
  | nil => simp [hasCDataEnd] at h
  | cons c s ih =>
    by_cases hhead : ∃ tail : List Char, c = ']' ∧ s ++ t = ']' :: '>' :: tail
    · obtain ⟨tail, hc, hs⟩ := hhead
      refine ⟨[], tail, ?_, ?_⟩
      · rw [List.cons_append, hc, hs]
        rfl
      · have := hasCDataEnd_length (c :: s) h
        simpa using this
    · have hs : hasCDataEnd s = true := by
        unfold hasCDataEnd at h
        simp only [Bool.or_eq_true] at h
        rcases h with h | h
        · split at h
          · rename_i tail
            exact absurd ⟨tail ++ t, rfl, rfl⟩ hhead
          · exact Bool.noConfusion h
        · exact h
      obtain ⟨content, rest, h1, h2⟩ := ih hs
      refine ⟨c :: content, rest, ?_, ?_⟩
      · rw [List.cons_append, cdataScan_cons, h1]
        · rfl
        · intro tail hc hcs
          exact hhead ⟨tail, hc, hcs⟩
      · simp only [List.length_cons]
        omega

/-- C24 fails on the code: the writer puts the script text between
`<![CDATA[` and `]]>` as it is.  A text without `]]>` is read back unchanged;
for a text that holds `]]>` the section ends inside the text, so that the
character data of the section is a strictly shorter text.  For the source
`if (a[b[0]]>1) {}` the section holds `if (a[b[0` and is followed by the
character data `1) {}]]>`. -/
theorem cdata_unescaped :
    (∀ (F : Type) (app : StudioApp F) (item : TreeItem),
      scriptProperties app item
        = [propertyXml "string" "Name" item.data,
           .element "ProtectedString" [("name", "Source")]
             [.cdata ((app.scripts item.data).getD "")]]) ∧
    (∀ s : String,
      (Markup.element "ProtectedString" [("name", "Source")] [.cdata s]).render.data
        = "<ProtectedString name=\"Source\"><![CDATA[".data ++ s.data
            ++ "]]></ProtectedString>".data) ∧
    (∀ (s : String) (rest : List Char), hasCDataEnd s.data = false →
      cdataScan (s.data ++ "]]>".data ++ rest) = some (s.data, rest)) ∧
    (∀ (s : String) (rest : List Char), hasCDataEnd s.data = true →
      ∃ content after : List Char,
        cdataScan (s.data ++ "]]>".data ++ rest) = some (content, after) ∧
        content.length < s.data.length ∧ content ≠ s.data) ∧
    cdataScan ("if (a[b[0]]>1) {}".data ++ "]]></ProtectedString>".data)
      = some ("if (a[b[0".data, "1) {}]]></ProtectedString>".data) := by
  refine ⟨fun _ _ _ => rfl, ?_, ?_, ?_, by decide⟩
  · intro s
    simp [Markup.render, renderList, renderAttrs, String.data_append]
  · intro s rest h
    rw [List.append_assoc]
    exact cdataScan_plain s.data rest h
  · intro s rest h
    obtain ⟨content, after, h1, h2⟩ := cdataScan_early s.data ("]]>".data ++ rest) h
    rw [List.append_assoc]
    refine ⟨content, after, h1, by omega, ?_⟩
    intro heq
    rw [heq] at h2
    omega

theorem cdata_unescaped_witness :
    cdataScan ("print(1)".data ++ "]]>".data ++ []) = some ("print(1)".data, []) ∧
    (∃ content after : List Char,
      cdataScan ("a]]>b".data ++ "]]>".data ++ []) = some (content, after) ∧
      content.length < "a]]>b".data.length ∧ content ≠ "a]]>b".data) :=
  ⟨cdata_unescaped.2.2.1 "print(1)" [] (by decide),
   cdata_unescaped.2.2.2.1 "a]]>b" [] (by decide)⟩

/-! ### The XML writer returns -/

/-- A loop over steps that all return does return, with a result that does not
depend on the bound once that is large enough. -/
theorem foldlM_returns (step : Nat → String → Nat → Option (List Markup × Nat)) (b : Nat)
    (ids : List String)
    (hstep : ∀ c ∈ ids, ∀ k : Nat, ∃ r, ∀ fuel : Nat, b ≤ fuel → step fuel c k = some r) :
    ∀ acc : List Markup × Nat, ∃ r, ∀ fuel : Nat, b ≤ fuel →
      ids.foldlM (fun (acc : List Markup × Nat) c =>
        (step fuel c acc.2).map (fun r => (acc.1 ++ r.1, r.2))) acc = some r := by
  induction ids with
  | nil =>
    intro acc
    exact ⟨acc, fun fuel _ => rfl⟩
  | cons c cs ih =>
    intro acc
    obtain ⟨r1, h1⟩ := hstep c (List.mem_cons_self _ _) acc.2
    obtain ⟨r, hr⟩ := ih (fun c hc => hstep c (List.mem_cons_of_mem _ hc)) (acc.1 ++ r1.1, r1.2)
    refine ⟨r, fun fuel hfuel => ?_⟩
    rw [List.foldlM_cons, h1 fuel hfuel]
    exact hr fuel hfuel

/-- For a key the index does not hold `generateItemXml` returns the empty text. -/
theorem generateItemXml_absent {F : Type} (N : NumOps F) (W : WriteOps F) (app : StudioApp F)
    (rand : RandomSource) (itemId : String) (h : app.treeItems itemId = none) (k : Nat) :
    ∃ r : List Markup × Nat, r.1 = [] ∧ ∀ fuel : Nat, 1 ≤ fuel →
      generateItemXml N W app rand fuel itemId k = some r := by
  by_cases hk : objectPrototypeKeys.contains itemId = true
  · refine ⟨([], (generateUniqueId rand (generateUUID rand k).2).2), rfl, fun fuel hfuel => ?_⟩
    obtain ⟨f, rfl⟩ : ∃ f, fuel = f + 1 := ⟨fuel - 1, by omega⟩
    rw [generateItemXml, h]
    simp only [hk, if_true]
  · refine ⟨([], k), rfl, fun fuel hfuel => ?_⟩
    obtain ⟨f, rfl⟩ : ∃ f, fuel = f + 1 := ⟨fuel - 1, by omega⟩
    rw [generateItemXml, h]
    simp only [hk, Bool.false_eq_true, if_false]

/-- When the calls for the children return, so does the call for the node. -/
theorem generateItemXml_of_children {F : Type} (N : NumOps F) (W : WriteOps F)
    (app : StudioApp F) (rand : RandomSource) (itemId : String) (item : TreeItem)
    (hitem : app.treeItems itemId = some item) (b : Nat)
    (hkids : ∀ c ∈ item.children.getD [], ∀ k : Nat, ∃ r, ∀ fuel : Nat, b ≤ fuel →
      generateItemXml N W app rand fuel c k = some r)
    (k : Nat) :
    ∃ r, ∀ fuel : Nat, b + 1 ≤ fuel → generateItemXml N W app rand fuel itemId k = some r := by
  obtain ⟨kids, hfold⟩ := foldlM_returns (generateItemXml N W app rand) b
    (item.children.getD []) hkids ([], (generateUniqueId rand (generateUUID rand k).2).2)
  have hfinish : ∀ props : List Markup, ∃ r, ∀ fuel : Nat, b ≤ fuel →
      ((item.children.getD []).foldlM
        (fun (acc : List Markup × Nat) childId =>
          (generateItemXml N W app rand fuel childId acc.2).map
            (fun r => (acc.1 ++ r.1, r.2)))
        ([], (generateUniqueId rand (generateUUID rand k).2).2)).map
        (fun childrenXml =>
          ([Markup.element "Item"
              [("class", xmlClassName itemId item), ("referent", (generateUUID rand k).1)]
              (Markup.element "Properties" []
                  (props ++ [propertyXml "UniqueId" "UniqueId"
                    (generateUniqueId rand (generateUUID rand k).2).1])
                :: childrenXml.1)],
           childrenXml.2)) = some r := by
    intro props
    refine ⟨([Markup.element "Item"
              [("class", xmlClassName itemId item), ("referent", (generateUUID rand k).1)]
              (Markup.element "Properties" []
                  (props ++ [propertyXml "UniqueId" "UniqueId"
                    (generateUniqueId rand (generateUUID rand k).2).1])
                :: kids.1)],
           kids.2), fun fuel hfuel => ?_⟩
    rw [hfold fuel hfuel]
    rfl
  by_cases hpart : xmlClassName itemId item = "Part" ∨ xmlClassName itemId item = "SpawnLocation"
  · cases hobj : app.scene item.data with
    | none =>
      refine ⟨([], (generateUniqueId rand (generateUUID rand k).2).2), fun fuel hfuel => ?_⟩
      obtain ⟨f, rfl⟩ : ∃ f, fuel = f + 1 := ⟨fuel - 1, by omega⟩
      rw [generateItemXml, hitem]
      simp only [hpart, if_true, hobj]
    | some object =>
      obtain ⟨r, hr⟩ := hfinish (partProperties N W object)
      refine ⟨r, fun fuel hfuel => ?_⟩
      obtain ⟨f, rfl⟩ : ∃ f, fuel = f + 1 := ⟨fuel - 1, by omega⟩
      rw [generateItemXml, hitem]
      simp only [hpart, if_true, hobj]
      exact hr f (by omega)
  · by_cases hscript : xmlClassName itemId item = "Script"
    · obtain ⟨r, hr⟩ := hfinish (scriptProperties app item)
      refine ⟨r, fun fuel hfuel => ?_⟩
      obtain ⟨f, rfl⟩ : ∃ f, fuel = f + 1 := ⟨fuel - 1, by omega⟩
      rw [generateItemXml, hitem]
      simp only [hpart, if_false]
      rw [if_pos hscript]
      exact hr f (by omega)
    · obtain ⟨r, hr⟩ := hfinish [propertyXml "string" "Name" item.data]
      refine ⟨r, fun fuel hfuel => ?_⟩
      obtain ⟨f, rfl⟩ : ∃ f, fuel = f + 1 := ⟨fuel - 1, by omega⟩
      rw [generateItemXml, hitem]
      simp only [hpart, if_false]
      rw [if_neg hscript]
      exact hr f (by omega)

/-- On an index without cycle `generateItemXml` returns, with the same result
for every bound on the nesting depth above the rank of the node. -/
theorem generateItemXml_returns {F : Type} (N : NumOps F) (W : WriteOps F) (app : StudioApp F)
    (rand : RandomSource) (rank : String → Nat)
    (hrank : ∀ (k : String) (node : TreeItem) (c : String),
      app.treeItems k = some node → c ∈ node.children.getD [] →
      (app.treeItems c).isSome = true → rank c < rank k) :
    ∀ (n : Nat) (itemId : String), rank itemId ≤ n ∨ app.treeItems itemId = none →
      ∀ k : Nat, ∃ r, ∀ fuel : Nat, n + 2 ≤ fuel →
        generateItemXml N W app rand fuel itemId k = some r := by
  intro n
  induction n with
  | zero =>
    intro itemId hn k
    cases hitem : app.treeItems itemId with
    | none =>
      obtain ⟨r, _, hr⟩ := generateItemXml_absent N W app rand itemId hitem k
      exact ⟨r, fun fuel hfuel => hr fuel (by omega)⟩
    | some item =>
      refine generateItemXml_of_children N W app rand itemId item hitem 1 ?_ k
      intro c hc k
      cases hci : app.treeItems c with
      | none =>
        obtain ⟨r, _, hr⟩ := generateItemXml_absent N W app rand c hci k
        exact ⟨r, fun fuel hfuel => hr fuel hfuel⟩
      | some ci =>
        have := hrank itemId item c hitem hc (by rw [hci]; rfl)
        rcases hn with hn | hn
        · omega
        · rw [hitem] at hn
          exact Option.noConfusion hn
  | succ n ih =>
    intro itemId hn k
    cases hitem : app.treeItems itemId with
    | none =>
      obtain ⟨r, _, hr⟩ := generateItemXml_absent N W app rand itemId hitem k
      exact ⟨r, fun fuel hfuel => hr fuel (by omega)⟩
    | some item =>
      refine generateItemXml_of_children N W app rand itemId item hitem (n + 2) ?_ k
      intro c hc k
      cases hci : app.treeItems c with
      | none => exact ih c (Or.inr hci) k
      | some ci =>
        have := hrank itemId item c hitem hc (by rw [hci]; rfl)
        rcases hn with hn | hn
        · exact ih c (Or.inl (by omega)) k
        · rw [hitem] at hn
          exact Option.noConfusion hn

/-- On an index without cycle whose root lists children `generateRbxlxContent`
returns a document, the same for every large enough bound on the nesting depth. -/
theorem generateRbxlxContent_returns {F : Type} (N : NumOps F) (W : WriteOps F)
    (app : StudioApp F) (rand : RandomSource) (hacyclic : Acyclic app)
    (rootItem : TreeItem) (children : List String)
    (hroot : app.treeItems "root" = some rootItem) (hch : rootItem.children = some children) :
    ∃ (doc : Markup) (fuel0 : Nat), ∀ fuel : Nat, fuel0 ≤ fuel →
      generateRbxlxContent N W app rand fuel = some [doc] := by
  obtain ⟨rank, hrank⟩ := hacyclic
  have hkids : ∀ c ∈ children, ∀ k : Nat, ∃ r, ∀ fuel : Nat, rank "root" + 2 ≤ fuel →
      generateItemXml N W app rand fuel c k = some r := by
    intro c hc k
    cases hci : app.treeItems c with
    | none =>
      obtain ⟨r, _, hr⟩ := generateItemXml_absent N W app rand c hci k
      exact ⟨r, fun fuel hfuel => hr fuel (by omega)⟩
    | some ci =>
      have := hrank "root" rootItem c hroot (by rw [hch]; exact hc) (by rw [hci]; rfl)
      exact generateItemXml_returns N W app rand rank hrank (rank "root") c (Or.inl (by omega)) k
  obtain ⟨items, hfold⟩ := foldlM_returns (generateItemXml N W app rand) (rank "root" + 2)
    children hkids ([], 0)
  refine ⟨Markup.element "roblox"
      [("xmlns:xmime", "http://www.w3.org/2005/05/xmlmime"),
       ("xmlns:xsi", "http://www.w3.org/2001/XMLSchema-instance"),
       ("xsi:noNamespaceSchemaLocation", "http://www.roblox.com/roblox.xsd"),
       ("version", "4")]
      ([Markup.element "External" [] [.text "null"],
        Markup.element "External" [] [.text "nil"]]
        ++ items.1 ++ (getStaticServicesXml rand items.2).1),
    rank "root" + 2, fun fuel hfuel => ?_⟩
  rw [generateRbxlxContent, hroot]
  simp only [hch]
  rw [hfold fuel hfuel]
  rfl

theorem blockApp_children (p : String) (node : TreeItem) (k : String)
    (hp : blockApp.treeItems p = some node) (hk : k ∈ node.children.getD []) :
    (p = "root" ∧ k = "Workspace") ∨ (p = "Workspace" ∧ k = "Block") := by
  unfold blockApp at hp
  simp only at hp
  split at hp
  · rename_i h
    have := Option.some.inj hp
    subst this
    simp only [Option.getD_some, List.mem_singleton] at hk
    exact Or.inl ⟨h, hk⟩
  · split at hp
    · rename_i h
      have := Option.some.inj hp
      subst this
      simp only [Option.getD_some, List.mem_singleton] at hk
      exact Or.inr ⟨h, hk⟩
    · split at hp
      · have := Option.some.inj hp
        subst this
        simp at hk
      · exact Option.noConfusion hp

theorem blockApp_acyclic : Acyclic blockApp :=
  ⟨fun k => if k = "root" then 2 else if k = "Workspace" then 1 else 0, by
    intro k node c hk hc _
    rcases blockApp_children k node c hk hc with ⟨rfl, rfl⟩ | ⟨rfl, rfl⟩ <;> decide⟩

/-! ### The colour of a re-imported part -/

theorem mem_descendantsList (cs : List XmlNode) (c : XmlNode) (hc : c ∈ cs) :
    c ∈ descendantsList cs ∧ ∀ d ∈ c.descendants, d ∈ descendantsList cs := by
  induction cs with
  | nil => simp at hc
  | cons x xs ih =>
    rw [descendantsList]
    rcases List.mem_cons.mp hc with rfl | h
    · exact ⟨List.mem_cons_self _ _,
        fun d hd => List.mem_cons_of_mem _ (List.mem_append_left _ hd)⟩
    · obtain ⟨h1, h2⟩ := ih h
      exact ⟨List.mem_cons_of_mem _ (List.mem_append_right _ h1),
        fun d hd => List.mem_cons_of_mem _ (List.mem_append_right _ (h2 d hd))⟩

theorem selectNamed_color_none (props : XmlNode) (h : NoColorElement props.descendants) :
    props.selectNamed "Color3" "Color" = none := by
  unfold XmlNode.selectNamed
  rw [List.find?_eq_none]
  intro d hd
  simpa using h d hd

mutual
theorem processItem_gray {F Q : Type} (R : ReadOps F Q) :
    ∀ (node : XmlNode) (parentName : Option String), NoColorElement node.descendants →
      ∀ call ∈ processItem R node parentName, ∀ o : ObjectOptions F Q,
        call = Call.createObject o → o.color = { r := R.half, g := R.half, b := R.half }
  | .text _, _, _, call, hcall, _, _ => by
    simp [processItem] at hcall
  | .element tag attrs children, parentName, hno, call, hcall, o, ho => by
    have hno' : NoColorElement (descendantsList children) := by
      rw [XmlNode.descendants] at hno
      exact hno
    unfold processItem at hcall
    cases hp : (XmlNode.element tag attrs children).childElement "Properties" with
    | none =>
      simp [hp] at hcall
    | some props =>
      simp only [hp] at hcall
      have hmem : props ∈ children := by
        unfold XmlNode.childElement XmlNode.childElements at hp
        have := List.mem_of_mem_head? hp
        exact (List.mem_filter.mp this).1
      have hgray : parseColor3 R (props.selectNamed "Color3" "Color")
          = { r := R.half, g := R.half, b := R.half } := by
        rw [selectNamed_color_none props
          (fun d hd => hno' d ((mem_descendantsList children props hmem).2 d hd))]
        rfl
      rcases List.mem_append.mp hcall with h | h
      · split at h
        · simp only [List.mem_singleton] at h
          rw [h] at ho
          injection ho with ho
          rw [← ho]
          exact hgray
        · split at h
          · simp only [List.mem_cons, List.mem_singleton, List.not_mem_nil, or_false] at h
            rcases h with h | h <;> rw [h] at ho <;> exact Call.noConfusion ho
          · simp at h
      · exact processItems_gray R children _ hno' call h o ho
theorem processItems_gray {F Q : Type} (R : ReadOps F Q) :
    ∀ (nodes : List XmlNode) (parentName : Option String), NoColorElement (descendantsList nodes) →
      ∀ call ∈ processItems R nodes parentName, ∀ o : ObjectOptions F Q,
        call = Call.createObject o → o.color = { r := R.half, g := R.half, b := R.half }
  | [], _, _, call, hcall, _, _ => by
    simp [processItems] at hcall
  | c :: cs, parentName, hno, call, hcall, o, ho => by
    rw [descendantsList] at hno
    unfold processItems at hcall
    rcases List.mem_append.mp hcall with h | h
    · split at h
      · exact processItem_gray R c parentName
          (fun d hd => hno d (List.mem_cons_of_mem _ (List.mem_append_left _ hd))) call h o ho
      · simp at h
    · exact processItems_gray R cs parentName
        (fun d hd => hno d (List.mem_cons_of_mem _ (List.mem_append_right _ hd))) call h o ho
end

theorem toDocList_append (a b : List Markup) :
    toDocList (a ++ b) = toDocList a ++ toDocList b := by
  induction a with
  | nil => rfl
  | cons m ms ih =>
    rw [List.cons_append, toDocList, ih]
    rfl

theorem descendantsList_append (a b : List XmlNode) :
    descendantsList (a ++ b) = descendantsList a ++ descendantsList b := by
  induction a with
  | nil => rfl
  | cons m ms ih =>
    rw [List.cons_append, descendantsList, ih, descendantsList, List.cons_append,
      List.append_assoc]

theorem noColorElement_append (a b : List XmlNode) :
    NoColorElement (a ++ b) ↔ NoColorElement a ∧ NoColorElement b := by
  unfold NoColorElement
  simp only [List.mem_append]
  constructor
  · intro h
    exact ⟨fun d hd => h d (Or.inl hd), fun d hd => h d (Or.inr hd)⟩
  · rintro ⟨h1, h2⟩ d (hd | hd)
    · exact h1 d hd
    · exact h2 d hd

/-- The markup of a list of Items has no `Color3` element named `Color` when
the properties and the child Items have none. -/
theorem noColor_item (className referent : String) (props children : List Markup)
    (hp : NoColorElement (descendantsList (toDocList props)))
    (hc : NoColorElement (descendantsList (toDocList children))) :
    NoColorElement (descendantsList (toDocList
      [Markup.element "Item" [("class", className), ("referent", referent)]
        (Markup.element "Properties" [] props :: children)])) := by
  simp only [toDocList, Markup.toDoc, descendantsList, XmlNode.descendants, List.append_nil]
  intro d hd
  simp only [List.mem_cons, List.mem_append] at hd
  rcases hd with rfl | rfl | hd | hd
  · simp [XmlNode.tag?]
  · simp [XmlNode.tag?]
  · exact hp d hd
  · exact hc d hd

theorem noColor_partProperties {F : Type} (N : NumOps F) (W : WriteOps F) (object : SceneObject F)
    (uniqueId : String) :
    NoColorElement (descendantsList (toDocList
      (partProperties N W object ++ [propertyXml "UniqueId" "UniqueId" uniqueId]))) := by
  unfold NoColorElement
  simp [partProperties, propertyXml, toDocList, Markup.toDoc, descendantsList,
    XmlNode.descendants, XmlNode.tag?]

theorem noColor_nil : NoColorElement (descendantsList (toDocList [])) := by
  intro d hd
  simp [toDocList, descendantsList] at hd

theorem noColor_concat (a b : List Markup)
    (ha : NoColorElement (descendantsList (toDocList a)))
    (hb : NoColorElement (descendantsList (toDocList b))) :
    NoColorElement (descendantsList (toDocList (a ++ b))) := by
  rw [toDocList_append, descendantsList_append, noColorElement_append]
  exact ⟨ha, hb⟩

/-- A loop that appends markup without `Color3` element named `Color` yields
markup without such an element. -/
theorem noColor_foldlM (step : String → Nat → Option (List Markup × Nat))
    (hstep : ∀ (itemId : String) (k : Nat) (r : List Markup × Nat), step itemId k = some r →
      NoColorElement (descendantsList (toDocList r.1)))
    (ids : List String) :
    ∀ (acc r : List Markup × Nat), NoColorElement (descendantsList (toDocList acc.1)) →
      ids.foldlM (fun (acc : List Markup × Nat) itemId =>
        (step itemId acc.2).map (fun r => (acc.1 ++ r.1, r.2))) acc = some r →
      NoColorElement (descendantsList (toDocList r.1)) := by
  induction ids with
  | nil =>
    intro acc r hacc h
    have := Option.some.inj h
    subst this
    exact hacc
  | cons itemId ids ih =>
    intro acc r hacc h
    rw [List.foldlM_cons] at h
    cases hs : step itemId acc.2 with
    | none =>
      rw [hs] at h
      exact Option.noConfusion h
    | some r1 =>
      rw [hs] at h
      simp only [Option.map_some', Option.some_bind, Option.bind_eq_bind] at h
      exact ih (acc.1 ++ r1.1, r1.2) r (noColor_concat acc.1 r1.1 hacc (hstep itemId acc.2 r1 hs)) h

/-- The markup `generateItemXml` returns has no `Color3` element named `Color`. -/
theorem noColor_generateItemXml {F : Type} (N : NumOps F) (W : WriteOps F) (app : StudioApp F)
    (rand : RandomSource) (fuel : Nat) :
    ∀ (itemId : String) (k : Nat) (r : List Markup × Nat),
      generateItemXml N W app rand fuel itemId k = some r →
      NoColorElement (descendantsList (toDocList r.1)) := by
  induction fuel with
  | zero =>
    intro itemId k r h
    simp [generateItemXml] at h
  | succ fuel ih =>
    intro itemId k r h
    unfold generateItemXml at h
    cases hitem : app.treeItems itemId with
    | none =>
      rw [hitem] at h
      simp only [] at h
      split at h <;>
      · have := Option.some.inj h
        subst this
        exact noColor_nil
    | some item =>
      rw [hitem] at h
      simp only [] at h
      have hfinish : ∀ props : List Markup,
          NoColorElement (descendantsList (toDocList
            (props ++ [propertyXml "UniqueId" "UniqueId"
              (generateUniqueId rand (generateUUID rand k).2).1]))) →
          ((item.children.getD []).foldlM
            (fun (acc : List Markup × Nat) childId =>
              (generateItemXml N W app rand fuel childId acc.2).map
                (fun r => (acc.1 ++ r.1, r.2)))
            ([], (generateUniqueId rand (generateUUID rand k).2).2)).map
            (fun childrenXml =>
              ([Markup.element "Item"
                  [("class", xmlClassName itemId item), ("referent", (generateUUID rand k).1)]
                  (Markup.element "Properties" []
                      (props ++ [propertyXml "UniqueId" "UniqueId"
                        (generateUniqueId rand (generateUUID rand k).2).1])
                    :: childrenXml.1)],
               childrenXml.2)) = some r →
          NoColorElement (descendantsList (toDocList r.1)) := by
        intro props hprops hr
        simp only [Option.map_eq_some'] at hr
        obtain ⟨childrenXml, hfold, hres⟩ := hr
        rw [← hres]
        exact noColor_item _ _ _ _ hprops
          (noColor_foldlM (generateItemXml N W app rand fuel) ih _ _ childrenXml noColor_nil hfold)
      split at h
      · cases hobj : app.scene item.data with
        | none =>
          rw [hobj] at h
          have := Option.some.inj h
          subst this
          exact noColor_nil
        | some object =>
          rw [hobj] at h
          exact hfinish _ (noColor_partProperties N W object _) h
      · split at h
        · refine hfinish _ ?_ h
          unfold NoColorElement
          simp [scriptProperties, propertyXml, toDocList, Markup.toDoc, descendantsList,
            XmlNode.descendants, XmlNode.tag?]
        · refine hfinish _ ?_ h
          unfold NoColorElement
          simp [propertyXml, toDocList, Markup.toDoc, descendantsList,
            XmlNode.descendants, XmlNode.tag?]

theorem noColor_property (tag name content : String) (h : tag ≠ "Color3") :
    NoColorElement (descendantsList (toDocList [propertyXml tag name content])) := by
  intro d hd
  simp only [propertyXml, toDocList, Markup.toDoc, descendantsList, XmlNode.descendants,
    List.append_nil, List.mem_cons, List.not_mem_nil, or_false] at hd
  rcases hd with rfl | rfl
  · simp [XmlNode.tag?, h]
  · simp [XmlNode.tag?]

theorem noColor_staticService (rand : RandomSource) (name : String) (k : Nat) :
    NoColorElement (descendantsList (toDocList [(staticServiceXml rand name k).1])) := by
  unfold staticServiceXml
  simp only []
  apply noColor_item _ _ _ [] _ noColor_nil
  have base : NoColorElement (descendantsList (toDocList
      [propertyXml "string" "Name" name,
       propertyXml "UniqueId" "UniqueId" (generateUniqueId rand k).1])) :=
    noColor_concat [_] [_] (noColor_property _ _ _ (by decide))
      (noColor_property _ _ _ (by decide))
  have h1 : NoColorElement (descendantsList (toDocList
      (if name = "HttpService" then
        [propertyXml "string" "Name" name,
         propertyXml "UniqueId" "UniqueId" (generateUniqueId rand k).1]
          ++ [propertyXml "bool" "HttpEnabled" "false"]
      else [propertyXml "string" "Name" name,
            propertyXml "UniqueId" "UniqueId" (generateUniqueId rand k).1]))) := by
    split
    · exact noColor_concat _ _ base (noColor_property _ _ _ (by decide))
    · exact base
  split
  · exact noColor_concat _ _ h1 (noColor_property _ _ _ (by decide))
  · exact h1

theorem noColor_foldl (step : String → Nat → Markup × Nat)
    (hstep : ∀ (name : String) (k : Nat),
      NoColorElement (descendantsList (toDocList [(step name k).1])))
    (names : List String) :
    ∀ acc : List Markup × Nat, NoColorElement (descendantsList (toDocList acc.1)) →
      NoColorElement (descendantsList (toDocList
        (names.foldl
          (fun (acc : List Markup × Nat) name =>
            let item := step name acc.2
            (acc.1 ++ [item.1], item.2))
          acc).1)) := by
  induction names with
  | nil =>
    intro acc hacc
    exact hacc
  | cons name names ih =>
    intro acc hacc
    rw [List.foldl_cons]
    exact ih _ (noColor_concat _ _ hacc (hstep name acc.2))

theorem noColor_static (rand : RandomSource) (k : Nat) :
    NoColorElement (descendantsList (toDocList (getStaticServicesXml rand k).1)) :=
  noColor_foldl (staticServiceXml rand) (noColor_staticService rand) _ ([], k) noColor_nil

/-- The document the writer builds has no `Color3` element named `Color`. -/
theorem noColor_generateRbxlxContent {F : Type} (N : NumOps F) (W : WriteOps F)
    (app : StudioApp F) (rand : RandomSource) (fuel : Nat) (doc : Markup)
    (h : generateRbxlxContent N W app rand fuel = some [doc]) :
    NoColorElement (doc.toDoc :: doc.toDoc.descendants) := by
  unfold generateRbxlxContent at h
  cases hroot : app.treeItems "root" with
  | none =>
    rw [hroot] at h
    simp at h
  | some rootItem =>
    rw [hroot] at h
    simp only [] at h
    cases hch : rootItem.children with
    | none =>
      rw [hch] at h
      simp at h
    | some children =>
      rw [hch] at h
      simp only [Option.map_eq_some'] at h
      obtain ⟨itemsXml, hfold, hres⟩ := h
      have hitems := noColor_foldlM (generateItemXml N W app rand fuel)
        (noColor_generateItemXml N W app rand fuel) children _ itemsXml noColor_nil hfold
      have hdoc := List.cons.inj (Option.some.inj (congrArg some hres))
      rw [← hdoc.1]
      have hall : NoColorElement (descendantsList (toDocList
          ([Markup.element "External" [] [.text "null"],
            Markup.element "External" [] [.text "nil"]]
            ++ itemsXml.1 ++ (getStaticServicesXml rand itemsXml.2).1))) := by
        refine noColor_concat _ _ (noColor_concat _ _ ?_ hitems) (noColor_static rand _)
        unfold NoColorElement
        simp [toDocList, Markup.toDoc, descendantsList, XmlNode.descendants, XmlNode.tag?]
      intro d hd
      simp only [Markup.toDoc, XmlNode.descendants, List.mem_cons] at hd
      rcases hd with rfl | hd
      · simp [XmlNode.tag?]
      · exact hall d hd

mutual
theorem descendants_trans :
    ∀ (node d : XmlNode), d ∈ node.descendants → ∀ e ∈ d.descendants, e ∈ node.descendants
  | .text _, d, hd, _, _ => by
    simp [XmlNode.descendants] at hd
  | .element _ _ children, d, hd, e, he => by
    rw [XmlNode.descendants] at hd ⊢
    exact descendantsList_trans children d hd e he
theorem descendantsList_trans :
    ∀ (nodes : List XmlNode) (d : XmlNode), d ∈ descendantsList nodes →
      ∀ e ∈ d.descendants, e ∈ descendantsList nodes
  | [], d, hd, _, _ => by
    simp [descendantsList] at hd
  | c :: cs, d, hd, e, he => by
    rw [descendantsList] at hd ⊢
    rcases List.mem_cons.mp hd with rfl | hd
    · exact List.mem_cons_of_mem _ (List.mem_append_left _ he)
    · rcases List.mem_append.mp hd with hd | hd
      · exact List.mem_cons_of_mem _ (List.mem_append_left _ (descendants_trans c d hd e he))
      · exact List.mem_cons_of_mem _
          (List.mem_append_right _ (descendantsList_trans cs d hd e he))
end

mutual
theorem withParents_snd :
    ∀ node : XmlNode, node.withParents.map Prod.snd = node.descendants
  | .text _ => rfl
  | .element tag _ children => by
    rw [XmlNode.withParents, XmlNode.descendants]
    exact withParentsList_snd tag children
theorem withParentsList_snd :
    ∀ (parent : String) (nodes : List XmlNode),
      (withParentsList parent nodes).map Prod.snd = descendantsList nodes
  | _, [] => rfl
  | parent, c :: cs => by
    rw [withParentsList, descendantsList, List.map_cons, List.map_append, withParents_snd c,
      withParentsList_snd parent cs]
end

theorem descendantsList_childNodes (node : XmlNode) :
    descendantsList node.childNodes = node.descendants := by
  cases node <;> rfl

/-- A document without `Color3` element named `Color` makes the reader pass
the default colour in every call of create-object. -/
theorem loadRbxlxContent_gray {F Q : Type} (R : ReadOps F Q) (app : StudioApp F) (doc : XmlNode)
    (h : NoColorElement doc.descendants) :
    ∀ call ∈ (loadRbxlxContent R app doc).calls, ∀ o : ObjectOptions F Q,
      call = Call.createObject o → o.color = { r := R.half, g := R.half, b := R.half } := by
  intro call hcall o ho
  unfold loadRbxlxContent at hcall
  split at hcall
  · simp at hcall
  · simp only [] at hcall
    split at hcall
    · simp at hcall
    · simp only [List.mem_flatMap, List.mem_map] at hcall
      obtain ⟨res, ⟨item, hitem, rfl⟩, hc⟩ := hcall
      have hdesc : item ∈ doc.descendants := by
        unfold rootItems at hitem
        obtain ⟨p, hp, rfl⟩ := List.mem_map.mp hitem
        rw [← withParents_snd]
        exact List.mem_map.mpr ⟨p, (List.mem_filter.mp hp).1, rfl⟩
      unfold loadRootItem at hc
      simp only [] at hc
      split at hc
      · refine processItems_gray R item.childNodes _ ?_ call hc o ho
        rw [descendantsList_childNodes]
        exact fun d hd => h d (descendants_trans doc item hdesc d hd)
      · simp at hc

/-! ### Where the markup of a node stands in the writer's text -/

/-- A loop that appends markup keeps what it had. -/
theorem foldlM_prefix (step : String → Nat → Option (List Markup × Nat)) (ids : List String) :
    ∀ (acc r : List Markup × Nat),
      ids.foldlM (fun (acc : List Markup × Nat) c =>
        (step c acc.2).map (fun r => (acc.1 ++ r.1, r.2))) acc = some r →
      ∃ post : List Markup, r.1 = acc.1 ++ post := by
  induction ids with
  | nil =>
    intro acc r h
    cases Option.some.inj h
    exact ⟨[], (List.append_nil _).symm⟩
  | cons c cs ih =>
    intro acc r h
    rw [List.foldlM_cons] at h
    cases hs : step c acc.2 with
    | none =>
      rw [hs] at h
      exact Option.noConfusion h
    | some r1 =>
      rw [hs] at h
      simp only [Option.map_some', Option.some_bind, Option.bind_eq_bind] at h
      obtain ⟨post, hpost⟩ := ih (acc.1 ++ r1.1, r1.2) r h
      exact ⟨r1.1 ++ post, by rw [hpost, List.append_assoc]⟩

/-- The markup a loop returns holds, as a run of consecutive pieces, the markup
of the step for each of the keys. -/
theorem foldlM_segment (step : String → Nat → Option (List Markup × Nat)) (ids : List String) :
    ∀ (acc r : List Markup × Nat),
      ids.foldlM (fun (acc : List Markup × Nat) c =>
        (step c acc.2).map (fun r => (acc.1 ++ r.1, r.2))) acc = some r →
      ∀ c ∈ ids, ∃ (k : Nat) (rc : List Markup × Nat) (pre post : List Markup),
        step c k = some rc ∧ r.1 = pre ++ rc.1 ++ post := by
  induction ids with
  | nil =>
    intro acc r _ c hc
    simp at hc
  | cons c0 cs ih =>
    intro acc r h c hc
    rw [List.foldlM_cons] at h
    cases hs : step c0 acc.2 with
    | none =>
      rw [hs] at h
      exact Option.noConfusion h
    | some r1 =>
      rw [hs] at h
      simp only [Option.map_some', Option.some_bind, Option.bind_eq_bind] at h
      rcases List.mem_cons.mp hc with rfl | hc
      · obtain ⟨post, hpost⟩ := foldlM_prefix step cs (acc.1 ++ r1.1, r1.2) r h
        exact ⟨acc.2, r1, acc.1, post, hs, hpost⟩
      · exact ih (acc.1 ++ r1.1, r1.2) r h c hc

/-- The markup `generateItemXml` returns for a node that the index holds,
whose live object is there when its class is Part or SpawnLocation: one Item
with the properties of its class, followed by the markup of the children. -/
theorem generateItemXml_item {F : Type} (N : NumOps F) (W : WriteOps F) (app : StudioApp F)
    (rand : RandomSource) (fuel : Nat) (itemId : String) (k : Nat) (item : TreeItem)
    (r : List Markup × Nat)
    (hitem : app.treeItems itemId = some item)
    (hlive : xmlClassName itemId item = "Part" ∨ xmlClassName itemId item = "SpawnLocation" →
      (app.scene item.data).isSome = true)
    (h : generateItemXml N W app rand fuel itemId k = some r) :
    ∃ (f : Nat) (referent uniqueId : String) (props : List Markup) (kids : List Markup × Nat),
      fuel = f + 1 ∧
      (item.children.getD []).foldlM
        (fun (acc : List Markup × Nat) childId =>
          (generateItemXml N W app rand f childId acc.2).map (fun r => (acc.1 ++ r.1, r.2)))
        ([], (generateUniqueId rand (generateUUID rand k).2).2) = some kids ∧
      r.1 = [Markup.element "Item" [("class", xmlClassName itemId item), ("referent", referent)]
              (Markup.element "Properties" []
                  (props ++ [propertyXml "UniqueId" "UniqueId" uniqueId])
                :: kids.1)] ∧
      (∀ object : SceneObject F,
        xmlClassName itemId item = "Part" ∨ xmlClassName itemId item = "SpawnLocation" →
        app.scene item.data = some object → props = partProperties N W object) ∧
      (¬(xmlClassName itemId item = "Part" ∨ xmlClassName itemId item = "SpawnLocation") →
        xmlClassName itemId item ≠ "Script" → props = [propertyXml "string" "Name" item.data]) := by
  cases fuel with
  | zero => simp [generateItemXml] at h
  | succ f =>
    rw [generateItemXml, hitem] at h
    simp only [] at h
    have hfinish : ∀ props : List Markup,
        ((item.children.getD []).foldlM
          (fun (acc : List Markup × Nat) childId =>
            (generateItemXml N W app rand f childId acc.2).map
              (fun r => (acc.1 ++ r.1, r.2)))
          ([], (generateUniqueId rand (generateUUID rand k).2).2)).map
          (fun childrenXml =>
            ([Markup.element "Item"
                [("class", xmlClassName itemId item), ("referent", (generateUUID rand k).1)]
                (Markup.element "Properties" []
                    (props ++ [propertyXml "UniqueId" "UniqueId"
                      (generateUniqueId rand (generateUUID rand k).2).1])
                  :: childrenXml.1)],
             childrenXml.2)) = some r →
        ∃ kids : List Markup × Nat,
          (item.children.getD []).foldlM
            (fun (acc : List Markup × Nat) childId =>
              (generateItemXml N W app rand f childId acc.2).map (fun r => (acc.1 ++ r.1, r.2)))
            ([], (generateUniqueId rand (generateUUID rand k).2).2) = some kids ∧
          r.1 = [Markup.element "Item"
                  [("class", xmlClassName itemId item), ("referent", (generateUUID rand k).1)]
                  (Markup.element "Properties" []
                      (props ++ [propertyXml "UniqueId" "UniqueId"
                        (generateUniqueId rand (generateUUID rand k).2).1])
                    :: kids.1)] := by
      intro props hr
      simp only [Option.map_eq_some'] at hr
      obtain ⟨kids, hfold, hres⟩ := hr
      exact ⟨kids, hfold, by rw [← hres]⟩
    by_cases hpart : xmlClassName itemId item = "Part" ∨ xmlClassName itemId item = "SpawnLocation"
    · rw [if_pos hpart] at h
      cases hobj : app.scene item.data with
      | none =>
        have := hlive hpart
        rw [hobj] at this
        exact Bool.noConfusion this
      | some object =>
        rw [hobj] at h
        obtain ⟨kids, hfold, hres⟩ := hfinish _ h
        refine ⟨f, _, _, _, kids, rfl, hfold, hres, ?_, fun hn => absurd hpart hn⟩
        intro o _ ho
        cases Option.some.inj ho
        rfl
    · rw [if_neg hpart] at h
      by_cases hscript : xmlClassName itemId item = "Script"
      · rw [if_pos hscript] at h
        obtain ⟨kids, hfold, hres⟩ := hfinish _ h
        exact ⟨f, _, _, _, kids, rfl, hfold, hres, fun _ hp => absurd hp hpart,
          fun _ hn => absurd hscript hn⟩
      · rw [if_neg hscript] at h
        obtain ⟨kids, hfold, hres⟩ := hfinish _ h
        exact ⟨f, _, _, _, kids, rfl, hfold, hres, fun _ hp => absurd hp hpart, fun _ _ => rfl⟩

/-! ### The reader on the writer's markup -/

theorem processItems_append {F Q : Type} (R : ReadOps F Q) (a b : List XmlNode)
    (parentName : Option String) :
    processItems R (a ++ b) parentName
      = processItems R a parentName ++ processItems R b parentName := by
  induction a with
  | nil => simp [processItems]
  | cons c cs ih =>
    rw [List.cons_append, processItems, processItems, ih, List.append_assoc]

/-- The calls for an element with a `Properties` child end with the calls for
its child Items. -/
theorem processItem_eq {F Q : Type} (R : ReadOps F Q) (tag : String)
    (attrs : List (String × String)) (children : List XmlNode) (parentName : Option String)
    (props : XmlNode)
    (hprops : (XmlNode.element tag attrs children).childElement "Properties" = some props) :
    ∃ (calls : List (Call F Q)) (name : Option String),
      processItem R (XmlNode.element tag attrs children) parentName
        = calls ++ processItems R children name := by
  unfold processItem
  simp only [hprops]
  exact ⟨_, _, rfl⟩

/-- The calls for an Item of the writer end with the calls for its child Items. -/
theorem processItem_children {F Q : Type} (R : ReadOps F Q) (attrs : List (String × String))
    (props kids : List Markup) (parentName : Option String) :
    ∃ (calls : List (Call F Q)) (name : Option String),
      processItem R
          (Markup.element "Item" attrs (Markup.element "Properties" [] props :: kids)).toDoc
          parentName
        = calls ++ processItems R (toDocList kids) name := by
  have hprops : (XmlNode.element "Item" attrs
      (toDocList (Markup.element "Properties" [] props :: kids))).childElement "Properties"
      = some (XmlNode.element "Properties" [] (toDocList props)) := by
    simp [XmlNode.childElement, XmlNode.childElements, XmlNode.childNodes, toDocList,
      Markup.toDoc, XmlNode.tag?]
  obtain ⟨calls, name, h⟩ := processItem_eq R "Item" attrs
    (toDocList (Markup.element "Properties" [] props :: kids)) parentName _ hprops
  refine ⟨calls, name, ?_⟩
  rw [Markup.toDoc, h, toDocList, processItems]
  simp only [Markup.toDoc, XmlNode.tag?]
  rw [if_neg (by decide), List.nil_append]

/-- A call made for one of the pieces of a run of markup is made for the run. -/
theorem mem_processItems_segment {F Q : Type} (R : ReadOps F Q) (pre mid post : List Markup)
    (parentName : Option String) (call : Call F Q)
    (h : call ∈ processItems R (toDocList mid) parentName) :
    call ∈ processItems R (toDocList (pre ++ mid ++ post)) parentName := by
  rw [toDocList_append, toDocList_append, processItems_append, processItems_append]
  exact List.mem_append_left _ (List.mem_append_right _ h)

/-- The value the reader takes from a text: the fallback for the empty text. -/
theorem parseComponent_eq {F Q : Type} (R : ReadOps F Q) (node : XmlNode) (tag : String)
    (fallback : F) (child : XmlNode) (h : node.select tag = some child) :
    parseComponent R node tag fallback
      = if child.textContent = "" then fallback else R.parseFloat child.textContent := by
  rw [parseComponent, h]
  rfl

theorem textContent_leaf (tag : String) (attrs : List (String × String)) (s : String) :
    (XmlNode.element tag attrs [.text s]).textContent = s := by
  simp [XmlNode.textContent, textContentList]

/-- The component the reader takes from the text the writer printed for a
number that reads back. -/
theorem parseComponent_readsBack {F Q : Type} (W : WriteOps F) (R : ReadOps F Q) (node : XmlNode)
    (tag : String) (fallback v : F) (attrs : List (String × String))
    (h : node.select tag = some (XmlNode.element tag attrs [.text (W.numToString v)]))
    (hv : ReadsBack W R v) :
    parseComponent R node tag fallback = v := by
  rw [parseComponent_eq R node tag fallback _ h, textContent_leaf, if_neg hv.1, hv.2]

/-- The vector the reader takes from the `Vector3` element the writer builds. -/
theorem parseVector3_written {F Q : Type} (W : WriteOps F) (R : ReadOps F Q)
    (attrs : List (String × String)) (x y z : F)
    (hx : ReadsBack W R x) (hy : ReadsBack W R y) (hz : ReadsBack W R z) :
    parseVector3 R (some (XmlNode.element "Vector3" attrs
        [.element "X" [] [.text (W.numToString x)],
         .element "Y" [] [.text (W.numToString y)],
         .element "Z" [] [.text (W.numToString z)]]))
      = { x := x, y := y, z := z } := by
  rw [parseVector3,
    parseComponent_readsBack W R (XmlNode.element "Vector3" attrs
        [.element "X" [] [.text (W.numToString x)],
         .element "Y" [] [.text (W.numToString y)],
         .element "Z" [] [.text (W.numToString z)]]) "X" R.zero x [] rfl hx,
    parseComponent_readsBack W R (XmlNode.element "Vector3" attrs
        [.element "X" [] [.text (W.numToString x)],
         .element "Y" [] [.text (W.numToString y)],
         .element "Z" [] [.text (W.numToString z)]]) "Y" R.zero y [] rfl hy,
    parseComponent_readsBack W R (XmlNode.element "Vector3" attrs
        [.element "X" [] [.text (W.numToString x)],
         .element "Y" [] [.text (W.numToString y)],
         .element "Z" [] [.text (W.numToString z)]]) "Z" R.zero z [] rfl hz]

/-- The position the reader takes from the `CoordinateFrame` element the writer
builds, when the decomposition of a matrix returns its translation column. -/
theorem parseCFrame_written {F Q : Type} (W : WriteOps F) (R : ReadOps F Q)
    (attrs : List (String × String)) (x y z : F) (rot : List XmlNode)
    (hdec : ∀ r00 r01 r02 x r10 r11 r12 y r20 r21 r22 z : F,
      (R.decompose [r00, r01, r02, x, r10, r11, r12, y, r20, r21, r22, z,
        R.zero, R.zero, R.zero, R.one]).1 = { x := x, y := y, z := z })
    (hx : ReadsBack W R x) (hy : ReadsBack W R y) (hz : ReadsBack W R z) :
    (parseCFrame R (some (XmlNode.element "CoordinateFrame" attrs
        (.element "X" [] [.text (W.numToString x)]
          :: .element "Y" [] [.text (W.numToString y)]
          :: .element "Z" [] [.text (W.numToString z)] :: rot)))).1
      = { x := x, y := y, z := z } := by
  rw [parseCFrame, hdec,
    parseComponent_readsBack W R (XmlNode.element "CoordinateFrame" attrs
        (.element "X" [] [.text (W.numToString x)]
          :: .element "Y" [] [.text (W.numToString y)]
          :: .element "Z" [] [.text (W.numToString z)] :: rot)) "X" R.zero x [] rfl hx,
    parseComponent_readsBack W R (XmlNode.element "CoordinateFrame" attrs
        (.element "X" [] [.text (W.numToString x)]
          :: .element "Y" [] [.text (W.numToString y)]
          :: .element "Z" [] [.text (W.numToString z)] :: rot)) "Y" R.zero y [] rfl hy,
    parseComponent_readsBack W R (XmlNode.element "CoordinateFrame" attrs
        (.element "X" [] [.text (W.numToString x)]
          :: .element "Y" [] [.text (W.numToString y)]
          :: .element "Z" [] [.text (W.numToString z)] :: rot)) "Z" R.zero z [] rfl hz]

/-- The calls `processItem` makes for a Part or SpawnLocation Item that has a
`Properties` child, with the name it passes on. -/
theorem processItem_part_named {F Q : Type} (R : ReadOps F Q) (tag : String)
    (attrs : List (String × String)) (children : List XmlNode) (parentName : Option String)
    (props : XmlNode) (className : String)
    (hprops : (XmlNode.element tag attrs children).childElement "Properties" = some props)
    (hattr : (XmlNode.element tag attrs children).getAttribute "class" = some className)
    (hclass : className = "Part" ∨ className = "SpawnLocation") :
    processItem R (XmlNode.element tag attrs children) parentName
      = Call.createObject
          { type := some className,
            name :=
              (match (props.selectNamed "string" "Name").map XmlNode.textContent with
               | some t => if t = "" then some className else some t
               | none => some className),
            position := (parseCFrame R (props.selectNamed "CoordinateFrame" "CFrame")).1,
            quaternion := (parseCFrame R (props.selectNamed "CoordinateFrame" "CFrame")).2,
            size := parseVector3 R (props.selectNamed "Vector3" "size"),
            color := parseColor3 R (props.selectNamed "Color3" "Color"),
            anchored := parseBool (props.selectNamed "bool" "Anchored") false,
            canCollide := parseBool (props.selectNamed "bool" "CanCollide") true,
            locked := parseBool (props.selectNamed "bool" "Locked") false,
            suppressLog := true }
        :: processItems R children
            (match (props.selectNamed "string" "Name").map XmlNode.textContent with
             | some t => if t = "" then some className else some t
             | none => some className) := by
  have hc : some className = some "Part" ∨ some className = some "SpawnLocation" := by
    rcases hclass with h | h <;> simp [h]
  unfold processItem
  simp only [hprops, hattr, hc, if_true]
  rfl

/-- What the reader makes of the Item the writer builds for a part with a live
object, when the numbers of position and size read back and the decomposition
of a matrix returns its translation column. -/
theorem processItem_round_trip {F Q : Type} (N : NumOps F) (W : WriteOps F) (R : ReadOps F Q)
    (object : SceneObject F) (className referent uniqueId : String) (kids : List Markup)
    (parentName : Option String)
    (hclass : className = "Part" ∨ className = "SpawnLocation")
    (hdec : ∀ r00 r01 r02 x r10 r11 r12 y r20 r21 r22 z : F,
      (R.decompose [r00, r01, r02, x, r10, r11, r12, y, r20, r21, r22, z,
        R.zero, R.zero, R.zero, R.one]).1 = { x := x, y := y, z := z })
    (hnum : ∀ v ∈ [object.position.x, object.position.y, object.position.z,
        N.mul object.size.x object.scale.x, N.mul object.size.y object.scale.y,
        N.mul object.size.z object.scale.z], ReadsBack W R v) :
    ∃ (o : ObjectOptions F Q) (name : Option String),
      processItem R
          (Markup.element "Item" [("class", className), ("referent", referent)]
            (Markup.element "Properties" []
                (partProperties N W object ++ [propertyXml "UniqueId" "UniqueId" uniqueId])
              :: kids)).toDoc
          parentName
        = Call.createObject o :: processItems R (toDocList kids) name ∧
      o.type = some className ∧
      o.name = some (if object.name = "" then className else object.name) ∧
      o.position = object.position ∧
      o.size = { x := N.mul object.size.x object.scale.x,
                 y := N.mul object.size.y object.scale.y,
                 z := N.mul object.size.z object.scale.z } ∧
      o.anchored = object.anchored.getD false ∧
      o.canCollide = object.canCollide.getD true ∧
      o.locked = object.locked.getD false := by
  have hprops : (XmlNode.element "Item" [("class", className), ("referent", referent)]
      (toDocList (Markup.element "Properties" []
          (partProperties N W object ++ [propertyXml "UniqueId" "UniqueId" uniqueId])
        :: kids))).childElement "Properties"
      = some (XmlNode.element "Properties" []
          (toDocList (partProperties N W object
            ++ [propertyXml "UniqueId" "UniqueId" uniqueId]))) := by
    simp [XmlNode.childElement, XmlNode.childElements, XmlNode.childNodes, toDocList,
      Markup.toDoc, XmlNode.tag?]
  have hattr : (XmlNode.element "Item" [("class", className), ("referent", referent)]
      (toDocList (Markup.element "Properties" []
          (partProperties N W object ++ [propertyXml "UniqueId" "UniqueId" uniqueId])
        :: kids))).getAttribute "class" = some className := by
    simp [XmlNode.getAttribute, List.lookup]
  have h := processItem_part_named R "Item" [("class", className), ("referent", referent)]
    (toDocList (Markup.element "Properties" []
        (partProperties N W object ++ [propertyXml "UniqueId" "UniqueId" uniqueId])
      :: kids))
    parentName _ className hprops hattr hclass
  have hkids : ∀ name : Option String,
      processItems R (toDocList (Markup.element "Properties" []
          (partProperties N W object ++ [propertyXml "UniqueId" "UniqueId" uniqueId])
        :: kids)) name = processItems R (toDocList kids) name := by
    intro name
    rw [toDocList, processItems]
    simp only [Markup.toDoc, XmlNode.tag?]
    rw [if_neg (by decide), List.nil_append]
  rw [hkids] at h
  have hname : (XmlNode.element "Properties" []
      (toDocList (partProperties N W object
        ++ [propertyXml "UniqueId" "UniqueId" uniqueId]))).selectNamed "string" "Name"
      = some (XmlNode.element "string" [("name", "Name")] [.text object.name]) := rfl
  have hcframe : (XmlNode.element "Properties" []
      (toDocList (partProperties N W object
        ++ [propertyXml "UniqueId" "UniqueId" uniqueId]))).selectNamed "CoordinateFrame" "CFrame"
      = some (XmlNode.element "CoordinateFrame" [("name", "CFrame")]
          [.element "X" [] [.text (W.numToString object.position.x)],
           .element "Y" [] [.text (W.numToString object.position.y)],
           .element "Z" [] [.text (W.numToString object.position.z)],
           .element "R00" [] [.text (W.numToString (object.matrixWorld.elements 0))],
           .element "R01" [] [.text (W.numToString (object.matrixWorld.elements 4))],
           .element "R02" [] [.text (W.numToString (object.matrixWorld.elements 8))],
           .element "R10" [] [.text (W.numToString (object.matrixWorld.elements 1))],
           .element "R11" [] [.text (W.numToString (object.matrixWorld.elements 5))],
           .element "R12" [] [.text (W.numToString (object.matrixWorld.elements 9))],
           .element "R20" [] [.text (W.numToString (object.matrixWorld.elements 2))],
           .element "R21" [] [.text (W.numToString (object.matrixWorld.elements 6))],
           .element "R22" [] [.text (W.numToString (object.matrixWorld.elements 10))]]) := rfl
  have hsize : (XmlNode.element "Properties" []
      (toDocList (partProperties N W object
        ++ [propertyXml "UniqueId" "UniqueId" uniqueId]))).selectNamed "Vector3" "size"
      = some (XmlNode.element "Vector3" [("name", "size")]
          [.element "X" [] [.text (W.numToString (N.mul object.size.x object.scale.x))],
           .element "Y" [] [.text (W.numToString (N.mul object.size.y object.scale.y))],
           .element "Z" [] [.text (W.numToString (N.mul object.size.z object.scale.z))]]) := rfl
  have hanchored : (XmlNode.element "Properties" []
      (toDocList (partProperties N W object
        ++ [propertyXml "UniqueId" "UniqueId" uniqueId]))).selectNamed "bool" "Anchored"
      = some (XmlNode.element "bool" [("name", "Anchored")]
          [.text (boolText (object.anchored.getD false))]) := rfl
  have hcollide : (XmlNode.element "Properties" []
      (toDocList (partProperties N W object
        ++ [propertyXml "UniqueId" "UniqueId" uniqueId]))).selectNamed "bool" "CanCollide"
      = some (XmlNode.element "bool" [("name", "CanCollide")]
          [.text (boolText (object.canCollide.getD true))]) := rfl
  have hlocked : (XmlNode.element "Properties" []
      (toDocList (partProperties N W object
        ++ [propertyXml "UniqueId" "UniqueId" uniqueId]))).selectNamed "bool" "Locked"
      = some (XmlNode.element "bool" [("name", "Locked")]
          [.text (boolText (object.locked.getD false))]) := rfl
  have hbool : ∀ (name : String) (b fallback : Bool),
      parseBool (some (XmlNode.element "bool" [("name", name)] [.text (boolText b)])) fallback
        = b := by
    intro name b fallback
    rw [parseBool, textContent_leaf]
    cases b <;> decide
  refine ⟨_, _, h, rfl, ?_, ?_, ?_, ?_, ?_, ?_⟩
  · dsimp only
    rw [hname]
    simp only [Option.map_some', textContent_leaf]
    split <;> rfl
  · dsimp only
    rw [hcframe]
    exact parseCFrame_written W R _ _ _ _ _ hdec (hnum _ (by simp)) (hnum _ (by simp))
      (hnum _ (by simp))
  · dsimp only
    rw [hsize]
    exact parseVector3_written W R _ _ _ _ (hnum _ (by simp)) (hnum _ (by simp))
      (hnum _ (by simp))
  · dsimp only
    rw [hanchored, hbool]
  · dsimp only
    rw [hcollide, hbool]
  · dsimp only
    rw [hlocked, hbool]

theorem processItems_single {F Q : Type} (R : ReadOps F Q) (attrs : List (String × String))
    (children : List Markup) (parentName : Option String) :
    processItems R (toDocList [Markup.element "Item" attrs children]) parentName
      = processItem R (Markup.element "Item" attrs children).toDoc parentName := by
  rw [toDocList, toDocList, processItems, processItems]
  simp [Markup.toDoc, XmlNode.tag?]

/-- What the reader makes of the Item the writer builds for a part with a live
object, whatever the numbers: a create-object call with the class of the Item
and the default colour, then the calls for the child Items. -/
theorem processItem_exported_part {F G Q : Type} (N : NumOps F) (W : WriteOps F)
    (R : ReadOps G Q) (object : SceneObject F) (className referent uniqueId : String)
    (kids : List Markup) (parentName : Option String)
    (hclass : className = "Part" ∨ className = "SpawnLocation") :
    ∃ (o : ObjectOptions G Q) (name : Option String),
      processItem R
          (Markup.element "Item" [("class", className), ("referent", referent)]
            (Markup.element "Properties" []
                (partProperties N W object ++ [propertyXml "UniqueId" "UniqueId" uniqueId])
              :: kids)).toDoc
          parentName
        = Call.createObject o :: processItems R (toDocList kids) name ∧
      o.type = some className ∧
      o.color = { r := R.half, g := R.half, b := R.half } := by
  have hprops : (XmlNode.element "Item" [("class", className), ("referent", referent)]
      (toDocList (Markup.element "Properties" []
          (partProperties N W object ++ [propertyXml "UniqueId" "UniqueId" uniqueId])
        :: kids))).childElement "Properties"
      = some (XmlNode.element "Properties" []
          (toDocList (partProperties N W object
            ++ [propertyXml "UniqueId" "UniqueId" uniqueId]))) := by
    simp [XmlNode.childElement, XmlNode.childElements, XmlNode.childNodes, toDocList,
      Markup.toDoc, XmlNode.tag?]
  have hattr : (XmlNode.element "Item" [("class", className), ("referent", referent)]
      (toDocList (Markup.element "Properties" []
          (partProperties N W object ++ [propertyXml "UniqueId" "UniqueId" uniqueId])
        :: kids))).getAttribute "class" = some className := by
    simp [XmlNode.getAttribute, List.lookup]
  have h := processItem_part_named R "Item" [("class", className), ("referent", referent)]
    (toDocList (Markup.element "Properties" []
        (partProperties N W object ++ [propertyXml "UniqueId" "UniqueId" uniqueId])
      :: kids))
    parentName _ className hprops hattr hclass
  have hkids : ∀ name : Option String,
      processItems R (toDocList (Markup.element "Properties" []
          (partProperties N W object ++ [propertyXml "UniqueId" "UniqueId" uniqueId])
        :: kids)) name = processItems R (toDocList kids) name := by
    intro name
    rw [toDocList, processItems]
    simp only [Markup.toDoc, XmlNode.tag?]
    rw [if_neg (by decide), List.nil_append]
  rw [hkids] at h
  have hnone := selectNamed_color_none
    (XmlNode.element "Properties" []
      (toDocList (partProperties N W object ++ [propertyXml "UniqueId" "UniqueId" uniqueId])))
    (by
      rw [XmlNode.descendants]
      exact noColor_partProperties N W object uniqueId)
  refine ⟨_, _, h, rfl, ?_⟩
  dsimp only
  rw [hnone]
  rfl

/-- The reader makes a create-object call with the property `P` for the markup
of every node from which a part is reached through written nodes, when the
call it makes for the Item of the part has the property. -/
theorem written_imports {F G Q : Type} (N : NumOps F) (W : WriteOps F) (R : ReadOps G Q)
    (app : StudioApp F) (rand : RandomSource) (P : ObjectOptions G Q → Prop)
    (key t : String) (hw : Written app key t) (item : TreeItem) (object : SceneObject F)
    (hitem : app.treeItems t = some item)
    (hobj : app.scene item.data = some object)
    (hpart : ∀ (referent uniqueId : String) (kids : List Markup) (parentName : Option String),
      ∃ (o : ObjectOptions G Q) (name : Option String),
        processItem R
            (Markup.element "Item" [("class", xmlClassName t item), ("referent", referent)]
              (Markup.element "Properties" []
                  (partProperties N W object ++ [propertyXml "UniqueId" "UniqueId" uniqueId])
                :: kids)).toDoc
            parentName
          = Call.createObject o :: processItems R (toDocList kids) name ∧ P o)
    (hclass : xmlClassName t item = "Part" ∨ xmlClassName t item = "SpawnLocation") :
    ∀ (fuel k : Nat) (r : List Markup × Nat),
      generateItemXml N W app rand fuel key k = some r →
      ∀ parentName : Option String, ∃ o : ObjectOptions G Q,
        Call.createObject o ∈ processItems R (toDocList r.1) parentName ∧ P o := by
  induction hw with
  | here key =>
    intro fuel k r h parentName
    obtain ⟨f, referent, uniqueId, props, kids, _, _, hr, hprops, _⟩ :=
      generateItemXml_item N W app rand fuel key k item r hitem
        (fun _ => by rw [hobj]; rfl) h
    rw [hr, hprops object hclass hobj, processItems_single]
    obtain ⟨o, name, hcall, ho⟩ := hpart referent uniqueId kids.1 parentName
    exact ⟨o, by rw [hcall]; exact List.mem_cons_self _ _, ho⟩
  | step key node child t hnode hlive hchild _ ih =>
    intro fuel k r h parentName
    obtain ⟨f, referent, uniqueId, props, kids, _, hfold, hr, _, _⟩ :=
      generateItemXml_item N W app rand fuel key k node r hnode hlive h
    obtain ⟨kc, rc, pre, post, hrc, hseg⟩ :=
      foldlM_segment (generateItemXml N W app rand f) _ _ _ hfold child hchild
    obtain ⟨calls, name, hcalls⟩ := processItem_children R
      [("class", xmlClassName key node), ("referent", referent)]
      (props ++ [propertyXml "UniqueId" "UniqueId" uniqueId]) kids.1 parentName
    obtain ⟨o, ho, hrep⟩ := ih hitem hpart hclass f kc rc hrc name
    refine ⟨o, ?_, hrep⟩
    rw [hr, processItems_single, hcalls, hseg]
    exact List.mem_append_right _ (mem_processItems_segment R pre rc.1 post name _ ho)

/-- The call the reader makes for the Item of a part reproduces the part, when
the numbers of position and size read back and the decomposition of a matrix
returns its translation column. -/
theorem processItem_reproduces {F Q : Type} (N : NumOps F) (W : WriteOps F) (R : ReadOps F Q)
    (object : SceneObject F) (className : String)
    (hclass : className = "Part" ∨ className = "SpawnLocation")
    (hdec : ∀ r00 r01 r02 x r10 r11 r12 y r20 r21 r22 z : F,
      (R.decompose [r00, r01, r02, x, r10, r11, r12, y, r20, r21, r22, z,
        R.zero, R.zero, R.zero, R.one]).1 = { x := x, y := y, z := z })
    (hnum : ∀ v ∈ [object.position.x, object.position.y, object.position.z,
        N.mul object.size.x object.scale.x, N.mul object.size.y object.scale.y,
        N.mul object.size.z object.scale.z], ReadsBack W R v)
    (referent uniqueId : String) (kids : List Markup) (parentName : Option String) :
    ∃ (o : ObjectOptions F Q) (name : Option String),
      processItem R
          (Markup.element "Item" [("class", className), ("referent", referent)]
            (Markup.element "Properties" []
                (partProperties N W object ++ [propertyXml "UniqueId" "UniqueId" uniqueId])
              :: kids)).toDoc
          parentName
        = Call.createObject o :: processItems R (toDocList kids) name ∧
      Reproduces N className object o := by
  obtain ⟨o, name, hcall, ho⟩ := processItem_round_trip N W R object className referent uniqueId
    kids parentName hclass hdec hnum
  exact ⟨o, name, hcall, ho⟩

/-! ### Tags that the writer's text does not hold -/

theorem noElement_append (tag : String) (a b : List XmlNode) :
    NoElement tag (a ++ b) ↔ NoElement tag a ∧ NoElement tag b := by
  unfold NoElement
  simp only [List.mem_append]
  constructor
  · intro h
    exact ⟨fun d hd => h d (Or.inl hd), fun d hd => h d (Or.inr hd)⟩
  · rintro ⟨h1, h2⟩ d (hd | hd)
    · exact h1 d hd
    · exact h2 d hd

/-- The markup of a list of Items has no `parsererror` and no `roblox` element
when the properties and the child Items have none. -/
theorem noElement_item (tag : String) (htag : tag = "parsererror" ∨ tag = "roblox")
    (className referent : String) (props children : List Markup)
    (hp : NoElement tag (descendantsList (toDocList props)))
    (hc : NoElement tag (descendantsList (toDocList children))) :
    NoElement tag (descendantsList (toDocList
      [Markup.element "Item" [("class", className), ("referent", referent)]
        (Markup.element "Properties" [] props :: children)])) := by
  simp only [toDocList, Markup.toDoc, descendantsList, XmlNode.descendants, List.append_nil]
  intro d hd
  simp only [List.mem_cons, List.mem_append] at hd
  rcases hd with rfl | rfl | hd | hd
  · rcases htag with rfl | rfl <;> simp [XmlNode.tag?]
  · rcases htag with rfl | rfl <;> simp [XmlNode.tag?]
  · exact hp d hd
  · exact hc d hd

theorem noElement_partProperties {F : Type} (tag : String)
    (htag : tag = "parsererror" ∨ tag = "roblox") (N : NumOps F) (W : WriteOps F)
    (object : SceneObject F) (uniqueId : String) :
    NoElement tag (descendantsList (toDocList
      (partProperties N W object ++ [propertyXml "UniqueId" "UniqueId" uniqueId]))) := by
  unfold NoElement
  rcases htag with rfl | rfl <;>
  simp [partProperties, propertyXml, toDocList, Markup.toDoc, descendantsList,
    XmlNode.descendants, XmlNode.tag?]

theorem noElement_nil (tag : String) : NoElement tag (descendantsList (toDocList [])) := by
  intro d hd
  simp [toDocList, descendantsList] at hd

theorem noElement_concat (tag : String) (a b : List Markup)
    (ha : NoElement tag (descendantsList (toDocList a)))
    (hb : NoElement tag (descendantsList (toDocList b))) :
    NoElement tag (descendantsList (toDocList (a ++ b))) := by
  rw [toDocList_append, descendantsList_append, noElement_append]
  exact ⟨ha, hb⟩

/-- A loop that appends markup without an element of the tag yields markup
without such an element. -/
theorem noElement_foldlM (tag : String) (step : String → Nat → Option (List Markup × Nat))
    (hstep : ∀ (itemId : String) (k : Nat) (r : List Markup × Nat), step itemId k = some r →
      NoElement tag (descendantsList (toDocList r.1)))
    (ids : List String) :
    ∀ (acc r : List Markup × Nat), NoElement tag (descendantsList (toDocList acc.1)) →
      ids.foldlM (fun (acc : List Markup × Nat) itemId =>
        (step itemId acc.2).map (fun r => (acc.1 ++ r.1, r.2))) acc = some r →
      NoElement tag (descendantsList (toDocList r.1)) := by
  induction ids with
  | nil =>
    intro acc r hacc h
    have := Option.some.inj h
    subst this
    exact hacc
  | cons itemId ids ih =>
    intro acc r hacc h
    rw [List.foldlM_cons] at h
    cases hs : step itemId acc.2 with
    | none =>
      rw [hs] at h
      exact Option.noConfusion h
    | some r1 =>
      rw [hs] at h
      simp only [Option.map_some', Option.some_bind, Option.bind_eq_bind] at h
      exact ih (acc.1 ++ r1.1, r1.2) r
        (noElement_concat tag acc.1 r1.1 hacc (hstep itemId acc.2 r1 hs)) h

/-- The markup `generateItemXml` returns has no `parsererror` and no `roblox`
element. -/
theorem noElement_generateItemXml {F : Type} (tag : String)
    (htag : tag = "parsererror" ∨ tag = "roblox") (N : NumOps F) (W : WriteOps F)
    (app : StudioApp F) (rand : RandomSource) (fuel : Nat) :
    ∀ (itemId : String) (k : Nat) (r : List Markup × Nat),
      generateItemXml N W app rand fuel itemId k = some r →
      NoElement tag (descendantsList (toDocList r.1)) := by
  induction fuel with
  | zero =>
    intro itemId k r h
    simp [generateItemXml] at h
  | succ fuel ih =>
    intro itemId k r h
    unfold generateItemXml at h
    cases hitem : app.treeItems itemId with
    | none =>
      rw [hitem] at h
      simp only [] at h
      split at h <;>
      · have := Option.some.inj h
        subst this
        exact noElement_nil tag
    | some item =>
      rw [hitem] at h
      simp only [] at h
      have hfinish : ∀ props : List Markup,
          NoElement tag (descendantsList (toDocList
            (props ++ [propertyXml "UniqueId" "UniqueId"
              (generateUniqueId rand (generateUUID rand k).2).1]))) →
          ((item.children.getD []).foldlM
            (fun (acc : List Markup × Nat) childId =>
              (generateItemXml N W app rand fuel childId acc.2).map
                (fun r => (acc.1 ++ r.1, r.2)))
            ([], (generateUniqueId rand (generateUUID rand k).2).2)).map
            (fun childrenXml =>
              ([Markup.element "Item"
                  [("class", xmlClassName itemId item), ("referent", (generateUUID rand k).1)]
                  (Markup.element "Properties" []
                      (props ++ [propertyXml "UniqueId" "UniqueId"
                        (generateUniqueId rand (generateUUID rand k).2).1])
                    :: childrenXml.1)],
               childrenXml.2)) = some r →
          NoElement tag (descendantsList (toDocList r.1)) := by
        intro props hprops hr
        simp only [Option.map_eq_some'] at hr
        obtain ⟨childrenXml, hfold, hres⟩ := hr
        rw [← hres]
        exact noElement_item tag htag _ _ _ _ hprops
          (noElement_foldlM tag (generateItemXml N W app rand fuel) ih _ _ childrenXml
            (noElement_nil tag) hfold)
      split at h
      · cases hobj : app.scene item.data with
        | none =>
          rw [hobj] at h
          have := Option.some.inj h
          subst this
          exact noElement_nil tag
        | some object =>
          rw [hobj] at h
          exact hfinish _ (noElement_partProperties tag htag N W object _) h
      · split at h
        · refine hfinish _ ?_ h
          unfold NoElement
          rcases htag with rfl | rfl <;>
          simp [scriptProperties, propertyXml, toDocList, Markup.toDoc, descendantsList,
            XmlNode.descendants, XmlNode.tag?]
        · refine hfinish _ ?_ h
          unfold NoElement
          rcases htag with rfl | rfl <;>
          simp [propertyXml, toDocList, Markup.toDoc, descendantsList,
            XmlNode.descendants, XmlNode.tag?]

theorem noElement_property (tag : String) (ptag name content : String) (h : ptag ≠ tag) :
    NoElement tag (descendantsList (toDocList [propertyXml ptag name content])) := by
  intro d hd
  simp only [propertyXml, toDocList, Markup.toDoc, descendantsList, XmlNode.descendants,
    List.append_nil, List.mem_cons, List.not_mem_nil, or_false] at hd
  rcases hd with rfl | rfl
  · simp [XmlNode.tag?, h]
  · simp [XmlNode.tag?]

theorem noElement_staticService (tag : String) (htag : tag = "parsererror" ∨ tag = "roblox")
    (rand : RandomSource) (name : String) (k : Nat) :
    NoElement tag (descendantsList (toDocList [(staticServiceXml rand name k).1])) := by
  have hp : ∀ ptag : String, ptag = "string" ∨ ptag = "UniqueId" ∨ ptag = "bool" →
      ptag ≠ tag := by
    intro ptag hptag
    rcases htag with rfl | rfl <;> rcases hptag with rfl | rfl | rfl <;> decide
  unfold staticServiceXml
  simp only []
  apply noElement_item tag htag _ _ _ [] _ (noElement_nil tag)
  have base : NoElement tag (descendantsList (toDocList
      [propertyXml "string" "Name" name,
       propertyXml "UniqueId" "UniqueId" (generateUniqueId rand k).1])) :=
    noElement_concat tag [_] [_] (noElement_property tag _ _ _ (hp _ (Or.inl rfl)))
      (noElement_property tag _ _ _ (hp _ (Or.inr (Or.inl rfl))))
  have h1 : NoElement tag (descendantsList (toDocList
      (if name = "HttpService" then
        [propertyXml "string" "Name" name,
         propertyXml "UniqueId" "UniqueId" (generateUniqueId rand k).1]
          ++ [propertyXml "bool" "HttpEnabled" "false"]
      else [propertyXml "string" "Name" name,
            propertyXml "UniqueId" "UniqueId" (generateUniqueId rand k).1]))) := by
    split
    · exact noElement_concat tag _ _ base
        (noElement_property tag _ _ _ (hp _ (Or.inr (Or.inr rfl))))
    · exact base
  split
  · exact noElement_concat tag _ _ h1
      (noElement_property tag _ _ _ (hp _ (Or.inr (Or.inr rfl))))
  · exact h1

theorem noElement_foldl (tag : String) (step : String → Nat → Markup × Nat)
    (hstep : ∀ (name : String) (k : Nat),
      NoElement tag (descendantsList (toDocList [(step name k).1])))
    (names : List String) :
    ∀ acc : List Markup × Nat, NoElement tag (descendantsList (toDocList acc.1)) →
      NoElement tag (descendantsList (toDocList
        (names.foldl
          (fun (acc : List Markup × Nat) name =>
            let item := step name acc.2
            (acc.1 ++ [item.1], item.2))
          acc).1)) := by
  induction names with
  | nil =>
    intro acc hacc
    exact hacc
  | cons name names ih =>
    intro acc hacc
    rw [List.foldl_cons]
    exact ih _ (noElement_concat tag _ _ hacc (hstep name acc.2))

theorem noElement_static (tag : String) (htag : tag = "parsererror" ∨ tag = "roblox")
    (rand : RandomSource) (k : Nat) :
    NoElement tag (descendantsList (toDocList (getStaticServicesXml rand k).1)) :=
  noElement_foldl tag (staticServiceXml rand) (noElement_staticService tag htag rand) _ ([], k)
    (noElement_nil tag)

/-- What the writer puts into the `roblox` element has no `parsererror` and no
`roblox` element. -/
theorem noElement_content {F : Type} (tag : String)
    (htag : tag = "parsererror" ∨ tag = "roblox") (N : NumOps F) (W : WriteOps F)
    (app : StudioApp F) (rand : RandomSource) (fuel : Nat) (children : List String)
    (itemsXml : List Markup × Nat)
    (hfold : children.foldlM
      (fun (acc : List Markup × Nat) serviceId =>
        (generateItemXml N W app rand fuel serviceId acc.2).map (fun r => (acc.1 ++ r.1, r.2)))
      ([], 0) = some itemsXml) :
    NoElement tag (descendantsList (toDocList
      ([Markup.element "External" [] [.text "null"],
        Markup.element "External" [] [.text "nil"]]
        ++ itemsXml.1 ++ (getStaticServicesXml rand itemsXml.2).1))) := by
  have hitems := noElement_foldlM tag (generateItemXml N W app rand fuel)
    (noElement_generateItemXml tag htag N W app rand fuel) children _ itemsXml
    (noElement_nil tag) hfold
  refine noElement_concat tag _ _ (noElement_concat tag _ _ ?_ hitems)
    (noElement_static tag htag rand _)
  unfold NoElement
  rcases htag with rfl | rfl <;>
  simp [toDocList, Markup.toDoc, descendantsList, XmlNode.descendants, XmlNode.tag?]

/-- The document the writer builds has no `parsererror` element. -/
theorem noError_generateRbxlxContent {F : Type} (N : NumOps F) (W : WriteOps F)
    (app : StudioApp F) (rand : RandomSource) (fuel : Nat) (doc : Markup)
    (h : generateRbxlxContent N W app rand fuel = some [doc]) :
    NoElement "parsererror" (doc.toDoc :: doc.toDoc.descendants) := by
  unfold generateRbxlxContent at h
  cases hroot : app.treeItems "root" with
  | none =>
    rw [hroot] at h
    simp at h
  | some rootItem =>
    rw [hroot] at h
    simp only [] at h
    cases hch : rootItem.children with
    | none =>
      rw [hch] at h
      simp at h
    | some children =>
      rw [hch] at h
      simp only [Option.map_eq_some'] at h
      obtain ⟨itemsXml, hfold, hres⟩ := h
      have hdoc := List.cons.inj (Option.some.inj (congrArg some hres))
      rw [← hdoc.1]
      have hall := noElement_content "parsererror" (Or.inl rfl) N W app rand fuel children
        itemsXml hfold
      intro d hd
      simp only [Markup.toDoc, XmlNode.descendants, List.mem_cons] at hd
      rcases hd with rfl | hd
      · simp [XmlNode.tag?]
      · exact hall d hd

/-! ### The round trip through XML -/

theorem parserError_none (doc : XmlNode) (h : NoElement "parsererror" (doc :: doc.descendants)) :
    parserError doc = none := by
  unfold parserError
  rw [List.find?_eq_none]
  intro d hd
  simpa using h d hd

theorem mem_withParentsList (parent : String) (cs : List XmlNode) (c : XmlNode) (hc : c ∈ cs) :
    (parent, c) ∈ withParentsList parent cs := by
  induction cs with
  | nil => simp at hc
  | cons x xs ih =>
    rw [withParentsList]
    rcases List.mem_cons.mp hc with rfl | h
    · exact List.mem_cons_self _ _
    · exact List.mem_cons_of_mem _ (List.mem_append_right _ (ih h))

/-- An Item that is a child of the `roblox` element is one of the top-level Items. -/
theorem mem_rootItems (attrs : List (String × String)) (children : List XmlNode) (c : XmlNode)
    (hc : c ∈ children) (htag : c.tag? = some "Item") :
    c ∈ rootItems (XmlNode.element "roblox" attrs children) := by
  unfold rootItems
  rw [List.mem_map]
  refine ⟨("roblox", c), ?_, rfl⟩
  rw [List.mem_filter]
  refine ⟨?_, by simp [htag]⟩
  rw [XmlNode.withParents]
  exact mem_withParentsList "roblox" children c hc

/-- The calls made for a top-level Item are among the calls of `loadRbxlxContent`
when the document holds no parser error. -/
theorem mem_loadRbxlxContent {F Q : Type} (R : ReadOps F Q) (app : StudioApp F)
    (attrs : List (String × String)) (children : List XmlNode) (c : XmlNode)
    (hno : NoElement "parsererror" (XmlNode.element "roblox" attrs children
      :: (XmlNode.element "roblox" attrs children).descendants))
    (hc : c ∈ children) (htag : c.tag? = some "Item") (call : Call F Q)
    (hcall : call ∈ (loadRootItem R app c).1) :
    call ∈ (loadRbxlxContent R app (XmlNode.element "roblox" attrs children)).calls := by
  have hmem := mem_rootItems attrs children c hc htag
  unfold loadRbxlxContent
  rw [parserError_none _ hno]
  have hlen : (rootItems (XmlNode.element "roblox" attrs children)).length ≠ 0 := by
    intro h0
    rw [List.length_eq_zero] at h0
    rw [h0] at hmem
    simp at hmem
  simp only [if_neg hlen]
  rw [List.mem_flatMap]
  exact ⟨loadRootItem R app c, List.mem_map.mpr ⟨c, hmem, rfl⟩, hcall⟩

theorem mem_toDocList (ms : List Markup) (m : Markup) (h : m ∈ ms) : m.toDoc ∈ toDocList ms := by
  induction ms with
  | nil => simp at h
  | cons x xs ih =>
    rw [toDocList]
    rcases List.mem_cons.mp h with rfl | h
    · exact List.mem_cons_self _ _
    · exact List.mem_cons_of_mem _ (ih h)

/-- The class the XML writer gives to a node whose key is a service name is
that name, which is none of Part, SpawnLocation and Script. -/
theorem xmlClassName_service (service : String) (item : TreeItem)
    (h : service ∈ xmlServiceNames) :
    xmlClassName service item = service ∧
    ¬(service = "Part" ∨ service = "SpawnLocation") ∧ service ≠ "Script" := by
  refine ⟨?_, ?_, ?_⟩
  · unfold xmlClassName
    simp only [List.elem_iff.mpr h, if_true]
  · simp only [xmlServiceNames, List.mem_cons, List.mem_singleton, List.not_mem_nil,
      or_false] at h
    rcases h with h | h | h | h | h | h | h | h | h | h | h | h <;> rw [h] <;> decide
  · simp only [xmlServiceNames, List.mem_cons, List.mem_singleton, List.not_mem_nil,
      or_false] at h
    rcases h with h | h | h | h | h | h | h | h | h | h | h | h <;> rw [h] <;> decide

/-- The calls the reader makes for the top-level Item the writer builds for a
container: the calls for its child Items, when the index of the reader holds
the name of the container. -/
theorem loadRootItem_container {F Q : Type} (R : ReadOps F Q) (app : StudioApp F)
    (className referent uniqueId name : String) (kids : List Markup)
    (hindex : indexHas app (some name) = true) :
    (loadRootItem R app
      (Markup.element "Item" [("class", className), ("referent", referent)]
        (Markup.element "Properties" []
            ([propertyXml "string" "Name" name] ++ [propertyXml "UniqueId" "UniqueId" uniqueId])
          :: kids)).toDoc).1
      = processItems R (toDocList kids) (some name) := by
  have hname : serviceNameOf
      (Markup.element "Item" [("class", className), ("referent", referent)]
        (Markup.element "Properties" []
            ([propertyXml "string" "Name" name] ++ [propertyXml "UniqueId" "UniqueId" uniqueId])
          :: kids)).toDoc = some name := by
    have hp : (Markup.element "Item" [("class", className), ("referent", referent)]
        (Markup.element "Properties" []
            ([propertyXml "string" "Name" name] ++ [propertyXml "UniqueId" "UniqueId" uniqueId])
          :: kids)).toDoc.childElement "Properties"
        = some (XmlNode.element "Properties" []
            (toDocList ([propertyXml "string" "Name" name]
              ++ [propertyXml "UniqueId" "UniqueId" uniqueId]))) := by
      simp [XmlNode.childElement, XmlNode.childElements, XmlNode.childNodes, toDocList,
        Markup.toDoc, XmlNode.tag?]
    rw [serviceNameOf, hp]
    have hs : (XmlNode.element "Properties" []
        (toDocList ([propertyXml "string" "Name" name]
          ++ [propertyXml "UniqueId" "UniqueId" uniqueId]))).selectNamed "string" "Name"
        = some (XmlNode.element "string" [("name", "Name")] [.text name]) := rfl
    rw [Option.some_bind, hs, Option.map_some', textContent_leaf]
  rw [loadRootItem]
  simp only [hname, hindex, if_true]
  rw [Markup.toDoc, XmlNode.childNodes, toDocList, processItems]
  simp only [Markup.toDoc, XmlNode.tag?]
  rw [if_neg (by decide), List.nil_append]

/-! ### The document of the writer under the reader -/

/-- The document of the writer, read by `loadRbxlxContent`, gives a
create-object call with the property `P` for each part that is reached from a
child of a service through written nodes, when the index of the reader holds
the service and the call made for the Item of the part has the property. -/
theorem generateRbxlxContent_imports {F G Q : Type} (N : NumOps F) (W : WriteOps F)
    (R : ReadOps G Q) (app : StudioApp F) (app2 : StudioApp G) (rand : RandomSource)
    (P : ObjectOptions G Q → Prop) (fuel : Nat) (doc : Markup)
    (h : generateRbxlxContent N W app rand fuel = some [doc])
    (rootItem : TreeItem) (hroot : app.treeItems "root" = some rootItem)
    (service : String) (hservice : service ∈ rootItem.children.getD [])
    (hknown : service ∈ xmlServiceNames)
    (sItem : TreeItem) (hsItem : app.treeItems service = some sItem)
    (hindex : indexHas app2 (some sItem.data) = true)
    (child : String) (hchild : child ∈ sItem.children.getD [])
    (t : String) (hw : Written app child t) (item : TreeItem) (object : SceneObject F)
    (hitem : app.treeItems t = some item)
    (hclass : xmlClassName t item = "Part" ∨ xmlClassName t item = "SpawnLocation")
    (hobj : app.scene item.data = some object)
    (hpart : ∀ (referent uniqueId : String) (kids : List Markup) (parentName : Option String),
      ∃ (o : ObjectOptions G Q) (name : Option String),
        processItem R
            (Markup.element "Item" [("class", xmlClassName t item), ("referent", referent)]
              (Markup.element "Properties" []
                  (partProperties N W object ++ [propertyXml "UniqueId" "UniqueId" uniqueId])
                :: kids)).toDoc
            parentName
          = Call.createObject o :: processItems R (toDocList kids) name ∧ P o) :
    ∃ o : ObjectOptions G Q,
      Call.createObject o ∈ (loadRbxlxContent R app2 doc.toDoc).calls ∧ P o := by
  have hno := noError_generateRbxlxContent N W app rand fuel doc h
  unfold generateRbxlxContent at h
  rw [hroot] at h
  simp only [] at h
  cases hch : rootItem.children with
  | none =>
    rw [hch] at hservice
    simp at hservice
  | some children =>
    rw [hch] at h hservice
    simp only [Option.map_eq_some'] at h
    obtain ⟨itemsXml, hfold, hres⟩ := h
    have hdoc := (List.cons.inj (Option.some.inj (congrArg some hres))).1
    obtain ⟨ks, rs, pre, post, hrs, hseg⟩ :=
      foldlM_segment (generateItemXml N W app rand fuel) _ _ _ hfold service hservice
    obtain ⟨hcls, hnpart, hnscript⟩ := xmlClassName_service service sItem hknown
    obtain ⟨f, referent, uniqueId, props, kids, _, hkfold, hr, _, hprops⟩ :=
      generateItemXml_item N W app rand fuel service ks sItem rs hsItem
        (fun hp => absurd (by rw [hcls] at hp; exact hp) hnpart) hrs
    have hprops := hprops (by rw [hcls]; exact hnpart) (by rw [hcls]; exact hnscript)
    obtain ⟨kc, rc, pre2, post2, hrc, hseg2⟩ :=
      foldlM_segment (generateItemXml N W app rand f) _ _ _ hkfold child hchild
    obtain ⟨o, ho, hrep⟩ := written_imports N W R app rand P child t hw item object hitem
      hobj hpart hclass f kc rc hrc (some sItem.data)
    refine ⟨o, ?_, hrep⟩
    rw [← hdoc] at hno ⊢
    rw [Markup.toDoc] at hno ⊢
    refine mem_loadRbxlxContent R app2 _ _
      (Markup.element "Item" [("class", xmlClassName service sItem), ("referent", referent)]
        (Markup.element "Properties" []
            ([propertyXml "string" "Name" sItem.data]
              ++ [propertyXml "UniqueId" "UniqueId" uniqueId])
          :: kids.1)).toDoc
      hno ?_ rfl _ ?_
    · apply mem_toDocList
      rw [hseg, hr, hprops]
      simp
    · rw [loadRootItem_container R app2 _ _ _ _ _ hindex, hseg2]
      exact mem_processItems_segment R pre2 rc.1 post2 _ _ ho

/-- The reader makes no call for the Item of a static service: the Item holds
no Item. -/
theorem loadRootItem_static {F Q : Type} (R : ReadOps F Q) (app : StudioApp F)
    (rand : RandomSource) (name : String) (k : Nat) :
    (loadRootItem R app (staticServiceXml rand name k).1.toDoc).1 = [] := by
  rw [loadRootItem]
  split
  · simp only [staticServiceXml, Markup.toDoc, XmlNode.childNodes, toDocList, processItems,
      XmlNode.tag?]
    rw [if_neg (by decide), List.nil_append]
  · rfl

mutual
theorem withParents_filter_nil :
    ∀ node : XmlNode, node.tag? ≠ some "roblox" → NoElement "roblox" node.descendants →
      node.withParents.filter (fun p => p.1 = "roblox" ∧ p.2.tag? = some "Item") = []
  | .text _, _, _ => rfl
  | .element tag _ children, htag, h => by
    rw [XmlNode.withParents]
    rw [XmlNode.descendants] at h
    exact withParentsList_filter_nil tag children
      (fun ht => htag (by rw [XmlNode.tag?, ht])) h
theorem withParentsList_filter_nil :
    ∀ (parent : String) (nodes : List XmlNode), parent ≠ "roblox" →
      NoElement "roblox" (descendantsList nodes) →
      (withParentsList parent nodes).filter (fun p => p.1 = "roblox" ∧ p.2.tag? = some "Item")
        = []
  | _, [], _, _ => rfl
  | parent, c :: cs, hp, h => by
    rw [descendantsList] at h
    rw [withParentsList, List.filter_cons, if_neg (by simp [hp]), List.filter_append,
      withParents_filter_nil c (h c (List.mem_cons_self _ _))
        (fun d hd => h d (List.mem_cons_of_mem _ (List.mem_append_left _ hd))),
      withParentsList_filter_nil parent cs hp
        (fun d hd => h d (List.mem_cons_of_mem _ (List.mem_append_right _ hd))),
      List.append_nil]
end

/-- The top-level Items of a document whose `roblox` element holds no `roblox`
element: the child elements of the `roblox` element with the tag `Item`. -/
theorem rootItems_children (attrs : List (String × String)) (children : List XmlNode)
    (h : NoElement "roblox" (descendantsList children)) :
    rootItems (XmlNode.element "roblox" attrs children)
      = children.filter (fun c => c.tag? = some "Item") := by
  unfold rootItems
  rw [XmlNode.withParents]
  induction children with
  | nil => rfl
  | cons c cs ih =>
    rw [descendantsList] at h
    have hc := withParents_filter_nil c (h c (List.mem_cons_self _ _))
      (fun d hd => h d (List.mem_cons_of_mem _ (List.mem_append_left _ hd)))
    have hcs := ih (fun d hd => h d (List.mem_cons_of_mem _ (List.mem_append_right _ hd)))
    rw [withParentsList, List.filter_cons, List.filter_append, hc, List.nil_append,
      List.filter_cons]
    by_cases ht : c.tag? = some "Item"
    · simp only [ht, and_self, decide_True, if_true, List.map_cons, hcs]
    · simp only [ht, and_false, decide_False, Bool.false_eq_true, if_false, hcs]

/-- The calls of `loadRbxlxContent` on a document without `parsererror`
element whose `roblox` element holds no `roblox` element: the calls made for
the child Items of the `roblox` element, in order. -/
theorem loadRbxlxContent_calls {F Q : Type} (R : ReadOps F Q) (app : StudioApp F)
    (attrs : List (String × String)) (children : List XmlNode)
    (hno : NoElement "parsererror" (XmlNode.element "roblox" attrs children
      :: (XmlNode.element "roblox" attrs children).descendants))
    (hrob : NoElement "roblox" (descendantsList children)) :
    (loadRbxlxContent R app (XmlNode.element "roblox" attrs children)).calls
      = (children.filter (fun c => c.tag? = some "Item")).flatMap
          (fun c => (loadRootItem R app c).1) := by
  unfold loadRbxlxContent
  rw [parserError_none _ hno]
  simp only [rootItems_children attrs children hrob]
  split
  · rename_i hlen
    rw [List.length_eq_zero] at hlen
    rw [hlen]
    rfl
  · simp only [List.flatMap, List.map_map]
    rfl

/-- What holds of the Item of every static service holds of every piece of
the markup `getStaticServicesXml` returns. -/
theorem foldl_items (step : String → Nat → Markup × Nat) (P : Markup → Prop)
    (hstep : ∀ (name : String) (k : Nat), P (step name k).1) (names : List String) :
    ∀ acc : List Markup × Nat, (∀ m ∈ acc.1, P m) →
      ∀ m ∈ (names.foldl
          (fun (acc : List Markup × Nat) name =>
            let item := step name acc.2
            (acc.1 ++ [item.1], item.2))
          acc).1, P m := by
  induction names with
  | nil =>
    intro acc hacc
    exact hacc
  | cons name names ih =>
    intro acc hacc
    rw [List.foldl_cons]
    apply ih
    intro m hm
    rcases List.mem_append.mp hm with hm | hm
    · exact hacc m hm
    · rw [List.mem_singleton.mp hm]
      exact hstep name acc.2

theorem of_mem_toDocList (ms : List Markup) (c : XmlNode) (h : c ∈ toDocList ms) :
    ∃ m ∈ ms, c = m.toDoc := by
  induction ms with
  | nil => simp [toDocList] at h
  | cons x xs ih =>
    rw [toDocList] at h
    rcases List.mem_cons.mp h with rfl | h
    · exact ⟨x, List.mem_cons_self _ _, rfl⟩
    · obtain ⟨m, hm, hc⟩ := ih h
      exact ⟨m, List.mem_cons_of_mem _ hm, hc⟩

/-- The reader makes no call for the Items of the static services. -/
theorem static_calls {F Q : Type} (R : ReadOps F Q) (app : StudioApp F)
    (rand : RandomSource) (k : Nat) :
    ((toDocList (getStaticServicesXml rand k).1).filter (fun c => c.tag? = some "Item")).flatMap
      (fun c => (loadRootItem R app c).1) = [] := by
  rw [List.flatMap_eq_nil_iff]
  intro c hc
  obtain ⟨m, hm, rfl⟩ := of_mem_toDocList _ c (List.mem_filter.mp hc).1
  exact foldl_items (staticServiceXml rand) (fun m => (loadRootItem R app m.toDoc).1 = [])
    (loadRootItem_static R app rand) _ ([], k) (fun _ h => absurd h (List.not_mem_nil _)) m hm

/-- The calls of `loadRbxlxContent` on the document of the writer: the calls
made for the Items the writer builds for the children of the root, in order. -/
theorem generateRbxlxContent_calls {F G Q : Type} (N : NumOps F) (W : WriteOps F)
    (R : ReadOps G Q) (app : StudioApp F) (app2 : StudioApp G) (rand : RandomSource)
    (fuel : Nat) (doc : Markup)
    (h : generateRbxlxContent N W app rand fuel = some [doc])
    (rootItem : TreeItem) (hroot : app.treeItems "root" = some rootItem)
    (children : List String) (hch : rootItem.children = some children) :
    ∃ itemsXml : List Markup × Nat,
      children.foldlM
        (fun (acc : List Markup × Nat) serviceId =>
          (generateItemXml N W app rand fuel serviceId acc.2).map (fun r => (acc.1 ++ r.1, r.2)))
        ([], 0) = some itemsXml ∧
      (loadRbxlxContent R app2 doc.toDoc).calls
        = ((toDocList itemsXml.1).filter (fun c => c.tag? = some "Item")).flatMap
            (fun c => (loadRootItem R app2 c).1) := by
  have hno := noError_generateRbxlxContent N W app rand fuel doc h
  unfold generateRbxlxContent at h
  rw [hroot] at h
  simp only [] at h
  rw [hch] at h
  simp only [Option.map_eq_some'] at h
  obtain ⟨itemsXml, hfold, hres⟩ := h
  have hdoc := (List.cons.inj (Option.some.inj (congrArg some hres))).1
  refine ⟨itemsXml, hfold, ?_⟩
  rw [← hdoc] at hno ⊢
  rw [Markup.toDoc] at hno ⊢
  rw [loadRbxlxContent_calls R app2 _ _ hno
    (noElement_content "roblox" (Or.inr rfl) N W app rand fuel children itemsXml hfold)]
  rw [toDocList_append, toDocList_append, List.filter_append, List.filter_append,
    List.flatMap_append, List.flatMap_append, static_calls, List.append_nil]
  have hext : (toDocList [Markup.element "External" [] [.text "null"],
      Markup.element "External" [] [.text "nil"]]).filter (fun c => c.tag? = some "Item")
      = [] := by
    simp [toDocList, Markup.toDoc, XmlNode.tag?]
  rw [hext]
  rfl

/-- A loop over a single key makes the step for that key. -/
theorem foldlM_single (step : String → Nat → Option (List Markup × Nat)) (c : String)
    (acc r : List Markup × Nat)
    (h : [c].foldlM (fun (acc : List Markup × Nat) c =>
      (step c acc.2).map (fun r => (acc.1 ++ r.1, r.2))) acc = some r) :
    ∃ rc : List Markup × Nat, step c acc.2 = some rc ∧ r.1 = acc.1 ++ rc.1 := by
  rw [List.foldlM_cons] at h
  cases hs : step c acc.2 with
  | none =>
    rw [hs] at h
    exact Option.noConfusion h
  | some rc =>
    rw [hs] at h
    simp only [Option.map_some', Option.some_bind, Option.bind_eq_bind, List.foldlM_nil] at h
    cases Option.some.inj h
    exact ⟨rc, rfl, rfl⟩

/-- The calls of `loadRbxlxContent` on the document the writer builds when the
root lists one service, the service lists one part with a live object, and the
part lists nothing: the one call made for the Item of the part. -/
theorem one_part_calls {F G Q : Type} (N : NumOps F) (W : WriteOps F)
    (R : ReadOps G Q) (app : StudioApp F) (app2 : StudioApp G) (rand : RandomSource)
    (P : ObjectOptions G Q → Prop) (fuel : Nat) (doc : Markup)
    (h : generateRbxlxContent N W app rand fuel = some [doc])
    (rootItem : TreeItem) (hroot : app.treeItems "root" = some rootItem)
    (service : String) (hch : rootItem.children = some [service])
    (hknown : service ∈ xmlServiceNames)
    (sItem : TreeItem) (hsItem : app.treeItems service = some sItem)
    (hindex : indexHas app2 (some sItem.data) = true)
    (t : String) (hsch : sItem.children = some [t])
    (item : TreeItem) (object : SceneObject F)
    (hitem : app.treeItems t = some item)
    (hclass : xmlClassName t item = "Part" ∨ xmlClassName t item = "SpawnLocation")
    (hobj : app.scene item.data = some object)
    (hleaf : item.children.getD [] = [])
    (hpart : ∀ (referent uniqueId : String) (kids : List Markup) (parentName : Option String),
      ∃ (o : ObjectOptions G Q) (name : Option String),
        processItem R
            (Markup.element "Item" [("class", xmlClassName t item), ("referent", referent)]
              (Markup.element "Properties" []
                  (partProperties N W object ++ [propertyXml "UniqueId" "UniqueId" uniqueId])
                :: kids)).toDoc
            parentName
          = Call.createObject o :: processItems R (toDocList kids) name ∧ P o) :
    ∃ o : ObjectOptions G Q,
      (loadRbxlxContent R app2 doc.toDoc).calls = [Call.createObject o] ∧ P o := by
  obtain ⟨itemsXml, hfold, hcalls⟩ :=
    generateRbxlxContent_calls N W R app app2 rand fuel doc h rootItem hroot [service] hch
  obtain ⟨rs, hrs, hitems⟩ := foldlM_single (generateItemXml N W app rand fuel) service _ _ hfold
  obtain ⟨hcls, hnpart, hnscript⟩ := xmlClassName_service service sItem hknown
  obtain ⟨f, referent, uniqueId, props, kids, _, hkfold, hr, _, hprops⟩ :=
    generateItemXml_item N W app rand fuel service 0 sItem rs hsItem
      (fun hp => absurd (by rw [hcls] at hp; exact hp) hnpart) hrs
  have hprops := hprops (by rw [hcls]; exact hnpart) (by rw [hcls]; exact hnscript)
  rw [hsch] at hkfold
  obtain ⟨rc, hrc, hkids⟩ := foldlM_single (generateItemXml N W app rand f) t _ _ hkfold
  obtain ⟨f2, referent2, uniqueId2, props2, kids2, _, hfold2, hr2, hprops2, _⟩ :=
    generateItemXml_item N W app rand f t _ item rc hitem (fun _ => by rw [hobj]; rfl) hrc
  rw [hleaf, List.foldlM_nil] at hfold2
  have hk2 : kids2.1 = [] := by
    cases Option.some.inj hfold2
    rfl
  obtain ⟨o, name, hcall, ho⟩ := hpart referent2 uniqueId2 [] (some sItem.data)
  refine ⟨o, ?_, ho⟩
  rw [hcalls, hitems, List.nil_append, hr, hprops]
  have hfilter : (toDocList
      [Markup.element "Item" [("class", xmlClassName service sItem), ("referent", referent)]
        (Markup.element "Properties" []
            ([propertyXml "string" "Name" sItem.data]
              ++ [propertyXml "UniqueId" "UniqueId" uniqueId])
          :: kids.1)]).filter (fun c => c.tag? = some "Item")
      = [(Markup.element "Item" [("class", xmlClassName service sItem), ("referent", referent)]
        (Markup.element "Properties" []
            ([propertyXml "string" "Name" sItem.data]
              ++ [propertyXml "UniqueId" "UniqueId" uniqueId])
          :: kids.1)).toDoc] := by
    simp [toDocList, Markup.toDoc, XmlNode.tag?]
  rw [hfilter, List.flatMap_cons, List.flatMap_nil, List.append_nil,
    loadRootItem_container R app2 _ _ _ _ _ hindex, hkids, List.nil_append, hr2,
    hprops2 object hclass hobj, hk2, processItems_single, hcall]
  rfl

theorem halvesBlockApp_acyclic : Acyclic halvesBlockApp :=
  ⟨fun k => if k = "root" then 2 else if k = "Workspace" then 1 else 0, by
    intro k node c hk hc _
    rcases blockApp_children k node c hk hc with ⟨rfl, rfl⟩ | ⟨rfl, rfl⟩ <;> decide⟩

/-! ### The round trip through XML -/

/-- C18 fails on the code as it is worded.  The writer puts the name of a part
into its text as it is.  For the part of `injectedApp`, which lies under
Workspace, is anchored and bears a name that closes the element `string` and
opens others, the text the writer returns (`injectedDoc`, not plain) is the
text of the plain document `injectedParse`.  Reading that document, the reader
makes one create-object call, with the name `Part` and the flag anchored false:
no call reproduces the part. -/
theorem round_trip_counterexample :
    generateRbxlxContent halvesNum halvesWrite injectedApp (fun _ => 0) 3
      = some [injectedDoc] ∧
    injectedApp.scene injectedName = some injectedBlock ∧
    injectedBlock.anchored = some true ∧
    injectedDoc.plainDocument = false ∧
    injectedParse.plainDocument = true ∧
    injectedParse.render = injectedDoc.render ∧
    (loadRbxlxContent exampleRead injectedApp injectedParse.toDoc).calls
      = [.createObject
          { type := some "Part", name := some "Part",
            position := { x := 2, y := 4, z := 6 }, quaternion := [2, 0, 0, 0, 2, 0, 0, 0, 2],
            size := { x := 8, y := 2, z := 4 }, color := { r := 2, g := 0, b := 0 },
            anchored := false, canCollide := true, locked := false, suppressLog := true }] ∧
    ¬ ∃ o : ObjectOptions Int (List Int),
      Call.createObject o ∈ (loadRbxlxContent exampleRead injectedApp injectedParse.toDoc).calls ∧
      Reproduces halvesNum "Part" injectedBlock o := by
  have hcalls : (loadRbxlxContent exampleRead injectedApp injectedParse.toDoc).calls
      = [.createObject
          { type := some "Part", name := some "Part",
            position := { x := 2, y := 4, z := 6 }, quaternion := [2, 0, 0, 0, 2, 0, 0, 0, 2],
            size := { x := 8, y := 2, z := 4 }, color := { r := 2, g := 0, b := 0 },
            anchored := false, canCollide := true, locked := false, suppressLog := true }] := rfl
  refine ⟨rfl, rfl, rfl, by decide!, by decide, by decide!, hcalls, ?_⟩
  rintro ⟨o, ho, hrep⟩
  rw [hcalls, List.mem_singleton] at ho
  cases Call.createObject.inj ho
  exact absurd hrep.2.2.2.2.1 (by decide)

/-- C18, for a document that is plain: the round trip through XML.  On a tree
index without cycle the writer returns a document.  When that document is
plain (no interpolated string holds markup, so that the document is the one
the text spells out) and the index of the reader holds the name written for a
service, the reader makes, for every Part or SpawnLocation with a live object
that is reached from a child of that service through written nodes, a
create-object call that carries the class of the part, its name, its position,
its size as exported, and its flags anchored, canCollide and locked.  When the
root lists that service only, the service that part only and the part nothing,
this call is the only call.  The numbers of position and size are taken to
read back from the text printed for them, and the decomposition of a matrix to
return its translation column; the position is then the exported one exactly,
hence within any tolerance. -/
theorem xml_round_trip {F Q : Type} (N : NumOps F) (W : WriteOps F)
    (R : ReadOps F Q) (app app2 : StudioApp F) (rand : RandomSource)
    (hacyclic : Acyclic app)
    (hdec : ∀ r00 r01 r02 x r10 r11 r12 y r20 r21 r22 z : F,
      (R.decompose [r00, r01, r02, x, r10, r11, r12, y, r20, r21, r22, z,
        R.zero, R.zero, R.zero, R.one]).1 = { x := x, y := y, z := z })
    (rootItem : TreeItem) (hroot : app.treeItems "root" = some rootItem)
    (service : String) (hservice : service ∈ rootItem.children.getD [])
    (hknown : service ∈ xmlServiceNames)
    (sItem : TreeItem) (hsItem : app.treeItems service = some sItem)
    (hindex : indexHas app2 (some sItem.data) = true)
    (child : String) (hchild : child ∈ sItem.children.getD [])
    (t : String) (hw : Written app child t) (item : TreeItem) (object : SceneObject F)
    (hitem : app.treeItems t = some item)
    (hclass : xmlClassName t item = "Part" ∨ xmlClassName t item = "SpawnLocation")
    (hobj : app.scene item.data = some object)
    (hnum : ∀ v ∈ [object.position.x, object.position.y, object.position.z,
        N.mul object.size.x object.scale.x, N.mul object.size.y object.scale.y,
        N.mul object.size.z object.scale.z], ReadsBack W R v) :
    ∃ (doc : Markup) (fuel0 : Nat),
      (∀ fuel : Nat, fuel0 ≤ fuel → generateRbxlxContent N W app rand fuel = some [doc]) ∧
      (doc.plainDocument = true →
        (∃ o : ObjectOptions F Q,
          Call.createObject o ∈ (loadRbxlxContent R app2 doc.toDoc).calls ∧
          Reproduces N (xmlClassName t item) object o) ∧
        (rootItem.children = some [service] → sItem.children = some [t] →
          item.children.getD [] = [] →
          ∃ o : ObjectOptions F Q,
            (loadRbxlxContent R app2 doc.toDoc).calls = [Call.createObject o] ∧
            Reproduces N (xmlClassName t item) object o)) := by
  cases hch : rootItem.children with
  | none =>
    rw [hch] at hservice
    simp at hservice
  | some children =>
    obtain ⟨doc, fuel0, hdoc⟩ :=
      generateRbxlxContent_returns N W app rand hacyclic rootItem children hroot hch
    refine ⟨doc, fuel0, hdoc, fun _ => ⟨?_, ?_⟩⟩
    · exact generateRbxlxContent_imports N W R app app2 rand
        (Reproduces N (xmlClassName t item) object) fuel0 doc (hdoc fuel0 (Nat.le_refl _))
        rootItem hroot service hservice hknown sItem hsItem hindex child hchild t hw item
        object hitem hclass hobj
        (processItem_reproduces N W R object (xmlClassName t item) hclass hdec hnum)
    · intro hone hsch hleaf
      exact one_part_calls N W R app app2 rand (Reproduces N (xmlClassName t item) object)
        fuel0 doc (hdoc fuel0 (Nat.le_refl _)) rootItem hroot service (hch.trans hone)
        hknown sItem hsItem hindex t hsch item object hitem hclass hobj hleaf
        (processItem_reproduces N W R object (xmlClassName t item) hclass hdec hnum)

theorem xml_round_trip_witness :
    (∃ (doc : Markup) (fuel0 : Nat),
      (∀ fuel : Nat, fuel0 ≤ fuel →
        generateRbxlxContent halvesNum halvesWrite halvesBlockApp (fun _ => 0) fuel
          = some [doc]) ∧
      (doc.plainDocument = true →
        (∃ o : ObjectOptions Int (List Int),
          Call.createObject o ∈ (loadRbxlxContent exampleRead halvesBlockApp doc.toDoc).calls ∧
          Reproduces halvesNum "Part" halvesBlock o) ∧
        ∃ o : ObjectOptions Int (List Int),
          (loadRbxlxContent exampleRead halvesBlockApp doc.toDoc).calls
            = [Call.createObject o] ∧
          Reproduces halvesNum "Part" halvesBlock o)) ∧
    (∃ doc : Markup,
      generateRbxlxContent halvesNum halvesWrite halvesBlockApp (fun _ => 0) 3 = some [doc] ∧
      doc.plainDocument = true ∧
      (loadRbxlxContent exampleRead halvesBlockApp doc.toDoc).calls
        = [.createObject
            { type := some "Part", name := some "Block",
              position := { x := 2, y := 4, z := 6 }, quaternion := [2, 0, 0, 0, 2, 0, 0, 0, 2],
              size := { x := 8, y := 2, z := 4 }, color := { r := 1, g := 1, b := 1 },
              anchored := true, canCollide := true, locked := false, suppressLog := true }]) :=
  ⟨(xml_round_trip halvesNum halvesWrite exampleRead halvesBlockApp halvesBlockApp (fun _ => 0)
      halvesBlockApp_acyclic (fun _ _ _ _ _ _ _ _ _ _ _ _ => rfl)
      { index := "root", isFolder := true, kind := none, data := "Game",
        children := some ["Workspace"] } rfl
      "Workspace" (by decide) (by decide)
      { index := "Workspace", isFolder := true, kind := none, data := "Workspace",
        children := some ["Block"] } rfl rfl
      "Block" (by decide) "Block" (Written.here "Block")
      { index := "Block", isFolder := false, kind := some "Part", data := "Block",
        children := none }
      halvesBlock rfl (Or.inl rfl) rfl
      (fun v hv => by
        simp only [List.mem_cons, List.mem_singleton, List.not_mem_nil, or_false] at hv
        rcases hv with rfl | rfl | rfl | rfl | rfl | rfl <;> exact ⟨by decide, by decide⟩)).imp
      (fun _ h => h.imp (fun _ h => ⟨h.1, fun hp => ⟨(h.2 hp).1, (h.2 hp).2 rfl rfl rfl⟩⟩)),
   ⟨_, rfl, by decide, rfl⟩⟩

/-! ### The colour of a re-imported part -/

/-- C29 fails on the code as it is worded.  For the part of `injectedApp`,
whose name closes the element `string` and opens an element `Color3` named
`Color` with the channels 1, 0, 0, the text the writer returns is the text of
the plain document `injectedParse`.  Reading that document, the reader passes
the colour (1, 0, 0) to create-object (2 halves, 0, 0 in the stand-in numbers),
not the colour (0.5, 0.5, 0.5). -/
theorem color_kept_counterexample :
    generateRbxlxContent halvesNum halvesWrite injectedApp (fun _ => 0) 3
      = some [injectedDoc] ∧
    injectedParse.plainDocument = true ∧
    injectedParse.render = injectedDoc.render ∧
    ¬ NoColorElement (injectedParse.toDoc :: injectedParse.toDoc.descendants) ∧
    ∃ o : ObjectOptions Int (List Int),
      Call.createObject o ∈ (loadRbxlxContent exampleRead injectedApp injectedParse.toDoc).calls ∧
      o.type = some "Part" ∧
      o.color = { r := 2, g := 0, b := 0 } ∧
      o.color ≠ { r := exampleRead.half, g := exampleRead.half, b := exampleRead.half } := by
  refine ⟨rfl, by decide, by decide!, ?_, ?_⟩
  · intro h
    exact h (XmlNode.element "Color3" [("name", "Color")]
        [.element "R" [] [.text "1"], .element "G" [] [.text "0"], .element "B" [] [.text "0"]])
      (by
        simp [injectedParse, Markup.toDoc, toDocList, XmlNode.descendants, descendantsList,
          propertyXml])
      ⟨rfl, rfl⟩
  · have hcalls : (loadRbxlxContent exampleRead injectedApp injectedParse.toDoc).calls
        = [.createObject
            { type := some "Part", name := some "Part",
              position := { x := 2, y := 4, z := 6 },
              quaternion := [2, 0, 0, 0, 2, 0, 0, 0, 2],
              size := { x := 8, y := 2, z := 4 }, color := { r := 2, g := 0, b := 0 },
              anchored := false, canCollide := true, locked := false,
              suppressLog := true }] := rfl
    rw [hcalls]
    exact ⟨_, List.mem_singleton.mpr rfl, rfl, rfl,
      fun h => absurd (congrArg Color.r h) (by decide)⟩

/-- C29, for a document that is plain: the colour of an exported part is lost
on re-import.  On a tree index without cycle whose root lists children the
writer returns a document.  Among the properties the writer builds for a Part
or SpawnLocation the colour appears in one element only, the `Color3uint8`
element named `Color3uint8`.  When the document is plain (no interpolated
string holds markup, so that the document is the one the text spells out), it
holds no `Color3` element named `Color`, every call of create-object the
reader makes for it passes the colour (0.5, 0.5, 0.5), and the reader makes
such a call, with the class of the part, for every Part or SpawnLocation with
a live object that is reached through written nodes from a child of a service
whose name the index of the reader holds, whatever the colour of the part. -/
theorem color_lost_on_reimport {F G Q : Type} (N : NumOps F) (W : WriteOps F)
    (app : StudioApp F) (rand : RandomSource) (hacyclic : Acyclic app)
    (rootItem : TreeItem) (children : List String)
    (hroot : app.treeItems "root" = some rootItem) (hch : rootItem.children = some children)
    (R : ReadOps G Q) (app2 : StudioApp G) :
    (∃ (doc : Markup) (fuel0 : Nat),
      (∀ fuel : Nat, fuel0 ≤ fuel → generateRbxlxContent N W app rand fuel = some [doc]) ∧
      (doc.plainDocument = true →
        NoColorElement (doc.toDoc :: doc.toDoc.descendants) ∧
        (∀ call ∈ (loadRbxlxContent R app2 doc.toDoc).calls, ∀ o : ObjectOptions G Q,
          call = Call.createObject o →
          o.color = { r := R.half, g := R.half, b := R.half }) ∧
        (∀ (service child t : String) (sItem item : TreeItem) (object : SceneObject F),
          service ∈ children → service ∈ xmlServiceNames →
          app.treeItems service = some sItem → indexHas app2 (some sItem.data) = true →
          child ∈ sItem.children.getD [] → Written app child t →
          app.treeItems t = some item →
          xmlClassName t item = "Part" ∨ xmlClassName t item = "SpawnLocation" →
          app.scene item.data = some object →
          ∃ o : ObjectOptions G Q,
            Call.createObject o ∈ (loadRbxlxContent R app2 doc.toDoc).calls ∧
            o.type = some (xmlClassName t item) ∧
            o.color = { r := R.half, g := R.half, b := R.half }))) ∧
    (∀ object : SceneObject F,
      (partProperties N W object).filter
          (fun m => m.tag? = some "Color3" ∨ m.tag? = some "Color3uint8")
        = [propertyXml "Color3uint8" "Color3uint8"
            (toString (color3uint8 (W.round255 object.color.r) (W.round255 object.color.g)
              (W.round255 object.color.b)))]) := by
  obtain ⟨doc, fuel0, hdoc⟩ :=
    generateRbxlxContent_returns N W app rand hacyclic rootItem children hroot hch
  have hno := noColor_generateRbxlxContent N W app rand fuel0 doc (hdoc fuel0 (Nat.le_refl _))
  refine ⟨⟨doc, fuel0, hdoc, fun _ => ⟨hno, ?_, ?_⟩⟩, ?_⟩
  · exact loadRbxlxContent_gray R app2 doc.toDoc
      (fun d hd => hno d (List.mem_cons_of_mem _ hd))
  · intro service child t sItem item object hservice hknown hsItem hindex hchild hw hitem
      hclass hobj
    exact generateRbxlxContent_imports N W R app app2 rand
      (fun o => o.type = some (xmlClassName t item) ∧
        o.color = { r := R.half, g := R.half, b := R.half })
      fuel0 doc (hdoc fuel0 (Nat.le_refl _)) rootItem hroot service
      (by rw [hch]; exact hservice) hknown sItem hsItem hindex child hchild t hw item object
      hitem hclass hobj
      (fun referent uniqueId kids parentName =>
        processItem_exported_part N W R object (xmlClassName t item) referent uniqueId kids
          parentName hclass)
  · intro object
    rfl

theorem color_lost_on_reimport_witness :
    (∃ (doc : Markup) (fuel0 : Nat),
      (∀ fuel : Nat, fuel0 ≤ fuel →
        generateRbxlxContent exampleNum exampleWrite blockApp (fun _ => 0) fuel = some [doc]) ∧
      (doc.plainDocument = true →
        NoColorElement (doc.toDoc :: doc.toDoc.descendants) ∧
        (∀ call ∈ (loadRbxlxContent exampleRead blockApp doc.toDoc).calls,
          ∀ o : ObjectOptions Int (List Int),
            call = Call.createObject o → o.color = { r := 1, g := 1, b := 1 }) ∧
        ∃ o : ObjectOptions Int (List Int),
          Call.createObject o ∈ (loadRbxlxContent exampleRead blockApp doc.toDoc).calls ∧
          o.type = some "Part" ∧ o.color = { r := 1, g := 1, b := 1 })) ∧
    generateRbxlxContent exampleNum exampleWrite blockApp (fun _ => 0) 3 = some [blockDoc] ∧
    blockDoc.plainDocument = true ∧
    (loadRbxlxContent exampleRead blockApp blockDoc.toDoc).calls
      = [.createObject
          { type := some "Part", name := some "Block", position := { x := 2, y := 4, z := 6 },
            quaternion := [2, 0, 0, 0, 2, 0, 0, 0, 2], size := { x := 8, y := 2, z := 4 },
            color := { r := 1, g := 1, b := 1 }, anchored := true, canCollide := true,
            locked := false, suppressLog := true }] :=
  ⟨(color_lost_on_reimport exampleNum exampleWrite blockApp (fun _ => 0) blockApp_acyclic
      { index := "root", isFolder := true, kind := none, data := "Game",
        children := some ["Workspace"] }
      ["Workspace"] rfl rfl exampleRead blockApp).1.imp
      (fun _ h => h.imp (fun _ h => ⟨h.1, fun hp =>
        ⟨(h.2 hp).1, (h.2 hp).2.1,
          (h.2 hp).2.2 "Workspace" "Block" "Block"
            { index := "Workspace", isFolder := true, kind := none, data := "Workspace",
              children := some ["Block"] }
            { index := "Block", isFolder := false, kind := some "Part", data := "Block",
              children := none }
            _ (by decide) (by decide) rfl rfl (by decide) (Written.here "Block") rfl
            (Or.inl rfl) rfl⟩⟩)),
   rfl, by decide, rfl⟩

end RbxlExporter
